import Mathlib

/-!
AssetSnapshot: archive codec, combined hashing and dependency closure.

A shallow embedding of `Source/Private/AssetSnapshotBPLibrary.cpp`.

* Bytes are natural numbers (below 256 in every well-formed buffer).
* An `FString` is the list of its characters; the terminating NUL of the
  engine string is not part of the list.
* Files on disk and archives are byte lists; an `FArchive` writer is the list
  of bytes written so far (so `Tell` is its length), an `FArchive` reader is
  the list of bytes still to be read together with its error flag.
* Machine integers are naturals, reduced modulo `2 ^ 16` or `2 ^ 32` at each
  cast of the source.
-/

namespace AssetSnapshot

/-! ## Engine strings -/

/-- The engine string type: the characters of the string, in order. -/
abbrev FString := List Char

/-- The path separator `/`. -/
def slash : Char := Char.ofNat 47

/-- The Windows separator (backslash). -/
def backslash : Char := Char.ofNat 92

/-- The colon of a drive letter. -/
def colon : Char := Char.ofNat 58

/-- The dot of `.` and `..` segments. -/
def dot : Char := Char.ofNat 46

/-- Modelled from the spec: `FString::ReplaceInline` with one-character
arguments (engine code): every occurrence of `a` becomes `b`. -/
def ReplaceInline (a b : Char) (P : FString) : FString :=
  P.map (fun c => if c = a then b else c)

/-- Modelled from the spec: `FString::ToLower` (engine code), ASCII letters. -/
def ToLower (P : FString) : FString := P.map Char.toLower

/-- Modelled from the spec: `FString::StartsWith` (engine code); the engine
default is `ESearchCase::IgnoreCase`. -/
def StartsWith (P Prefix : FString) : Bool :=
  (ToLower Prefix).isPrefixOf (ToLower P)

/-- Modelled from the spec: `FString::EndsWith` (engine code); the engine
default is `ESearchCase::IgnoreCase`. -/
def EndsWith (P Suffix : FString) : Bool :=
  (ToLower Suffix).reverse.isPrefixOf (ToLower P).reverse

/-- Modelled from the spec: `FString::Equals(_, ESearchCase::IgnoreCase)`
(engine code). -/
def EqualsIgnoreCase (A B : FString) : Bool :=
  decide (ToLower A = ToLower B)

/-- Modelled from the spec: `FString::operator<` (engine code), which is
`FCString::Stricmp(...) < 0`: the strings are compared character by character
with the ASCII letters taken in lower case. -/
def FStringLess (A B : FString) : Bool :=
  decide (ToLower A < ToLower B)

/-- Splits at every occurrence of the delimiter, keeping empty pieces. -/
def splitAt (d : Char) : FString → List FString
  | [] => [[]]
  | c :: cs =>
    if c = d then [] :: splitAt d cs
    else
      match splitAt d cs with
      | [] => [[c]]
      | h :: t => (c :: h) :: t

/-- Modelled from the spec: `FString::ParseIntoArray(Parts, Delim, true)`
(engine code) with a one-character delimiter: the pieces between delimiters,
empty pieces culled. -/
def ParseIntoArray (P : FString) (d : Char) : List FString :=
  (splitAt d P).filter (fun s => !s.isEmpty)

/-- Modelled from the spec: `FString::Join` (engine code) with a
one-character separator. -/
def Join (Parts : List FString) (d : Char) : FString :=
  [d].intercalate Parts

/-! ## UTF-8 conversion -/

/-- The UTF-8 bytes of one Unicode scalar value. -/
def utf8EncodeChar (c : Char) : List Nat :=
  let n := c.toNat
  if n < 128 then [n]
  else if n < 2048 then [192 + n / 64, 128 + n % 64]
  else if n < 65536 then [224 + n / 4096, 128 + n / 64 % 64, 128 + n % 64]
  else [240 + n / 262144, 128 + n / 4096 % 64, 128 + n / 64 % 64, 128 + n % 64]

/-- Modelled from the spec: `FTCHARToUTF8` (engine code), the UTF-8 encoding
of a string. -/
def FTCHARToUTF8 (s : FString) : List Nat :=
  s.flatMap utf8EncodeChar

/-- Modelled from the spec: `FUTF8ToTCHAR` (engine code), the decoding of
UTF-8 bytes; an incomplete trailing sequence decodes to nothing. -/
def FUTF8ToTCHAR : List Nat → FString
  | [] => []
  | b0 :: rest =>
    if b0 < 128 then Char.ofNat b0 :: FUTF8ToTCHAR rest
    else if b0 < 224 then
      match rest with
      | b1 :: r => Char.ofNat ((b0 - 192) * 64 + (b1 - 128)) :: FUTF8ToTCHAR r
      | _ => []
    else if b0 < 240 then
      match rest with
      | b1 :: b2 :: r =>
        Char.ofNat ((b0 - 224) * 4096 + (b1 - 128) * 64 + (b2 - 128)) :: FUTF8ToTCHAR r
      | _ => []
    else
      match rest with
      | b1 :: b2 :: b3 :: r =>
        Char.ofNat ((b0 - 240) * 262144 + (b1 - 128) * 4096 + (b2 - 128) * 64 + (b3 - 128))
          :: FUTF8ToTCHAR r
      | _ => []

/-! ## Little-endian integers -/

/-- Source `WriteLE16`: the two bytes of a `uint16`, low byte first. -/
def WriteLE16 (V : Nat) : List Nat := [V % 256, V / 256 % 256]

/-- Source `WriteLE32`: the four bytes of a `uint32`, low byte first. -/
def WriteLE32 (V : Nat) : List Nat :=
  [V % 256, V / 256 % 256, V / 65536 % 256, V / 16777216 % 256]

/-- Value of two bytes read as a little-endian `uint16`. -/
def le16 (b0 b1 : Nat) : Nat := b0 + 256 * b1

/-- Value of four bytes read as a little-endian `uint32`. -/
def le32 (b0 b1 b2 b3 : Nat) : Nat := b0 + 256 * b1 + 65536 * b2 + 16777216 * b3

/-! ## Archive writer -/

/-- Source `FZipEntry`. -/
structure FZipEntry where
  NameInZip : FString
  Data : List Nat
  deriving DecidableEq, Repr

/-- Source `FCentralDirEntry`. -/
structure FCentralDirEntry where
  Name : FString
  Crc32 : Nat
  CompSize : Nat
  UncompSize : Nat
  LocalHeaderOffset : Nat
  deriving DecidableEq, Repr

/-- One iteration of the first loop of `WriteZipStore` (lines 418-446): the
central-directory entry is filled, then the local header, the name and the
payload are appended to the archive. `MemCrc32` is the engine checksum
`FCrc::MemCrc32`. -/
def writeLocal (MemCrc32 : List Nat → Nat) (st : List Nat × List FCentralDirEntry)
    (E : FZipEntry) : List Nat × List FCentralDirEntry :=
  let Ar := st.1
  let NameUtf8 := FTCHARToUTF8 E.NameInZip
  let NameLen := NameUtf8.length % 65536
  let UncompSize := E.Data.length % 4294967296
  let C : FCentralDirEntry :=
    { Name := E.NameInZip
      UncompSize := UncompSize
      CompSize := UncompSize
      Crc32 := MemCrc32 E.Data % 4294967296
      LocalHeaderOffset := Ar.length % 4294967296 }
  (Ar ++ WriteLE32 0x04034b50 ++ WriteLE16 20 ++ WriteLE16 0 ++ WriteLE16 0
      ++ WriteLE16 0 ++ WriteLE16 0 ++ WriteLE32 C.Crc32 ++ WriteLE32 C.CompSize
      ++ WriteLE32 C.UncompSize ++ WriteLE16 NameLen ++ WriteLE16 0
      ++ NameUtf8.take NameLen ++ E.Data,
    st.2 ++ [C])

/-- One iteration of the second loop of `WriteZipStore` (lines 451-474). -/
def writeCentral (Ar : List Nat) (C : FCentralDirEntry) : List Nat :=
  let NameUtf8 := FTCHARToUTF8 C.Name
  let NameLen := NameUtf8.length % 65536
  Ar ++ WriteLE32 0x02014b50 ++ WriteLE16 20 ++ WriteLE16 20 ++ WriteLE16 0
    ++ WriteLE16 0 ++ WriteLE16 0 ++ WriteLE16 0 ++ WriteLE32 C.Crc32
    ++ WriteLE32 C.CompSize ++ WriteLE32 C.UncompSize ++ WriteLE16 NameLen
    ++ WriteLE16 0 ++ WriteLE16 0 ++ WriteLE16 0 ++ WriteLE16 0 ++ WriteLE32 0
    ++ WriteLE32 C.LocalHeaderOffset ++ NameUtf8.take NameLen

/-- Source `WriteZipStore`: the bytes of the archive file written for the
entries (the case in which the file can be created). -/
def WriteZipStore (MemCrc32 : List Nat → Nat) (Entries : List FZipEntry) : List Nat :=
  let st := Entries.foldl (writeLocal MemCrc32) ([], [])
  let Ar := st.1
  let Central := st.2
  let CentralDirOffset := Ar.length % 4294967296
  let Ar2 := Central.foldl writeCentral Ar
  let CentralDirSize := (Ar2.length % 4294967296 + 4294967296 - CentralDirOffset) % 4294967296
  Ar2 ++ WriteLE32 0x06054b50 ++ WriteLE16 0 ++ WriteLE16 0
    ++ WriteLE16 (Central.length % 65536) ++ WriteLE16 (Central.length % 65536)
    ++ WriteLE32 CentralDirSize ++ WriteLE32 CentralDirOffset ++ WriteLE16 0

/-! ## Archive reader -/

/-- An `FArchive` file reader: the bytes from the read position to the end of
the file and the archive error flag. -/
structure Reader where
  rest : List Nat
  err : Bool
  deriving DecidableEq, Repr

/-- Modelled from the spec: `FArchive::Serialize` of a file reader (engine
code). A read that does not fit in the file sets the error flag, leaves the
position where it is and leaves the buffer as it was, `uninit n` being the
content of a fresh buffer of `n` bytes. -/
def Serialize (uninit : Nat → List Nat) (Ar : Reader) (n : Nat) : List Nat × Reader :=
  if n ≤ Ar.rest.length then (Ar.rest.take n, { rest := Ar.rest.drop n, err := Ar.err })
  else (uninit n, { rest := Ar.rest, err := true })

/-- Source `ReadLE16`: `none` when the call returns false. -/
def ReadLE16 (Ar : Reader) : Option (Nat × Reader) :=
  match Ar.rest with
  | b0 :: b1 :: r => if Ar.err then none else some (le16 b0 b1, { rest := r, err := false })
  | _ => none

/-- Source `ReadLE32`: `none` when the call returns false. -/
def ReadLE32 (Ar : Reader) : Option (Nat × Reader) :=
  match Ar.rest with
  | b0 :: b1 :: b2 :: b3 :: r =>
    if Ar.err then none else some (le32 b0 b1 b2 b3, { rest := r, err := false })
  | _ => none

/-- The failures of `ExtractZipStore`, one for each `OutError` message. -/
inductive ZipError
  | readSignature
  | unexpectedSignature (Sig : Nat)
  | readLocalHeader
  | unsupportedMethod (Method : Nat)
  | unsafePath (Name : FString)
  | writeFile (DestPath : FString)
  deriving DecidableEq, Repr

/-- The fields of a local file header after the signature. -/
structure LocalHeader where
  Version : Nat
  Flags : Nat
  Method : Nat
  ModTime : Nat
  ModDate : Nat
  Crc32 : Nat
  CompSize : Nat
  UncompSize : Nat
  NameLen : Nat
  ExtraLen : Nat
  deriving DecidableEq, Repr

/-- Lines 922-946 of `ExtractZipStore`: the ten header fields, read one after
the other; `none` when one of the reads fails. -/
def readLocalHeader (Ar : Reader) : Option (LocalHeader × Reader) := do
  let (Version, Ar) ← ReadLE16 Ar
  let (Flags, Ar) ← ReadLE16 Ar
  let (Method, Ar) ← ReadLE16 Ar
  let (ModTime, Ar) ← ReadLE16 Ar
  let (ModDate, Ar) ← ReadLE16 Ar
  let (Crc32, Ar) ← ReadLE32 Ar
  let (CompSize, Ar) ← ReadLE32 Ar
  let (UncompSize, Ar) ← ReadLE32 Ar
  let (NameLen, Ar) ← ReadLE16 Ar
  let (ExtraLen, Ar) ← ReadLE16 Ar
  pure ({ Version := Version, Flags := Flags, Method := Method, ModTime := ModTime,
          ModDate := ModDate, Crc32 := Crc32, CompSize := CompSize,
          UncompSize := UncompSize, NameLen := NameLen, ExtraLen := ExtraLen }, Ar)

/-- What lines 903-975 of `ExtractZipStore` do with the bytes at the read
position. -/
inductive ReadEntry
  | fail (e : ZipError)
  | centralDirectory
  | entry (Name : FString) (Data : List Nat) (Ar : Reader)
  deriving DecidableEq, Repr

/-- Lines 903-975 of `ExtractZipStore`: signature, header, name, extra field,
method check and payload of one local record. -/
def readEntry (uninit : Nat → List Nat) (Ar : Reader) : ReadEntry :=
  match ReadLE32 Ar with
  | none => .fail .readSignature
  | some (Sig, Ar) =>
    if Sig = 0x02014b50 ∨ Sig = 0x06054b50 then .centralDirectory
    else if Sig ≠ 0x04034b50 then .fail (.unexpectedSignature Sig)
    else
      match readLocalHeader Ar with
      | none => .fail .readLocalHeader
      | some (H, Ar) =>
        let (NameBytes, Ar) := Serialize uninit Ar H.NameLen
        let Name : FString := if H.NameLen > 0 then FUTF8ToTCHAR NameBytes else []
        let Ar : Reader :=
          if H.ExtraLen > 0 then { rest := Ar.rest.drop H.ExtraLen, err := Ar.err } else Ar
        if H.Method ≠ 0 then .fail (.unsupportedMethod H.Method)
        else
          let (Data, Ar) :=
            if H.CompSize > 0 then Serialize uninit Ar H.CompSize else ([], Ar)
          .entry Name Data Ar

/-! ## Path checks of the import -/

/-- The loop of `NormalizeRelPath` (lines 822-825): leading slashes are
chopped off. -/
def chopLeadingSlashes : FString → FString
  | [] => []
  | c :: cs => if c = slash then chopLeadingSlashes cs else c :: cs

/-- Source `NormalizeRelPath`. -/
def NormalizeRelPath (Path : FString) : FString :=
  chopLeadingSlashes (ReplaceInline backslash slash Path)

/-- The folder name `Content`. -/
def ContentName : FString := "Content".toList

/-- Source `NormalizeImportRelPath`. -/
def NormalizeImportRelPath (RelPath : FString) : FString :=
  let P := NormalizeRelPath RelPath
  if P.isEmpty then P
  else
    let Parts := ParseIntoArray P slash
    if Parts.length ≥ 2 ∧ EqualsIgnoreCase (Parts.getD 1 []) ContentName then
      Join (Parts.eraseIdx 1) slash
    else if Parts.length ≥ 1 ∧ EqualsIgnoreCase (Parts.getD 0 []) ContentName then
      Join (Parts.eraseIdx 0) slash
    else P

/-- Source `IsSafeZipRelPath`. -/
def IsSafeZipRelPath (RelPath : FString) : Bool :=
  let P := NormalizeRelPath RelPath
  if P.isEmpty then false
  else if P.contains colon then false
  else (ParseIntoArray P slash).all (fun Part => !(decide (Part = [dot, dot]) || decide (Part = [dot])))

/-- Modelled from the spec: `FPaths::GetExtension(Path, false)` (engine code):
the text after the last dot of the file name, the file name being what
follows the last separator. -/
def GetExtension (Path : FString) : FString :=
  let Filename := (Path.reverse.takeWhile (fun c => c != slash && c != backslash)).reverse
  if Filename.contains dot then (Filename.reverse.takeWhile (fun c => c != dot)).reverse
  else []

/-- Source `IsImportableAssetFile`. -/
def IsImportableAssetFile (RelPath : FString) : Bool :=
  let Ext := ToLower (dot :: GetExtension RelPath)
  decide (Ext = ".uasset".toList) || decide (Ext = ".uexp".toList)
    || decide (Ext = ".ubulk".toList) || decide (Ext = ".uptnl".toList)
    || decide (Ext = ".umap".toList)

/-! ## Extraction -/

/-- Source `EAssetSnapshotImportMode`. -/
inductive EAssetSnapshotImportMode
  | OverrideExisting
  | SkipExisting
  deriving DecidableEq, Repr

/-- The files on disk: the writes made so far, the latest first, on top of
the files that were there before. -/
abbrev Disk := List (FString × List Nat)

/-- Modelled from the spec: `IFileManager::FileExists` (engine code). -/
def FileExists (D : Disk) (Path : FString) : Bool := (D.lookup Path).isSome

/-- The host of an extraction: the buffer content of a failed read, the full
destination path `ConvertRelativePathToFull(DestRoot / RelPath)` of a relative
path, and whether `SaveArrayToFile` succeeds for a destination. -/
structure Host where
  uninit : Nat → List Nat
  DestPath : FString → FString
  SaveOk : FString → Bool

/-- The state of the loop of `ExtractZipStore`. -/
structure ExtractState where
  Ar : Reader
  Files : Disk
  ImportedFiles : Nat
  SkippedFiles : Nat
  ImportedUAssetFiles : List FString
  deriving DecidableEq, Repr

/-- The result of `ExtractZipStore`: the return value with `OutError`, the
files on disk, the two counters and the files handed to the registry scan. -/
structure ExtractResult where
  OutError : Option ZipError
  Files : Disk
  ImportedFiles : Nat
  SkippedFiles : Nat
  Scanned : List FString
  deriving DecidableEq, Repr

/-- A return from inside the loop with an error. -/
def failWith (e : ZipError) (s : ExtractState) : ExtractResult :=
  { OutError := some e, Files := s.Files, ImportedFiles := s.ImportedFiles,
    SkippedFiles := s.SkippedFiles, Scanned := [] }

/-- Lines 1017-1024 of `ExtractZipStore`: the scan of the imported asset files
and the successful return. -/
def finish (s : ExtractState) : ExtractResult :=
  { OutError := none, Files := s.Files, ImportedFiles := s.ImportedFiles,
    SkippedFiles := s.SkippedFiles, Scanned := s.ImportedUAssetFiles }

/-- The loop of `ExtractZipStore` (lines 901-1015); `none` when the fuel runs
out. -/
def extractLoop (h : Host) (Mode : EAssetSnapshotImportMode) :
    Nat → ExtractState → Option ExtractResult
  | 0, _ => none
  | fuel + 1, s =>
    if s.Ar.rest.isEmpty then some (finish s)
    else
      match readEntry h.uninit s.Ar with
      | .fail e => some (failWith e s)
      | .centralDirectory => some (finish s)
      | .entry Name Data Ar2 =>
        let s := { s with Ar := Ar2 }
        if Name.isEmpty || EndsWith Name [slash] then extractLoop h Mode fuel s
        else if !IsSafeZipRelPath Name then some (failWith (.unsafePath Name) s)
        else
          let RelPath := NormalizeImportRelPath Name
          let DestPath := h.DestPath RelPath
          if !IsImportableAssetFile RelPath then
            extractLoop h Mode fuel { s with SkippedFiles := s.SkippedFiles + 1 }
          else if Mode = .SkipExisting ∧ FileExists s.Files DestPath then
            extractLoop h Mode fuel { s with SkippedFiles := s.SkippedFiles + 1 }
          else if !h.SaveOk DestPath then some (failWith (.writeFile DestPath) s)
          else
            let s := { s with Files := (DestPath, Data) :: s.Files }
            let s :=
              if EndsWith DestPath ".uasset".toList || EndsWith DestPath ".umap".toList then
                { s with ImportedUAssetFiles := s.ImportedUAssetFiles ++ [DestPath] }
              else s
            extractLoop h Mode fuel { s with ImportedFiles := s.ImportedFiles + 1 }

/-- Source `ExtractZipStore` on the bytes of the archive file (the case in
which the file can be opened) and the files on disk. Every iteration that
goes on consumes at least the four signature bytes, so the length of the
file bounds the number of iterations. -/
def ExtractZipStore (h : Host) (Mode : EAssetSnapshotImportMode) (Zip : List Nat)
    (Files : Disk) : Option ExtractResult :=
  extractLoop h Mode (Zip.length + 1)
    { Ar := { rest := Zip, err := false }, Files := Files, ImportedFiles := 0,
      SkippedFiles := 0, ImportedUAssetFiles := [] }

/-- What a run of the loop of `ExtractZipStore` has decoded when it returns:
the (name, payload) pairs of the local records it has read (lines 903-975),
in the order of the file, whether it ended at a signature of the central
directory (line 915), and the result of the call. -/
structure Decoded where
  Entries : List (FString × List Nat)
  bCentralDirectory : Bool
  Result : ExtractResult
  deriving DecidableEq, Repr

/-- The loop of `ExtractZipStore` (lines 901-1015) as `extractLoop` runs it,
with every branch and every return, and with the record of the (name,
payload) pairs decoded so far; `none` when the fuel runs out. -/
def decodeLoop (h : Host) (Mode : EAssetSnapshotImportMode) :
    Nat → ExtractState → List (FString × List Nat) → Option Decoded
  | 0, _, _ => none
  | fuel + 1, s, acc =>
    if s.Ar.rest.isEmpty then
      some { Entries := acc, bCentralDirectory := false, Result := finish s }
    else
      match readEntry h.uninit s.Ar with
      | .fail e => some { Entries := acc, bCentralDirectory := false, Result := failWith e s }
      | .centralDirectory =>
        some { Entries := acc, bCentralDirectory := true, Result := finish s }
      | .entry Name Data Ar2 =>
        let s := { s with Ar := Ar2 }
        let acc := acc ++ [(Name, Data)]
        if Name.isEmpty || EndsWith Name [slash] then decodeLoop h Mode fuel s acc
        else if !IsSafeZipRelPath Name then
          some { Entries := acc, bCentralDirectory := false,
                 Result := failWith (.unsafePath Name) s }
        else
          let RelPath := NormalizeImportRelPath Name
          let DestPath := h.DestPath RelPath
          if !IsImportableAssetFile RelPath then
            decodeLoop h Mode fuel { s with SkippedFiles := s.SkippedFiles + 1 } acc
          else if Mode = .SkipExisting ∧ FileExists s.Files DestPath then
            decodeLoop h Mode fuel { s with SkippedFiles := s.SkippedFiles + 1 } acc
          else if !h.SaveOk DestPath then
            some { Entries := acc, bCentralDirectory := false,
                   Result := failWith (.writeFile DestPath) s }
          else
            let s := { s with Files := (DestPath, Data) :: s.Files }
            let s :=
              if EndsWith DestPath ".uasset".toList || EndsWith DestPath ".umap".toList then
                { s with ImportedUAssetFiles := s.ImportedUAssetFiles ++ [DestPath] }
              else s
            decodeLoop h Mode fuel { s with ImportedFiles := s.ImportedFiles + 1 } acc

/-- Source `ExtractZipStore` on the bytes of the archive file and the files on
disk, with the record of what its loop decodes. Every iteration that goes on
consumes at least the four signature bytes, so the length of the file bounds
the number of iterations. -/
def decodeZipStore (h : Host) (Mode : EAssetSnapshotImportMode) (Zip : List Nat)
    (Files : Disk) : Option Decoded :=
  decodeLoop h Mode (Zip.length + 1)
    { Ar := { rest := Zip, err := false }, Files := Files, ImportedFiles := 0,
      SkippedFiles := 0, ImportedUAssetFiles := [] } []

/-- Modelled from the spec: the collapse of `.` and `..` segments that
`FPaths::ConvertRelativePathToFull` (engine code) applies to a path below the
destination root: `depth` counts the folders entered below the root, and the
walk fails when a `..` segment climbs above the root. -/
def staysBelowRoot : List FString → Nat → Bool
  | [], _ => true
  | seg :: segs, depth =>
    if seg = [dot, dot] then
      match depth with
      | 0 => false
      | d + 1 => staysBelowRoot segs d
    else if seg = [dot] ∨ seg = [] then staysBelowRoot segs depth
    else staysBelowRoot segs (depth + 1)

/-! ## Combined hash of a manifest -/

/-- The table `Hex` of `ToLowerHex`. -/
def Hex : List Char := "0123456789abcdef".toList

/-- Source `ToLowerHex`: two characters for each of the first `NumBytes`
bytes, the high nibble first. -/
def ToLowerHex (Bytes : List Nat) (NumBytes : Nat) : FString :=
  (Bytes.take NumBytes).flatMap
    (fun B => [Hex.getD (B % 256 / 16 % 16) (Char.ofNat 48), Hex.getD (B % 16) (Char.ofNat 48)])

/-- The read loop of `Blake3HashFiles` (lines 751-757). The hasher is the list
of the bytes it has been fed; `rest` is the part of the file from the read
position on, `BufferNum` the size of the buffer. -/
def hashReadLoop (BufferNum : Nat) : Nat → List Nat → List Nat → List Nat
  | 0, _, Hasher => Hasher
  | fuel + 1, rest, Hasher =>
    if rest.isEmpty then Hasher
    else
      let ToRead := min rest.length BufferNum
      hashReadLoop BufferNum fuel (rest.drop ToRead) (Hasher ++ rest.take ToRead)

/-- The loop over the files of `Blake3HashFiles` (lines 734-758). `fs` gives
the bytes of the file at an absolute path, `none` when the file cannot be
opened. A file of `n` bytes is read in at most `n` rounds, the buffer being
one MiB. -/
def hashFilesLoop (fs : FString → Option (List Nat)) :
    List (FString × FString) → List Nat → List Nat
  | [], Hasher => Hasher
  | (Abs, Rel) :: files, Hasher =>
    let Hasher := Hasher ++ FTCHARToUTF8 Rel
    let Hasher := Hasher ++ [0]
    match fs Abs with
    | none => hashFilesLoop fs files Hasher
    | some content =>
      hashFilesLoop fs files (hashReadLoop 1048576 content.length content Hasher)

/-- The bytes that `Blake3HashFiles` feeds to the hasher between
`blake3_hasher_init` and `blake3_hasher_finalize`. -/
def hashedStream (fs : FString → Option (List Nat))
    (FilesAbsSorted FilesRelSorted : List FString) : List Nat :=
  hashFilesLoop fs (FilesAbsSorted.zip FilesRelSorted) []

/-- Source `Blake3HashFiles`: `none` when it returns false, otherwise `OutHex`.
`blake3` is the hash primitive: the digest of the bytes fed to the hasher. -/
def Blake3HashFiles (blake3 : List Nat → List Nat) (fs : FString → Option (List Nat))
    (FilesAbsSorted FilesRelSorted : List FString) : Option FString :=
  if FilesAbsSorted.length ≠ FilesRelSorted.length then none
  else some (ToLowerHex (blake3 (hashedStream fs FilesAbsSorted FilesRelSorted)) 32)

/-- The content of a manifest, in manifest order: each relative path with the
bytes of its file, `none` for a file that cannot be opened. -/
def manifestFiles (fs : FString → Option (List Nat))
    (FilesAbsSorted FilesRelSorted : List FString) : List (FString × Option (List Nat)) :=
  (FilesAbsSorted.zip FilesRelSorted).map (fun f => (f.2, fs f.1))

/-- The contribution of one file to the combined hash as the spec words it:
the UTF-8 bytes of the relative path, one zero byte, the bytes of the file; a
file that cannot be opened contributes its path bytes and the zero byte
only. -/
def specContribution (f : FString × Option (List Nat)) : List Nat :=
  match f.2 with
  | none => FTCHARToUTF8 f.1 ++ [0]
  | some content => FTCHARToUTF8 f.1 ++ [0] ++ content

/-- The byte stream of the spec for a manifest content: the contributions of
its files, concatenated in manifest order. -/
def specStream (files : List (FString × Option (List Nat))) : List Nat :=
  files.flatMap specContribution

/-- The manifest as the hash sees it: each relative path with the bytes read
from its file (no bytes for a file that cannot be opened). -/
def manifestBytes (fs : FString → Option (List Nat))
    (FilesAbsSorted FilesRelSorted : List FString) : List (FString × List Nat) :=
  (FilesAbsSorted.zip FilesRelSorted).map (fun f => (f.2, (fs f.1).getD []))

/-- The NUL character, which ends an engine string and is not part of it. -/
def nul : Char := Char.ofNat 0

/-- The bytes that a manifest, seen as relative paths with the bytes of their
files, feeds to the hasher. -/
def streamOf (V : List (FString × List Nat)) : List Nat :=
  V.flatMap (fun f => FTCHARToUTF8 f.1 ++ 0 :: f.2)

/-! ## Dependency closure -/

section Closure

variable {α : Type} [LinearOrder α]

/-- Modelled from the spec: `IAssetRegistry::GetDependencies` (engine code) on
a registry given as a finite table from a package to its dependencies; a
package that is not in the table has none. -/
def GetDependencies (AR : List (α × List α)) (Cur : α) : List α :=
  (AR.lookup Cur).getD []

/-- The state of the traversal: the queue, the set of seen packages, and the
packages whose dependencies have been queried, in the order of the queries. -/
structure Traversal (α : Type) where
  Queue : List α
  Seen : List α
  Queried : List α
  deriving DecidableEq, Repr

/-- The inner loop of `GatherGameDependenciesPackages` (lines 1601-1615) over
the dependencies of one package. `InGame` is the test
`StartsWith(TEXT("/Game/"))`. -/
def visitDeps (InGame : α → Bool) : List α → Traversal α → Traversal α
  | [], t => t
  | Dep :: Deps, t =>
    if !InGame Dep then visitDeps InGame Deps t
    else if t.Seen.contains Dep then visitDeps InGame Deps t
    else visitDeps InGame Deps { t with Seen := t.Seen ++ [Dep], Queue := t.Queue ++ [Dep] }

/-- The outer loop of `GatherGameDependenciesPackages` (lines 1594-1616) from
index `Qi`; `none` when the fuel runs out. -/
def traverseLoop (InGame : α → Bool) (AR : List (α × List α)) :
    Nat → Nat → Traversal α → Option (Traversal α)
  | 0, _, _ => none
  | fuel + 1, Qi, t =>
    match t.Queue[Qi]? with
    | none => some t
    | some Cur =>
      let Deps := GetDependencies AR Cur
      traverseLoop InGame AR fuel (Qi + 1)
        (visitDeps InGame Deps { t with Queried := t.Queried ++ [Cur] })

/-- The number of dependency entries of the registry. -/
def edgeCount (AR : List (α × List α)) : Nat :=
  (AR.map (fun p => p.2.length)).sum

/-- The traversal of `GatherGameDependenciesPackages` (lines 1587-1616) from a
root. A package enters the queue once, as the root or as an entry of a
dependency list, so the number of entries of the registry bounds the number
of rounds. -/
def traverse (InGame : α → Bool) (AR : List (α × List α)) (RootPackage : α) :
    Option (Traversal α) :=
  traverseLoop InGame AR (edgeCount AR + 2) 0
    { Queue := [RootPackage], Seen := [RootPackage], Queried := [] }

/-- Source `GatherGameDependenciesPackages`: `OutPackages`, or `none` when the
traversal runs out of fuel. -/
def GatherGameDependenciesPackages (InGame : α → Bool) (AR : List (α × List α))
    (RootPackage : α) : Option (List α) :=
  if !InGame RootPackage then some [RootPackage]
  else (traverse InGame AR RootPackage).map (fun t => t.Seen.insertionSort (· ≤ ·))

/-- A dependency edge that the traversal follows: the target is a dependency
of the source and lies under `/Game/`. -/
def GameEdge (InGame : α → Bool) (AR : List (α × List α)) (a b : α) : Prop :=
  b ∈ GetDependencies AR a ∧ InGame b = true

end Closure

/-- The test `StartsWith(TEXT("/Game/"))` of `GatherGameDependenciesPackages`. -/
def InGame (Package : FString) : Bool := StartsWith Package "/Game/".toList

/-! ## The archive layout as the spec words it -/

/-- The little-endian `u16` field holding exactly `v`: low byte, then the rest
of the number. The second entry is a byte only when `v < 2 ^ 16`, so a value
that does not fit has no byte encoding. -/
def u16le (v : Nat) : List Nat := [v % 256, v / 256]

/-- The little-endian `u32` field holding exactly `v`; the last entry is a
byte only when `v < 2 ^ 32`. -/
def u32le (v : Nat) : List Nat := [v % 256, v / 256 % 256, v / 65536 % 256, v / 16777216]

/-- The local file header of the spec for an entry: signature, version 20,
flags, method, time, date, checksum, the two sizes, name length, extra
length. -/
def specLocalHeader (MemCrc32 : List Nat → Nat) (E : FZipEntry) : List Nat :=
  u32le 0x04034b50 ++ u16le 20 ++ u16le 0 ++ u16le 0 ++ u16le 0
    ++ u16le 0 ++ u32le (MemCrc32 E.Data) ++ u32le E.Data.length
    ++ u32le E.Data.length ++ u16le (FTCHARToUTF8 E.NameInZip).length ++ u16le 0

/-- The local record of the spec: header, UTF-8 name, payload. -/
def specLocalRecord (MemCrc32 : List Nat → Nat) (E : FZipEntry) : List Nat :=
  specLocalHeader MemCrc32 E ++ FTCHARToUTF8 E.NameInZip ++ E.Data

/-- The central-directory record of the spec for an entry whose local header
starts at byte `offset`. -/
def specCentralRecord (MemCrc32 : List Nat → Nat) (offset : Nat) (E : FZipEntry) : List Nat :=
  u32le 0x02014b50 ++ u16le 20 ++ u16le 20 ++ u16le 0 ++ u16le 0
    ++ u16le 0 ++ u16le 0 ++ u32le (MemCrc32 E.Data) ++ u32le E.Data.length
    ++ u32le E.Data.length ++ u16le (FTCHARToUTF8 E.NameInZip).length
    ++ u16le 0 ++ u16le 0 ++ u16le 0 ++ u16le 0 ++ u32le 0
    ++ u32le offset ++ FTCHARToUTF8 E.NameInZip

/-- The central directory of the spec: one record per entry in input order,
the first local header starting at byte `offset`. -/
def specCentralDirectory (MemCrc32 : List Nat → Nat) : Nat → List FZipEntry → List Nat
  | _, [] => []
  | offset, E :: Es =>
    specCentralRecord MemCrc32 offset E
      ++ specCentralDirectory MemCrc32 (offset + (specLocalRecord MemCrc32 E).length) Es

/-- The end-of-central-directory record of the spec. -/
def specEndRecord (count size offset : Nat) : List Nat :=
  u32le 0x06054b50 ++ u16le 0 ++ u16le 0 ++ u16le count ++ u16le count
    ++ u32le size ++ u32le offset ++ u16le 0

/-- The archive of the spec for a list of entries: the local records, the
central directory, the end record. -/
def specArchive (MemCrc32 : List Nat → Nat) (Es : List FZipEntry) : List Nat :=
  Es.flatMap (specLocalRecord MemCrc32) ++ specCentralDirectory MemCrc32 0 Es
    ++ specEndRecord Es.length (specCentralDirectory MemCrc32 0 Es).length
        (Es.flatMap (specLocalRecord MemCrc32)).length

/-- The bytes that one round of the first loop of `WriteZipStore` appends. -/
def localBytes (MemCrc32 : List Nat → Nat) (E : FZipEntry) : List Nat :=
  WriteLE32 0x04034b50 ++ WriteLE16 20 ++ WriteLE16 0 ++ WriteLE16 0 ++ WriteLE16 0
    ++ WriteLE16 0 ++ WriteLE32 (MemCrc32 E.Data % 4294967296)
    ++ WriteLE32 (E.Data.length % 4294967296) ++ WriteLE32 (E.Data.length % 4294967296)
    ++ WriteLE16 ((FTCHARToUTF8 E.NameInZip).length % 65536) ++ WriteLE16 0
    ++ (FTCHARToUTF8 E.NameInZip).take ((FTCHARToUTF8 E.NameInZip).length % 65536) ++ E.Data

/-- The central-directory entries that the first loop of `WriteZipStore`
collects when the archive holds `offset` bytes at its start. -/
def centralEntries (MemCrc32 : List Nat → Nat) : Nat → List FZipEntry → List FCentralDirEntry
  | _, [] => []
  | offset, E :: Es =>
    { Name := E.NameInZip
      UncompSize := E.Data.length % 4294967296
      CompSize := E.Data.length % 4294967296
      Crc32 := MemCrc32 E.Data % 4294967296
      LocalHeaderOffset := offset % 4294967296 }
      :: centralEntries MemCrc32 (offset + (localBytes MemCrc32 E).length) Es

/-- The bytes that one round of the second loop of `WriteZipStore` appends. -/
def centralBytes (C : FCentralDirEntry) : List Nat := writeCentral [] C

/-- The end record that `WriteZipStore` appends for `count` entries, a central
directory of `size` bytes and `offset` bytes of local records. -/
def endBytes (count size offset : Nat) : List Nat :=
  WriteLE32 0x06054b50 ++ WriteLE16 0 ++ WriteLE16 0 ++ WriteLE16 (count % 65536)
    ++ WriteLE16 (count % 65536) ++ WriteLE32 size ++ WriteLE32 offset ++ WriteLE16 0

/-- A host for examples: failed reads leave an empty buffer, the destination
root is the folder `D`, every file can be written. -/
def exampleHost : Host :=
  { uninit := fun _ => [], DestPath := fun RelPath => "D/".toList ++ RelPath,
    SaveOk := fun _ => true }

/-- The extensions that the import accepts. -/
def importableExtensions : List FString :=
  [".uasset".toList, ".uexp".toList, ".ubulk".toList, ".uptnl".toList, ".umap".toList]

/-- The import path as the spec words it: separators are normalized
(backslashes become `/`, leading `/` are dropped); of the non-empty segments
the second is taken out when it is `Content` in any case, otherwise the first
when it is `Content` in any case, and the rest is joined by `/`; otherwise the
normalized path is returned as it is. -/
def specImportRelPath (Path : FString) : FString :=
  let P := chopLeadingSlashes (ReplaceInline backslash slash Path)
  match (splitAt slash P).filter (fun seg => decide (seg ≠ [])) with
  | s0 :: s1 :: rest =>
    if ToLower s1 = ToLower "Content".toList then Join (s0 :: rest) slash
    else if ToLower s0 = ToLower "Content".toList then Join (s1 :: rest) slash
    else P
  | [s0] => if ToLower s0 = ToLower "Content".toList then [] else P
  | [] => P

/-- The hex digit of a nibble. -/
def hexDigit (n : Nat) : Char := Hex.getD n (Char.ofNat 48)

/-- Modelled from the spec: `FString::TrimStartAndEndInline` (engine code):
white space is removed at both ends. -/
def TrimStartAndEnd (S : FString) : FString :=
  ((S.dropWhile Char.isWhitespace).reverse.dropWhile Char.isWhitespace).reverse

/-- Source `NormalizeBaseUrl`. -/
def NormalizeBaseUrl (InBaseUrl : FString) : FString :=
  let Url := TrimStartAndEnd InBaseUrl
  let Url :=
    if !StartsWith Url "http://".toList && !StartsWith Url "https://".toList then
      "http://".toList ++ Url
    else Url
  (chopLeadingSlashes Url.reverse).reverse

/-- Modelled from the spec: `FString::IsNumeric` (engine code): a non-empty
string made of an optional sign and then digits with at most one dot. -/
def IsNumeric (S : FString) : Bool :=
  let Body := match S with
    | c :: cs => if c = Char.ofNat 45 ∨ c = Char.ofNat 43 then cs else c :: cs
    | [] => []
  !S.isEmpty && Body.all (fun c => c.isDigit || c = dot) && decide (Body.count dot ≤ 1)

/-- Modelled from the spec: `FCString::Atoi` (engine code) on a string without
leading white space: an optional sign and the value of the digits that
follow. Values outside `int32` are not modelled. -/
def Atoi (S : FString) : Int :=
  let digits (cs : FString) : Nat :=
    (cs.takeWhile Char.isDigit).foldl (fun acc c => 10 * acc + (c.toNat - 48)) 0
  match S with
  | c :: cs =>
    if c = Char.ofNat 45 then - (digits cs : Int)
    else if c = Char.ofNat 43 then (digits cs : Int)
    else (digits (c :: cs) : Int)
  | [] => 0

/-- Modelled from the spec: `FString::Printf(TEXT("%d"), n)` (engine code): the
decimal digits of an integer, with a minus sign when it is negative. -/
def PrintfD (n : Int) : FString :=
  if n < 0 then Char.ofNat 45 :: Nat.toDigits 10 n.natAbs else Nat.toDigits 10 n.toNat

/-- A JSON object as the settings code reads it: the three accessors of
`FJsonObject` (engine code) that it calls, each giving `none` when it returns
false; the number is the one left by the cast to `int32`. -/
structure FJsonObject where
  TryGetStringField : FString → Option FString
  TryGetBoolField : FString → Option Bool
  TryGetNumberField : FString → Option Int

/-- Source `FServerSettingsCache`, with the default member initializers. -/
structure FServerSettingsCache where
  bFetched : Bool := false
  bAvailable : Bool := false
  LastFetchTimeSec : Rat := 0
  BaseUrl : FString := []
  bOverwriteExportZips : Bool := false
  DefaultImageCount : Int := 1
  StaticMeshImageCount : Int := 0
  SkeletalMeshImageCount : Int := 0
  MaterialImageCount : Int := 0
  BlueprintImageCount : Int := 0
  NiagaraImageCount : Int := 0
  AnimSequenceImageCount : Int := 0
  Capture360DiscardFrames : Int := 2
  bSkipExportIfOnServer : Bool := false
  ExportCheckPathTemplate : FString := "/assets/exists?hash=\x7bhash\x7d&hash_type=blake3".toList
  bUploadAfterExport : Bool := true
  ExportUploadPathTemplate : FString := "/assets/upload".toList
  deriving DecidableEq, Repr

/-- Source `ParseBoolSetting`. -/
def ParseBoolSetting (Value : FString) (DefaultValue : Bool) : Bool :=
  let Raw := ToLower (TrimStartAndEnd Value)
  if Raw.isEmpty then DefaultValue
  else EqualsIgnoreCase Raw "1".toList || EqualsIgnoreCase Raw "true".toList
    || EqualsIgnoreCase Raw "yes".toList || EqualsIgnoreCase Raw "on".toList

/-- Source `ParseIntSetting`. -/
def ParseIntSetting (Value : FString) (DefaultValue : Int) : Int :=
  let Raw := TrimStartAndEnd Value
  if Raw.isEmpty then DefaultValue
  else if !IsNumeric Raw then DefaultValue
  else Atoi Raw

/-- Source `GetSettingString`; `none` is an object pointer that is not
valid. -/
def GetSettingString (Obj : Option FJsonObject) (Key DefaultValue : FString) : FString :=
  match Obj with
  | none => DefaultValue
  | some O =>
    match O.TryGetStringField Key with
    | some Out => Out
    | none =>
      match O.TryGetBoolField Key with
      | some bBool => if bBool then "true".toList else "false".toList
      | none =>
        match O.TryGetNumberField Key with
        | some Num => PrintfD Num
        | none => DefaultValue

/-- Lines 249-266 of `GetServerSettingsCached`: the fields of the cache are
set from the JSON object of the response. -/
def applySettings (Obj : FJsonObject) (G : FServerSettingsCache) (NowSec : Rat) :
    FServerSettingsCache :=
  let DefaultCount := GetSettingString (some Obj) "export_default_image_count".toList "1".toList
  let DefaultCountInt := ParseIntSetting DefaultCount 1
  { G with
    bOverwriteExportZips :=
      ParseBoolSetting
        (GetSettingString (some Obj) "export_overwrite_zips".toList "false".toList) false
    DefaultImageCount := DefaultCountInt
    StaticMeshImageCount :=
      ParseIntSetting (GetSettingString (some Obj) "export_static_mesh_image_count".toList []) 0
    SkeletalMeshImageCount :=
      ParseIntSetting
        (GetSettingString (some Obj) "export_skeletal_mesh_image_count".toList []) 0
    MaterialImageCount :=
      ParseIntSetting (GetSettingString (some Obj) "export_material_image_count".toList []) 0
    BlueprintImageCount :=
      ParseIntSetting (GetSettingString (some Obj) "export_blueprint_image_count".toList []) 0
    NiagaraImageCount :=
      ParseIntSetting (GetSettingString (some Obj) "export_niagara_image_count".toList []) 0
    AnimSequenceImageCount :=
      ParseIntSetting
        (GetSettingString (some Obj) "export_anim_sequence_image_count".toList []) 0
    Capture360DiscardFrames :=
      ParseIntSetting
        (GetSettingString (some Obj) "export_capture360_discard_frames".toList "0".toList) 0
    bSkipExportIfOnServer :=
      ParseBoolSetting
        (GetSettingString (some Obj) "skip_export_if_on_server".toList "false".toList) false
    ExportCheckPathTemplate :=
      GetSettingString (some Obj) "export_check_path_template".toList
        "/assets/exists?hash=\x7bhash\x7d&hash_type=blake3".toList
    bUploadAfterExport :=
      ParseBoolSetting
        (GetSettingString (some Obj) "export_upload_after_export".toList "true".toList) true
    ExportUploadPathTemplate :=
      GetSettingString (some Obj) "export_upload_path_template".toList "/assets/upload".toList
    bAvailable := true
    LastFetchTimeSec := NowSec }

/-- Modelled from the spec: rounding to the nearest integer, a tie going to the
even integer (the rounding `roundTiesToEven` of IEEE 754). -/
def roundHalfEven (t : Rat) : Int :=
  if t - Int.floor t < 1 / 2 then Int.floor t
  else if 1 / 2 < t - Int.floor t then Int.floor t + 1
  else if Int.floor t % 2 = 0 then Int.floor t
  else Int.floor t + 1

/-- Modelled from the spec: the `double` (IEEE 754 binary64) nearest to a real
number, ties to even: the number is scaled so that its 53 significant bits
are the integer part, rounded and scaled back. The exponent is not bounded: a
difference of two doubles is a multiple of the smallest subnormal, so it is
exact where the exponent of a double would underflow, and it exceeds the
range of a double only beyond `2 ^ 1024`, where a comparison with 10.0 comes
out as it does for an infinity. -/
def roundDouble (q : Rat) : Rat :=
  if q = 0 then 0
  else roundHalfEven (q / 2 ^ (Int.log 2 |q| - 52)) * 2 ^ (Int.log 2 |q| - 52)

/-- Modelled from the spec: the subtraction `a - b` of two `double` values, the
exact difference rounded to a `double`. -/
def doubleSub (a b : Rat) : Rat := roundDouble (a - b)

/-- Source `GetServerSettingsCached`: the value of `GServerSettings` that the
call leaves and returns. `G` is `GServerSettings` before the call, `NowSec` the
clock (the value of a `double`), and `Fetch` the outcome of the request for a
URL: the JSON object of the response, or `none` when the wait times out, the
response is not OK or its body is not a JSON object. The age of the cache is
the `double` difference of line 176, compared with 10.0. -/
def GetServerSettingsCached (Fetch : FString → Option FJsonObject)
    (G : FServerSettingsCache) (BaseUrl : FString) (NowSec : Rat) : FServerSettingsCache :=
  if G.bFetched ∧ EqualsIgnoreCase G.BaseUrl BaseUrl
      ∧ doubleSub NowSec G.LastFetchTimeSec < 10 then G
  else
    let G : FServerSettingsCache :=
      { BaseUrl := BaseUrl, bFetched := true, bAvailable := false, LastFetchTimeSec := NowSec }
    if BaseUrl.isEmpty then G
    else
      match Fetch (NormalizeBaseUrl BaseUrl ++ "/settings".toList) with
      | none => G
      | some Obj => applySettings Obj G NowSec

/-- Modelled from the spec: `FMath::Clamp` (engine code). -/
def Clamp (X Min Max : Int) : Int := if X < Min then Min else if X < Max then X else Max

/-- Source `GetCapture360DiscardCount`, on the settings that
`GetServerSettingsCached` returns. -/
def GetCapture360DiscardCount (Server : FServerSettingsCache) : Int :=
  Clamp Server.Capture360DiscardFrames 0 10

/-- Source `ClampCount`. -/
def ClampCount (Value DefaultValue : Int) : Int :=
  let Raw := if Value > 0 then Value else DefaultValue
  Clamp Raw 1 24

/-- Source `GetStaticMeshFrameCount`, on the settings that
`GetServerSettingsCached` returns. -/
def GetStaticMeshFrameCount (Server : FServerSettingsCache) : Int :=
  let DefaultCount := if Server.DefaultImageCount > 0 then Server.DefaultImageCount else 1
  let Value :=
    if Server.StaticMeshImageCount > 0 then Server.StaticMeshImageCount else DefaultCount
  ClampCount Value DefaultCount

/-- A key is absent from a JSON object: each of the three accessors fails. -/
def Absent (Obj : FJsonObject) (Key : FString) : Prop :=
  Obj.TryGetStringField Key = none ∧ Obj.TryGetBoolField Key = none
    ∧ Obj.TryGetNumberField Key = none

/-- The settings fields of type boolean or integer that the spec lists. -/
inductive SettingField
  | OverwriteExportZips
  | DefaultImageCount
  | StaticMeshImageCount
  | SkeletalMeshImageCount
  | MaterialImageCount
  | BlueprintImageCount
  | NiagaraImageCount
  | AnimSequenceImageCount
  | Capture360DiscardFrames
  | SkipExportIfOnServer
  | UploadAfterExport
  deriving DecidableEq, Repr

/-- The value of a boolean or integer setting. -/
inductive SettingValue
  | int (n : Int)
  | bool (b : Bool)
  deriving DecidableEq, Repr

/-- The JSON key of a settings field. -/
def SettingField.key : SettingField → FString
  | .OverwriteExportZips => "export_overwrite_zips".toList
  | .DefaultImageCount => "export_default_image_count".toList
  | .StaticMeshImageCount => "export_static_mesh_image_count".toList
  | .SkeletalMeshImageCount => "export_skeletal_mesh_image_count".toList
  | .MaterialImageCount => "export_material_image_count".toList
  | .BlueprintImageCount => "export_blueprint_image_count".toList
  | .NiagaraImageCount => "export_niagara_image_count".toList
  | .AnimSequenceImageCount => "export_anim_sequence_image_count".toList
  | .Capture360DiscardFrames => "export_capture360_discard_frames".toList
  | .SkipExportIfOnServer => "skip_export_if_on_server".toList
  | .UploadAfterExport => "export_upload_after_export".toList

/-- The default of a settings field as the spec lists it. -/
def SettingField.defaultValue : SettingField → SettingValue
  | .OverwriteExportZips => .bool false
  | .DefaultImageCount => .int 1
  | .StaticMeshImageCount => .int 0
  | .SkeletalMeshImageCount => .int 0
  | .MaterialImageCount => .int 0
  | .BlueprintImageCount => .int 0
  | .NiagaraImageCount => .int 0
  | .AnimSequenceImageCount => .int 0
  | .Capture360DiscardFrames => .int 0
  | .SkipExportIfOnServer => .bool false
  | .UploadAfterExport => .bool true

/-- The text that `GetServerSettingsCached` passes to `GetSettingString` as
the default of a settings field. -/
def SettingField.defaultText : SettingField → FString
  | .OverwriteExportZips => "false".toList
  | .DefaultImageCount => "1".toList
  | .StaticMeshImageCount => []
  | .SkeletalMeshImageCount => []
  | .MaterialImageCount => []
  | .BlueprintImageCount => []
  | .NiagaraImageCount => []
  | .AnimSequenceImageCount => []
  | .Capture360DiscardFrames => "0".toList
  | .SkipExportIfOnServer => "false".toList
  | .UploadAfterExport => "true".toList

/-- The member of the cache that holds a settings field. -/
def SettingField.get : SettingField → FServerSettingsCache → SettingValue
  | .OverwriteExportZips, G => .bool G.bOverwriteExportZips
  | .DefaultImageCount, G => .int G.DefaultImageCount
  | .StaticMeshImageCount, G => .int G.StaticMeshImageCount
  | .SkeletalMeshImageCount, G => .int G.SkeletalMeshImageCount
  | .MaterialImageCount, G => .int G.MaterialImageCount
  | .BlueprintImageCount, G => .int G.BlueprintImageCount
  | .NiagaraImageCount, G => .int G.NiagaraImageCount
  | .AnimSequenceImageCount, G => .int G.AnimSequenceImageCount
  | .Capture360DiscardFrames, G => .int G.Capture360DiscardFrames
  | .SkipExportIfOnServer, G => .bool G.bSkipExportIfOnServer
  | .UploadAfterExport, G => .bool G.bUploadAfterExport

/-- The texts that `ParseBoolSetting` reads as true. -/
def truthyTexts : List FString := ["1".toList, "true".toList, "yes".toList, "on".toList]

/-- A JSON object for examples: the only key it holds is
`export_upload_after_export`, with the string `maybe`. -/
def exampleSettingsObject : FJsonObject :=
  { TryGetStringField := fun Key =>
      if Key = "export_upload_after_export".toList then some "maybe".toList else none
    TryGetBoolField := fun _ => none
    TryGetNumberField := fun _ => none }

/-- A JSON object without any key. -/
def emptySettingsObject : FJsonObject :=
  { TryGetStringField := fun _ => none
    TryGetBoolField := fun _ => none
    TryGetNumberField := fun _ => none }

/-- Modelled from the spec: `FPaths::GetExtension(Path, true)` (engine code):
the last dot of the file name and the text after it, nothing when the file
name has no dot. -/
def GetExtensionWithDot (Path : FString) : FString :=
  let Filename := (Path.reverse.takeWhile (fun c => c != slash && c != backslash)).reverse
  if Filename.contains dot then dot :: (Filename.reverse.takeWhile (fun c => c != dot)).reverse
  else []

/-- The extensions that `AddIfExistsAllowlisted` lets through. -/
def allowlistedExtensions : List FString :=
  [".uasset".toList, ".uexp".toList, ".ubulk".toList, ".uptnl".toList, ".umap".toList]

/-- The host of an export: the engine calls that the manifest code makes.
`Less` is `FString::operator<` (`FStringLess` in the engine), `SameKey` the
key equality of `TSet<FString>` (`operator==` of `FString`, `EqualsIgnoreCase`
in the engine), `ContentDir` the full path of the project content folder. -/
structure ExportHost where
  FileExists : FString → Bool
  LongPackageNameToFilename : FString → FString → FString
  ChangeExtension : FString → FString → FString
  MakePathRelativeTo : FString → FString → FString
  ContentDir : FString
  FileSize : FString → Int
  Less : FString → FString → Bool
  SameKey : FString → FString → Bool

/-- The variables that `AddIfExistsAllowlisted` updates. -/
structure ManifestState where
  SeenRel : List FString
  OutRel : List FString
  OutAbs : List FString
  TotalBytes : Int
  deriving DecidableEq, Repr

/-- Source `PackageToMainFileAbs`: the value of `OutAbs`. -/
def PackageToMainFileAbs (h : ExportHost) (PackageName : FString) : FString :=
  let AbsUAsset := h.LongPackageNameToFilename PackageName ".uasset".toList
  if h.FileExists AbsUAsset then AbsUAsset
  else
    let AbsUMap := h.LongPackageNameToFilename PackageName ".umap".toList
    if h.FileExists AbsUMap then AbsUMap else AbsUAsset

/-- Source `AddIfExistsAllowlisted`. -/
def AddIfExistsAllowlisted (h : ExportHost) (AbsPath : FString) (st : ManifestState) :
    ManifestState :=
  if !h.FileExists AbsPath then st
  else
    let Rel := NormalizeRelPath (h.MakePathRelativeTo AbsPath h.ContentDir)
    let Ext := ToLower (GetExtensionWithDot Rel)
    let bAllowed := decide (Ext = ".uasset".toList) || decide (Ext = ".uexp".toList)
      || decide (Ext = ".ubulk".toList) || decide (Ext = ".uptnl".toList)
      || decide (Ext = ".umap".toList)
    if !bAllowed then st
    else if st.SeenRel.any (fun Seen => h.SameKey Seen Rel) then st
    else
      { SeenRel := st.SeenRel ++ [Rel], OutRel := st.OutRel ++ [Rel],
        OutAbs := st.OutAbs ++ [AbsPath], TotalBytes := st.TotalBytes + h.FileSize AbsPath }

/-- Source `GatherFilesOnDiskForPackage`. -/
def GatherFilesOnDiskForPackage (h : ExportHost) (PackageName : FString)
    (st : ManifestState) : ManifestState :=
  let MainAbs := PackageToMainFileAbs h PackageName
  let BaseNoExt := h.ChangeExtension MainAbs []
  let st := AddIfExistsAllowlisted h MainAbs st
  let st := AddIfExistsAllowlisted h (BaseNoExt ++ ".uexp".toList) st
  let st := AddIfExistsAllowlisted h (BaseNoExt ++ ".ubulk".toList) st
  AddIfExistsAllowlisted h (BaseNoExt ++ ".uptnl".toList) st

/-- The loop of `ExportAssetBuild` over the dependency packages (lines
3335-3338): the files gathered, in the order in which they are found. -/
def gatherFiles (h : ExportHost) (DepPackages : List FString) : ManifestState :=
  DepPackages.foldl (fun st Pkg => GatherFilesOnDiskForPackage h Pkg st)
    { SeenRel := [], OutRel := [], OutAbs := [], TotalBytes := 0 }

/-- Lines 3341-3344 of `ExportAssetBuild`: the indices of `FilesRel`, sorted by
the relative path they point to. `TArray::Sort` (engine code) is modelled by
an insertion sort, in which an index stays in front of another unless the
path of the other is less. -/
def sortIndices (h : ExportHost) (FilesRel : List FString) : List Nat :=
  (List.range FilesRel.length).insertionSort
    (fun A B => h.Less (FilesRel.getD B []) (FilesRel.getD A []) = false)

/-- Lines 3329-3354 of `ExportAssetBuild`: the manifest
(`FilesRelSorted`, `FilesAbsSorted`) built for the dependency packages. -/
def buildManifest (h : ExportHost) (DepPackages : List FString) :
    List FString × List FString :=
  let st := gatherFiles h DepPackages
  let SortIdx := sortIndices h st.OutRel
  (SortIdx.map (fun I => st.OutRel.getD I []), SortIdx.map (fun I => st.OutAbs.getD I []))

/-- The files that were gathered together: a relative path with the absolute
path it was derived from. -/
def gatheredPairs (h : ExportHost) (DepPackages : List FString) : List (FString × FString) :=
  (gatherFiles h DepPackages).OutRel.zip (gatherFiles h DepPackages).OutAbs

/-- A host for examples: the content folder is `/C/`, a package `/Game/x` has
the file `/C/x.uasset`; the files `/C/b.uasset`, `/C/b.uexp`, `/C/a.uasset`
and `/C/Z.uasset` exist; strings are compared as the engine compares them. -/
def exampleExportHost : ExportHost :=
  { FileExists := fun P =>
      decide (P ∈ ["/C/b.uasset".toList, "/C/b.uexp".toList, "/C/a.uasset".toList,
        "/C/Z.uasset".toList])
    LongPackageNameToFilename := fun Pkg Ext => "/C/".toList ++ Pkg.drop 6 ++ Ext
    ChangeExtension := fun P _ => (P.reverse.dropWhile (fun c => c != dot)).reverse.dropLast
    MakePathRelativeTo := fun P Dir => P.drop Dir.length
    ContentDir := "/C/".toList
    FileSize := fun _ => 1
    Less := FStringLess
    SameKey := EqualsIgnoreCase }

/-- What holds of the gathered files at every point of the gathering. -/
def ManifestInv (h : ExportHost) (st : ManifestState) : Prop :=
  st.SeenRel = st.OutRel ∧ st.OutRel.length = st.OutAbs.length ∧ st.OutRel.Nodup ∧
  ∀ p ∈ st.OutRel.zip st.OutAbs,
    p.1 = NormalizeRelPath (h.MakePathRelativeTo p.2 h.ContentDir) ∧
    h.FileExists p.2 = true ∧
    ToLower (GetExtensionWithDot p.1) ∈ allowlistedExtensions

/-- The context `FSha256Ctx` of `Sha256HashFile`: eight state words of 32 bits,
the bit length (64 bits), the block buffer `Data` of 64 bytes and the number
`DataLen` of bytes in it. -/
structure FSha256Ctx where
  State : List Nat
  BitLen : Nat
  Data : List Nat
  DataLen : Nat
  deriving DecidableEq, Repr

/-- The table `K` of `Sha256HashFile`, in the rows of four of the source
(lines 545-560). -/
def K : List Nat :=
  [0x428a2f98, 0x71374491, 0xb5c0fbcf, 0xe9b5dba5] ++
  [0x3956c25b, 0x59f111f1, 0x923f82a4, 0xab1c5ed5] ++
  [0xd807aa98, 0x12835b01, 0x243185be, 0x550c7dc3] ++
  [0x72be5d74, 0x80deb1fe, 0x9bdc06a7, 0xc19bf174] ++
  [0xe49b69c1, 0xefbe4786, 0x0fc19dc6, 0x240ca1cc] ++
  [0x2de92c6f, 0x4a7484aa, 0x5cb0a9dc, 0x76f988da] ++
  [0x983e5152, 0xa831c66d, 0xb00327c8, 0xbf597fc7] ++
  [0xc6e00bf3, 0xd5a79147, 0x06ca6351, 0x14292967] ++
  [0x27b70a85, 0x2e1b2138, 0x4d2c6dfc, 0x53380d13] ++
  [0x650a7354, 0x766a0abb, 0x81c2c92e, 0x92722c85] ++
  [0xa2bfe8a1, 0xa81a664b, 0xc24b8b70, 0xc76c51a3] ++
  [0xd192e819, 0xd6990624, 0xf40e3585, 0x106aa070] ++
  [0x19a4c116, 0x1e376c08, 0x2748774c, 0x34b0bcb5] ++
  [0x391c0cb3, 0x4ed8aa4a, 0x5b9cca4f, 0x682e6ff3] ++
  [0x748f82ee, 0x78a5636f, 0x84c87814, 0x8cc70208] ++
  [0x90befffa, 0xa4506ceb, 0xbef9a3f7, 0xc67178f2]

/-- Source `RotR`, on 32-bit words. -/
def RotR (X N : Nat) : Nat := ((X >>> N) ||| (X <<< (32 - N))) % 4294967296

/-- Source `Ch`; `~X` is the complement of the 32-bit word `X`. -/
def Ch (X Y Z : Nat) : Nat := (X &&& Y) ^^^ ((X ^^^ 4294967295) &&& Z)

/-- Source `Maj`. -/
def Maj (X Y Z : Nat) : Nat := (X &&& Y) ^^^ (X &&& Z) ^^^ (Y &&& Z)

/-- Source `Sig0`. -/
def Sig0 (X : Nat) : Nat := RotR X 2 ^^^ RotR X 13 ^^^ RotR X 22

/-- Source `Sig1`. -/
def Sig1 (X : Nat) : Nat := RotR X 6 ^^^ RotR X 11 ^^^ RotR X 25

/-- Source `Theta0`. -/
def Theta0 (X : Nat) : Nat := RotR X 7 ^^^ RotR X 18 ^^^ (X >>> 3)

/-- Source `Theta1`. -/
def Theta1 (X : Nat) : Nat := RotR X 17 ^^^ RotR X 19 ^^^ (X >>> 10)

/-- The first loop of `Transform`: the words `W[0..15]` of a block. -/
def loadWords (Block : List Nat) : List Nat :=
  (List.range 16).map (fun i =>
    (Block.getD (i * 4 + 0) 0 <<< 24 ||| Block.getD (i * 4 + 1) 0 <<< 16
      ||| Block.getD (i * 4 + 2) 0 <<< 8 ||| Block.getD (i * 4 + 3) 0) % 4294967296)

/-- One pass of the second loop of `Transform`: `W[i]` is appended to
`W[0..i-1]`. -/
def extendWords (W : List Nat) (i : Nat) : List Nat :=
  W ++ [(Theta1 (W.getD (i - 2) 0) + W.getD (i - 7) 0 + Theta0 (W.getD (i - 15) 0)
    + W.getD (i - 16) 0) % 4294967296]

/-- The working variables `A` to `H` of `Transform`. -/
structure FSha256Vars where
  A : Nat
  B : Nat
  C : Nat
  D : Nat
  E : Nat
  F : Nat
  G : Nat
  H : Nat
  deriving DecidableEq, Repr

/-- One pass of the third loop of `Transform`. -/
def roundStep (W : List Nat) (V : FSha256Vars) (i : Nat) : FSha256Vars :=
  let T1 := (V.H + Sig1 V.E + Ch V.E V.F V.G + K.getD i 0 + W.getD i 0) % 4294967296
  let T2 := (Sig0 V.A + Maj V.A V.B V.C) % 4294967296
  { H := V.G, G := V.F, F := V.E, E := (V.D + T1) % 4294967296,
    D := V.C, C := V.B, B := V.A, A := (T1 + T2) % 4294967296 }

/-- Source `Transform`: the state words after the block has been worked in. -/
def Transform (State : List Nat) (Block : List Nat) : List Nat :=
  let W := (List.range' 16 48).foldl extendWords (loadWords Block)
  let V0 : FSha256Vars :=
    { A := State.getD 0 0, B := State.getD 1 0, C := State.getD 2 0, D := State.getD 3 0,
      E := State.getD 4 0, F := State.getD 5 0, G := State.getD 6 0, H := State.getD 7 0 }
  let V := (List.range 64).foldl (roundStep W) V0
  [(State.getD 0 0 + V.A) % 4294967296, (State.getD 1 0 + V.B) % 4294967296,
   (State.getD 2 0 + V.C) % 4294967296, (State.getD 3 0 + V.D) % 4294967296,
   (State.getD 4 0 + V.E) % 4294967296, (State.getD 5 0 + V.F) % 4294967296,
   (State.getD 6 0 + V.G) % 4294967296, (State.getD 7 0 + V.H) % 4294967296]

/-- Source `Init`. The buffer `Data` is not initialized: it holds the bytes
`Uninit`. -/
def Init (Uninit : List Nat) : FSha256Ctx :=
  { State := [0x6a09e667, 0xbb67ae85, 0x3c6ef372, 0xa54ff53a,
              0x510e527f, 0x9b05688c, 0x1f83d9ab, 0x5be0cd19],
    BitLen := 0, Data := Uninit, DataLen := 0 }

/-- One pass of the loop of `Update`: the byte is stored at `Data[DataLen]`,
and a full buffer is worked into the state. -/
def updateByte (Ctx : FSha256Ctx) (b : Nat) : FSha256Ctx :=
  let Data := Ctx.Data.set Ctx.DataLen b
  let DataLen := Ctx.DataLen + 1
  if DataLen = 64 then
    { State := Transform Ctx.State Data, BitLen := (Ctx.BitLen + 512) % 18446744073709551616,
      Data := Data, DataLen := 0 }
  else
    { State := Ctx.State, BitLen := Ctx.BitLen, Data := Data, DataLen := DataLen }

/-- Source `Update`: the first `Len` bytes of `Data` are fed to the context. -/
def Update (Ctx : FSha256Ctx) (Data : List Nat) (Len : Nat) : FSha256Ctx :=
  (Data.take Len).foldl updateByte Ctx

/-- The padding loops of `Final`: `while (i < Bound) Data[i++] = 0x00`, with
`n` passes left. -/
def zeroFill : Nat → Nat → List Nat → List Nat
  | 0, _, Data => Data
  | n + 1, i, Data => zeroFill n (i + 1) (Data.set i 0)

/-- The eight stores of `Final` that write the bit length to `Data[56..63]`,
the most significant byte first. -/
def storeBitLen (Data : List Nat) (BitLen : Nat) : List Nat :=
  let Data := Data.set 63 (BitLen % 256)
  let Data := Data.set 62 ((BitLen >>> 8) % 256)
  let Data := Data.set 61 ((BitLen >>> 16) % 256)
  let Data := Data.set 60 ((BitLen >>> 24) % 256)
  let Data := Data.set 59 ((BitLen >>> 32) % 256)
  let Data := Data.set 58 ((BitLen >>> 40) % 256)
  let Data := Data.set 57 ((BitLen >>> 48) % 256)
  Data.set 56 ((BitLen >>> 56) % 256)

/-- Source `Final`: the 32 bytes of `Hash`. The pair `Padded` is the state and
the buffer after the padding branch; byte `j + 4 * k` of `Hash` is byte `j` of
state word `k`, counted from the most significant one. -/
def Final (Ctx : FSha256Ctx) : List Nat :=
  let i := Ctx.DataLen
  let Padded : List Nat × List Nat :=
    if Ctx.DataLen < 56 then
      let Data := Ctx.Data.set i 0x80
      (Ctx.State, zeroFill (56 - (i + 1)) (i + 1) Data)
    else
      let Data := Ctx.Data.set i 0x80
      let Data := zeroFill (64 - (i + 1)) (i + 1) Data
      (Transform Ctx.State Data, List.replicate 56 0 ++ Data.drop 56)
  let BitLen := (Ctx.BitLen + Ctx.DataLen * 8 % 4294967296) % 18446744073709551616
  let Data := storeBitLen Padded.2 BitLen
  let State := Transform Padded.1 Data
  (List.range 32).map (fun n => (State.getD (n / 4) 0 >>> (24 - n % 4 * 8)) &&& 0xff)

/-- The read loop of `Sha256HashFile` (lines 710-716): `rest` is the part of
the file from the read position on, `BufferNum` the size of the buffer. -/
def sha256ReadLoop (BufferNum : Nat) : Nat → List Nat → FSha256Ctx → FSha256Ctx
  | 0, _, Ctx => Ctx
  | fuel + 1, rest, Ctx =>
    if rest.isEmpty then Ctx
    else
      let ToRead := min rest.length BufferNum
      sha256ReadLoop BufferNum fuel (rest.drop ToRead)
        (Update Ctx (rest.take ToRead) (ToRead % 4294967296))

/-- Source `Sha256HashFile`: `none` when it returns false, otherwise `OutHex`.
`fs` gives the bytes of the file at a path, `none` when the file cannot be
opened; `Uninit` is what the block buffer holds before it is written. A file
of `n` bytes is read in at most `n` rounds, the buffer being one MiB. -/
def Sha256HashFile (fs : FString → Option (List Nat)) (Uninit : List Nat)
    (FileAbs : FString) : Option FString :=
  match fs FileAbs with
  | none => none
  | some content =>
    let Ctx := sha256ReadLoop 1048576 content.length content (Init Uninit)
    some (ToLowerHex (Final Ctx) 32)

/-- A prime number, by trial division. -/
def isPrimeNumber (n : Nat) : Bool :=
  decide (2 ≤ n) && (List.range n).all (fun d => decide (d < 2) || n % d != 0)

/-- FIPS 180-4: the first sixty-four prime numbers (2 to 311). -/
def specPrimes : List Nat := ((List.range 312).filter isPrimeNumber).take 64

/-- The integer part of the `k`-th root of `n`, for `n` below `2 ^ (40 * k)`:
the bits of the root are found from bit 39 down. -/
def integerRoot (k n : Nat) : Nat :=
  (List.range 40).foldl
    (fun r j => if (r + 2 ^ (39 - j)) ^ k ≤ n then r + 2 ^ (39 - j) else r) 0

/-- FIPS 180-4, 4.2.2: the constants of SHA-256 are the first thirty-two bits
of the fractional parts of the cube roots of the first sixty-four primes. -/
def specK : List Nat := specPrimes.map (fun p => integerRoot 3 (p * 2 ^ 96) % 2 ^ 32)

/-- FIPS 180-4, 5.3.3: the initial hash value of SHA-256 is the first
thirty-two bits of the fractional parts of the square roots of the first
eight primes. -/
def specH0 : List Nat := (specPrimes.take 8).map (fun p => integerRoot 2 (p * 2 ^ 64) % 2 ^ 32)

/-- FIPS 180-4, 3.2: rotate right, on words of 32 bits. -/
def ROTR (n x : Nat) : Nat := ((x >>> n) ||| (x <<< (32 - n))) % 2 ^ 32

/-- FIPS 180-4, 3.2: shift right. -/
def SHR (n x : Nat) : Nat := x >>> n

/-- FIPS 180-4, 4.1.2 (4.2): `Ch(x, y, z)`; the complement of a word of 32
bits is the word with every bit flipped. -/
def specCh (x y z : Nat) : Nat := (x &&& y) ^^^ ((x ^^^ (2 ^ 32 - 1)) &&& z)

/-- FIPS 180-4, 4.1.2 (4.3): `Maj(x, y, z)`. -/
def specMaj (x y z : Nat) : Nat := (x &&& y) ^^^ (x &&& z) ^^^ (y &&& z)

/-- FIPS 180-4, 4.1.2 (4.4): the function written with a capital sigma and
index 0. -/
def bigSigma0 (x : Nat) : Nat := ROTR 2 x ^^^ ROTR 13 x ^^^ ROTR 22 x

/-- FIPS 180-4, 4.1.2 (4.5): capital sigma, index 1. -/
def bigSigma1 (x : Nat) : Nat := ROTR 6 x ^^^ ROTR 11 x ^^^ ROTR 25 x

/-- FIPS 180-4, 4.1.2 (4.6): small sigma, index 0. -/
def smallSigma0 (x : Nat) : Nat := ROTR 7 x ^^^ ROTR 18 x ^^^ SHR 3 x

/-- FIPS 180-4, 4.1.2 (4.7): small sigma, index 1. -/
def smallSigma1 (x : Nat) : Nat := ROTR 17 x ^^^ ROTR 19 x ^^^ SHR 10 x

/-- The big-endian bytes of a number of 64 bits. -/
def be64 (l : Nat) : List Nat :=
  [l / 2 ^ 56 % 256, l / 2 ^ 48 % 256, l / 2 ^ 40 % 256, l / 2 ^ 32 % 256,
   l / 2 ^ 24 % 256, l / 2 ^ 16 % 256, l / 2 ^ 8 % 256, l % 256]

/-- The big-endian bytes of a word of 32 bits. -/
def be32 (w : Nat) : List Nat := [w / 2 ^ 24 % 256, w / 2 ^ 16 % 256, w / 2 ^ 8 % 256, w % 256]

/-- FIPS 180-4, 5.1.1: the padded message, for a message of whole bytes. With
`l` the length in bits, the bit 1 is appended, then `k` zero bits, `k` the
least number with `l + 1 + k = 448` modulo 512, then `l` in 64 bits; the bit
1 and the first seven zero bits are the byte `0x80`. -/
def specPad (M : List Nat) : List Nat :=
  let l := 8 * M.length
  let k := (448 + 512 - (l + 1) % 512) % 512
  M ++ [0x80] ++ List.replicate (k / 8) 0 ++ be64 l

/-- FIPS 180-4, 5.2.1: block `i` of the padded message (64 bytes), counted
from 0. -/
def specBlock (P : List Nat) (i : Nat) : List Nat := (P.drop (64 * i)).take 64

/-- FIPS 180-4, 5.2.1: the sixteen words of a block, each of four bytes, the
most significant first. -/
def specWords (Block : List Nat) : List Nat :=
  (List.range 16).map (fun t =>
    Block.getD (4 * t) 0 * 2 ^ 24 + Block.getD (4 * t + 1) 0 * 2 ^ 16
      + Block.getD (4 * t + 2) 0 * 2 ^ 8 + Block.getD (4 * t + 3) 0)

/-- FIPS 180-4, 6.2.2 step 1: the message schedule `W_0` to `W_63`. -/
def specSchedule (Block : List Nat) : List Nat :=
  (List.range' 16 48).foldl
    (fun W t => W ++ [(smallSigma1 (W.getD (t - 2) 0) + W.getD (t - 7) 0
      + smallSigma0 (W.getD (t - 15) 0) + W.getD (t - 16) 0) % 2 ^ 32])
    (specWords Block)

/-- FIPS 180-4, 6.2.2 step 3: one round on the working variables
`[a, b, c, d, e, f, g, h]`. -/
def specRound (W : List Nat) (v : List Nat) (t : Nat) : List Nat :=
  let a := v.getD 0 0
  let b := v.getD 1 0
  let c := v.getD 2 0
  let d := v.getD 3 0
  let e := v.getD 4 0
  let f := v.getD 5 0
  let g := v.getD 6 0
  let h := v.getD 7 0
  let T1 := (h + bigSigma1 e + specCh e f g + specK.getD t 0 + W.getD t 0) % 2 ^ 32
  let T2 := (bigSigma0 a + specMaj a b c) % 2 ^ 32
  [(T1 + T2) % 2 ^ 32, a, b, c, (d + T1) % 2 ^ 32, e, f, g]

/-- FIPS 180-4, 6.2.2: the hash value after a block, from the hash value
before it. -/
def specCompress (H : List Nat) (Block : List Nat) : List Nat :=
  let v := (List.range 64).foldl (specRound (specSchedule Block)) H
  (List.range 8).map (fun j => (H.getD j 0 + v.getD j 0) % 2 ^ 32)

/-- FIPS 180-4, 6.2.2: the hash value after the first `n` blocks of the padded
message `P`, from the initial hash value. -/
def specState (P : List Nat) (n : Nat) : List Nat :=
  (List.range n).foldl (fun H i => specCompress H (specBlock P i)) specH0

/-- FIPS 180-4, 6.2: the SHA-256 digest (32 bytes) of a message of whole
bytes: the padded message is worked in block by block, and the eight words of
the last hash value are written out, the most significant byte first. -/
def specSha256 (M : List Nat) : List Nat :=
  (specState (specPad M) ((specPad M).length / 64)).flatMap be32

/-- The lowercase hexadecimal text of a byte sequence, two digits for each
byte, the high one first. -/
def specHex (Bytes : List Nat) : FString :=
  Bytes.flatMap (fun b => [hexDigit (b / 16), hexDigit (b % 16)])

/-- The working variables as the list `[a, b, c, d, e, f, g, h]`. -/
def FSha256Vars.toList (V : FSha256Vars) : List Nat := [V.A, V.B, V.C, V.D, V.E, V.F, V.G, V.H]

/-- What holds of the context after the bytes `M` have been fed to it. -/
def Sha256Inv (Ctx : FSha256Ctx) (M : List Nat) : Prop :=
  Ctx.State = specState M (M.length / 64) ∧
  Ctx.BitLen = 512 * (M.length / 64) % 18446744073709551616 ∧
  Ctx.Data.length = 64 ∧
  Ctx.DataLen = M.length % 64 ∧
  Ctx.Data.take Ctx.DataLen = M.drop (64 * (M.length / 64))

/-- The trimmed base URL with its scheme, as `NormalizeBaseUrl` has it before
the trailing `/` are removed (lines 83-88). -/
def schemedUrl (InBaseUrl : FString) : FString :=
  if StartsWith (TrimStartAndEnd InBaseUrl) "http://".toList = true
      ∨ StartsWith (TrimStartAndEnd InBaseUrl) "https://".toList = true then
    TrimStartAndEnd InBaseUrl
  else "http://".toList ++ TrimStartAndEnd InBaseUrl

/-- What `ExportPathBuilds` reads of an `FAssetData`: the class name
(`AssetClassPath.GetAssetName()`), a name of the type `N` of `FName`, and the
object path as a string. -/
structure FAssetData (N : Type) where
  ClassName : N
  ObjectPath : FString
  deriving DecidableEq, Repr

/-- Modelled from the spec: `TSet::Add` (engine code) on a set held as the
list of its elements: an element that is in the set is not added again. -/
def TSetAdd {N : Type} [DecidableEq N] (S : List N) (x : N) : List N :=
  if x ∈ S then S else S ++ [x]

/-- Modelled from the spec: `TSet::Intersect` (engine code). -/
def TSetIntersect {N : Type} [DecidableEq N] (A B : List N) : List N :=
  A.filter (fun x => decide (x ∈ B))

/-- Modelled from the spec: `TSet::Difference` (engine code). -/
def TSetDifference {N : Type} [DecidableEq N] (A B : List N) : List N :=
  A.filter (fun x => !decide (x ∈ B))

/-- The set `AllowedClasses` of `ExportPathBuilds`; `FNameOf` makes the name
of a string (the constructor of `FName`). -/
def AllowedClasses {N : Type} [DecidableEq N] (FNameOf : FString → N) : List N :=
  ["StaticMesh".toList, "SkeletalMesh".toList, "Blueprint".toList, "NiagaraSystem".toList,
   "AnimSequence".toList, "Material".toList, "MaterialInstance".toList,
   "MaterialInstanceConstant".toList].foldl (fun S x => TSetAdd S (FNameOf x)) []

/-- Source `AddClassesForToken` (lines 3000-3045): the set `OutSet` after the
call. -/
def AddClassesForToken {N : Type} [DecidableEq N] (FNameOf : FString → N)
    (Token : FString) (OutSet : List N) : List N :=
  let Lower := ToLower Token
  if EqualsIgnoreCase Lower "animation".toList || EqualsIgnoreCase Lower "anim".toList
      || EqualsIgnoreCase Lower "animsequence".toList then
    TSetAdd OutSet (FNameOf "AnimSequence".toList)
  else if EqualsIgnoreCase Lower "mesh".toList || EqualsIgnoreCase Lower "meshes".toList then
    TSetAdd (TSetAdd OutSet (FNameOf "StaticMesh".toList)) (FNameOf "SkeletalMesh".toList)
  else if EqualsIgnoreCase Lower "staticmesh".toList then
    TSetAdd OutSet (FNameOf "StaticMesh".toList)
  else if EqualsIgnoreCase Lower "skeletalmesh".toList then
    TSetAdd OutSet (FNameOf "SkeletalMesh".toList)
  else if EqualsIgnoreCase Lower "material".toList || EqualsIgnoreCase Lower "materials".toList
      || EqualsIgnoreCase Lower "mat".toList then
    TSetAdd (TSetAdd (TSetAdd OutSet (FNameOf "Material".toList))
      (FNameOf "MaterialInstance".toList)) (FNameOf "MaterialInstanceConstant".toList)
  else if EqualsIgnoreCase Lower "materialinstance".toList
      || EqualsIgnoreCase Lower "materialinstanceconstant".toList then
    TSetAdd (TSetAdd OutSet (FNameOf "MaterialInstance".toList))
      (FNameOf "MaterialInstanceConstant".toList)
  else if EqualsIgnoreCase Lower "blueprint".toList || EqualsIgnoreCase Lower "bp".toList then
    TSetAdd OutSet (FNameOf "Blueprint".toList)
  else if EqualsIgnoreCase Lower "niagara".toList
      || EqualsIgnoreCase Lower "niagarasystem".toList then
    TSetAdd OutSet (FNameOf "NiagaraSystem".toList)
  else
    TSetAdd OutSet (FNameOf Token)

/-- Source `ParseTokens` (lines 3092-3099). -/
def ParseTokens (Raw : FString) : List FString :=
  ParseIntoArray
    (ReplaceInline (Char.ofNat 32) (Char.ofNat 44)
      (ReplaceInline (Char.ofNat 124) (Char.ofNat 44)
        (ReplaceInline (Char.ofNat 59) (Char.ofNat 44) Raw)))
    (Char.ofNat 44)

/-- The token loops of `ExportPathBuilds` (lines 3107-3115, 3122-3130 and
3155-3163): the classes that the tokens of `Raw` add to an empty set. -/
def tokenClasses {N : Type} [DecidableEq N] (FNameOf : FString → N) (Raw : FString) : List N :=
  (ParseTokens Raw).foldl
    (fun S T =>
      let T := TrimStartAndEnd T
      if T.isEmpty then S else AddClassesForToken FNameOf T S)
    []

/-- The string `ServerIncludeRaw` of `ExportPathBuilds` after lines 3053-3062.
`Server` is the outcome of the call of `GetServerExportFilters`: the two
strings it gives when it is called and returns true, `none` otherwise (both
strings are then empty, the function resets them before anything else). -/
def ServerIncludeRaw (Server : Option (FString × FString)) : FString :=
  match Server with
  | none => []
  | some (Include, _) => Include

/-- The string `ServerExcludeRaw` of `ExportPathBuilds` after lines 3053-3062. -/
def ServerExcludeRaw (Server : Option (FString × FString)) : FString :=
  match Server with
  | none => []
  | some (_, Exclude) => Exclude

/-- The strings `FilterRaw` and `ExcludeRaw` of `ExportPathBuilds` after the
server filters have been merged in (lines 3047-3079); `bOk` holds when
`GetServerExportFilters` has returned true. -/
def mergeFilters (InTypeFilter InExcludeTypeFilter : FString)
    (Server : Option (FString × FString)) : FString × FString :=
  let bHasCliInclude := !(TrimStartAndEnd InTypeFilter).isEmpty
  let bOk := Server.isSome
  let FilterRaw :=
    if bOk && !(ServerIncludeRaw Server).isEmpty && !bHasCliInclude then ServerIncludeRaw Server
    else InTypeFilter
  let ExcludeRaw :=
    if bOk && !(ServerExcludeRaw Server).isEmpty then
      if InExcludeTypeFilter.isEmpty then ServerExcludeRaw Server
      else InExcludeTypeFilter ++ ",".toList ++ ServerExcludeRaw Server
    else InExcludeTypeFilter
  (FilterRaw, ExcludeRaw)

/-- The value of `bHasFilter` (line 3102). -/
def bHasFilter (InTypeFilter InExcludeTypeFilter : FString)
    (Server : Option (FString × FString)) : Bool :=
  !(TrimStartAndEnd (mergeFilters InTypeFilter InExcludeTypeFilter Server).1).isEmpty

/-- The value of `bHasExclude` (line 3149). -/
def bHasExclude (InTypeFilter InExcludeTypeFilter : FString)
    (Server : Option (FString × FString)) : Bool :=
  !(TrimStartAndEnd (mergeFilters InTypeFilter InExcludeTypeFilter Server).2).isEmpty

/-- The set `FilterClasses` of `ExportPathBuilds` when `bHasFilter` holds
(lines 3103-3138), after the intersection with `AllowedClasses`. -/
def FilterClasses {N : Type} [DecidableEq N] (FNameOf : FString → N)
    (InTypeFilter InExcludeTypeFilter : FString) (Server : Option (FString × FString)) :
    List N :=
  let bHasCliInclude := !(TrimStartAndEnd InTypeFilter).isEmpty
  let FilterRaw := TrimStartAndEnd (mergeFilters InTypeFilter InExcludeTypeFilter Server).1
  let Classes := tokenClasses FNameOf FilterRaw
  let Classes :=
    if bHasCliInclude && !(ServerIncludeRaw Server).isEmpty then
      let ServerIncludeClasses := tokenClasses FNameOf (ServerIncludeRaw Server)
      if ServerIncludeClasses.length > 0 then TSetIntersect Classes ServerIncludeClasses
      else Classes
    else Classes
  TSetIntersect Classes (AllowedClasses FNameOf)

/-- The set `ExcludeClasses` of `ExportPathBuilds` when `bHasExclude` holds
(lines 3150-3169). -/
def ExcludeClasses {N : Type} [DecidableEq N] (FNameOf : FString → N)
    (InTypeFilter InExcludeTypeFilter : FString) (Server : Option (FString × FString)) :
    List N :=
  let ExcludeRaw := TrimStartAndEnd (mergeFilters InTypeFilter InExcludeTypeFilter Server).2
  let Classes := TSetIntersect (tokenClasses FNameOf ExcludeRaw) (AllowedClasses FNameOf)
  if bHasFilter InTypeFilter InExcludeTypeFilter Server then
    TSetDifference Classes (FilterClasses FNameOf InTypeFilter InExcludeTypeFilter Server)
  else Classes

/-- The array `Filtered` of `ExportPathBuilds` before it is sorted (lines
3180-3201). -/
def Filtered {N : Type} [DecidableEq N] (FNameOf : FString → N)
    (InTypeFilter InExcludeTypeFilter : FString) (Server : Option (FString × FString))
    (Assets : List (FAssetData N)) : List (FAssetData N) :=
  Assets.filter (fun AD =>
    decide (AD.ClassName ∈ AllowedClasses FNameOf)
    && (!bHasFilter InTypeFilter InExcludeTypeFilter Server
        || decide (AD.ClassName ∈ FilterClasses FNameOf InTypeFilter InExcludeTypeFilter Server))
    && (!bHasExclude InTypeFilter InExcludeTypeFilter Server
        || !decide (AD.ClassName
              ∈ ExcludeClasses FNameOf InTypeFilter InExcludeTypeFilter Server)))

/-- Source `GetSortKey` (lines 3209-3236). -/
def GetSortKey {N : Type} [DecidableEq N] (FNameOf : FString → N) (AD : FAssetData N) : Int :=
  if AD.ClassName = FNameOf "MaterialInstance".toList
      ∨ AD.ClassName = FNameOf "MaterialInstanceConstant".toList then 0
  else if AD.ClassName = FNameOf "Material".toList then 1
  else if AD.ClassName = FNameOf "AnimSequence".toList then 2
  else if AD.ClassName = FNameOf "StaticMesh".toList
      ∨ AD.ClassName = FNameOf "SkeletalMesh".toList then 3
  else if AD.ClassName = FNameOf "Blueprint".toList then 4
  else if AD.ClassName = FNameOf "NiagaraSystem".toList then 5
  else 5

/-- The predicate of `Filtered.Sort` (lines 3238-3247); `Less` is
`FString::operator<`. -/
def sortPredicate {N : Type} [DecidableEq N] (FNameOf : FString → N)
    (Less : FString → FString → Bool) (A B : FAssetData N) : Bool :=
  let KeyA := GetSortKey FNameOf A
  let KeyB := GetSortKey FNameOf B
  if KeyA ≠ KeyB then decide (KeyA < KeyB)
  else Less A.ObjectPath B.ObjectPath

/-- The call `Filtered.Sort` of line 3238. `TArray::Sort` (engine code) is
modelled by an insertion sort, in which an asset stays in front of another
unless the predicate puts the other first. -/
def sortAssets {N : Type} [DecidableEq N] (FNameOf : FString → N)
    (Less : FString → FString → Bool) (L : List (FAssetData N)) : List (FAssetData N) :=
  L.insertionSort (fun A B => sortPredicate FNameOf Less B A = false)

/-- Source `ExportPathBuilds` from line 2984 on: the assets in the order in
which they are exported, `none` when the function returns 0 before any export
(no asset found, an include filter that matches no exportable class, no asset
left after the filters). `Assets` is what the asset registry finds for the
path (lines 2947-2982). -/
def exportOrder {N : Type} [DecidableEq N] (FNameOf : FString → N)
    (Less : FString → FString → Bool) (InTypeFilter InExcludeTypeFilter : FString)
    (Server : Option (FString × FString)) (Assets : List (FAssetData N)) :
    Option (List (FAssetData N)) :=
  if Assets.length = 0 then none
  else if bHasFilter InTypeFilter InExcludeTypeFilter Server
      && (FilterClasses FNameOf InTypeFilter InExcludeTypeFilter Server).length == 0 then none
  else
    let F := Filtered FNameOf InTypeFilter InExcludeTypeFilter Server Assets
    if F.length = 0 then none
    else some (sortAssets FNameOf Less F)

/-- Source `ExportPathBuilds`: the value returned. `FindAssets` is the lookup
in the asset registry for the trimmed path, `ExportAssetBuild` tells for an
asset whether it is loaded and `ExportAssetBuild` returns true for it. -/
def ExportPathBuilds {N : Type} [DecidableEq N] (FNameOf : FString → N)
    (Less : FString → FString → Bool) (FindAssets : FString → List (FAssetData N))
    (ExportAssetBuild : FAssetData N → Bool) (Server : Option (FString × FString))
    (InGamePath InTypeFilter InExcludeTypeFilter : FString) : Int :=
  let Path := TrimStartAndEnd InGamePath
  if Path.isEmpty then 0
  else
    match exportOrder FNameOf Less InTypeFilter InExcludeTypeFilter Server (FindAssets Path) with
    | none => 0
    | some L => (L.filter ExportAssetBuild).length

/-- Names for examples: the name of a string is the string. -/
def exampleFNameOf : FString → FString := fun S => S

/-- Assets for examples: a static mesh, a Niagara system, a material, a
blueprint, a texture and a second static mesh. -/
def exampleAssets : List (FAssetData FString) :=
  [{ ClassName := "StaticMesh".toList, ObjectPath := "/Game/P/Rock.Rock".toList },
   { ClassName := "NiagaraSystem".toList, ObjectPath := "/Game/P/Fire.Fire".toList },
   { ClassName := "Material".toList, ObjectPath := "/Game/P/Moss.Moss".toList },
   { ClassName := "Blueprint".toList, ObjectPath := "/Game/P/Door.Door".toList },
   { ClassName := "Texture2D".toList, ObjectPath := "/Game/P/Tex.Tex".toList },
   { ClassName := "StaticMesh".toList, ObjectPath := "/Game/P/Arch.Arch".toList }]

/-- A piece of a filter string names the class `c`. -/
def Named {N : Type} [DecidableEq N] (FNameOf : FString → N) (c : N) (piece : FString) : Prop :=
  TrimStartAndEnd piece ≠ [] ∧ c ∈ AddClassesForToken FNameOf (TrimStartAndEnd piece) []

/-- The filter string after the three replacements of `ParseTokens`. -/
def commaText (Raw : FString) : FString :=
  ReplaceInline (Char.ofNat 32) (Char.ofNat 44)
    (ReplaceInline (Char.ofNat 124) (Char.ofNat 44)
      (ReplaceInline (Char.ofNat 59) (Char.ofNat 44) Raw))

/-- The class groups of C26 as numbers: 0 for materials, material instances
and animation sequences, 1 for static and skeletal meshes, 2 for blueprints,
3 for Niagara effects (and for any other class). -/
def specStage {N : Type} [DecidableEq N] (FNameOf : FString → N) (c : N) : Nat :=
  if c = FNameOf "Material".toList ∨ c = FNameOf "MaterialInstance".toList
      ∨ c = FNameOf "MaterialInstanceConstant".toList ∨ c = FNameOf "AnimSequence".toList then 0
  else if c = FNameOf "StaticMesh".toList ∨ c = FNameOf "SkeletalMesh".toList then 1
  else if c = FNameOf "Blueprint".toList then 2
  else 3

/-- The effective exclude set as C30 words it: the classes named by the CLI
exclude filter or by the server exclude filter, restricted to the exportable
classes, minus the include set when an include filter is present. -/
def specEffectiveExclude {N : Type} [DecidableEq N] (FNameOf : FString → N)
    (InTypeFilter InExcludeTypeFilter : FString) (Server : Option (FString × FString)) :
    List N :=
  ((tokenClasses FNameOf InExcludeTypeFilter
      ++ tokenClasses FNameOf (ServerExcludeRaw Server)).filter
      (fun c => decide (c ∈ AllowedClasses FNameOf))).filter
    (fun c => !(bHasFilter InTypeFilter InExcludeTypeFilter Server
      && decide (c ∈ FilterClasses FNameOf InTypeFilter InExcludeTypeFilter Server)))

/-- The order of strings by characters, as a comparison for examples. -/
def exampleLess (A B : FString) : Bool := decide (A < B)

/-- An HTTP response as the code reads it: `GetResponseCode()` and
`GetContentAsString()`. -/
structure FHttpResponse where
  ResponseCode : Int
  Content : FString
  deriving DecidableEq, Repr

/-- The arguments of a completion callback (`OnProcessRequestComplete`):
`bSucceeded` and the response, `none` when `Resp.IsValid()` is false. -/
structure FHttpCompletion where
  bSucceeded : Bool
  Resp : Option FHttpResponse
  deriving DecidableEq, Repr

/-- The variables that a synchronous request shares with its completion
callback: the flags `bDone`, `bOk` and `bAbandoned`, what the callback writes
besides them (`Out`: the response text, `OutProjectId`, `OutExists`), and
whether `Request->CancelRequest()` has been called. `CheckServerHasHash` has
no flag `bAbandoned`: there the field stays false and is not read. -/
structure FSyncRequest (α : Type) where
  bDone : Bool := false
  bOk : Bool := false
  bAbandoned : Bool := false
  bCancelled : Bool := false
  Out : α
  deriving DecidableEq, Repr

/-- The completion callback of `GetServerSettingsCached` (lines 206-220).
`IsOk` is `EHttpResponseCodes::IsOk` (engine code). -/
def settingsOnComplete (IsOk : Int → Bool) (c : FHttpCompletion)
    (s : FSyncRequest FString) : FSyncRequest FString :=
  if s.bAbandoned then s
  else
    let s :=
      match c.Resp with
      | some Resp =>
        if c.bSucceeded && IsOk Resp.ResponseCode then
          { s with Out := Resp.Content, bOk := true }
        else s
      | none => s
    { s with bDone := true }

/-- The wait of `GetServerSettingsCached` and its timeout branch (lines
221-236): the shared variables when the function goes on or returns.
`Arrival` is the completion that is delivered while the loop ticks, `none`
when the five seconds pass without one. -/
def settingsWait (IsOk : Int → Bool) (Arrival : Option FHttpCompletion) :
    FSyncRequest FString :=
  let s : FSyncRequest FString := { Out := [] }
  let s := match Arrival with
    | some c => settingsOnComplete IsOk c s
    | none => s
  if !s.bDone then { s with bAbandoned := true, bCancelled := true } else s

/-- Lines 195-247 of `GetServerSettingsCached`: the JSON object that the
request gives, `none` when the function returns early (time-out, not OK, or a
body that is not a JSON object). `Deserialize` is `FJsonSerializer::Deserialize`
followed by `Obj.IsValid()` (engine code). -/
def settingsFetch (IsOk : Int → Bool) (Deserialize : FString → Option FJsonObject)
    (Arrival : Option FHttpCompletion) : Option FJsonObject :=
  let s := settingsWait IsOk Arrival
  if !s.bDone then none
  else if !s.bOk then none
  else Deserialize s.Out

/-- One call of `GetServerSettingsCached` as a test gives it: the argument, the
clock at the call (the value of the `double` that `FPlatformTime::Seconds`
returns), and the completion that the network delivers during the wait if
the call makes a request. -/
structure SettingsCall where
  BaseUrl : FString
  NowSec : Rat
  Arrival : Option FHttpCompletion

/-- Source `GetServerSettingsCached` with its request made explicit: the cache
that the call leaves and returns, and the trace of fetches, to which a call
that is not served from the cache adds its base URL, its time and the URL it
requests (`none`: no request is made, the base URL is empty). -/
def GetServerSettingsCachedTrace (IsOk : Int → Bool)
    (Deserialize : FString → Option FJsonObject)
    (st : FServerSettingsCache × List (FString × Rat × Option FString)) (c : SettingsCall) :
    FServerSettingsCache × List (FString × Rat × Option FString) :=
  if st.1.bFetched ∧ EqualsIgnoreCase st.1.BaseUrl c.BaseUrl
      ∧ doubleSub c.NowSec st.1.LastFetchTimeSec < 10 then st
  else
    let G : FServerSettingsCache :=
      { BaseUrl := c.BaseUrl, bFetched := true, bAvailable := false,
        LastFetchTimeSec := c.NowSec }
    if c.BaseUrl.isEmpty then (G, st.2 ++ [(c.BaseUrl, c.NowSec, none)])
    else
      let Url := NormalizeBaseUrl c.BaseUrl ++ "/settings".toList
      match settingsFetch IsOk Deserialize c.Arrival with
      | none => (G, st.2 ++ [(c.BaseUrl, c.NowSec, some Url)])
      | some Obj => (applySettings Obj G c.NowSec, st.2 ++ [(c.BaseUrl, c.NowSec, some Url)])

/-- A sequence of calls of `GetServerSettingsCached` from the start of the
program, when `GServerSettings` holds its initializer and nothing has been
fetched. -/
def runSettingsCalls (IsOk : Int → Bool) (Deserialize : FString → Option FJsonObject)
    (calls : List SettingsCall) : FServerSettingsCache × List (FString × Rat × Option FString) :=
  calls.foldl (GetServerSettingsCachedTrace IsOk Deserialize) ({}, [])

/-- The completion callback of `CheckServerHasHash` (lines 1077-1092); it
writes `OutExists`. `GetBoolField` is `FJsonObject::GetBoolField` (engine
code). -/
def checkOnComplete (Deserialize : FString → Option FJsonObject)
    (GetBoolField : FJsonObject → FString → Bool) (c : FHttpCompletion)
    (s : FSyncRequest Bool) : FSyncRequest Bool :=
  let s :=
    match c.Resp with
    | some Resp =>
      if c.bSucceeded && decide (Resp.ResponseCode = 200) then
        match Deserialize Resp.Content with
        | some Root => { s with Out := GetBoolField Root "exists".toList, bOk := true }
        | none => s
      else s
    | none => s
  { s with bDone := true }

/-- The wait of `CheckServerHasHash` (lines 1094-1111): the shared variables
when the function returns. Nothing is done on a time-out but to log it. -/
def checkWait (Deserialize : FString → Option FJsonObject)
    (GetBoolField : FJsonObject → FString → Bool) (Arrival : Option FHttpCompletion) :
    FSyncRequest Bool :=
  let s : FSyncRequest Bool := { Out := false }
  match Arrival with
  | some c => checkOnComplete Deserialize GetBoolField c s
  | none => s

/-- Source `CheckServerHasHash`: the value returned and `OutExists`. The URL of
the request (lines 1059-1068) does not enter the result; `Arrival` is the
completion of that request that arrives during the wait. -/
def CheckServerHasHash (Deserialize : FString → Option FJsonObject)
    (GetBoolField : FJsonObject → FString → Bool) (BaseUrl PathTemplate Hash : FString)
    (Arrival : Option FHttpCompletion) : Bool × Bool :=
  if BaseUrl.isEmpty || PathTemplate.isEmpty || Hash.isEmpty then (false, false)
  else
    let s := checkWait Deserialize GetBoolField Arrival
    (s.bOk, s.Out)

/-- Lines 3428-3448 of `ExportAssetBuild`: true when the function returns
false there because the server has the hash. `CachedUseServerCheck` is the
flag of that name, `ExportCheckPathTemplate` the template of the server
settings. -/
def serverHasHashStop (Deserialize : FString → Option FJsonObject)
    (GetBoolField : FJsonObject → FString → Bool) (CachedUseServerCheck : Bool)
    (ImportBaseUrl ExportCheckPathTemplate HashMain : FString)
    (Arrival : Option FHttpCompletion) : Bool :=
  if CachedUseServerCheck && !ImportBaseUrl.isEmpty then
    let r := CheckServerHasHash Deserialize GetBoolField ImportBaseUrl ExportCheckPathTemplate
      HashMain Arrival
    r.1 && r.2
  else if !ImportBaseUrl.isEmpty then
    let r := CheckServerHasHash Deserialize GetBoolField ImportBaseUrl
      "/assets/exists?hash=\x7bhash\x7d&hash_type=blake3".toList HashMain Arrival
    r.1 && r.2
  else false

/-- The completion callback of `ResolveProjectIdFromServer` (lines 1138-1165);
it writes `OutProjectId`. `ProjectIdOf` gives the field `project_id` of the
response when it is a JSON number, cast to `int32` (engine code). -/
def resolveOnComplete (Deserialize : FString → Option FJsonObject)
    (ProjectIdOf : FJsonObject → Option Int) (c : FHttpCompletion)
    (s : FSyncRequest Int) : FSyncRequest Int :=
  if s.bAbandoned then s
  else
    let s :=
      match c.Resp with
      | some Resp =>
        if c.bSucceeded && decide (Resp.ResponseCode = 200) then
          match Deserialize Resp.Content with
          | some Root =>
            match ProjectIdOf Root with
            | some Id => { s with Out := Id, bOk := s.bOk || decide (Id > 0) }
            | none => s
          | none => s
        else s
      | none => s
    { s with bDone := true }

/-- The wait of `ResolveProjectIdFromServer` and its timeout branch (lines
1167-1182). -/
def resolveWait (Deserialize : FString → Option FJsonObject)
    (ProjectIdOf : FJsonObject → Option Int) (Arrival : Option FHttpCompletion) :
    FSyncRequest Int :=
  let s : FSyncRequest Int := { Out := 0 }
  let s := match Arrival with
    | some c => resolveOnComplete Deserialize ProjectIdOf c s
    | none => s
  if !s.bDone then { s with bAbandoned := true, bCancelled := true } else s

/-- The completion callback of `UploadZipToServer` (lines 1249-1262). -/
def uploadOnComplete (c : FHttpCompletion) (s : FSyncRequest Unit) : FSyncRequest Unit :=
  if s.bAbandoned then s
  else
    let s :=
      match c.Resp with
      | some Resp =>
        if c.bSucceeded && decide (Resp.ResponseCode = 200) then { s with bOk := true }
        else s
      | none => s
    { s with bDone := true }

/-- The wait of `UploadZipToServer` and its timeout branch (lines 1264-1279). -/
def uploadWait (Arrival : Option FHttpCompletion) : FSyncRequest Unit :=
  let s : FSyncRequest Unit := { Out := () }
  let s := match Arrival with
    | some c => uploadOnComplete c s
    | none => s
  if !s.bDone then { s with bAbandoned := true, bCancelled := true } else s

/-- A JSON object for examples whose field `exists` is true. -/
def existsTrueObject : FJsonObject :=
  { TryGetStringField := fun _ => none
    TryGetBoolField := fun Key => if Key = "exists".toList then some true else none
    TryGetNumberField := fun _ => none }

/-- What links the cache to the trace of fetches. -/
def SettingsInv (st : FServerSettingsCache × List (FString × Rat × Option FString)) : Prop :=
  (st.2 = [] → st.1 = {}) ∧
  ∀ u t r, st.2.getLast? = some (u, t, r) →
    st.1.bFetched = true ∧ st.1.BaseUrl = u ∧ st.1.LastFetchTimeSec = t

/-- The name `FString::Printf(TEXT("%d.webp"), n)` of a frame. -/
def frameName (n : Nat) : FString := PrintfD n ++ ".webp".toList

/-- The frame loop of `CaptureStaticMeshMultiFrame` (lines 2093-2122), also that
of `CaptureSkeletalMeshMultiFrame`, `CaptureBlueprintMultiFrame` and, with
nothing to discard, of the material captures: `shots` holds for each pass
`i` the bytes that `CapturePreviewSceneToWebPBytes` gives, `none` when it
returns false; a frame that is kept is named after the number of frames kept
so far. -/
def framesByCount (FramesToDiscard : Nat) (shots : List (Option (List Nat))) :
    List FZipEntry :=
  shots.enum.foldl
    (fun OutFrames p =>
      match p.2 with
      | some WebP =>
        if p.1 ≥ FramesToDiscard then
          OutFrames ++ [{ NameInZip := frameName OutFrames.length, Data := WebP }]
        else OutFrames
      | none => OutFrames)
    []

/-- The frame loop of `CaptureAnimSequence` (lines 2857-2887): a frame is named
after the loop index `i`, and a pass whose capture fails is skipped. -/
def framesByIndex (shots : List (Option (List Nat))) : List FZipEntry :=
  shots.enum.foldl
    (fun OutFrames p =>
      match p.2 with
      | some WebP => OutFrames ++ [{ NameInZip := frameName p.1, Data := WebP }]
      | none => OutFrames)
    []

/-- Source `CaptureStaticMeshMultiFrame`: the value returned and `OutFrames`.
`setup` is false when the function returns false before its frame loop. -/
def CaptureStaticMeshMultiFrame (setup : Bool) (FramesToDiscard : Nat)
    (shots : List (Option (List Nat))) : Bool × List FZipEntry :=
  if !setup then (false, [])
  else (decide ((framesByCount FramesToDiscard shots).length > 0),
        framesByCount FramesToDiscard shots)

/-- Source `CaptureSkeletalMeshMultiFrame`. -/
def CaptureSkeletalMeshMultiFrame (setup : Bool) (FramesToDiscard : Nat)
    (shots : List (Option (List Nat))) : Bool × List FZipEntry :=
  if !setup then (false, [])
  else (decide ((framesByCount FramesToDiscard shots).length > 0),
        framesByCount FramesToDiscard shots)

/-- Source `CaptureBlueprintMultiFrame`. -/
def CaptureBlueprintMultiFrame (setup : Bool) (FramesToDiscard : Nat)
    (shots : List (Option (List Nat))) : Bool × List FZipEntry :=
  if !setup then (false, [])
  else (decide ((framesByCount FramesToDiscard shots).length > 0),
        framesByCount FramesToDiscard shots)

/-- The flag `bLowQuality` after a frame loop of a material capture: a frame
was captured with fewer than `kMaterialMinWebPBytes` bytes. -/
def lowQuality (shots : List (Option (List Nat))) : Bool :=
  shots.any (fun s =>
    match s with
    | some WebP => decide (WebP.length < 130000)
    | none => false)

/-- Source `CaptureMaterialOnSharedSphereMultiFrame`: the value returned,
`OutFrames` and `OutLowQuality`; `pass1` and `pass2` are the shots of the
first pass and of the retry. -/
def CaptureMaterialOnSharedSphereMultiFrame (setup : Bool)
    (pass1 pass2 : List (Option (List Nat))) : Bool × List FZipEntry × Bool :=
  if !setup then (false, [], false)
  else
    let Frames := framesByCount 0 pass1
    let bLowQuality := lowQuality pass1
    if !decide (Frames.length > 0) then (false, [], false)
    else if bLowQuality && decide ((framesByCount 0 pass2).length > 0) then
      (true, framesByCount 0 pass2, lowQuality pass2)
    else (true, Frames, bLowQuality)

/-- Source `CaptureMaterialOnSphereMultiFrame`. -/
def CaptureMaterialOnSphereMultiFrame (setup : Bool) (shots : List (Option (List Nat))) :
    Bool × List FZipEntry × Bool :=
  if !setup then (false, [], false)
  else (decide ((framesByCount 0 shots).length > 0), framesByCount 0 shots, lowQuality shots)

/-- Source `CaptureAnimSequence`. -/
def CaptureAnimSequence (setup : Bool) (shots : List (Option (List Nat))) :
    Bool × List FZipEntry :=
  if !setup then (false, [])
  else (decide ((framesByIndex shots).length > 0), framesByIndex shots)

/-- The asset that `ExportAssetBuild` captures, by the branch of lines
3568-3706 that it takes, with what the engine gives to the capture: whether
the capture function gets to its frame loop (`setup`), the shots of the loop,
and for `CaptureBlueprint` and `CaptureNiagara` the bytes of the one image,
`none` when the function returns false. -/
inductive FCaptureJob where
  | StaticMesh (setup : Bool) (FramesToDiscard : Nat) (shots : List (Option (List Nat)))
  | SkeletalMesh (setup : Bool) (FramesToDiscard : Nat) (shots : List (Option (List Nat)))
  | MaterialShared (setup : Bool) (pass1 pass2 : List (Option (List Nat)))
  | MaterialOwnScene (setup : Bool) (shots : List (Option (List Nat)))
  | Blueprint (setup : Bool) (FramesToDiscard : Nat) (shots : List (Option (List Nat)))
      (single : Option (List Nat))
  | Niagara (single : Option (List Nat))
  | AnimSequence (setup : Bool) (shots : List (Option (List Nat)))
  | Unsupported

/-- The variables of `ExportAssetBuild` that the capture step sets. -/
structure FExportPreview where
  bCaptured : Bool
  PreviewFiles : List FString
  ZipEntries : List FZipEntry
  bNoPic : Bool
  bLowQuality : Bool
  deriving DecidableEq, Repr

/-- The loops `for (FZipEntry& F : Frames)` of `ExportAssetBuild`: the frames
go to `PreviewFiles` and `ZipEntries` when `bCaptured` holds. -/
def addFrames (bCaptured : Bool) (Frames : List FZipEntry) (bLowQuality : Bool) :
    FExportPreview :=
  if bCaptured then
    { bCaptured := true, PreviewFiles := Frames.map (fun F => F.NameInZip),
      ZipEntries := Frames, bNoPic := false, bLowQuality := bLowQuality }
  else
    { bCaptured := false, PreviewFiles := [], ZipEntries := [], bNoPic := false,
      bLowQuality := bLowQuality }

/-- The one image of `CaptureBlueprint` and `CaptureNiagara` as the entry
`0.webp` (lines 3641-3649 and 3658-3666). -/
def addSingle (single : Option (List Nat)) : FExportPreview :=
  match single with
  | some WebP =>
    { bCaptured := true, PreviewFiles := ["0.webp".toList],
      ZipEntries := [{ NameInZip := "0.webp".toList, Data := WebP }], bNoPic := false,
      bLowQuality := false }
  | none =>
    { bCaptured := false, PreviewFiles := [], ZipEntries := [], bNoPic := false,
      bLowQuality := false }

/-- Lines 3568-3706 of `ExportAssetBuild`: the capture of the asset. -/
def capturePreviews (job : FCaptureJob) : FExportPreview :=
  match job with
  | .StaticMesh setup d shots =>
    let r := CaptureStaticMeshMultiFrame setup d shots
    addFrames r.1 r.2 false
  | .SkeletalMesh setup d shots =>
    let r := CaptureSkeletalMeshMultiFrame setup d shots
    addFrames r.1 r.2 false
  | .MaterialShared setup pass1 pass2 =>
    let r := CaptureMaterialOnSharedSphereMultiFrame setup pass1 pass2
    addFrames r.1 r.2.1 r.2.2
  | .MaterialOwnScene setup shots =>
    let r := CaptureMaterialOnSphereMultiFrame setup shots
    addFrames r.1 r.2.1 r.2.2
  | .Blueprint setup d shots single =>
    let r := CaptureBlueprintMultiFrame setup d shots
    if r.1 then addFrames r.1 r.2 false else addSingle single
  | .Niagara single => addSingle single
  | .AnimSequence setup shots =>
    let r := CaptureAnimSequence setup shots
    addFrames r.1 r.2 false
  | .Unsupported =>
    { bCaptured := false, PreviewFiles := [], ZipEntries := [], bNoPic := false,
      bLowQuality := false }

/-- Source `MakeBlackWebP`. `EncodeBlack` is the encoder (`WebPEncodeBGRA` of
libwebp) on a black square of the given side: the bytes, `none` when it gives
nothing. -/
def MakeBlackWebP (EncodeBlack : Nat → Option (List Nat)) (Size : Int) : Option (List Nat) :=
  if Size ≤ 0 then none else EncodeBlack Size.toNat

/-- Source `AddBlackPreview`. -/
def AddBlackPreview (EncodeBlack : Nat → Option (List Nat)) (r : FExportPreview) (Size : Int) :
    FExportPreview :=
  match MakeBlackWebP EncodeBlack Size with
  | none => r
  | some WebP =>
    { r with PreviewFiles := r.PreviewFiles ++ ["0.webp".toList],
             ZipEntries := r.ZipEntries ++ [{ NameInZip := "0.webp".toList, Data := WebP }] }

/-- Lines 3568-3711 of `ExportAssetBuild`: the capture and the black
placeholder; `kTexturePreviewResolution` is 1024. -/
def exportPreviews (EncodeBlack : Nat → Option (List Nat)) (job : FCaptureJob) :
    FExportPreview :=
  let r := capturePreviews job
  if !r.bCaptured || decide (r.PreviewFiles.length = 0) then
    AddBlackPreview EncodeBlack { r with bNoPic := true } 1024
  else r

/-- The number that `ExportAssetBuild` sets for `no_pic` (line 3714). -/
def noPicField (r : FExportPreview) : Int := if r.bNoPic then 1 else 0

/-- Lines 3713-3728 of `ExportAssetBuild`: the entries passed to
`WriteZipStore`, `meta.json` inserted in front. `MetaBytes` gives the UTF-8
bytes of the serialized manifest. -/
def exportZipEntries (EncodeBlack : Nat → Option (List Nat))
    (MetaBytes : FExportPreview → List Nat) (job : FCaptureJob) : List FZipEntry :=
  let r := exportPreviews EncodeBlack job
  { NameInZip := "meta.json".toList, Data := MetaBytes r } :: r.ZipEntries

/-- The entries that `ExportAssetBuild` writes as an archive file. -/
def exportArchive (MemCrc32 : List Nat → Nat) (EncodeBlack : Nat → Option (List Nat))
    (MetaBytes : FExportPreview → List Nat) (job : FCaptureJob) : List Nat :=
  WriteZipStore MemCrc32 (exportZipEntries EncodeBlack MetaBytes job)

/-- The number that a string of decimal digits writes. -/
def decimalValue (cs : List Char) : Nat :=
  cs.foldl (fun a c => 10 * a + (c.toNat - 48)) 0

/-- The indices of the passes whose capture succeeds. -/
def capturedIndices (shots : List (Option (List Nat))) : List Nat :=
  (shots.enum.filter (fun p => p.2.isSome)).map (fun p => p.1)

/-- What the capture step leaves: the preview list names the entries, the
flag `bCaptured` says that there is an entry, and the names are those of the
frame counts, or for an animation sequence those of the passes that were
captured. -/
def CaptureInv (job : FCaptureJob) (r : FExportPreview) : Prop :=
  r.PreviewFiles = r.ZipEntries.map (fun e => e.NameInZip) ∧
  r.bNoPic = false ∧
  (r.bCaptured = true ↔ r.ZipEntries ≠ []) ∧
  ((∃ shots, job = .AnimSequence true shots ∧
      r.ZipEntries.map (fun e => e.NameInZip) = (capturedIndices shots).map frameName) ∨
    ((∀ shots, job ≠ .AnimSequence true shots) ∧
      r.ZipEntries.map (fun e => e.NameInZip) = (List.range r.ZipEntries.length).map frameName))

/-! ## Lemmas on little-endian integers -/

theorem WriteLE16_length (V : Nat) : (WriteLE16 V).length = 2 := rfl

theorem WriteLE32_length (V : Nat) : (WriteLE32 V).length = 4 := rfl

theorem WriteLE16_mod (V : Nat) : WriteLE16 (V % 65536) = WriteLE16 V := by
  simp only [WriteLE16]
  congr 1
  · omega
  · congr 1
    omega

theorem WriteLE32_mod (V : Nat) : WriteLE32 (V % 4294967296) = WriteLE32 V := by
  simp only [WriteLE32]
  refine congrArg₂ _ (by omega) (congrArg₂ _ (by omega) (congrArg₂ _ (by omega)
    (congrArg₂ _ (by omega) rfl)))

theorem ReadLE16_WriteLE16 (V : Nat) (r : List Nat) :
    ReadLE16 { rest := WriteLE16 V ++ r, err := false }
      = some (V % 65536, { rest := r, err := false }) := by
  simp only [ReadLE16, WriteLE16, le16, List.cons_append, List.nil_append]
  simp
  omega

theorem ReadLE32_WriteLE32 (V : Nat) (r : List Nat) :
    ReadLE32 { rest := WriteLE32 V ++ r, err := false }
      = some (V % 4294967296, { rest := r, err := false }) := by
  simp only [ReadLE32, WriteLE32, le32, List.cons_append, List.nil_append]
  simp
  omega

theorem u16le_eq (v : Nat) (h : v < 65536) : u16le v = WriteLE16 v := by
  simp only [u16le, WriteLE16]
  congr 2
  omega

theorem u32le_eq (v : Nat) (h : v < 4294967296) : u32le v = WriteLE32 v := by
  simp only [u32le, WriteLE32]
  congr 4
  omega

/-! ## The bytes written by `WriteZipStore` -/

theorem foldl_writeLocal (crc : List Nat → Nat) (es : List FZipEntry) :
    ∀ (ar : List Nat) (cs : List FCentralDirEntry),
      es.foldl (writeLocal crc) (ar, cs)
        = (ar ++ es.flatMap (localBytes crc), cs ++ centralEntries crc ar.length es) := by
  induction es with
  | nil => intro ar cs; simp [centralEntries]
  | cons E es ih =>
    intro ar cs
    rw [List.foldl_cons]
    have h : writeLocal crc (ar, cs) E
        = (ar ++ localBytes crc E,
            cs ++ [{ Name := E.NameInZip, UncompSize := E.Data.length % 4294967296,
                     CompSize := E.Data.length % 4294967296,
                     Crc32 := crc E.Data % 4294967296,
                     LocalHeaderOffset := ar.length % 4294967296 }]) := by
      simp [writeLocal, localBytes, List.append_assoc]
    rw [h, ih]
    simp [centralEntries, List.flatMap_cons, List.append_assoc]

theorem foldl_writeCentral (cs : List FCentralDirEntry) :
    ∀ ar : List Nat, cs.foldl writeCentral ar = ar ++ cs.flatMap centralBytes := by
  induction cs with
  | nil => intro ar; simp
  | cons C cs ih =>
    intro ar
    rw [List.foldl_cons, ih]
    simp [writeCentral, centralBytes, List.flatMap_cons, List.append_assoc]

theorem centralEntries_length (crc : List Nat → Nat) (es : List FZipEntry) :
    ∀ off, (centralEntries crc off es).length = es.length := by
  induction es with
  | nil => intro off; rfl
  | cons E es ih => intro off; simp [centralEntries, ih]

theorem WriteZipStore_eq (crc : List Nat → Nat) (es : List FZipEntry) :
    WriteZipStore crc es
      = es.flatMap (localBytes crc) ++ (centralEntries crc 0 es).flatMap centralBytes
        ++ endBytes es.length ((centralEntries crc 0 es).flatMap centralBytes).length
            (es.flatMap (localBytes crc)).length := by
  have hsz : ∀ a c : Nat,
      WriteLE32 (((a + c) % 4294967296 + 4294967296 - a % 4294967296) % 4294967296)
        = WriteLE32 c := by
    intro a c
    rw [← WriteLE32_mod c]
    congr 1
    omega
  simp only [WriteZipStore, foldl_writeLocal, foldl_writeCentral, List.nil_append,
    List.length_nil, centralEntries_length, List.length_append, hsz, WriteLE32_mod, endBytes,
    List.append_assoc]

theorem localBytes_eq_spec (crc : List Nat → Nat) (E : FZipEntry)
    (hcrc : crc E.Data < 4294967296)
    (hname : (FTCHARToUTF8 E.NameInZip).length ≤ 65535)
    (hdata : E.Data.length < 4294967296) :
    localBytes crc E = specLocalRecord crc E := by
  have h1 : (FTCHARToUTF8 E.NameInZip).length % 65536 = (FTCHARToUTF8 E.NameInZip).length := by
    omega
  simp only [localBytes, specLocalRecord, specLocalHeader, WriteLE32_mod, WriteLE16_mod, h1,
    List.take_length]
  rw [u32le_eq _ hcrc, u32le_eq _ hdata, u16le_eq _ (by omega : (FTCHARToUTF8 E.NameInZip).length < 65536),
    u32le_eq 0x04034b50 (by norm_num), u16le_eq 20 (by norm_num), u16le_eq 0 (by norm_num)]

theorem specLocalHeader_length (crc : List Nat → Nat) (E : FZipEntry) :
    (specLocalHeader crc E).length = 30 := rfl

theorem specLocalRecord_length (crc : List Nat → Nat) (E : FZipEntry) :
    (specLocalRecord crc E).length = 30 + (FTCHARToUTF8 E.NameInZip).length + E.Data.length := by
  simp [specLocalRecord, specLocalHeader_length, Nat.add_assoc]

theorem specCentralRecord_length (crc : List Nat → Nat) (off : Nat) (E : FZipEntry) :
    (specCentralRecord crc off E).length = 46 + (FTCHARToUTF8 E.NameInZip).length := by
  simp [specCentralRecord, u32le, u16le]
  omega

theorem flatMap_localBytes_eq_spec (crc : List Nat → Nat) (es : List FZipEntry)
    (hcrc : ∀ d, crc d < 4294967296)
    (hname : ∀ E ∈ es, (FTCHARToUTF8 E.NameInZip).length ≤ 65535)
    (hdata : ∀ E ∈ es, E.Data.length < 4294967296) :
    es.flatMap (localBytes crc) = es.flatMap (specLocalRecord crc) := by
  induction es with
  | nil => rfl
  | cons E es ih =>
    rw [List.flatMap_cons, List.flatMap_cons,
      localBytes_eq_spec crc E (hcrc _) (hname E (List.mem_cons_self _ _))
        (hdata E (List.mem_cons_self _ _)),
      ih (fun X hX => hname X (List.mem_cons_of_mem _ hX))
        (fun X hX => hdata X (List.mem_cons_of_mem _ hX))]

theorem central_eq_spec (crc : List Nat → Nat) (es : List FZipEntry)
    (hcrc : ∀ d, crc d < 4294967296) :
    ∀ off : Nat,
      (∀ E ∈ es, (FTCHARToUTF8 E.NameInZip).length ≤ 65535) →
      (∀ E ∈ es, E.Data.length < 4294967296) →
      off + (es.flatMap (specLocalRecord crc)).length < 4294967296 →
      (centralEntries crc off es).flatMap centralBytes = specCentralDirectory crc off es := by
  induction es with
  | nil => intro off _ _ _; rfl
  | cons E es ih =>
    intro off hname hdata hsize
    have hn := hname E (List.mem_cons_self _ _)
    have hd := hdata E (List.mem_cons_self _ _)
    have hloc := localBytes_eq_spec crc E (hcrc _) hn hd
    have h1 : (FTCHARToUTF8 E.NameInZip).length % 65536 = (FTCHARToUTF8 E.NameInZip).length := by
      omega
    rw [List.flatMap_cons, List.length_append] at hsize
    have hoff : off < 4294967296 := by omega
    rw [centralEntries, List.flatMap_cons, specCentralDirectory, hloc]
    rw [ih (off + (specLocalRecord crc E).length)
      (fun X hX => hname X (List.mem_cons_of_mem _ hX))
      (fun X hX => hdata X (List.mem_cons_of_mem _ hX)) (by omega)]
    congr 1
    simp only [centralBytes, writeCentral, List.nil_append, WriteLE32_mod, WriteLE16_mod,
      specCentralRecord, h1, List.take_length]
    rw [u32le_eq _ (hcrc E.Data), u32le_eq _ hd, u32le_eq _ hoff,
      u16le_eq _ (by omega : (FTCHARToUTF8 E.NameInZip).length < 65536),
      u32le_eq 0x02014b50 (by norm_num), u16le_eq 20 (by norm_num), u16le_eq 0 (by norm_num),
      u32le_eq 0 (by norm_num)]

theorem endBytes_eq_spec (count size offset : Nat) (hc : count < 65536)
    (hs : size < 4294967296) (ho : offset < 4294967296) :
    endBytes count size offset = specEndRecord count size offset := by
  simp only [endBytes, specEndRecord, WriteLE16_mod]
  rw [u32le_eq _ hs, u32le_eq _ ho, u16le_eq _ hc, u32le_eq 0x06054b50 (by norm_num),
    u16le_eq 0 (by norm_num)]

theorem FTCHARToUTF8_replicate_a (n : Nat) :
    FTCHARToUTF8 (List.replicate n (Char.ofNat 97)) = List.replicate n 97 := by
  induction n with
  | zero => rfl
  | succ n ih =>
    rw [List.replicate_succ, List.replicate_succ]
    show utf8EncodeChar (Char.ofNat 97) ++ FTCHARToUTF8 (List.replicate n (Char.ofNat 97)) = _
    rw [ih]
    rfl

/-- C4 (as amended): for entries whose UTF-8 names have at most 65535 bytes
(payloads being shorter than 2^32 bytes and the checksum a `uint32`), the bytes
written by `WriteZipStore` begin with one local record per entry, in input
order: a header of exactly 30 bytes (signature 0x04034b50, version 20, flags 0,
method 0, time 0, date 0, CRC32 of the payload, the payload length twice, the
UTF-8 name length, extra length 0, all little-endian and holding these values
exactly), then the UTF-8 name bytes and the raw payload bytes. -/
theorem WriteZipStore_local_records (crc : List Nat → Nat) (es : List FZipEntry)
    (hcrc : ∀ d, crc d < 4294967296)
    (hname : ∀ E ∈ es, (FTCHARToUTF8 E.NameInZip).length ≤ 65535)
    (hdata : ∀ E ∈ es, E.Data.length < 4294967296) :
    (∃ tail, WriteZipStore crc es = es.flatMap (specLocalRecord crc) ++ tail)
      ∧ ∀ E ∈ es, (specLocalHeader crc E).length = 30
          ∧ specLocalRecord crc E = specLocalHeader crc E ++ FTCHARToUTF8 E.NameInZip ++ E.Data := by
  refine ⟨⟨(centralEntries crc 0 es).flatMap centralBytes
      ++ endBytes es.length ((centralEntries crc 0 es).flatMap centralBytes).length
          (es.flatMap (localBytes crc)).length, ?_⟩, fun E _ => ⟨rfl, rfl⟩⟩
  rw [WriteZipStore_eq, flatMap_localBytes_eq_spec crc es hcrc hname hdata, List.append_assoc]

/-- Witness for C4: the archive of the single entry `a` with payload `[7]`. -/
theorem WriteZipStore_local_records_witness :
    (∃ tail, WriteZipStore (fun _ => 0) [⟨[Char.ofNat 97], [7]⟩]
        = [(⟨[Char.ofNat 97], [7]⟩ : FZipEntry)].flatMap (specLocalRecord (fun _ => 0)) ++ tail)
      ∧ ∀ E ∈ [(⟨[Char.ofNat 97], [7]⟩ : FZipEntry)], (specLocalHeader (fun _ => 0) E).length = 30
          ∧ specLocalRecord (fun _ => 0) E
              = specLocalHeader (fun _ => 0) E ++ FTCHARToUTF8 E.NameInZip ++ E.Data :=
  WriteZipStore_local_records (fun _ => 0) [⟨[Char.ofNat 97], [7]⟩] (fun _ => by norm_num)
    (by decide) (by decide)

theorem WriteZipStore_single_length (crc : List Nat → Nat) (E : FZipEntry) :
    (WriteZipStore crc [E]).length
      = 98 + 2 * ((FTCHARToUTF8 E.NameInZip).length % 65536) + E.Data.length := by
  have hk : (FTCHARToUTF8 E.NameInZip).length % 65536 ≤ (FTCHARToUTF8 E.NameInZip).length :=
    Nat.mod_le _ _
  rw [WriteZipStore_eq]
  simp only [List.flatMap_cons, List.flatMap_nil, List.append_nil, centralEntries, localBytes,
    centralBytes, writeCentral, endBytes, List.length_append, WriteLE32_length,
    WriteLE16_length, List.length_take, List.nil_append, List.length_nil]
  omega

theorem WriteZipStore_long_name_aux (crc : List Nat → Nat) (nm : FString)
    (h : (FTCHARToUTF8 nm).length = 65536) :
    (WriteZipStore crc [⟨nm, []⟩]).length = 98
      ∧ ¬ ∃ tail, WriteZipStore crc [⟨nm, []⟩]
          = [(⟨nm, []⟩ : FZipEntry)].flatMap (specLocalRecord crc) ++ tail := by
  have hlen : (WriteZipStore crc [⟨nm, []⟩]).length = 98 := by
    rw [WriteZipStore_single_length]
    simp only [h, List.length_nil]
  refine ⟨hlen, ?_⟩
  rintro ⟨tail, h1⟩
  have h2 := congrArg List.length h1
  rw [hlen] at h2
  simp only [List.flatMap_cons, List.flatMap_nil, List.append_nil, List.length_append,
    specLocalRecord_length, h, List.length_nil] at h2
  omega

/-- C4 as stated fails: for the entry whose name is 65536 times the letter
`a` (and whose payload is empty) `WriteZipStore` writes 98 bytes: the name
length field is 0 and no name byte follows the header, so the output does not
begin with the local record of the claim. -/
theorem WriteZipStore_local_records_long_name :
    (WriteZipStore (fun _ => 0) [⟨List.replicate 65536 (Char.ofNat 97), []⟩]).length = 98
      ∧ ¬ ∃ tail, WriteZipStore (fun _ => 0) [⟨List.replicate 65536 (Char.ofNat 97), []⟩]
          = [(⟨List.replicate 65536 (Char.ofNat 97), []⟩ : FZipEntry)].flatMap
              (specLocalRecord (fun _ => 0)) ++ tail :=
  WriteZipStore_long_name_aux (fun _ => 0) (List.replicate 65536 (Char.ofNat 97))
    ((congrArg List.length (FTCHARToUTF8_replicate_a 65536)).trans (List.length_replicate _ _))

theorem specEndRecord_length (count size offset : Nat) :
    (specEndRecord count size offset).length = 22 := rfl

theorem endBytes_length (count size offset : Nat) :
    (endBytes count size offset).length = 22 := rfl

/-- C5 (as amended): for fewer than 65536 entries whose UTF-8 names have at
most 65535 bytes, whose local records take less than 2^32 bytes and whose
central directory takes less than 2^32 bytes, the bytes that `WriteZipStore`
writes are the local records, then one central-directory record of
46 + name length bytes per entry in input order (signature 0x02014b50, method 0,
the checksum, sizes and name of the local header, and the byte position of the
local header as offset), then one end record of 22 bytes (signature 0x06054b50)
with the number of entries twice, the length of the central directory and the
length of the local records. -/
theorem WriteZipStore_central_directory (crc : List Nat → Nat) (es : List FZipEntry)
    (hcrc : ∀ d, crc d < 4294967296)
    (hname : ∀ E ∈ es, (FTCHARToUTF8 E.NameInZip).length ≤ 65535)
    (hdata : ∀ E ∈ es, E.Data.length < 4294967296)
    (hcount : es.length < 65536)
    (hlocal : (es.flatMap (specLocalRecord crc)).length < 4294967296)
    (hcentral : (specCentralDirectory crc 0 es).length < 4294967296) :
    WriteZipStore crc es = specArchive crc es
      ∧ specArchive crc es
          = es.flatMap (specLocalRecord crc) ++ specCentralDirectory crc 0 es
            ++ specEndRecord es.length (specCentralDirectory crc 0 es).length
                (es.flatMap (specLocalRecord crc)).length
      ∧ (∀ off, ∀ E ∈ es,
          (specCentralRecord crc off E).length = 46 + (FTCHARToUTF8 E.NameInZip).length)
      ∧ (specEndRecord es.length (specCentralDirectory crc 0 es).length
          (es.flatMap (specLocalRecord crc)).length).length = 22 := by
  refine ⟨?_, rfl, fun off E _ => specCentralRecord_length crc off E, rfl⟩
  rw [specArchive, WriteZipStore_eq, flatMap_localBytes_eq_spec crc es hcrc hname hdata,
    central_eq_spec crc es hcrc 0 hname hdata (by omega),
    endBytes_eq_spec _ _ _ hcount hcentral hlocal]

/-- Witness for C5: the archive of the single entry `a` with payload `[7]`. -/
theorem WriteZipStore_central_directory_witness :
    ([(⟨[Char.ofNat 97], [7]⟩ : FZipEntry)].length < 65536
        ∧ ([(⟨[Char.ofNat 97], [7]⟩ : FZipEntry)].flatMap (specLocalRecord (fun _ => 0))).length
            < 4294967296
        ∧ (specCentralDirectory (fun _ => 0) 0 [⟨[Char.ofNat 97], [7]⟩]).length < 4294967296)
      ∧ WriteZipStore (fun _ => 0) [⟨[Char.ofNat 97], [7]⟩]
          = specArchive (fun _ => 0) [⟨[Char.ofNat 97], [7]⟩] :=
  ⟨by decide,
    (WriteZipStore_central_directory (fun _ => 0) [⟨[Char.ofNat 97], [7]⟩]
      (fun _ => by norm_num) (by decide) (by decide) (by decide) (by decide) (by decide)).1⟩

theorem WriteZipStore_count_aux (crc : List Nat → Nat) (es : List FZipEntry)
    (h : es.length = 65536) : WriteZipStore crc es ≠ specArchive crc es := by
  intro heq
  rw [WriteZipStore_eq, specArchive] at heq
  have h2 := List.append_inj_right' heq (by rw [endBytes_length, specEndRecord_length])
  rw [h] at h2
  simp [endBytes, specEndRecord, WriteLE16, WriteLE32, u16le, u32le] at h2

/-- C5 as stated fails: for 65536 entries (each with an empty name and an
empty payload) the two entry-count fields of the end record that
`WriteZipStore` writes hold 0, not the number of entries, so the output is not
the archive of the claim. -/
theorem WriteZipStore_central_directory_many_entries :
    WriteZipStore (fun _ => 0) (List.replicate 65536 ⟨[], []⟩)
      ≠ specArchive (fun _ => 0) (List.replicate 65536 ⟨[], []⟩) :=
  WriteZipStore_count_aux (fun _ => 0) (List.replicate 65536 ⟨[], []⟩)
    (List.length_replicate _ _)

/-! ## UTF-8 round trip -/

theorem FUTF8ToTCHAR_cons (b0 : Nat) (rest : List Nat) :
    FUTF8ToTCHAR (b0 :: rest)
      = if b0 < 128 then Char.ofNat b0 :: FUTF8ToTCHAR rest
        else if b0 < 224 then
          match rest with
          | b1 :: r => Char.ofNat ((b0 - 192) * 64 + (b1 - 128)) :: FUTF8ToTCHAR r
          | _ => []
        else if b0 < 240 then
          match rest with
          | b1 :: b2 :: r =>
            Char.ofNat ((b0 - 224) * 4096 + (b1 - 128) * 64 + (b2 - 128)) :: FUTF8ToTCHAR r
          | _ => []
        else
          match rest with
          | b1 :: b2 :: b3 :: r =>
            Char.ofNat ((b0 - 240) * 262144 + (b1 - 128) * 4096 + (b2 - 128) * 64 + (b3 - 128))
              :: FUTF8ToTCHAR r
          | _ => [] := by
  cases rest with
  | nil => rfl
  | cons b1 r1 =>
    cases r1 with
    | nil => rfl
    | cons b2 r2 =>
      cases r2 with
      | nil => rfl
      | cons b3 r3 => rfl

theorem FUTF8ToTCHAR_one (b0 : Nat) (rest : List Nat) (h : b0 < 128) :
    FUTF8ToTCHAR (b0 :: rest) = Char.ofNat b0 :: FUTF8ToTCHAR rest := by
  rw [FUTF8ToTCHAR_cons, if_pos h]

theorem FUTF8ToTCHAR_two (b0 b1 : Nat) (rest : List Nat) (h1 : ¬ b0 < 128) (h2 : b0 < 224) :
    FUTF8ToTCHAR (b0 :: b1 :: rest)
      = Char.ofNat ((b0 - 192) * 64 + (b1 - 128)) :: FUTF8ToTCHAR rest := by
  rw [FUTF8ToTCHAR_cons, if_neg h1, if_pos h2]

theorem FUTF8ToTCHAR_three (b0 b1 b2 : Nat) (rest : List Nat) (h1 : ¬ b0 < 128)
    (h2 : ¬ b0 < 224) (h3 : b0 < 240) :
    FUTF8ToTCHAR (b0 :: b1 :: b2 :: rest)
      = Char.ofNat ((b0 - 224) * 4096 + (b1 - 128) * 64 + (b2 - 128)) :: FUTF8ToTCHAR rest := by
  rw [FUTF8ToTCHAR_cons, if_neg h1, if_neg h2, if_pos h3]

theorem FUTF8ToTCHAR_four (b0 b1 b2 b3 : Nat) (rest : List Nat) (h1 : ¬ b0 < 128)
    (h2 : ¬ b0 < 224) (h3 : ¬ b0 < 240) :
    FUTF8ToTCHAR (b0 :: b1 :: b2 :: b3 :: rest)
      = Char.ofNat ((b0 - 240) * 262144 + (b1 - 128) * 4096 + (b2 - 128) * 64 + (b3 - 128))
          :: FUTF8ToTCHAR rest := by
  rw [FUTF8ToTCHAR_cons, if_neg h1, if_neg h2, if_neg h3]

theorem FUTF8ToTCHAR_encodeChar (c : Char) (rest : List Nat) :
    FUTF8ToTCHAR (utf8EncodeChar c ++ rest) = c :: FUTF8ToTCHAR rest := by
  have hc : Char.ofNat c.toNat = c := Char.ofNat_toNat c
  unfold utf8EncodeChar
  simp only
  split_ifs with h1 h2 h3
  · rw [List.singleton_append, FUTF8ToTCHAR_one _ _ h1, hc]
  · have e : (192 + c.toNat / 64 - 192) * 64 + (128 + c.toNat % 64 - 128) = c.toNat := by omega
    rw [List.cons_append, List.singleton_append,
      FUTF8ToTCHAR_two _ _ _ (by omega) (by omega), e, hc]
  · have e : (224 + c.toNat / 4096 - 224) * 4096 + (128 + c.toNat / 64 % 64 - 128) * 64
        + (128 + c.toNat % 64 - 128) = c.toNat := by omega
    rw [List.cons_append, List.cons_append, List.singleton_append,
      FUTF8ToTCHAR_three _ _ _ _ (by omega) (by omega) (by omega), e, hc]
  · have e : (240 + c.toNat / 262144 - 240) * 262144 + (128 + c.toNat / 4096 % 64 - 128) * 4096
        + (128 + c.toNat / 64 % 64 - 128) * 64 + (128 + c.toNat % 64 - 128) = c.toNat := by
      omega
    rw [List.cons_append, List.cons_append, List.cons_append, List.singleton_append,
      FUTF8ToTCHAR_four _ _ _ _ _ (by omega) (by omega) (by omega), e, hc]

theorem FUTF8ToTCHAR_FTCHARToUTF8 (s : FString) : FUTF8ToTCHAR (FTCHARToUTF8 s) = s := by
  induction s with
  | nil => rfl
  | cons c cs ih =>
    show FUTF8ToTCHAR (utf8EncodeChar c ++ FTCHARToUTF8 cs) = c :: cs
    rw [FUTF8ToTCHAR_encodeChar, ih]

theorem FTCHARToUTF8_injective (s t : FString) (h : FTCHARToUTF8 s = FTCHARToUTF8 t) : s = t := by
  rw [← FUTF8ToTCHAR_FTCHARToUTF8 s, ← FUTF8ToTCHAR_FTCHARToUTF8 t, h]

/-! ## Reading back what `WriteZipStore` wrote -/

theorem Serialize_append (uninit : Nat → List Nat) (a r : List Nat) (e : Bool) :
    Serialize uninit { rest := a ++ r, err := e } a.length = (a, { rest := r, err := e }) := by
  simp [Serialize]

theorem readEntry_localBytes (uninit : Nat → List Nat) (crc : List Nat → Nat) (E : FZipEntry)
    (rest : List Nat)
    (hname : (FTCHARToUTF8 E.NameInZip).length ≤ 65535)
    (hdata : E.Data.length < 4294967296) :
    readEntry uninit { rest := localBytes crc E ++ rest, err := false }
      = .entry E.NameInZip E.Data { rest := rest, err := false } := by
  have h1 : (FTCHARToUTF8 E.NameInZip).length % 65536 = (FTCHARToUTF8 E.NameInZip).length := by
    omega
  have h2 : E.Data.length % 4294967296 = E.Data.length := by omega
  have hN : (if (FTCHARToUTF8 E.NameInZip).length > 0
      then FUTF8ToTCHAR (FTCHARToUTF8 E.NameInZip) else []) = E.NameInZip := by
    rw [FUTF8ToTCHAR_FTCHARToUTF8]
    split_ifs with h
    · rfl
    · cases hE : E.NameInZip with
      | nil => rfl
      | cons c cs =>
        exfalso
        apply h
        rw [hE]
        show (utf8EncodeChar c ++ FTCHARToUTF8 cs).length > 0
        have : 0 < (utf8EncodeChar c).length := by
          unfold utf8EncodeChar
          simp only
          split_ifs <;> simp
        rw [List.length_append]
        omega
  have hD : (if E.Data.length > 0
      then Serialize uninit { rest := E.Data ++ rest, err := false } E.Data.length
      else ([], { rest := E.Data ++ rest, err := false }))
        = (E.Data, { rest := rest, err := false }) := by
    split_ifs with h
    · exact Serialize_append uninit E.Data rest false
    · have : E.Data = [] := List.eq_nil_of_length_eq_zero (by omega)
      rw [this]
      rfl
  simp only [localBytes, List.append_assoc, readEntry, ReadLE32_WriteLE32, readLocalHeader,
    ReadLE16_WriteLE16, bind, Option.bind, pure, h1, h2, List.take_length, Nat.mod_mod]
  norm_num
  rw [Serialize_append]
  simp [hN, hD]

/-! ## Names that end in a slash -/

theorem toLower_eq_slash (c : Char) (h : c.toLower = slash) : c = slash := by
  unfold Char.toLower at h
  simp only at h
  split_ifs at h with h1
  · exfalso
    have h2 : c.toNat - 65 < 26 := by omega
    have h3 : c.toNat = 65 + (c.toNat - 65) := by omega
    generalize c.toNat - 65 = k at h2 h3
    rw [h3] at h
    interval_cases k <;> revert h <;> decide
  · exact h

theorem EndsWith_slash (P : FString) : EndsWith P [slash] = true ↔ P.getLast? = some slash := by
  have hs : ToLower [slash] = [slash] := by decide
  rw [EndsWith, hs, ToLower, ← List.map_reverse, List.reverse_singleton,
    List.getLast?_eq_head?_reverse]
  cases P.reverse with
  | nil => simp [List.isPrefixOf]
  | cons c cs =>
    simp only [List.map_cons, List.isPrefixOf, List.head?_cons, Option.some.injEq,
      Bool.and_true, beq_iff_eq]
    constructor
    · intro h
      exact toLower_eq_slash c h.symm
    · intro h
      rw [h]
      decide

/-! ## The local-file-header loop on an archive of `WriteZipStore` -/

theorem readEntry_centralBytes (uninit : Nat → List Nat) (C : FCentralDirEntry)
    (rest : List Nat) :
    readEntry uninit { rest := centralBytes C ++ rest, err := false } = .centralDirectory := by
  simp only [centralBytes, writeCentral, List.nil_append, List.append_assoc, readEntry,
    ReadLE32_WriteLE32]
  norm_num

theorem readEntry_endBytes (uninit : Nat → List Nat) (count size offset : Nat) :
    readEntry uninit { rest := endBytes count size offset, err := false }
      = .centralDirectory := by
  simp only [endBytes, List.append_assoc, readEntry, ReadLE32_WriteLE32]
  norm_num

theorem readEntry_directory (uninit : Nat → List Nat) (cs : List FCentralDirEntry)
    (count size offset : Nat) :
    readEntry uninit
        { rest := cs.flatMap centralBytes ++ endBytes count size offset, err := false }
      = .centralDirectory := by
  cases cs with
  | nil => exact readEntry_endBytes uninit count size offset
  | cons C cs =>
    rw [List.flatMap_cons, List.append_assoc]
    exact readEntry_centralBytes uninit C _

theorem localBytes_ne_nil (crc : List Nat → Nat) (E : FZipEntry) (rest : List Nat) :
    (localBytes crc E ++ rest).isEmpty = false := by
  simp [localBytes, WriteLE32]

theorem length_le_flatMap_localBytes (crc : List Nat → Nat) (es : List FZipEntry) :
    es.length ≤ (es.flatMap (localBytes crc)).length := by
  induction es with
  | nil => simp
  | cons E es ih =>
    rw [List.flatMap_cons, List.length_append, List.length_cons]
    have : 1 ≤ (localBytes crc E).length := by
      simp [localBytes, WriteLE32]
    omega

/-! ## Safe names stay below the destination root -/

theorem mem_splitAt (d : Char) (s : FString) :
    ∀ seg ∈ splitAt d s, ∀ c ∈ seg, c ∈ s ∧ c ≠ d := by
  induction s with
  | nil =>
    intro seg hseg c hc
    simp only [splitAt, List.mem_singleton] at hseg
    rw [hseg] at hc
    exact absurd hc (List.not_mem_nil c)
  | cons a as ih =>
    intro seg hseg c hc
    rw [splitAt] at hseg
    split_ifs at hseg with had
    · rcases List.mem_cons.mp hseg with h | h
      · rw [h] at hc
        exact absurd hc (List.not_mem_nil c)
      · exact ⟨List.mem_cons_of_mem _ (ih seg h c hc).1, (ih seg h c hc).2⟩
    · cases hsp : splitAt d as with
      | nil =>
        rw [hsp] at hseg
        simp only [List.mem_singleton] at hseg
        rw [hseg, List.mem_singleton] at hc
        rw [hc]
        exact ⟨List.mem_cons_self _ _, had⟩
      | cons h t =>
        rw [hsp] at hseg ih
        simp only at hseg
        rcases List.mem_cons.mp hseg with h1 | h1
        · rw [h1] at hc
          rcases List.mem_cons.mp hc with h2 | h2
          · rw [h2]
            exact ⟨List.mem_cons_self _ _, had⟩
          · have := ih h (List.mem_cons_self _ _) c h2
            exact ⟨List.mem_cons_of_mem _ this.1, this.2⟩
        · have := ih seg (List.mem_cons_of_mem _ h1) c hc
          exact ⟨List.mem_cons_of_mem _ this.1, this.2⟩

theorem splitAt_append_cons (d : Char) (r : FString) :
    ∀ p : FString, d ∉ p → splitAt d (p ++ d :: r) = p :: splitAt d r := by
  intro p
  induction p with
  | nil => intro _; simp [splitAt]
  | cons c p ih =>
    intro h
    have hc : c ≠ d := fun e => h (e ▸ List.mem_cons_self _ _)
    have hp : d ∉ p := fun e => h (List.mem_cons_of_mem _ e)
    rw [List.cons_append, splitAt, if_neg hc, ih hp]

theorem splitAt_of_not_mem (d : Char) :
    ∀ p : FString, d ∉ p → splitAt d p = [p] := by
  intro p
  induction p with
  | nil => intro _; rfl
  | cons c p ih =>
    intro h
    have hc : c ≠ d := fun e => h (e ▸ List.mem_cons_self _ _)
    have hp : d ∉ p := fun e => h (List.mem_cons_of_mem _ e)
    rw [splitAt, if_neg hc, ih hp]

theorem Join_nil (d : Char) : Join [] d = [] := rfl

theorem Join_singleton (d : Char) (p : FString) : Join [p] d = p := by
  simp [Join, List.intercalate, List.intersperse]

theorem Join_cons_cons (d : Char) (p q : FString) (ps : List FString) :
    Join (p :: q :: ps) d = p ++ d :: Join (q :: ps) d := by
  simp [Join, List.intercalate, List.intersperse]

theorem mem_Join (d : Char) (L : List FString) :
    ∀ c ∈ Join L d, c = d ∨ ∃ p ∈ L, c ∈ p := by
  induction L with
  | nil => intro c hc; exact absurd hc (List.not_mem_nil c)
  | cons p ps ih =>
    cases ps with
    | nil =>
      intro c hc
      rw [Join_singleton] at hc
      exact Or.inr ⟨p, List.mem_cons_self _ _, hc⟩
    | cons q qs =>
      intro c hc
      rw [Join_cons_cons, List.mem_append, List.mem_cons] at hc
      rcases hc with h | h | h
      · exact Or.inr ⟨p, List.mem_cons_self _ _, h⟩
      · exact Or.inl h
      · rcases ih c h with h1 | ⟨x, hx, hcx⟩
        · exact Or.inl h1
        · exact Or.inr ⟨x, List.mem_cons_of_mem _ hx, hcx⟩

theorem splitAt_Join (d : Char) (L : List FString) (hL : ∀ p ∈ L, d ∉ p) :
    ∀ seg ∈ splitAt d (Join L d), seg ∈ L ∨ seg = [] := by
  induction L with
  | nil =>
    intro seg hseg
    rw [Join_nil, splitAt, List.mem_singleton] at hseg
    exact Or.inr hseg
  | cons p ps ih =>
    cases ps with
    | nil =>
      intro seg hseg
      rw [Join_singleton, splitAt_of_not_mem d p (hL p (List.mem_cons_self _ _)),
        List.mem_singleton] at hseg
      exact Or.inl (hseg ▸ List.mem_cons_self _ _)
    | cons q qs =>
      intro seg hseg
      rw [Join_cons_cons, splitAt_append_cons d _ p (hL p (List.mem_cons_self _ _)),
        List.mem_cons] at hseg
      rcases hseg with h | h
      · exact Or.inl (h ▸ List.mem_cons_self _ _)
      · rcases ih (fun x hx => hL x (List.mem_cons_of_mem _ hx)) seg h with h1 | h1
        · exact Or.inl (List.mem_cons_of_mem _ h1)
        · exact Or.inr h1

theorem head_Join (d : Char) (L : List FString) (hL : ∀ p ∈ L, p ≠ [] ∧ d ∉ p) :
    (Join L d).head? ≠ some d := by
  cases L with
  | nil => simp [Join_nil]
  | cons p ps =>
    obtain ⟨hne, hd⟩ := hL p (List.mem_cons_self _ _)
    cases p with
    | nil => exact absurd rfl hne
    | cons c cs =>
      have hc : c ≠ d := fun e => hd (e ▸ List.mem_cons_self _ _)
      cases ps with
      | nil =>
        rw [Join_singleton]
        simpa using hc
      | cons q qs =>
        rw [Join_cons_cons]
        simpa using hc

theorem staysBelowRoot_of_no_dotdot (segs : List FString) (h : ∀ seg ∈ segs, seg ≠ [dot, dot]) :
    ∀ depth, staysBelowRoot segs depth = true := by
  induction segs with
  | nil => intro depth; rfl
  | cons seg segs ih =>
    intro depth
    have h1 := h seg (List.mem_cons_self _ _)
    have h2 := ih (fun x hx => h x (List.mem_cons_of_mem _ hx))
    rw [staysBelowRoot.eq_def]
    simp only [h1, if_false]
    split_ifs
    · exact h2 depth
    · exact h2 (depth + 1)

theorem head_chopLeadingSlashes (P : FString) : (chopLeadingSlashes P).head? ≠ some slash := by
  induction P with
  | nil => simp [chopLeadingSlashes]
  | cons c cs ih =>
    rw [chopLeadingSlashes]
    split_ifs with h
    · exact ih
    · simpa using h

theorem mem_chopLeadingSlashes (P : FString) : ∀ c ∈ chopLeadingSlashes P, c ∈ P := by
  induction P with
  | nil => intro c hc; exact hc
  | cons a as ih =>
    intro c hc
    rw [chopLeadingSlashes] at hc
    split_ifs at hc with h
    · exact List.mem_cons_of_mem _ (ih c hc)
    · exact hc

theorem backslash_not_mem_NormalizeRelPath (Path : FString) :
    backslash ∉ NormalizeRelPath Path := by
  intro h
  have h1 := mem_chopLeadingSlashes _ _ h
  rw [ReplaceInline, List.mem_map] at h1
  obtain ⟨c, _, hc⟩ := h1
  split_ifs at hc with h2
  · exact absurd hc (by decide)
  · exact h2 hc

theorem IsSafeZipRelPath_spec (Name : FString) (h : IsSafeZipRelPath Name = true) :
    NormalizeRelPath Name ≠ [] ∧ colon ∉ NormalizeRelPath Name
      ∧ ∀ part ∈ ParseIntoArray (NormalizeRelPath Name) slash,
          part ≠ [dot, dot] ∧ part ≠ [dot] := by
  unfold IsSafeZipRelPath at h
  simp only at h
  split_ifs at h with h1 h2
  refine ⟨?_, ?_, ?_⟩
  · intro e
    rw [e] at h1
    exact h1 rfl
  · intro hc
    apply h2
    simpa using hc
  · intro part hpart
    rw [List.all_eq_true] at h
    have := h part hpart
    simpa using this

theorem ParseIntoArray_part (P : FString) (d : Char) :
    ∀ part ∈ ParseIntoArray P d, part ∈ splitAt d P ∧ part ≠ [] ∧ d ∉ part
      ∧ ∀ c ∈ part, c ∈ P := by
  intro part hpart
  rw [ParseIntoArray, List.mem_filter] at hpart
  obtain ⟨h1, h2⟩ := hpart
  refine ⟨h1, ?_, ?_, ?_⟩
  · intro e
    rw [e] at h2
    exact absurd h2 (by decide)
  · intro hd
    exact (mem_splitAt d P part h1 d hd).2 rfl
  · intro c hc
    exact (mem_splitAt d P part h1 c hc).1

theorem safe_Join (P : FString) (L : List FString)
    (hcolon : colon ∉ P) (hback : backslash ∉ P)
    (hparts : ∀ part ∈ ParseIntoArray P slash, part ≠ [dot, dot] ∧ part ≠ [dot])
    (hL : L ⊆ ParseIntoArray P slash) :
    colon ∉ Join L slash ∧ backslash ∉ Join L slash ∧ (Join L slash).head? ≠ some slash
      ∧ (∀ seg ∈ splitAt slash (Join L slash), seg ≠ [dot] ∧ seg ≠ [dot, dot])
      ∧ staysBelowRoot (splitAt slash (Join L slash)) 0 = true := by
  have hseg : ∀ seg ∈ splitAt slash (Join L slash), seg ≠ [dot] ∧ seg ≠ [dot, dot] := by
    intro seg hseg
    rcases splitAt_Join slash L (fun p hp => (ParseIntoArray_part P slash p (hL hp)).2.2.1)
      seg hseg with h | h
    · exact ⟨(hparts seg (hL h)).2, (hparts seg (hL h)).1⟩
    · rw [h]
      exact ⟨by decide, by decide⟩
  refine ⟨?_, ?_, ?_, hseg, staysBelowRoot_of_no_dotdot _ (fun seg hs => (hseg seg hs).2) 0⟩
  · intro hc
    rcases mem_Join slash L colon hc with h | ⟨p, hp, hcp⟩
    · exact absurd h (by decide)
    · exact hcolon ((ParseIntoArray_part P slash p (hL hp)).2.2.2 colon hcp)
  · intro hc
    rcases mem_Join slash L backslash hc with h | ⟨p, hp, hcp⟩
    · exact absurd h (by decide)
    · exact hback ((ParseIntoArray_part P slash p (hL hp)).2.2.2 backslash hcp)
  · exact head_Join slash L (fun p hp =>
      ⟨(ParseIntoArray_part P slash p (hL hp)).2.1, (ParseIntoArray_part P slash p (hL hp)).2.2.1⟩)

/-- C2: for every entry name that `IsSafeZipRelPath` accepts, the relative path
that `NormalizeImportRelPath` yields contains no colon and no backslash, does
not start with `/`, and has no `/`-separated segment equal to `.` or `..`; so
walking its segments below the destination root never climbs above the
root. -/
theorem NormalizeImportRelPath_safe (Name : FString) (h : IsSafeZipRelPath Name = true) :
    colon ∉ NormalizeImportRelPath Name
      ∧ backslash ∉ NormalizeImportRelPath Name
      ∧ (NormalizeImportRelPath Name).head? ≠ some slash
      ∧ (∀ seg ∈ splitAt slash (NormalizeImportRelPath Name), seg ≠ [dot] ∧ seg ≠ [dot, dot])
      ∧ staysBelowRoot (splitAt slash (NormalizeImportRelPath Name)) 0 = true := by
  obtain ⟨_, hcolon, hparts⟩ := IsSafeZipRelPath_spec Name h
  have hback := backslash_not_mem_NormalizeRelPath Name
  unfold NormalizeImportRelPath
  simp only
  split_ifs with h1 h2 h3
  · have e : NormalizeRelPath Name = [] := by
      cases hP : NormalizeRelPath Name with
      | nil => rfl
      | cons c cs => rw [hP] at h1; exact absurd h1 (by simp)
    rw [e]
    exact ⟨by simp, by simp, by simp, by decide, by decide⟩
  · exact safe_Join _ _ hcolon hback hparts (List.eraseIdx_subset _ _)
  · exact safe_Join _ _ hcolon hback hparts (List.eraseIdx_subset _ _)
  · have hseg : ∀ seg ∈ splitAt slash (NormalizeRelPath Name),
        seg ≠ [dot] ∧ seg ≠ [dot, dot] := by
      intro seg hseg
      have hmem : seg ≠ [] → seg ∈ ParseIntoArray (NormalizeRelPath Name) slash := by
        intro hne
        rw [ParseIntoArray, List.mem_filter]
        refine ⟨hseg, ?_⟩
        cases seg with
        | nil => exact absurd rfl hne
        | cons c cs => rfl
      constructor
      · intro e
        exact (hparts seg (hmem (by rw [e]; simp))).2 e
      · intro e
        exact (hparts seg (hmem (by rw [e]; simp))).1 e
    exact ⟨hcolon, hback, head_chopLeadingSlashes _, hseg,
      staysBelowRoot_of_no_dotdot _ (fun seg hs => (hseg seg hs).2) 0⟩

/-- Witness for C2: the name `P\Content\a.uasset` written with backslashes. -/
theorem NormalizeImportRelPath_safe_witness :
    IsSafeZipRelPath ("P".toList ++ backslash :: "Content".toList ++ backslash :: "a.uasset".toList)
        = true
      ∧ colon ∉ NormalizeImportRelPath
          ("P".toList ++ backslash :: "Content".toList ++ backslash :: "a.uasset".toList)
      ∧ backslash ∉ NormalizeImportRelPath
          ("P".toList ++ backslash :: "Content".toList ++ backslash :: "a.uasset".toList)
      ∧ (NormalizeImportRelPath
          ("P".toList ++ backslash :: "Content".toList ++ backslash :: "a.uasset".toList)).head?
          ≠ some slash
      ∧ (∀ seg ∈ splitAt slash (NormalizeImportRelPath
            ("P".toList ++ backslash :: "Content".toList ++ backslash :: "a.uasset".toList)),
          seg ≠ [dot] ∧ seg ≠ [dot, dot])
      ∧ staysBelowRoot (splitAt slash (NormalizeImportRelPath
          ("P".toList ++ backslash :: "Content".toList ++ backslash :: "a.uasset".toList))) 0
          = true :=
  ⟨by decide, NormalizeImportRelPath_safe _ (by decide)⟩

/-! ## Unsafe names abort the extraction -/

theorem mem_chopLeadingSlashes_of_ne (c : Char) (hc : c ≠ slash) :
    ∀ P : FString, c ∈ P → c ∈ chopLeadingSlashes P := by
  intro P
  induction P with
  | nil => intro h; exact h
  | cons a as ih =>
    intro h
    rw [chopLeadingSlashes]
    split_ifs with ha
    · rcases List.mem_cons.mp h with h1 | h1
      · exact absurd (h1.trans ha) hc
      · exact ih h1
    · exact h

theorem mem_splitAt_chopLeadingSlashes (seg : FString) (hne : seg ≠ []) :
    ∀ P : FString, seg ∈ splitAt slash P → seg ∈ splitAt slash (chopLeadingSlashes P) := by
  intro P
  induction P with
  | nil => intro h; exact h
  | cons a as ih =>
    intro h
    rw [chopLeadingSlashes]
    split_ifs with ha
    · rw [splitAt, if_pos ha] at h
      rcases List.mem_cons.mp h with h1 | h1
      · exact absurd h1 hne
      · exact ih h1
    · exact h

theorem IsSafeZipRelPath_eq_false (Name : FString)
    (h : colon ∈ Name
      ∨ ∃ seg ∈ splitAt slash (ReplaceInline backslash slash Name),
          seg = [dot] ∨ seg = [dot, dot]) :
    IsSafeZipRelPath Name = false := by
  cases hs : IsSafeZipRelPath Name with
  | false => rfl
  | true =>
    exfalso
    obtain ⟨_, hcolon, hparts⟩ := IsSafeZipRelPath_spec Name hs
    rcases h with h | ⟨seg, hseg, hdots⟩
    · apply hcolon
      apply mem_chopLeadingSlashes_of_ne colon (by decide)
      rw [ReplaceInline, List.mem_map]
      exact ⟨colon, h, by decide⟩
    · have hne : seg ≠ [] := by
        rcases hdots with e | e <;> rw [e] <;> simp
      have hmem : seg ∈ ParseIntoArray (NormalizeRelPath Name) slash := by
        rw [ParseIntoArray, List.mem_filter]
        refine ⟨mem_splitAt_chopLeadingSlashes seg hne _ hseg, ?_⟩
        cases seg with
        | nil => exact absurd rfl hne
        | cons c cs => rfl
      rcases hdots with e | e
      · exact (hparts seg hmem).2 e
      · exact (hparts seg hmem).1 e

/-- C3 (as amended): whenever the loop of `ExtractZipStore` decodes an entry
whose name is not empty, does not end in `/`, and contains a colon or has a
segment equal to `.` or `..` once backslashes are replaced by `/`, the
extraction fails with the unsafe-path error for that name, and the files on
disk and the two counters are what they were before the entry: no file is
written for it or for any entry after it. -/
theorem extractLoop_unsafe_name (h : Host) (Mode : EAssetSnapshotImportMode) (fuel : Nat)
    (s : ExtractState) (Name : FString) (Data : List Nat) (Ar2 : Reader)
    (hread : readEntry h.uninit s.Ar = .entry Name Data Ar2)
    (hne : Name ≠ []) (hdir : Name.getLast? ≠ some slash)
    (hbad : colon ∈ Name
      ∨ ∃ seg ∈ splitAt slash (ReplaceInline backslash slash Name),
          seg = [dot] ∨ seg = [dot, dot]) :
    extractLoop h Mode (fuel + 1) s
      = some { OutError := some (.unsafePath Name), Files := s.Files,
               ImportedFiles := s.ImportedFiles, SkippedFiles := s.SkippedFiles,
               Scanned := [] } := by
  have hrest : s.Ar.rest.isEmpty = false := by
    cases hr : s.Ar.rest with
    | nil =>
      exfalso
      rw [readEntry, ReadLE32, hr] at hread
      exact ReadEntry.noConfusion hread
    | cons b bs => rfl
  have hE : (Name.isEmpty || EndsWith Name [slash]) = false := by
    rw [Bool.or_eq_false_iff]
    constructor
    · cases Name with
      | nil => exact absurd rfl hne
      | cons c cs => rfl
    · cases hw : EndsWith Name [slash] with
      | false => rfl
      | true => exact absurd ((EndsWith_slash _).mp hw) hdir
  rw [extractLoop, hrest]
  simp only [Bool.false_eq_true, if_false, hread, hE, IsSafeZipRelPath_eq_false Name hbad,
    Bool.not_false, if_true, failWith]

/-- Witness for C3: the archive holding the single entry `../../etc/passwd`
is rejected and nothing is written. -/
theorem extractLoop_unsafe_name_witness :
    (colon ∈ "../../etc/passwd".toList
        ∨ ∃ seg ∈ splitAt slash (ReplaceInline backslash slash "../../etc/passwd".toList),
            seg = [dot] ∨ seg = [dot, dot])
      ∧ ExtractZipStore exampleHost .OverrideExisting
          (WriteZipStore (fun _ => 0) [⟨"../../etc/passwd".toList, [1]⟩]) []
        = some { OutError := some (.unsafePath "../../etc/passwd".toList), Files := [],
                 ImportedFiles := 0, SkippedFiles := 0, Scanned := [] } :=
  ⟨Or.inr ⟨[dot, dot], by decide, Or.inr rfl⟩,
    extractLoop_unsafe_name exampleHost .OverrideExisting
      (WriteZipStore (fun _ => 0) [⟨"../../etc/passwd".toList, [1]⟩]).length
      { Ar := { rest := WriteZipStore (fun _ => 0) [⟨"../../etc/passwd".toList, [1]⟩],
                err := false },
        Files := [], ImportedFiles := 0, SkippedFiles := 0, ImportedUAssetFiles := [] }
      "../../etc/passwd".toList [1]
      { rest := (WriteZipStore (fun _ => 0) [⟨"../../etc/passwd".toList, [1]⟩]).drop 47,
        err := false }
      (by decide!) (by decide) (by decide)
      (Or.inr ⟨[dot, dot], by decide, Or.inr rfl⟩)⟩

/-- C3 as stated fails: the entry named `../` has a segment `..`, but a name
that ends in `/` is skipped as a directory entry before the safety check, so
the extraction of an archive holding `../` and then `a.uasset` succeeds and
writes the file of the entry after it. -/
theorem ExtractZipStore_directory_name_skipped :
    (∃ seg ∈ splitAt slash (ReplaceInline backslash slash "../".toList), seg = [dot, dot])
      ∧ ExtractZipStore exampleHost .OverrideExisting
          (WriteZipStore (fun _ => 0) [⟨"../".toList, []⟩, ⟨"a.uasset".toList, [1]⟩]) []
        = some { OutError := none, Files := [("D/a.uasset".toList, [1])],
                 ImportedFiles := 1, SkippedFiles := 0, Scanned := ["D/a.uasset".toList] } :=
  ⟨⟨[dot, dot], by decide, rfl⟩, by decide!⟩

/-! ## The byte stream of the combined hash -/

theorem hashReadLoop_eq (B : Nat) (hB : 0 < B) :
    ∀ (fuel : Nat) (rest Hasher : List Nat), rest.length ≤ fuel →
      hashReadLoop B fuel rest Hasher = Hasher ++ rest := by
  intro fuel
  induction fuel with
  | zero =>
    intro rest Hasher h
    have : rest = [] := List.eq_nil_of_length_eq_zero (by omega)
    rw [this, hashReadLoop, List.append_nil]
  | succ fuel ih =>
    intro rest Hasher h
    rw [hashReadLoop]
    cases rest with
    | nil => simp
    | cons b bs =>
      simp only [List.isEmpty_cons, Bool.false_eq_true, if_false]
      rw [ih _ _ (by
        simp only [List.length_drop, List.length_cons] at h ⊢
        omega)]
      rw [List.append_assoc, List.take_append_drop]

theorem hashFilesLoop_eq (fs : FString → Option (List Nat)) (files : List (FString × FString)) :
    ∀ Hasher : List Nat,
      hashFilesLoop fs files Hasher
        = Hasher ++ specStream (files.map (fun f => (f.2, fs f.1))) := by
  induction files with
  | nil => intro Hasher; simp [hashFilesLoop, specStream]
  | cons f files ih =>
    intro Hasher
    obtain ⟨Abs, Rel⟩ := f
    rw [hashFilesLoop]
    cases hf : fs Abs with
    | none =>
      simp only [ih, List.map_cons, specStream, List.flatMap_cons, specContribution, hf,
        List.append_assoc]
    | some content =>
      simp only [ih, List.map_cons, specStream, List.flatMap_cons, specContribution, hf,
        List.append_assoc, hashReadLoop_eq 1048576 (by norm_num) content.length content _
          (Nat.le_refl _)]

theorem hashedStream_eq (fs : FString → Option (List Nat)) (Abs Rel : List FString) :
    hashedStream fs Abs Rel = specStream (manifestFiles fs Abs Rel) := by
  rw [hashedStream, hashFilesLoop_eq, List.nil_append, manifestFiles]

/-- C6: for a manifest (two sequences of the same length), `Blake3HashFiles`
succeeds and returns the lowercase hex digest of the concatenation, in
manifest order, of the UTF-8 bytes of each relative path, one zero byte and
the bytes of the file; a file that cannot be opened contributes its path
bytes and the zero byte only. -/
theorem Blake3HashFiles_stream (blake3 : List Nat → List Nat)
    (fs : FString → Option (List Nat)) (Abs Rel : List FString)
    (hlen : Abs.length = Rel.length) :
    Blake3HashFiles blake3 fs Abs Rel
        = some (ToLowerHex (blake3 (specStream (manifestFiles fs Abs Rel))) 32)
      ∧ (manifestFiles fs Abs Rel).length = Rel.length
      ∧ (∀ Path, specContribution (Path, none) = FTCHARToUTF8 Path ++ [0])
      ∧ (∀ Path content,
          specContribution (Path, some content) = FTCHARToUTF8 Path ++ [0] ++ content) := by
  refine ⟨?_, ?_, fun _ => rfl, fun _ _ => rfl⟩
  · rw [Blake3HashFiles, if_neg (by simpa using hlen), hashedStream_eq]
  · simp [manifestFiles, hlen]

/-- Witness for C6: two files, the second of which cannot be opened. -/
theorem Blake3HashFiles_stream_witness :
    ["x".toList, "y".toList].length = ["a".toList, "b".toList].length
      ∧ Blake3HashFiles (fun b => b.take 32)
          (fun p => if p = "x".toList then some [1, 2] else none)
          ["x".toList, "y".toList] ["a".toList, "b".toList]
        = some (ToLowerHex [97, 0, 1, 2, 98, 0] 32) :=
  ⟨rfl, (Blake3HashFiles_stream (fun b => b.take 32)
      (fun p => if p = "x".toList then some [1, 2] else none)
      ["x".toList, "y".toList] ["a".toList, "b".toList] rfl).1⟩

/-! ## When the byte stream tells manifests apart -/

theorem hashedStream_eq_streamOf (fs : FString → Option (List Nat)) (Abs Rel : List FString) :
    hashedStream fs Abs Rel = streamOf (manifestBytes fs Abs Rel) := by
  rw [hashedStream_eq, manifestFiles, manifestBytes, specStream, streamOf]
  induction Abs.zip Rel with
  | nil => rfl
  | cons f files ih =>
    rw [List.map_cons, List.map_cons, List.flatMap_cons, List.flatMap_cons, ih]
    congr 1
    cases hf : fs f.1 with
    | none => simp [specContribution, hf]
    | some content => simp [specContribution, hf]

theorem zero_not_mem_encodeChar (c : Char) (h : c ≠ nul) : 0 ∉ utf8EncodeChar c := by
  have hc : c.toNat ≠ 0 := by
    intro e
    apply h
    rw [← Char.ofNat_toNat c, e]
    rfl
  unfold utf8EncodeChar
  simp only
  split_ifs <;> simp <;> omega

theorem zero_not_mem_FTCHARToUTF8 (s : FString) (h : nul ∉ s) : 0 ∉ FTCHARToUTF8 s := by
  intro h0
  rw [FTCHARToUTF8, List.mem_flatMap] at h0
  obtain ⟨c, hc, h1⟩ := h0
  exact zero_not_mem_encodeChar c (fun e => h (e ▸ hc)) h1

theorem zero_split :
    ∀ (p q X Y : List Nat), 0 ∉ p → 0 ∉ q → p ++ 0 :: X = q ++ 0 :: Y → p = q ∧ X = Y := by
  intro p
  induction p with
  | nil =>
    intro q X Y _ hq h
    cases q with
    | nil => simpa using h
    | cons b q =>
      exfalso
      simp only [List.nil_append, List.cons_append, List.cons.injEq] at h
      exact hq (h.1 ▸ List.mem_cons_self _ _)
  | cons a p ih =>
    intro q X Y hp hq h
    cases q with
    | nil =>
      exfalso
      simp only [List.nil_append, List.cons_append, List.cons.injEq] at h
      exact hp (h.1 ▸ List.mem_cons_self _ _)
    | cons b q =>
      simp only [List.cons_append, List.cons.injEq] at h
      obtain ⟨h1, h2⟩ := ih q X Y (fun e => hp (List.mem_cons_of_mem _ e))
        (fun e => hq (List.mem_cons_of_mem _ e)) h.2
      exact ⟨by rw [h.1, h1], h2⟩

theorem streamOf_cons_split (r1 r2 : FString) (c1 c2 : List Nat)
    (t1 t2 : List (FString × List Nat)) (h1 : nul ∉ r1) (h2 : nul ∉ r2)
    (h : streamOf ((r1, c1) :: t1) = streamOf ((r2, c2) :: t2)) :
    r1 = r2 ∧ c1 ++ streamOf t1 = c2 ++ streamOf t2 := by
  simp only [streamOf, List.flatMap_cons, List.append_assoc, List.cons_append] at h
  obtain ⟨e1, e2⟩ := zero_split _ _ _ _ (zero_not_mem_FTCHARToUTF8 r1 h1)
    (zero_not_mem_FTCHARToUTF8 r2 h2) h
  exact ⟨FTCHARToUTF8_injective r1 r2 e1, e2⟩

theorem streamOf_inj_of_sizes :
    ∀ V1 V2 : List (FString × List Nat),
      (∀ f ∈ V1, nul ∉ f.1) → (∀ f ∈ V2, nul ∉ f.1) →
      V1.map (fun f => f.2.length) = V2.map (fun f => f.2.length) →
      streamOf V1 = streamOf V2 → V1 = V2 := by
  intro V1
  induction V1 with
  | nil =>
    intro V2 _ _ hs _
    cases V2 with
    | nil => rfl
    | cons f t => simp at hs
  | cons f1 t1 ih =>
    intro V2 hn1 hn2 hs h
    cases V2 with
    | nil => simp at hs
    | cons f2 t2 =>
      obtain ⟨r1, c1⟩ := f1
      obtain ⟨r2, c2⟩ := f2
      simp only [List.map_cons, List.cons.injEq] at hs
      obtain ⟨e1, e2⟩ := streamOf_cons_split r1 r2 c1 c2 t1 t2
        (hn1 _ (List.mem_cons_self _ _)) (hn2 _ (List.mem_cons_self _ _)) h
      obtain ⟨e3, e4⟩ := List.append_inj e2 hs.1
      rw [e1, e3, ih t2 (fun f hf => hn1 f (List.mem_cons_of_mem _ hf))
        (fun f hf => hn2 f (List.mem_cons_of_mem _ hf)) hs.2 e4]

theorem streamOf_inj_of_perm :
    ∀ V1 V2 : List (FString × List Nat),
      (∀ f ∈ V1, nul ∉ f.1) → V1.Perm V2 → (V1.map Prod.fst).Nodup →
      streamOf V1 = streamOf V2 → V1 = V2 := by
  intro V1
  induction V1 with
  | nil =>
    intro V2 _ hp _ _
    exact (List.Perm.nil_eq hp)
  | cons f1 t1 ih =>
    intro V2 hn hp hnd h
    cases V2 with
    | nil => exact absurd hp.symm (List.Perm.nil_eq · |> fun e => by simp at e)
    | cons f2 t2 =>
      obtain ⟨r1, c1⟩ := f1
      obtain ⟨r2, c2⟩ := f2
      have hmem : (r2, c2) ∈ (r1, c1) :: t1 := hp.mem_iff.mpr (List.mem_cons_self _ _)
      obtain ⟨e1, e2⟩ := streamOf_cons_split r1 r2 c1 c2 t1 t2
        (hn _ (List.mem_cons_self _ _)) (hn _ hmem) h
      rw [List.map_cons, List.nodup_cons] at hnd
      have ec : c2 = c1 := by
        rcases List.mem_cons.mp hmem with e | e
        · exact (Prod.mk.inj e).2
        · exfalso
          apply hnd.1
          rw [e1]
          exact List.mem_map.mpr ⟨(r2, c2), e, rfl⟩
      subst e1
      subst ec
      have hp2 : t1.Perm t2 := hp.cons_inv
      rw [ih t2 (fun f hf => hn f (List.mem_cons_of_mem _ hf)) hp2 hnd.2
        (List.append_cancel_left e2)]

/-- C7 (as amended): for two manifests whose relative paths hold no NUL
character, and which either have files of the same byte length at every
position or are reorderings of one another with pairwise distinct relative
paths: when they differ in a relative path, in the order of the files or in
the bytes of a file, the byte streams that `Blake3HashFiles` feeds to the hash
primitive differ. -/
theorem hashedStream_ne_of_manifest_ne (fs1 fs2 : FString → Option (List Nat))
    (Abs1 Rel1 Abs2 Rel2 : List FString)
    (hn1 : ∀ f ∈ manifestBytes fs1 Abs1 Rel1, nul ∉ f.1)
    (hn2 : ∀ f ∈ manifestBytes fs2 Abs2 Rel2, nul ∉ f.1)
    (hcase : (manifestBytes fs1 Abs1 Rel1).map (fun f => f.2.length)
          = (manifestBytes fs2 Abs2 Rel2).map (fun f => f.2.length)
      ∨ ((manifestBytes fs1 Abs1 Rel1).Perm (manifestBytes fs2 Abs2 Rel2)
          ∧ ((manifestBytes fs1 Abs1 Rel1).map Prod.fst).Nodup))
    (hne : manifestBytes fs1 Abs1 Rel1 ≠ manifestBytes fs2 Abs2 Rel2) :
    hashedStream fs1 Abs1 Rel1 ≠ hashedStream fs2 Abs2 Rel2 := by
  intro h
  rw [hashedStream_eq_streamOf, hashedStream_eq_streamOf] at h
  rcases hcase with hs | ⟨hp, hnd⟩
  · exact hne (streamOf_inj_of_sizes _ _ hn1 hn2 hs h)
  · exact hne (streamOf_inj_of_perm _ _ hn1 hp hnd h)

/-- Witness for C7: the same two one-byte files in the two orders. -/
theorem hashedStream_ne_of_manifest_ne_witness :
    hashedStream (fun p => if p = "x".toList then some [1] else some [2])
        ["x".toList, "y".toList] ["a".toList, "b".toList]
      ≠ hashedStream (fun p => if p = "x".toList then some [1] else some [2])
        ["y".toList, "x".toList] ["b".toList, "a".toList] :=
  hashedStream_ne_of_manifest_ne (fun p => if p = "x".toList then some [1] else some [2])
    (fun p => if p = "x".toList then some [1] else some [2])
    ["x".toList, "y".toList] ["a".toList, "b".toList]
    ["y".toList, "x".toList] ["b".toList, "a".toList]
    (by decide) (by decide) (Or.inl (by decide)) (by decide)

/-- C7 as stated fails: with the relative paths `a`, `b` in this order, the
manifest in which the file of `a` is empty and the file of `b` holds the bytes
`b`, 0 and the manifest in which the file of `a` holds `b`, 0 and the file of
`b` is empty differ in the bytes of their files, yet feed the same byte stream
to the hash, so `Blake3HashFiles` returns the same digest for both whatever
the hash primitive. -/
theorem hashedStream_collision :
    manifestBytes (fun p => if p = "x".toList then some [] else some [98, 0])
        ["x".toList, "y".toList] ["a".toList, "b".toList]
      ≠ manifestBytes (fun p => if p = "x".toList then some [98, 0] else some [])
        ["x".toList, "y".toList] ["a".toList, "b".toList]
    ∧ hashedStream (fun p => if p = "x".toList then some [] else some [98, 0])
        ["x".toList, "y".toList] ["a".toList, "b".toList]
      = hashedStream (fun p => if p = "x".toList then some [98, 0] else some [])
        ["x".toList, "y".toList] ["a".toList, "b".toList]
    ∧ ∀ blake3 : List Nat → List Nat,
        Blake3HashFiles blake3 (fun p => if p = "x".toList then some [] else some [98, 0])
          ["x".toList, "y".toList] ["a".toList, "b".toList]
        = Blake3HashFiles blake3 (fun p => if p = "x".toList then some [98, 0] else some [])
          ["x".toList, "y".toList] ["a".toList, "b".toList] := by
  have hs : hashedStream (fun p => if p = "x".toList then some [] else some [98, 0])
        ["x".toList, "y".toList] ["a".toList, "b".toList]
      = hashedStream (fun p => if p = "x".toList then some [98, 0] else some [])
        ["x".toList, "y".toList] ["a".toList, "b".toList] := by decide
  refine ⟨by decide, hs, fun blake3 => ?_⟩
  rw [Blake3HashFiles, Blake3HashFiles, hs]

theorem getLast_ne_head_of_nodup (r : FString) (t : List FString) (ht : t ≠ [])
    (hnd : (r :: t).Nodup) : (r :: t).getLast? ≠ some r := by
  intro h
  cases t with
  | nil => exact ht rfl
  | cons a as =>
    rw [List.getLast?_cons_cons] at h
    exact (List.nodup_cons.mp hnd).1 (List.mem_of_getLast?_eq_some h)

/-- C8: for every manifest with at least two files, the relative paths of a
manifest being pairwise distinct (the `SeenRel` guard of
`AddIfExistsAllowlisted`, line 1547) and free of NUL, the byte stream that
`Blake3HashFiles` feeds to the hash primitive for the reversed manifest
differs from the one for the manifest, whatever the contents of the files,
so also when the contents are distinct. -/
theorem hashedStream_reverse_ne (fs : FString → Option (List Nat)) (Abs Rel : List FString)
    (hlen : Abs.length = Rel.length) (hnd : Rel.Nodup) (hnul : ∀ r ∈ Rel, nul ∉ r)
    (h2 : 2 ≤ Rel.length) :
    hashedStream fs Abs.reverse Rel.reverse ≠ hashedStream fs Abs Rel := by
  intro h
  rw [hashedStream_eq_streamOf, hashedStream_eq_streamOf] at h
  cases hR : Rel with
  | nil => rw [hR] at h2; simp at h2
  | cons r1 t =>
    cases hA : Abs with
    | nil => rw [hA, hR] at hlen; simp at hlen
    | cons a1 ta =>
      have ht : t ≠ [] := by
        intro e
        rw [hR, e] at h2
        simp at h2
      cases hRr : Rel.reverse with
      | nil =>
        have := congrArg List.length hRr
        rw [List.length_reverse, hR] at this
        simp at this
      | cons rl Rt =>
        cases hAr : Abs.reverse with
        | nil =>
          have := congrArg List.length hAr
          rw [List.length_reverse, hA] at this
          simp at this
        | cons al At =>
          rw [hRr, hAr, hA, hR] at h
          simp only [manifestBytes, List.zip_cons_cons, List.map_cons] at h
          have hl : Rel.getLast? = some rl := by
            rw [List.getLast?_eq_head?_reverse, hRr]
            rfl
          have hrl : rl ∈ Rel := List.mem_of_getLast?_eq_some hl
          have e := (streamOf_cons_split _ _ _ _ _ _ (hnul rl hrl)
            (hnul r1 (hR ▸ List.mem_cons_self _ _)) h).1
          rw [hR, e] at hl
          exact getLast_ne_head_of_nodup r1 t ht (hR ▸ hnd) hl

/-- Witness for C8: the manifest of the files `a` and `b`. -/
theorem hashedStream_reverse_ne_witness :
    hashedStream (fun p => if p = "x".toList then some [1] else some [2])
        ["x".toList, "y".toList].reverse ["a".toList, "b".toList].reverse
      ≠ hashedStream (fun p => if p = "x".toList then some [1] else some [2])
        ["x".toList, "y".toList] ["a".toList, "b".toList] :=
  hashedStream_reverse_ne (fun p => if p = "x".toList then some [1] else some [2])
    ["x".toList, "y".toList] ["a".toList, "b".toList] rfl (by decide) (by decide) (by decide)

/-- The distinct relative paths of a manifest are what the order sensitivity
of the combined hash rests on: `Blake3HashFiles` called on two sequences that
name the relative path `a` twice, which no manifest does, the first file
empty and the second holding the bytes `a`, 0, feeds the same byte stream to
the hash for the sequences and for their reverses. -/
theorem hashedStream_repeated_path :
    (fun p : FString => if p = "x".toList then some ([] : List Nat) else some [97, 0])
        "x".toList
      ≠ (fun p : FString => if p = "x".toList then some ([] : List Nat) else some [97, 0])
        "y".toList
    ∧ hashedStream (fun p => if p = "x".toList then some [] else some [97, 0])
        ["x".toList, "y".toList].reverse ["a".toList, "a".toList].reverse
      = hashedStream (fun p => if p = "x".toList then some [] else some [97, 0])
        ["x".toList, "y".toList] ["a".toList, "a".toList]
    ∧ ∀ blake3 : List Nat → List Nat,
        Blake3HashFiles blake3 (fun p => if p = "x".toList then some [] else some [97, 0])
          ["x".toList, "y".toList].reverse ["a".toList, "a".toList].reverse
        = Blake3HashFiles blake3 (fun p => if p = "x".toList then some [] else some [97, 0])
          ["x".toList, "y".toList] ["a".toList, "a".toList] := by
  have hs : hashedStream (fun p => if p = "x".toList then some [] else some [97, 0])
        ["x".toList, "y".toList].reverse ["a".toList, "a".toList].reverse
      = hashedStream (fun p => if p = "x".toList then some [] else some [97, 0])
        ["x".toList, "y".toList] ["a".toList, "a".toList] := by decide
  refine ⟨by decide, hs, fun blake3 => ?_⟩
  rw [Blake3HashFiles, Blake3HashFiles, hs]
  rfl

/-! ## The dependency traversal -/

theorem edgeCount_eq {α : Type} (AR : List (α × List α)) :
    edgeCount AR = (AR.flatMap (fun p => p.2)).length := by
  induction AR with
  | nil => rfl
  | cons kv rest ih =>
    rw [List.flatMap_cons, List.length_append, ← ih]
    simp [edgeCount]

theorem queue_length_le {α : Type} (AR : List (α × List α)) (root : α) (Q : List α) (hnd : Q.Nodup)
    (hsub : ∀ x ∈ Q, x = root ∨ x ∈ AR.flatMap (fun p => p.2)) :
    Q.length ≤ edgeCount AR + 1 := by
  have h1 : Q ⊆ root :: AR.flatMap (fun p => p.2) := by
    intro x hx
    rcases hsub x hx with e | e
    · exact e ▸ List.mem_cons_self _ _
    · exact List.mem_cons_of_mem _ e
  have h2 := (List.Nodup.subperm hnd h1).length_le
  rw [List.length_cons, ← edgeCount_eq] at h2
  exact h2

section ClosureProofs

variable {α : Type} [LinearOrder α]

theorem mem_targets_of_mem_GetDependencies (AR : List (α × List α)) (c d : α)
    (h : d ∈ GetDependencies AR c) : d ∈ AR.flatMap (fun p => p.2) := by
  induction AR with
  | nil => simp [GetDependencies] at h
  | cons kv rest ih =>
    obtain ⟨k, v⟩ := kv
    rw [List.flatMap_cons, List.mem_append]
    rw [GetDependencies, List.lookup_cons] at h
    cases hck : (c == k) with
    | true =>
      rw [hck] at h
      exact Or.inl h
    | false =>
      rw [hck] at h
      exact Or.inr (ih h)

theorem visitDeps_spec (InGame : α → Bool) (Deps : List α) :
    ∀ t : Traversal α, t.Seen = t.Queue →
      (visitDeps InGame Deps t).Seen = (visitDeps InGame Deps t).Queue
      ∧ (visitDeps InGame Deps t).Queried = t.Queried
      ∧ (∃ new, (visitDeps InGame Deps t).Queue = t.Queue ++ new
          ∧ ∀ d ∈ new, d ∈ Deps ∧ InGame d = true)
      ∧ (t.Queue.Nodup → (visitDeps InGame Deps t).Queue.Nodup)
      ∧ ∀ d ∈ Deps, InGame d = true → d ∈ (visitDeps InGame Deps t).Queue := by
  induction Deps with
  | nil =>
    intro t ht
    exact ⟨ht, rfl, ⟨[], by simp [visitDeps], by simp⟩, fun h => h, by simp⟩
  | cons Dep Deps ih =>
    intro t ht
    rw [visitDeps]
    cases hg : InGame Dep with
    | false =>
      simp only [Bool.not_false, if_true]
      obtain ⟨h1, h2, ⟨new, h3, h4⟩, h5, h6⟩ := ih t ht
      refine ⟨h1, h2, ⟨new, h3, fun d hd => ⟨List.mem_cons_of_mem _ (h4 d hd).1, (h4 d hd).2⟩⟩,
        h5, ?_⟩
      intro d hd hdg
      rcases List.mem_cons.mp hd with e | e
      · rw [e, hg] at hdg
        exact absurd hdg (by simp)
      · exact h6 d e hdg
    | true =>
      simp only [Bool.not_true, Bool.false_eq_true, if_false]
      cases hc : t.Seen.contains Dep with
      | true =>
        simp only [if_true]
        obtain ⟨h1, h2, ⟨new, h3, h4⟩, h5, h6⟩ := ih t ht
        refine ⟨h1, h2,
          ⟨new, h3, fun d hd => ⟨List.mem_cons_of_mem _ (h4 d hd).1, (h4 d hd).2⟩⟩, h5, ?_⟩
        intro d hd hdg
        rcases List.mem_cons.mp hd with e | e
        · rw [e, h3]
          have : Dep ∈ t.Seen := by simpa using hc
          rw [ht] at this
          exact List.mem_append_left _ this
        · exact h6 d e hdg
      | false =>
        simp only [Bool.false_eq_true, if_false]
        have hnot : Dep ∉ t.Queue := by
          rw [← ht]
          intro hm
          have : t.Seen.contains Dep = true := by simpa using hm
          rw [hc] at this
          exact absurd this (by simp)
        obtain ⟨h1, h2, ⟨new, h3, h4⟩, h5, h6⟩ :=
          ih { t with Seen := t.Seen ++ [Dep], Queue := t.Queue ++ [Dep] }
            (by simp only; rw [ht])
        simp only at h1 h2 h3 h5 h6
        refine ⟨h1, h2, ⟨Dep :: new, by rw [h3, List.append_assoc]; rfl, ?_⟩, ?_, ?_⟩
        · intro d hd
          rcases List.mem_cons.mp hd with e | e
          · rw [e]
            exact ⟨List.mem_cons_self _ _, hg⟩
          · exact ⟨List.mem_cons_of_mem _ (h4 d e).1, (h4 d e).2⟩
        · intro hnd
          apply h5
          rw [List.nodup_append]
          refine ⟨hnd, List.nodup_singleton _, ?_⟩
          intro x hx hx2
          rw [List.mem_singleton] at hx2
          exact hnot (hx2 ▸ hx)
        · intro d hd hdg
          rcases List.mem_cons.mp hd with e | e
          · rw [e, h3]
            exact List.mem_append_left _ (List.mem_append_right _ (List.mem_singleton_self _))
          · exact h6 d e hdg

theorem traverseLoop_spec (InGame : α → Bool) (AR : List (α × List α)) (root : α) :
    ∀ (fuel Qi : Nat) (t : Traversal α),
      t.Seen = t.Queue → t.Queue.Nodup → t.Queried = t.Queue.take Qi →
      Qi ≤ t.Queue.length →
      (∀ x ∈ t.Queue, Relation.ReflTransGen (GameEdge InGame AR) root x) →
      root ∈ t.Queue →
      (∀ x ∈ t.Queue.take Qi, ∀ d, GameEdge InGame AR x d → d ∈ t.Queue) →
      (∀ x ∈ t.Queue, x = root ∨ x ∈ AR.flatMap (fun p => p.2)) →
      edgeCount AR + 2 ≤ fuel + Qi →
      ∃ r, traverseLoop InGame AR fuel Qi t = some r
        ∧ r.Seen = r.Queue ∧ r.Queue.Nodup ∧ r.Queried = r.Queue
        ∧ (∀ x ∈ r.Queue, Relation.ReflTransGen (GameEdge InGame AR) root x)
        ∧ root ∈ r.Queue
        ∧ ∀ x ∈ r.Queue, ∀ d, GameEdge InGame AR x d → d ∈ r.Queue := by
  intro fuel
  induction fuel with
  | zero =>
    intro Qi t _ hnd _ hQi _ _ _ hsub hfuel
    have := queue_length_le AR root t.Queue hnd hsub
    omega
  | succ fuel ih =>
    intro Qi t hseen hnd hq hQi hreach hroot hclosed hsub hfuel
    rw [traverseLoop]
    cases hcur : t.Queue[Qi]? with
    | none =>
      have hlen : t.Queue.length ≤ Qi := List.getElem?_eq_none_iff.mp hcur
      have htake : t.Queue.take Qi = t.Queue := List.take_of_length_le hlen
      rw [htake] at hq hclosed
      exact ⟨t, rfl, hseen, hnd, hq, hreach, hroot, hclosed⟩
    | some Cur =>
      simp only
      have hlt : Qi < t.Queue.length := (List.getElem?_eq_some.mp hcur).1
      have hCur : Cur ∈ t.Queue := List.getElem?_mem hcur
      obtain ⟨v1, v2, ⟨new, v3, v4⟩, v5, v6⟩ :=
        visitDeps_spec InGame (GetDependencies AR Cur)
          { t with Queried := t.Queried ++ [Cur] } hseen
      simp only at v2 v3 v5
      have htake : (t.Queue ++ new).take (Qi + 1) = t.Queue.take Qi ++ [Cur] := by
        rw [List.take_append_of_le_length (by omega), List.take_succ, hcur]
        rfl
      apply ih (Qi + 1) _ v1 (v5 hnd)
      · rw [v2, v3, htake, hq]
      · rw [v3, List.length_append]
        omega
      · intro x hx
        rw [v3, List.mem_append] at hx
        rcases hx with h | h
        · exact hreach x h
        · exact Relation.ReflTransGen.tail (hreach Cur hCur) ⟨(v4 x h).1, (v4 x h).2⟩
      · rw [v3]
        exact List.mem_append_left _ hroot
      · intro x hx d hd
        rw [v3, htake, List.mem_append, List.mem_singleton] at hx
        rcases hx with h | h
        · rw [v3]
          exact List.mem_append_left _ (hclosed x h d hd)
        · rw [h] at hd
          exact v6 d hd.1 hd.2
      · intro x hx
        rw [v3, List.mem_append] at hx
        rcases hx with h | h
        · exact hsub x h
        · exact Or.inr (mem_targets_of_mem_GetDependencies AR Cur x (v4 x h).1)
      · omega

theorem traverse_spec (InGame : α → Bool) (AR : List (α × List α)) (root : α) :
    ∃ r, traverse InGame AR root = some r
      ∧ r.Seen = r.Queue ∧ r.Queue.Nodup ∧ r.Queried = r.Queue
      ∧ ∀ x, x ∈ r.Queue ↔ Relation.ReflTransGen (GameEdge InGame AR) root x := by
  obtain ⟨r, h1, h2, h3, h4, h5, h6, h7⟩ :=
    traverseLoop_spec InGame AR root (edgeCount AR + 2) 0
      { Queue := [root], Seen := [root], Queried := [] } rfl (List.nodup_singleton _) rfl
      (Nat.zero_le _)
      (fun x hx => by
        rw [List.mem_singleton.mp hx])
      (List.mem_singleton_self _)
      (fun x hx => by simp at hx)
      (fun x hx => Or.inl (List.mem_singleton.mp hx))
      (Nat.le_refl _)
  refine ⟨r, h1, h2, h3, h4, fun x => ⟨h5 x, ?_⟩⟩
  intro hx
  induction hx with
  | refl => exact h6
  | tail _ hbc ihx => exact h7 _ ihx _ hbc

/-- C9: `GatherGameDependenciesPackages` returns exactly the root when the root
does not start with `/Game/`; otherwise it returns, in strictly ascending
order (so without duplicates), exactly the packages reachable from the root
through dependency edges whose targets start with `/Game/`, the root
included. -/
theorem GatherGameDependenciesPackages_spec (InGame : α → Bool) (AR : List (α × List α))
    (root : α) :
    (InGame root = false → GatherGameDependenciesPackages InGame AR root = some [root])
      ∧ (InGame root = true →
          ∃ out, GatherGameDependenciesPackages InGame AR root = some out
            ∧ out.Sorted (· < ·)
            ∧ ∀ x, x ∈ out ↔ Relation.ReflTransGen (GameEdge InGame AR) root x) := by
  constructor
  · intro h
    rw [GatherGameDependenciesPackages, h]
    rfl
  · intro h
    obtain ⟨r, h1, h2, h3, _, h5⟩ := traverse_spec InGame AR root
    refine ⟨r.Seen.insertionSort (· ≤ ·), ?_, ?_, ?_⟩
    · rw [GatherGameDependenciesPackages, h, h1]
      rfl
    · apply List.Sorted.lt_of_le (List.sorted_insertionSort _ _)
      rw [(List.perm_insertionSort _ _).nodup_iff, h2]
      exact h3
    · intro x
      rw [(List.perm_insertionSort _ _).mem_iff, h2]
      exact h5 x

/-- C10: on every finite registry, cyclic or not, the traversal of
`GatherGameDependenciesPackages` terminates, and it queries the dependencies of
every package it has seen exactly once and of no other package; for the
registry in which `/Game/A` depends on `/Game/B` and `/Game/B` on `/Game/A`, the
result for the root `/Game/A` is `/Game/A`, `/Game/B`. -/
theorem traverse_terminates_queries_once :
    (∀ (α : Type) (_ : LinearOrder α) (InGame : α → Bool) (AR : List (α × List α))
        (root : α),
        ∃ r, traverse InGame AR root = some r
          ∧ (∀ x ∈ r.Seen, r.Queried.count x = 1)
          ∧ ∀ x ∈ r.Queried, x ∈ r.Seen)
      ∧ GatherGameDependenciesPackages InGame
          [("/Game/A".toList, ["/Game/B".toList]), ("/Game/B".toList, ["/Game/A".toList])]
          "/Game/A".toList
        = some ["/Game/A".toList, "/Game/B".toList] := by
  constructor
  · intro α _ InGame AR root
    obtain ⟨r, h1, h2, h3, h4, _⟩ := traverse_spec InGame AR root
    refine ⟨r, h1, ?_, ?_⟩
    · intro x hx
      rw [h4, ← h2]
      exact List.count_eq_one_of_mem (h2 ▸ h3) hx
    · intro x hx
      rw [h2, ← h4]
      exact hx
  · decide

end ClosureProofs

theorem lookup_append_of_not_mem (W D : Disk) (p : FString) (h : p ∉ W.map Prod.fst) :
    (W ++ D).lookup p = D.lookup p := by
  induction W with
  | nil => rfl
  | cons w W ih =>
    obtain ⟨k, v⟩ := w
    rw [List.map_cons, List.mem_cons, not_or] at h
    rw [List.cons_append, List.lookup_cons]
    have : (p == k) = false := by simpa using h.1
    rw [this]
    exact ih h.2

theorem FileExists_cons_false (D : Disk) (k p : FString) (v : List Nat)
    (h : FileExists ((k, v) :: D) p = false) : p ≠ k ∧ FileExists D p = false := by
  rw [FileExists, List.lookup_cons] at h
  cases hk : (p == k) with
  | true => rw [hk] at h; simp at h
  | false =>
    rw [hk] at h
    exact ⟨by simpa using hk, h⟩

theorem extractLoop_files (h : Host) (Mode : EAssetSnapshotImportMode) :
    ∀ (fuel : Nat) (s : ExtractState) (r : ExtractResult),
      extractLoop h Mode fuel s = some r →
      ∃ W : Disk, r.Files = W ++ s.Files
        ∧ (Mode = .SkipExisting → ∀ p ∈ W.map Prod.fst, FileExists s.Files p = false) := by
  intro fuel
  induction fuel with
  | zero =>
    intro s r hr
    rw [extractLoop] at hr
    exact Option.noConfusion hr
  | succ fuel ih =>
    intro s r hr
    rw [extractLoop] at hr
    split_ifs at hr with h1
    · rw [← Option.some.inj hr]
      exact ⟨[], rfl, fun _ p hp => by simp at hp⟩
    · cases hre : readEntry h.uninit s.Ar with
      | fail e =>
        rw [hre] at hr
        rw [← Option.some.inj hr]
        exact ⟨[], rfl, fun _ p hp => by simp at hp⟩
      | centralDirectory =>
        rw [hre] at hr
        rw [← Option.some.inj hr]
        exact ⟨[], rfl, fun _ p hp => by simp at hp⟩
      | entry Name Data Ar2 =>
        rw [hre] at hr
        simp only at hr
        split_ifs at hr with h2 h3 h4 h5 h6 h7
        · have hh := ih _ r hr
          exact hh
        · rw [← Option.some.inj hr]
          exact ⟨[], rfl, fun _ p hp => by simp at hp⟩
        · have hh := ih _ r hr
          exact hh
        · have hh := ih _ r hr
          exact hh
        · rw [← Option.some.inj hr]
          exact ⟨[], rfl, fun _ p hp => by simp at hp⟩
        · obtain ⟨W, hW, hS⟩ := ih _ r hr
          simp only at hW hS
          refine ⟨W ++ [(h.DestPath (NormalizeImportRelPath Name), Data)], by rw [hW]; simp, ?_⟩
          intro hm p hp
          rw [List.map_append, List.mem_append] at hp
          rcases hp with hp | hp
          · exact (FileExists_cons_false _ _ _ _ (hS hm p hp)).2
          · simp only [List.map_cons, List.map_nil, List.mem_singleton] at hp
            rw [hp]
            cases hfe : FileExists s.Files (h.DestPath (NormalizeImportRelPath Name)) with
            | false => rfl
            | true => exact absurd ⟨hm, hfe⟩ h5
        · obtain ⟨W, hW, hS⟩ := ih _ r hr
          simp only at hW hS
          refine ⟨W ++ [(h.DestPath (NormalizeImportRelPath Name), Data)], by rw [hW]; simp, ?_⟩
          intro hm p hp
          rw [List.map_append, List.mem_append] at hp
          rcases hp with hp | hp
          · exact (FileExists_cons_false _ _ _ _ (hS hm p hp)).2
          · simp only [List.map_cons, List.map_nil, List.mem_singleton] at hp
            rw [hp]
            cases hfe : FileExists s.Files (h.DestPath (NormalizeImportRelPath Name)) with
            | false => rfl
            | true => exact absurd ⟨hm, hfe⟩ h5

theorem readEntry_rest_ne_nil (uninit : Nat → List Nat) (Ar Ar2 : Reader) (Name : FString)
    (Data : List Nat) (hread : readEntry uninit Ar = .entry Name Data Ar2) :
    Ar.rest.isEmpty = false := by
  cases hr : Ar.rest with
  | nil =>
    exfalso
    rw [readEntry, ReadLE32, hr] at hread
    exact ReadEntry.noConfusion hread
  | cons b bs => rfl

theorem not_directory_name (Name : FString) (hne : Name ≠ [])
    (hdir : Name.getLast? ≠ some slash) :
    (Name.isEmpty || EndsWith Name [slash]) = false := by
  rw [Bool.or_eq_false_iff]
  constructor
  · cases Name with
    | nil => exact absurd rfl hne
    | cons c cs => rfl
  · cases hw : EndsWith Name [slash] with
    | false => rfl
    | true => exact absurd ((EndsWith_slash _).mp hw) hdir

/-- C15: whenever the loop of `ExtractZipStore` reads a local file header
(signature and the ten header fields) whose compression method is not 0, the
extraction fails with the unsupported-method error, and the files on disk and
the two counters are what they were before the entry: no file is written for
it or for any entry after it. -/
theorem extractLoop_unsupported_method (h : Host) (Mode : EAssetSnapshotImportMode)
    (fuel : Nat) (s : ExtractState) (Ar1 Ar2 : Reader) (H : LocalHeader)
    (hsig : ReadLE32 s.Ar = some (0x04034b50, Ar1))
    (hhdr : readLocalHeader Ar1 = some (H, Ar2))
    (hm : H.Method ≠ 0) :
    extractLoop h Mode (fuel + 1) s
      = some { OutError := some (.unsupportedMethod H.Method), Files := s.Files,
               ImportedFiles := s.ImportedFiles, SkippedFiles := s.SkippedFiles,
               Scanned := [] } := by
  have hrest : s.Ar.rest.isEmpty = false := by
    cases hr : s.Ar.rest with
    | nil =>
      rw [ReadLE32, hr] at hsig
      exact Option.noConfusion hsig
    | cons b bs => rfl
  have hre : readEntry h.uninit s.Ar = .fail (.unsupportedMethod H.Method) := by
    rw [readEntry, hsig]
    simp only [hhdr]
    norm_num
    intro h0
    exact absurd h0 hm
  rw [extractLoop, hrest]
  simp only [Bool.false_eq_true, if_false, hre, failWith]

/-- Witness for C15: an archive whose only local header has method 8
(deflate). -/
theorem extractLoop_unsupported_method_witness :
    ExtractZipStore exampleHost .OverrideExisting
        [80, 75, 3, 4, 20, 0, 0, 0, 8, 0, 0, 0, 0, 0, 0, 0, 0, 0, 1, 0, 0, 0, 1, 0, 0, 0,
          1, 0, 0, 0, 97, 7] []
      = some { OutError := some (.unsupportedMethod 8), Files := [], ImportedFiles := 0,
               SkippedFiles := 0, Scanned := [] } :=
  extractLoop_unsupported_method exampleHost .OverrideExisting 32
    { Ar := { rest := [80, 75, 3, 4, 20, 0, 0, 0, 8, 0, 0, 0, 0, 0, 0, 0, 0, 0, 1, 0, 0, 0,
                1, 0, 0, 0, 1, 0, 0, 0, 97, 7], err := false },
      Files := [], ImportedFiles := 0, SkippedFiles := 0, ImportedUAssetFiles := [] }
    { rest := [20, 0, 0, 0, 8, 0, 0, 0, 0, 0, 0, 0, 0, 0, 1, 0, 0, 0, 1, 0, 0, 0, 1, 0, 0, 0,
        97, 7], err := false }
    { rest := [97, 7], err := false }
    { Version := 20, Flags := 0, Method := 8, ModTime := 0, ModDate := 0, Crc32 := 0,
      CompSize := 1, UncompSize := 1, NameLen := 1, ExtraLen := 0 }
    (by decide) (by decide) (by decide)

theorem IsImportableAssetFile_iff (RelPath : FString) :
    IsImportableAssetFile RelPath = true
      ↔ ToLower (dot :: GetExtension RelPath) ∈ importableExtensions := by
  simp [IsImportableAssetFile, importableExtensions, or_assoc]

/-- C13 (as amended): whenever the loop of `ExtractZipStore` decodes an entry
whose name is not empty, does not end in `/` and is safe, and whose import path
(the name after `NormalizeImportRelPath`) has an extension that, in lower case,
is none of .uasset, .uexp, .ubulk, .uptnl, .umap, the loop goes on with the
next entry from a state that differs only by the read position and by a
skipped count increased by one: no file is written for the entry and no error
is raised for it. -/
theorem extractLoop_not_importable (h : Host) (Mode : EAssetSnapshotImportMode) (fuel : Nat)
    (s : ExtractState) (Name : FString) (Data : List Nat) (Ar2 : Reader)
    (hread : readEntry h.uninit s.Ar = .entry Name Data Ar2)
    (hne : Name ≠ []) (hdir : Name.getLast? ≠ some slash)
    (hsafe : IsSafeZipRelPath Name = true)
    (hext : ToLower (dot :: GetExtension (NormalizeImportRelPath Name))
      ∉ importableExtensions) :
    extractLoop h Mode (fuel + 1) s
      = extractLoop h Mode fuel
          { Ar := Ar2, Files := s.Files, ImportedFiles := s.ImportedFiles,
            SkippedFiles := s.SkippedFiles + 1,
            ImportedUAssetFiles := s.ImportedUAssetFiles } := by
  have himp : IsImportableAssetFile (NormalizeImportRelPath Name) = false := by
    cases hi : IsImportableAssetFile (NormalizeImportRelPath Name) with
    | false => rfl
    | true => exact absurd ((IsImportableAssetFile_iff _).mp hi) hext
  rw [extractLoop, readEntry_rest_ne_nil _ _ _ _ _ hread]
  simp only [Bool.false_eq_true, if_false, hread, not_directory_name Name hne hdir, hsafe,
    Bool.not_true, himp, Bool.not_false, if_true]

/-- Witness for C13: the archive holding `notes.txt` and then `a.uasset`: the
first entry is counted as skipped, the second is written. -/
theorem extractLoop_not_importable_witness :
    ToLower (dot :: GetExtension (NormalizeImportRelPath "notes.txt".toList))
        ∉ importableExtensions
      ∧ ExtractZipStore exampleHost .OverrideExisting
          (WriteZipStore (fun _ => 0) [⟨"notes.txt".toList, [1]⟩, ⟨"a.uasset".toList, [2]⟩]) []
        = extractLoop exampleHost .OverrideExisting
            (WriteZipStore (fun _ => 0)
              [⟨"notes.txt".toList, [1]⟩, ⟨"a.uasset".toList, [2]⟩]).length
            { Ar := { rest := (WriteZipStore (fun _ => 0)
                        [⟨"notes.txt".toList, [1]⟩, ⟨"a.uasset".toList, [2]⟩]).drop 40,
                      err := false },
              Files := [], ImportedFiles := 0, SkippedFiles := 0 + 1,
              ImportedUAssetFiles := [] }
      ∧ ExtractZipStore exampleHost .OverrideExisting
          (WriteZipStore (fun _ => 0) [⟨"notes.txt".toList, [1]⟩, ⟨"a.uasset".toList, [2]⟩]) []
        = some { OutError := none, Files := [("D/a.uasset".toList, [2])], ImportedFiles := 1,
                 SkippedFiles := 1, Scanned := ["D/a.uasset".toList] } :=
  ⟨by decide,
    extractLoop_not_importable exampleHost .OverrideExisting
      (WriteZipStore (fun _ => 0) [⟨"notes.txt".toList, [1]⟩, ⟨"a.uasset".toList, [2]⟩]).length
      { Ar := { rest := WriteZipStore (fun _ => 0)
                  [⟨"notes.txt".toList, [1]⟩, ⟨"a.uasset".toList, [2]⟩], err := false },
        Files := [], ImportedFiles := 0, SkippedFiles := 0, ImportedUAssetFiles := [] }
      "notes.txt".toList [1]
      { rest := (WriteZipStore (fun _ => 0)
          [⟨"notes.txt".toList, [1]⟩, ⟨"a.uasset".toList, [2]⟩]).drop 40, err := false }
      (by decide!) (by decide) (by decide) (by decide) (by decide),
    by decide!⟩

/-- C13 as stated fails: the directory entry `docs/` has a safe name and no
allow-listed extension, but it is passed over before the extension check and
the skipped count stays 0; and the entry `a.uasset/Content`, whose own
extension is none, is written as `a.uasset` because the check looks at the
path of the import. -/
theorem ExtractZipStore_skip_not_counted :
    (IsSafeZipRelPath "docs/".toList = true
      ∧ ToLower (dot :: GetExtension "docs/".toList) ∉ importableExtensions
      ∧ ExtractZipStore exampleHost .OverrideExisting
          (WriteZipStore (fun _ => 0) [⟨"docs/".toList, []⟩]) []
        = some { OutError := none, Files := [], ImportedFiles := 0, SkippedFiles := 0,
                 Scanned := [] })
    ∧ (IsSafeZipRelPath "a.uasset/Content".toList = true
      ∧ ToLower (dot :: GetExtension "a.uasset/Content".toList) ∉ importableExtensions
      ∧ ExtractZipStore exampleHost .OverrideExisting
          (WriteZipStore (fun _ => 0) [⟨"a.uasset/Content".toList, [1]⟩]) []
        = some { OutError := none, Files := [("D/a.uasset".toList, [1])], ImportedFiles := 1,
                 SkippedFiles := 0, Scanned := ["D/a.uasset".toList] }) :=
  ⟨⟨by decide, by decide, by decide!⟩, ⟨by decide, by decide, by decide!⟩⟩

theorem ParseIntoArray_eq_filter (P : FString) (d : Char) :
    ParseIntoArray P d = (splitAt d P).filter (fun seg => decide (seg ≠ [])) := by
  rw [ParseIntoArray]
  congr 1
  funext seg
  cases seg <;> simp

/-- C12: `NormalizeImportRelPath` returns the non-empty `/`-separated segments
of the path with the second segment removed when it equals `Content` ignoring
case, otherwise with the first segment removed when it equals `Content`
ignoring case, and otherwise the path with its separators normalized; so the
entry `MyProject/Content/Meshes/Cube.uasset` is written to
`MyProject/Meshes/Cube.uasset` under the destination root. -/
theorem NormalizeImportRelPath_spec :
    (∀ Path : FString, NormalizeImportRelPath Path = specImportRelPath Path)
      ∧ NormalizeImportRelPath "MyProject/Content/Meshes/Cube.uasset".toList
          = "MyProject/Meshes/Cube.uasset".toList
      ∧ ExtractZipStore exampleHost .OverrideExisting
          (WriteZipStore (fun _ => 0)
            [⟨"MyProject/Content/Meshes/Cube.uasset".toList, [1, 2]⟩]) []
        = some { OutError := none,
                 Files := [(exampleHost.DestPath "MyProject/Meshes/Cube.uasset".toList, [1, 2])],
                 ImportedFiles := 1, SkippedFiles := 0,
                 Scanned := [exampleHost.DestPath "MyProject/Meshes/Cube.uasset".toList] } := by
  refine ⟨?_, by decide, by decide!⟩
  intro Path
  unfold NormalizeImportRelPath specImportRelPath
  simp only [NormalizeRelPath, ParseIntoArray_eq_filter, EqualsIgnoreCase, ContentName]
  cases hP : chopLeadingSlashes (ReplaceInline backslash slash Path) with
  | nil => rfl
  | cons c cs =>
    simp only [List.isEmpty_cons, Bool.false_eq_true, if_false]
    cases hseg : (splitAt slash (c :: cs)).filter (fun seg => decide (seg ≠ [])) with
    | nil => simp
    | cons s0 t =>
      cases t with
      | nil => simp [Join_nil]
      | cons s1 rest => simp

/-- C14 (as amended): for an entry that the loop of `ExtractZipStore` decodes
and that passes the safety and extension checks. In SkipExisting mode, if a
file exists at its destination, the entry is counted as skipped (the loop goes
on from a state that differs only by the read position and the skipped count)
and, when the extraction returns, the content of that file is what it was. In
OverrideExisting mode, or when no file exists at the destination, after a
successful extraction the files on disk are the files written for later
entries, on top of the destination with the payload of the entry, on top of
the files before; so the destination holds the payload of the entry unless a
later entry was written to the same destination, which does not happen in
SkipExisting mode. -/
theorem extractLoop_entry_effect (h : Host) (Mode : EAssetSnapshotImportMode) (fuel : Nat)
    (s : ExtractState) (Name : FString) (Data : List Nat) (Ar2 : Reader) (r : ExtractResult)
    (hread : readEntry h.uninit s.Ar = .entry Name Data Ar2)
    (hne : Name ≠ []) (hdir : Name.getLast? ≠ some slash)
    (hsafe : IsSafeZipRelPath Name = true)
    (himp : IsImportableAssetFile (NormalizeImportRelPath Name) = true)
    (hrun : extractLoop h Mode (fuel + 1) s = some r) :
    (Mode = .SkipExisting →
        FileExists s.Files (h.DestPath (NormalizeImportRelPath Name)) = true →
        extractLoop h Mode (fuel + 1) s
            = extractLoop h Mode fuel
                { Ar := Ar2, Files := s.Files, ImportedFiles := s.ImportedFiles,
                  SkippedFiles := s.SkippedFiles + 1,
                  ImportedUAssetFiles := s.ImportedUAssetFiles }
          ∧ r.Files.lookup (h.DestPath (NormalizeImportRelPath Name))
              = s.Files.lookup (h.DestPath (NormalizeImportRelPath Name)))
      ∧ ((Mode = .OverrideExisting
            ∨ FileExists s.Files (h.DestPath (NormalizeImportRelPath Name)) = false) →
          r.OutError = none →
          ∃ W : Disk,
            r.Files = W ++ (h.DestPath (NormalizeImportRelPath Name), Data) :: s.Files
              ∧ (Mode = .SkipExisting →
                  h.DestPath (NormalizeImportRelPath Name) ∉ W.map Prod.fst)
              ∧ (h.DestPath (NormalizeImportRelPath Name) ∉ W.map Prod.fst →
                  r.Files.lookup (h.DestPath (NormalizeImportRelPath Name)) = some Data)) := by
  have hstep := hrun
  rw [extractLoop, readEntry_rest_ne_nil _ _ _ _ _ hread] at hstep
  simp only [Bool.false_eq_true, if_false, hread, not_directory_name Name hne hdir, hsafe,
    Bool.not_true, himp] at hstep
  constructor
  · intro hm hex
    have hskip : extractLoop h Mode (fuel + 1) s
        = extractLoop h Mode fuel
            { Ar := Ar2, Files := s.Files, ImportedFiles := s.ImportedFiles,
              SkippedFiles := s.SkippedFiles + 1,
              ImportedUAssetFiles := s.ImportedUAssetFiles } := by
      rw [extractLoop, readEntry_rest_ne_nil _ _ _ _ _ hread]
      simp only [Bool.false_eq_true, if_false, hread, not_directory_name Name hne hdir, hsafe,
        Bool.not_true, himp, hm, hex, and_self, if_true]
    refine ⟨hskip, ?_⟩
    rw [hskip] at hrun
    obtain ⟨W, hW, hS⟩ := extractLoop_files h Mode fuel _ r hrun
    simp only at hW hS
    rw [hW]
    apply lookup_append_of_not_mem
    intro hmem
    have := hS hm _ hmem
    rw [hex] at this
    exact absurd this (by simp)
  · intro hcase hok
    have hnot : ¬ (Mode = .SkipExisting
        ∧ FileExists s.Files (h.DestPath (NormalizeImportRelPath Name)) = true) := by
      rintro ⟨hm, hex⟩
      rcases hcase with hc | hc
      · rw [hm] at hc
        exact EAssetSnapshotImportMode.noConfusion hc
      · rw [hex] at hc
        exact absurd hc (by simp)
    simp only [hnot, if_false] at hstep
    cases hsave : h.SaveOk (h.DestPath (NormalizeImportRelPath Name)) with
    | false =>
      exfalso
      rw [hsave] at hstep
      simp only [Bool.not_false, if_true] at hstep
      rw [← Option.some.inj hstep] at hok
      exact Option.noConfusion hok
    | true =>
      rw [hsave] at hstep
      simp only [Bool.not_true, Bool.false_eq_true, if_false] at hstep
      obtain ⟨W, hW, hS⟩ := extractLoop_files h Mode fuel _ r hstep
      have hW2 : r.Files
          = W ++ (h.DestPath (NormalizeImportRelPath Name), Data) :: s.Files := by
        rw [hW]
        split_ifs <;> rfl
      have hS2 : Mode = .SkipExisting →
          h.DestPath (NormalizeImportRelPath Name) ∉ W.map Prod.fst := by
        intro hm hmem
        have h1 := hS hm _ hmem
        have h2 : FileExists ((h.DestPath (NormalizeImportRelPath Name), Data) :: s.Files)
            (h.DestPath (NormalizeImportRelPath Name)) = false := by
          rw [← h1]
          split_ifs <;> rfl
        exact (FileExists_cons_false _ _ _ _ h2).1 rfl
      refine ⟨W, hW2, hS2, ?_⟩
      intro hmem
      rw [hW2, lookup_append_of_not_mem _ _ _ hmem]
      simp [List.lookup_cons]

/-- Witness for C14: in SkipExisting mode the archive holding `a.uasset` is
extracted over a disk that has `D/a.uasset` already; the file keeps its
content. -/
theorem extractLoop_entry_effect_witness :
    ExtractZipStore exampleHost .SkipExisting
        (WriteZipStore (fun _ => 0) [⟨"a.uasset".toList, [1]⟩]) [("D/a.uasset".toList, [9])]
      = some { OutError := none, Files := [("D/a.uasset".toList, [9])], ImportedFiles := 0,
               SkippedFiles := 1, Scanned := [] }
    ∧ List.lookup "D/a.uasset".toList
        ({ OutError := none, Files := [("D/a.uasset".toList, [9])], ImportedFiles := 0,
           SkippedFiles := 1, Scanned := [] } : ExtractResult).Files
      = List.lookup "D/a.uasset".toList [("D/a.uasset".toList, [9])] :=
  ⟨by decide!,
    ((extractLoop_entry_effect exampleHost .SkipExisting
      (WriteZipStore (fun _ => 0) [⟨"a.uasset".toList, [1]⟩]).length
      { Ar := { rest := WriteZipStore (fun _ => 0) [⟨"a.uasset".toList, [1]⟩], err := false },
        Files := [("D/a.uasset".toList, [9])], ImportedFiles := 0, SkippedFiles := 0,
        ImportedUAssetFiles := [] }
      "a.uasset".toList [1]
      { rest := (WriteZipStore (fun _ => 0) [⟨"a.uasset".toList, [1]⟩]).drop 39,
        err := false }
      { OutError := none, Files := [("D/a.uasset".toList, [9])], ImportedFiles := 0,
        SkippedFiles := 1, Scanned := [] }
      (by decide!) (by decide) (by decide) (by decide) (by decide) (by decide!)).1
        rfl (by decide)).2⟩

/-- C14 as stated fails: in OverrideExisting mode the entries
`X/Content/a.uasset` (payload 1) and `X/a.uasset` (payload 2) have the same
destination; both pass the checks and the extraction succeeds, but afterwards
the destination holds the payload of the second entry, not that of the
first. -/
theorem ExtractZipStore_later_entry_overwrites :
    NormalizeImportRelPath "X/Content/a.uasset".toList = "X/a.uasset".toList
    ∧ Option.map (fun r => (r.OutError, r.Files.lookup "D/X/a.uasset".toList))
        (ExtractZipStore exampleHost .OverrideExisting
          (WriteZipStore (fun _ => 0)
            [⟨"X/Content/a.uasset".toList, [1]⟩, ⟨"X/a.uasset".toList, [2]⟩]) [])
      = some (none, some [2]) :=
  ⟨by decide, by decide!⟩

theorem ToLowerHex_cons (B : Nat) (Bytes : List Nat) :
    ToLowerHex (B :: Bytes) (Bytes.length + 1)
      = hexDigit (B % 256 / 16 % 16) :: hexDigit (B % 16) :: ToLowerHex Bytes Bytes.length := by
  simp [ToLowerHex, hexDigit]

theorem ToLowerHex_nil : ToLowerHex [] 0 = [] := rfl

theorem hexDigit_range (n : Nat) (h : n < 16) :
    (48 ≤ (hexDigit n).toNat ∧ (hexDigit n).toNat ≤ 57)
      ∨ (97 ≤ (hexDigit n).toNat ∧ (hexDigit n).toNat ≤ 102) := by
  interval_cases n <;> decide

theorem hexDigit_injective (m n : Nat) (hm : m < 16) (hn : n < 16)
    (h : hexDigit m = hexDigit n) : m = n := by
  interval_cases m <;> interval_cases n <;> first | rfl | (exfalso; revert h; decide)

theorem ToLowerHex_length (Bytes : List Nat) :
    (ToLowerHex Bytes Bytes.length).length = 2 * Bytes.length := by
  induction Bytes with
  | nil => rfl
  | cons B Bytes ih =>
    rw [List.length_cons, ToLowerHex_cons, List.length_cons, List.length_cons, ih]
    omega

theorem ToLowerHex_chars (Bytes : List Nat) :
    ∀ c ∈ ToLowerHex Bytes Bytes.length,
      (48 ≤ c.toNat ∧ c.toNat ≤ 57) ∨ (97 ≤ c.toNat ∧ c.toNat ≤ 102) := by
  induction Bytes with
  | nil => intro c hc; exact absurd hc (List.not_mem_nil c)
  | cons B Bytes ih =>
    intro c hc
    rw [List.length_cons, ToLowerHex_cons, List.mem_cons, List.mem_cons] at hc
    rcases hc with h | h | h
    · rw [h]
      exact hexDigit_range _ (Nat.mod_lt _ (by norm_num))
    · rw [h]
      exact hexDigit_range _ (Nat.mod_lt _ (by norm_num))
    · exact ih c h

theorem ToLowerHex_nibbles (Bytes : List Nat) (hb : ∀ b ∈ Bytes, b < 256) :
    ∀ (i : Nat) (B : Nat), Bytes[i]? = some B →
      (ToLowerHex Bytes Bytes.length)[2 * i]? = some (hexDigit (B / 16))
        ∧ (ToLowerHex Bytes Bytes.length)[2 * i + 1]? = some (hexDigit (B % 16)) := by
  induction Bytes with
  | nil => intro i B h; simp at h
  | cons X Bytes ih =>
    intro i B h
    rw [List.length_cons, ToLowerHex_cons]
    cases i with
    | zero =>
      simp only [List.getElem?_cons_zero, Option.some.injEq] at h
      have hX := hb X (List.mem_cons_self _ _)
      subst h
      have e : X % 256 / 16 % 16 = X / 16 := by omega
      simp [e]
    | succ j =>
      rw [List.getElem?_cons_succ] at h
      have := ih (fun b hb2 => hb b (List.mem_cons_of_mem _ hb2)) j B h
      have e1 : 2 * (j + 1) = 2 * j + 1 + 1 := by ring
      have e2 : 2 * (j + 1) + 1 = 2 * j + 1 + 1 + 1 := by ring
      rw [e2, e1]
      simpa using this

theorem ToLowerHex_injective :
    ∀ (A B : List Nat), (∀ b ∈ A, b < 256) → (∀ b ∈ B, b < 256) →
      ToLowerHex A A.length = ToLowerHex B B.length → A = B := by
  intro A
  induction A with
  | nil =>
    intro B _ _ h
    cases B with
    | nil => rfl
    | cons y B =>
      rw [List.length_cons, ToLowerHex_cons] at h
      exact List.noConfusion h
  | cons x A ih =>
    intro B ha hb h
    cases B with
    | nil =>
      rw [List.length_cons, ToLowerHex_cons] at h
      exact List.noConfusion h
    | cons y B =>
      rw [List.length_cons, ToLowerHex_cons, List.length_cons, ToLowerHex_cons] at h
      simp only [List.cons.injEq] at h
      obtain ⟨h1, h2, h3⟩ := h
      have hx := ha x (List.mem_cons_self _ _)
      have hy := hb y (List.mem_cons_self _ _)
      have e1 := hexDigit_injective _ _ (Nat.mod_lt _ (by norm_num)) (Nat.mod_lt _ (by norm_num)) h1
      have e2 := hexDigit_injective _ _ (Nat.mod_lt _ (by norm_num)) (Nat.mod_lt _ (by norm_num)) h2
      have exy : x = y := by omega
      rw [exy, ih B (fun b h => ha b (List.mem_cons_of_mem _ h))
        (fun b h => hb b (List.mem_cons_of_mem _ h)) h3]

/-- C17: for every sequence of `n` bytes `ToLowerHex` returns a string of
exactly `2 * n` characters, each in `0`-`9` or `a`-`f`, in which the characters
`2 * i` and `2 * i + 1` are the digits of the high and of the low nibble of
byte `i`; so different byte sequences give different strings, and a digest of
32 bytes is rendered as 64 characters. -/
theorem ToLowerHex_spec (Bytes : List Nat) (hb : ∀ b ∈ Bytes, b < 256) :
    (ToLowerHex Bytes Bytes.length).length = 2 * Bytes.length
      ∧ (∀ c ∈ ToLowerHex Bytes Bytes.length,
          (48 ≤ c.toNat ∧ c.toNat ≤ 57) ∨ (97 ≤ c.toNat ∧ c.toNat ≤ 102))
      ∧ (∀ (i : Nat) (B : Nat), Bytes[i]? = some B →
          (ToLowerHex Bytes Bytes.length)[2 * i]? = some (Hex.getD (B / 16) (Char.ofNat 48))
            ∧ (ToLowerHex Bytes Bytes.length)[2 * i + 1]?
                = some (Hex.getD (B % 16) (Char.ofNat 48)))
      ∧ (∀ Other : List Nat, (∀ b ∈ Other, b < 256) →
          ToLowerHex Bytes Bytes.length = ToLowerHex Other Other.length → Bytes = Other)
      ∧ (Bytes.length = 32 → (ToLowerHex Bytes 32).length = 64) := by
  refine ⟨ToLowerHex_length Bytes, ToLowerHex_chars Bytes, ToLowerHex_nibbles Bytes hb,
    fun Other ho h => ToLowerHex_injective Bytes Other hb ho h, ?_⟩
  intro h32
  have := ToLowerHex_length Bytes
  rw [h32] at this
  exact this

/-- Witness for C17: the bytes 0, 171, 255 give `00abff`. -/
theorem ToLowerHex_spec_witness :
    (∀ b ∈ [0, 171, 255], b < 256) ∧ ToLowerHex [0, 171, 255] 3 = "00abff".toList
      ∧ (ToLowerHex [0, 171, 255] [0, 171, 255].length).length = 2 * [0, 171, 255].length :=
  ⟨by decide, by decide, (ToLowerHex_spec [0, 171, 255] (by decide)).1⟩

/-! ## Server settings -/

theorem GetSettingString_absent (Obj : FJsonObject) (Key DefaultValue : FString)
    (h : Absent Obj Key) : GetSettingString (some Obj) Key DefaultValue = DefaultValue := by
  obtain ⟨h1, h2, h3⟩ := h
  simp [GetSettingString, h1, h2, h3]

theorem toLower_toLower (c : Char) : c.toLower.toLower = c.toLower := by
  by_cases h1 : c.toNat ≥ 65 ∧ c.toNat ≤ 90
  · have h2 : c.toNat - 65 < 26 := by omega
    have h3 : c.toNat = 65 + (c.toNat - 65) := by omega
    have e : c.toLower = Char.ofNat (c.toNat + 32) := by
      unfold Char.toLower
      simp only [h1, and_self, if_true]
    rw [e]
    generalize c.toNat - 65 = k at h2 h3
    rw [h3]
    interval_cases k <;> decide
  · have e : c.toLower = c := by
      unfold Char.toLower
      simp only [h1, if_false]
    rw [e, e]

theorem ToLower_ToLower (S : FString) : ToLower (ToLower S) = ToLower S := by
  simp [ToLower, toLower_toLower]

theorem ParseBoolSetting_eq (Value : FString) (DefaultValue : Bool) :
    ParseBoolSetting Value DefaultValue
      = if TrimStartAndEnd Value = [] then DefaultValue
        else decide (ToLower (TrimStartAndEnd Value) ∈ truthyTexts) := by
  unfold ParseBoolSetting
  simp only [EqualsIgnoreCase, ToLower_ToLower]
  have e1 : ToLower "1".toList = "1".toList := by decide
  have e2 : ToLower "true".toList = "true".toList := by decide
  have e3 : ToLower "yes".toList = "yes".toList := by decide
  have e4 : ToLower "on".toList = "on".toList := by decide
  rw [e1, e2, e3, e4]
  cases hT : TrimStartAndEnd Value with
  | nil => rfl
  | cons c cs =>
    simp [ToLower, truthyTexts, Bool.or_assoc]

theorem ParseIntSetting_default (Value : FString) (DefaultValue : Int)
    (h : TrimStartAndEnd Value = [] ∨ IsNumeric (TrimStartAndEnd Value) = false) :
    ParseIntSetting Value DefaultValue = DefaultValue := by
  unfold ParseIntSetting
  rcases h with h | h
  · simp [h]
  · simp [h]

/-- C19 (as amended): for every settings JSON object and every boolean or
integer settings field: when the key is absent the parsed setting is the
default of the field; an integer field whose text is empty after trimming, or
is not numeric, gets its default; a boolean field whose text is empty after
trimming gets its default, and any other text gives true when it is one of 1,
true, yes, on in any case and false otherwise (so a text that is no boolean
gives false, not the default). -/
theorem applySettings_field (Obj : FJsonObject) (G : FServerSettingsCache) (NowSec : Rat)
    (f : SettingField) :
    (Absent Obj f.key → f.get (applySettings Obj G NowSec) = f.defaultValue)
      ∧ (∀ n : Int, f.defaultValue = .int n →
          (TrimStartAndEnd (GetSettingString (some Obj) f.key f.defaultText) = []
            ∨ IsNumeric (TrimStartAndEnd (GetSettingString (some Obj) f.key f.defaultText))
                = false) →
          f.get (applySettings Obj G NowSec) = f.defaultValue)
      ∧ (∀ b : Bool, f.defaultValue = .bool b →
          (TrimStartAndEnd (GetSettingString (some Obj) f.key f.defaultText) = [] →
              f.get (applySettings Obj G NowSec) = f.defaultValue)
            ∧ (TrimStartAndEnd (GetSettingString (some Obj) f.key f.defaultText) ≠ [] →
              f.get (applySettings Obj G NowSec)
                = .bool (decide (ToLower (TrimStartAndEnd
                    (GetSettingString (some Obj) f.key f.defaultText)) ∈ truthyTexts)))) := by
  refine ⟨?_, ?_, ?_⟩
  · intro habs
    cases f <;>
      simp only [SettingField.key] at habs <;>
      simp only [SettingField.get, SettingField.defaultValue, applySettings,
        GetSettingString_absent Obj _ _ habs] <;>
      decide
  · intro n hn hbad
    cases f <;>
      first
      | exact SettingValue.noConfusion hn
      | (simp only [SettingField.key, SettingField.defaultText] at hbad
         simp only [SettingField.get, SettingField.defaultValue, applySettings,
           ParseIntSetting_default _ _ hbad])
  · intro b hb
    cases f <;>
      first
      | exact SettingValue.noConfusion hb
      | (simp only [SettingField.key, SettingField.defaultText, SettingField.get,
           SettingField.defaultValue, applySettings, ParseBoolSetting_eq]
         constructor
         · intro h0
           rw [if_pos h0]
         · intro h0
           rw [if_neg h0])

/-- Witness for C19: in an object without any key the static mesh image
count gets its default 0. -/
theorem applySettings_field_witness :
    Absent emptySettingsObject SettingField.StaticMeshImageCount.key
      ∧ SettingField.StaticMeshImageCount.get
          (applySettings emptySettingsObject {} 0)
        = SettingValue.int 0 :=
  ⟨⟨rfl, rfl, rfl⟩,
    (applySettings_field emptySettingsObject {} 0 SettingField.StaticMeshImageCount).1
      ⟨rfl, rfl, rfl⟩⟩

/-- C19 as stated fails: for the object in which `export_upload_after_export`
is the string `maybe`, which is no boolean, the parsed setting is false, while
the default of the field is true. -/
theorem applySettings_unparsable_bool :
    (applySettings exampleSettingsObject {} 0).bUploadAfterExport = false
      ∧ SettingField.UploadAfterExport.get (applySettings exampleSettingsObject {} 0)
          ≠ SettingField.UploadAfterExport.defaultValue
      ∧ ToLower (TrimStartAndEnd "maybe".toList) ∉ truthyTexts := by
  decide

theorem Clamp_range (X Min Max : Int) (h : Min ≤ Max) :
    Min ≤ Clamp X Min Max ∧ Clamp X Min Max ≤ Max := by
  unfold Clamp
  split_ifs <;> omega

/-- C18: for every settings state that `GetServerSettingsCached` returns,
`GetStaticMeshFrameCount` returns a value from 1 to 24, never zero; when the
static mesh image count is not positive, and so when
`export_static_mesh_image_count` is absent from the response, it returns the
default image count (1 when that is not positive) clamped to 1..24. -/
theorem GetStaticMeshFrameCount_spec (Server : FServerSettingsCache) :
    (1 ≤ GetStaticMeshFrameCount Server ∧ GetStaticMeshFrameCount Server ≤ 24)
      ∧ GetStaticMeshFrameCount Server ≠ 0
      ∧ (Server.StaticMeshImageCount ≤ 0 →
          GetStaticMeshFrameCount Server
            = Clamp (if Server.DefaultImageCount > 0 then Server.DefaultImageCount else 1) 1 24)
      ∧ (∀ (Obj : FJsonObject) (G : FServerSettingsCache) (NowSec : Rat),
          Absent Obj "export_static_mesh_image_count".toList →
          (applySettings Obj G NowSec).StaticMeshImageCount = 0
            ∧ GetStaticMeshFrameCount (applySettings Obj G NowSec)
              = Clamp (if (applySettings Obj G NowSec).DefaultImageCount > 0
                        then (applySettings Obj G NowSec).DefaultImageCount else 1) 1 24) := by
  have hr : 1 ≤ GetStaticMeshFrameCount Server ∧ GetStaticMeshFrameCount Server ≤ 24 := by
    unfold GetStaticMeshFrameCount ClampCount
    exact Clamp_range _ 1 24 (by norm_num)
  have hz : ∀ S : FServerSettingsCache, S.StaticMeshImageCount ≤ 0 →
      GetStaticMeshFrameCount S
        = Clamp (if S.DefaultImageCount > 0 then S.DefaultImageCount else 1) 1 24 := by
    intro S hS
    unfold GetStaticMeshFrameCount ClampCount
    simp only
    have h1 : ¬ S.StaticMeshImageCount > 0 := by omega
    rw [if_neg h1]
    split_ifs <;> rfl
  refine ⟨hr, by omega, hz Server, ?_⟩
  intro Obj G NowSec habs
  have h0 : (applySettings Obj G NowSec).StaticMeshImageCount = 0 := by
    simp only [applySettings, GetSettingString_absent Obj _ _ habs]
    decide
  exact ⟨h0, hz _ (by omega)⟩

/-- Witness for C18: with the built-in settings (default image count 1, static
mesh image count 0) the frame count is 1. -/
theorem GetStaticMeshFrameCount_spec_witness :
    ({} : FServerSettingsCache).StaticMeshImageCount ≤ 0
      ∧ GetStaticMeshFrameCount {} = 1 :=
  ⟨by decide, ((GetStaticMeshFrameCount_spec {}).2.2.1 (by decide)).trans (by decide)⟩

/-- C20, what the code does: `GetCapture360DiscardCount` returns a value from 0
to 10 for every settings state, and 0 when `export_capture360_discard_frames`
is absent from the response; but when the settings are unavailable (an empty
base URL, or a request that fails) the cache holds the member initializer 2 of
`FServerSettingsCache` and the function returns 2. -/
theorem GetCapture360DiscardCount_unavailable :
    (∀ Server : FServerSettingsCache,
        0 ≤ GetCapture360DiscardCount Server ∧ GetCapture360DiscardCount Server ≤ 10)
      ∧ (∀ (Obj : FJsonObject) (G : FServerSettingsCache) (NowSec : Rat),
          Absent Obj "export_capture360_discard_frames".toList →
          GetCapture360DiscardCount (applySettings Obj G NowSec) = 0)
      ∧ (GetServerSettingsCached (fun _ => none) {} "127.0.0.1:9090".toList 0).bAvailable
          = false
      ∧ GetCapture360DiscardCount
          (GetServerSettingsCached (fun _ => none) {} "127.0.0.1:9090".toList 0) = 2
      ∧ GetCapture360DiscardCount
          (GetServerSettingsCached (fun _ => some emptySettingsObject) {} [] 0) = 2 := by
  refine ⟨fun Server => Clamp_range _ 0 10 (by norm_num), ?_, by decide, by decide, by decide⟩
  intro Obj G NowSec habs
  simp only [GetCapture360DiscardCount, applySettings, GetSettingString_absent Obj _ _ habs]
  decide

theorem AddIfExistsAllowlisted_inv (h : ExportHost) (hK : ∀ a, h.SameKey a a = true)
    (AbsPath : FString) (st : ManifestState) (hi : ManifestInv h st) :
    ManifestInv h (AddIfExistsAllowlisted h AbsPath st) := by
  unfold AddIfExistsAllowlisted
  by_cases hex : h.FileExists AbsPath = true
  swap
  · simp [hex]; exact hi
  simp only [hex, Bool.not_true, Bool.false_eq_true, if_false]
  split_ifs with hall hseen
  · exact hi
  · exact hi
  · obtain ⟨h1, h2, h3, h4⟩ := hi
    have hnot : NormalizeRelPath (h.MakePathRelativeTo AbsPath h.ContentDir) ∉ st.OutRel := by
      intro hm
      apply hseen
      rw [List.any_eq_true]
      exact ⟨_, h1 ▸ hm, hK _⟩
    refine ⟨by simp [h1], by simp [h2], ?_, ?_⟩
    · simp only
      rw [List.nodup_append]
      refine ⟨h3, List.nodup_singleton _, ?_⟩
      intro a ha hb
      simp at hb
      exact hnot (hb ▸ ha)
    · intro p hp
      simp only at hp
      rw [List.zip_append h2] at hp
      rcases List.mem_append.1 hp with hp | hp
      · exact h4 p hp
      · simp at hp
        subst hp
        refine ⟨rfl, hex, ?_⟩
        simp only [allowlistedExtensions, List.mem_cons, List.mem_singleton, List.not_mem_nil,
          or_false]
        generalize ToLower (GetExtensionWithDot
          (NormalizeRelPath (h.MakePathRelativeTo AbsPath h.ContentDir))) = E at hall
        simp at hall
        tauto

theorem GatherFilesOnDiskForPackage_inv (h : ExportHost) (hK : ∀ a, h.SameKey a a = true)
    (Pkg : FString) (st : ManifestState) (hi : ManifestInv h st) :
    ManifestInv h (GatherFilesOnDiskForPackage h Pkg st) := by
  unfold GatherFilesOnDiskForPackage
  exact AddIfExistsAllowlisted_inv h hK _ _ (AddIfExistsAllowlisted_inv h hK _ _
    (AddIfExistsAllowlisted_inv h hK _ _ (AddIfExistsAllowlisted_inv h hK _ _ hi)))

theorem foldl_Gather_inv (h : ExportHost) (hK : ∀ a, h.SameKey a a = true)
    (Deps : List FString) : ∀ st, ManifestInv h st →
    ManifestInv h (Deps.foldl (fun st Pkg => GatherFilesOnDiskForPackage h Pkg st) st) := by
  induction Deps with
  | nil => intro st hi; exact hi
  | cons d ds ih =>
    intro st hi
    exact ih _ (GatherFilesOnDiskForPackage_inv h hK d st hi)

theorem gatherFiles_inv (h : ExportHost) (hK : ∀ a, h.SameKey a a = true)
    (Deps : List FString) : ManifestInv h (gatherFiles h Deps) := by
  unfold gatherFiles
  apply foldl_Gather_inv h hK
  refine ⟨rfl, rfl, List.nodup_nil, ?_⟩
  intro p hp
  simp at hp

theorem map_range_getD {β : Type} (l : List β) (d : β) :
    (List.range l.length).map (fun I => l.getD I d) = l := by
  apply List.ext_getElem
  · simp
  · intro i h1 h2
    simp [List.getD_eq_getElem?_getD, List.getElem?_eq_getElem h2]

theorem map_range_zip_getD {β γ : Type} (l : List β) (m : List γ) (d : β) (e : γ)
    (hl : l.length = m.length) :
    (List.range l.length).map (fun I => (l.getD I d, m.getD I e)) = l.zip m := by
  apply List.ext_getElem
  · simp [hl]
  · intro i h1 h2
    have h3 : i < l.length := by simpa using h1
    have h4 : i < m.length := hl ▸ h3
    simp [List.getD_eq_getElem?_getD, List.getElem?_eq_getElem h3, List.getElem?_eq_getElem h4]

theorem sortIndices_perm (h : ExportHost) (FilesRel : List FString) :
    (sortIndices h FilesRel).Perm (List.range FilesRel.length) :=
  List.perm_insertionSort _ _

theorem sortIndices_sorted (h : ExportHost)
    (hasymm : ∀ a b, h.Less a b = true → h.Less b a = false)
    (htrans : ∀ a b c, h.Less b a = false → h.Less c b = false → h.Less c a = false)
    (FilesRel : List FString) :
    (sortIndices h FilesRel).Sorted
      (fun A B => h.Less (FilesRel.getD B []) (FilesRel.getD A []) = false) := by
  unfold sortIndices
  haveI : IsTotal Nat (fun A B => h.Less (FilesRel.getD B []) (FilesRel.getD A []) = false) :=
    ⟨fun A B => by
      by_cases hx : h.Less (FilesRel.getD B []) (FilesRel.getD A []) = true
      · exact Or.inr (hasymm _ _ hx)
      · exact Or.inl (by simpa using hx)⟩
  haveI : IsTrans Nat (fun A B => h.Less (FilesRel.getD B []) (FilesRel.getD A []) = false) :=
    ⟨fun A B C h1 h2 => htrans _ _ _ h1 h2⟩
  exact List.sorted_insertionSort _ _

/-! ## SHA-256: the code against FIPS 180-4 -/

theorem specPrimes_eq : specPrimes =
    [2, 3, 5, 7, 11, 13, 17, 19, 23, 29, 31, 37, 41, 43, 47, 53, 59, 61, 67, 71, 73, 79, 83,
     89, 97, 101, 103, 107, 109, 113, 127, 131, 137, 139, 149, 151, 157, 163, 167, 173, 179,
     181, 191, 193, 197, 199, 211, 223, 227, 229, 233, 239, 241, 251, 257, 263, 269, 271, 277,
     281, 283, 293, 307, 311] := by
  decide!

theorem integerRoot_cube : ∀ p ∈ specPrimes,
    integerRoot 3 (p * 2 ^ 96) ^ 3 ≤ p * 2 ^ 96
      ∧ p * 2 ^ 96 < (integerRoot 3 (p * 2 ^ 96) + 1) ^ 3 := by
  decide!

theorem integerRoot_square : ∀ p ∈ specPrimes.take 8,
    integerRoot 2 (p * 2 ^ 64) ^ 2 ≤ p * 2 ^ 64
      ∧ p * 2 ^ 64 < (integerRoot 2 (p * 2 ^ 64) + 1) ^ 2 := by
  decide!

theorem K_eq_specK : K = specK := by decide!

theorem Init_State (Uninit : List Nat) : (Init Uninit).State = specH0 := by
  show [0x6a09e667, 0xbb67ae85, 0x3c6ef372, 0xa54ff53a,
        0x510e527f, 0x9b05688c, 0x1f83d9ab, 0x5be0cd19] = specH0
  decide!

theorem RotR_eq (X N : Nat) : RotR X N = ROTR N X := rfl

theorem Ch_eq (X Y Z : Nat) : Ch X Y Z = specCh X Y Z := rfl

theorem Maj_eq (X Y Z : Nat) : Maj X Y Z = specMaj X Y Z := rfl

theorem Sig0_eq (X : Nat) : Sig0 X = bigSigma0 X := rfl

theorem Sig1_eq (X : Nat) : Sig1 X = bigSigma1 X := rfl

theorem Theta0_eq (X : Nat) : Theta0 X = smallSigma0 X := rfl

theorem Theta1_eq (X : Nat) : Theta1 X = smallSigma1 X := rfl

theorem word_of_bytes (a b c d : Nat) (ha : a < 256) (hb : b < 256) (hc : c < 256)
    (hd : d < 256) :
    (a <<< 24 ||| b <<< 16 ||| c <<< 8 ||| d) % 4294967296
      = a * 2 ^ 24 + b * 2 ^ 16 + c * 2 ^ 8 + d := by
  have h1 : 2 ^ 8 * c ||| d = 2 ^ 8 * c + d :=
    (Nat.mul_add_lt_is_or (by omega) c).symm
  have h2 : 2 ^ 16 * b ||| (2 ^ 8 * c + d) = 2 ^ 16 * b + (2 ^ 8 * c + d) :=
    (Nat.mul_add_lt_is_or (by omega) b).symm
  have h3 : 2 ^ 24 * a ||| (2 ^ 16 * b + (2 ^ 8 * c + d))
      = 2 ^ 24 * a + (2 ^ 16 * b + (2 ^ 8 * c + d)) :=
    (Nat.mul_add_lt_is_or (by omega) a).symm
  rw [Nat.lor_assoc, Nat.lor_assoc, Nat.shiftLeft_eq, Nat.shiftLeft_eq, Nat.shiftLeft_eq,
    Nat.mul_comm a, Nat.mul_comm b, Nat.mul_comm c, h1, h2, h3]
  omega

theorem getD_lt_256 (B : List Nat) (hB : ∀ b ∈ B, b < 256) (i : Nat) : B.getD i 0 < 256 := by
  rw [List.getD_eq_getElem?_getD]
  cases h : B[i]? with
  | none => simp
  | some v => simpa using hB v (List.getElem?_mem h)

theorem loadWords_eq (B : List Nat) (hB : ∀ b ∈ B, b < 256) : loadWords B = specWords B := by
  unfold loadWords specWords
  apply List.map_congr_left
  intro i _
  rw [word_of_bytes _ _ _ _ (getD_lt_256 B hB _) (getD_lt_256 B hB _) (getD_lt_256 B hB _)
    (getD_lt_256 B hB _)]
  have e0 : i * 4 + 0 = 4 * i := by omega
  have e1 : i * 4 + 1 = 4 * i + 1 := by omega
  have e2 : i * 4 + 2 = 4 * i + 2 := by omega
  have e3 : i * 4 + 3 = 4 * i + 3 := by omega
  rw [e0, e1, e2, e3]

theorem schedule_eq (B : List Nat) (hB : ∀ b ∈ B, b < 256) :
    (List.range' 16 48).foldl extendWords (loadWords B) = specSchedule B := by
  unfold specSchedule
  rw [loadWords_eq B hB]
  rfl

theorem roundStep_eq (W : List Nat) (V : FSha256Vars) (i : Nat) :
    (roundStep W V i).toList = specRound W V.toList i := by
  unfold roundStep specRound FSha256Vars.toList
  rw [K_eq_specK]
  rfl

theorem rounds_eq (W : List Nat) (l : List Nat) : ∀ V : FSha256Vars,
    (l.foldl (roundStep W) V).toList = l.foldl (specRound W) V.toList := by
  induction l with
  | nil => intro V; rfl
  | cons i l ih =>
    intro V
    rw [List.foldl_cons, List.foldl_cons, ih, roundStep_eq]

theorem Transform_eq (a b c d e f g h : Nat) (B : List Nat) (hB : ∀ x ∈ B, x < 256) :
    Transform [a, b, c, d, e, f, g, h] B = specCompress [a, b, c, d, e, f, g, h] B := by
  unfold Transform specCompress
  simp only [schedule_eq B hB]
  have hr := rounds_eq (specSchedule B) (List.range 64)
    { A := a, B := b, C := c, D := d, E := e, F := f, G := g, H := h }
  simp only [FSha256Vars.toList] at hr
  simp only [List.getD_cons_zero, List.getD_cons_succ]
  rw [← hr]
  rfl

theorem Transform_length (S B : List Nat) : (Transform S B).length = 8 := rfl

theorem Transform_eq_specCompress (S : List Nat) (hS : S.length = 8) (B : List Nat)
    (hB : ∀ x ∈ B, x < 256) : Transform S B = specCompress S B := by
  rcases S with _ | ⟨a, _ | ⟨b, _ | ⟨c, _ | ⟨d, _ | ⟨e, _ | ⟨f, _ | ⟨g, _ | ⟨h, _ | ⟨i, t⟩⟩⟩⟩⟩⟩⟩⟩⟩ <;>
    simp at hS
  exact Transform_eq a b c d e f g h B hB

theorem specCompress_length (H B : List Nat) : (specCompress H B).length = 8 := rfl

theorem specState_succ (P : List Nat) (n : Nat) :
    specState P (n + 1) = specCompress (specState P n) (specBlock P n) := by
  unfold specState
  rw [List.range_succ, List.foldl_append]
  rfl

theorem specH0_length : specH0.length = 8 := by decide!

theorem specState_length (P : List Nat) (n : Nat) : (specState P n).length = 8 := by
  cases n with
  | zero => exact specH0_length
  | succ n => rw [specState_succ]; exact specCompress_length _ _

theorem specState_congr (P Q : List Nat) : ∀ n : Nat,
    (∀ i, i < n → specBlock P i = specBlock Q i) → specState P n = specState Q n := by
  intro n
  induction n with
  | zero => intro _; simp [specState]
  | succ n ih =>
    intro h
    rw [specState_succ, specState_succ, ih (fun i hi => h i (by omega)), h n (by omega)]

theorem specBlock_append (P Q : List Nat) (i : Nat) (h : 64 * i + 64 ≤ P.length) :
    specBlock (P ++ Q) i = specBlock P i := by
  unfold specBlock
  rw [List.drop_append_of_le_length (by omega),
    List.take_append_of_le_length (by rw [List.length_drop]; omega)]

theorem specState_append (P Q : List Nat) (n : Nat) (h : 64 * n ≤ P.length) :
    specState (P ++ Q) n = specState P n :=
  specState_congr _ _ n (fun i hi => specBlock_append P Q i (by omega))

theorem specBlock_last (P T : List Nat) (n : Nat) (hn : 64 * n ≤ P.length)
    (hT : (P.drop (64 * n) ++ T).length = 64) :
    specBlock (P ++ T) n = P.drop (64 * n) ++ T := by
  unfold specBlock
  rw [List.drop_append_of_le_length hn]
  exact List.take_of_length_le (by omega)

theorem Sha256Inv_Init (Uninit : List Nat) (hU : Uninit.length = 64) :
    Sha256Inv (Init Uninit) [] := by
  refine ⟨Init_State Uninit, rfl, hU, rfl, rfl⟩

theorem take_set_succ (D : List Nat) (r b : Nat) (hr : r < D.length) :
    (D.set r b).take (r + 1) = D.take r ++ [b] := by
  rw [List.set_eq_take_append_cons_drop, if_pos hr]
  rw [List.take_append_eq_append_take]
  simp [List.length_take, Nat.min_eq_left (Nat.le_of_lt hr)]

theorem Sha256Inv_updateByte (Ctx : FSha256Ctx) (M : List Nat) (b : Nat)
    (hM : ∀ x ∈ M, x < 256) (hb : b < 256) (hi : Sha256Inv Ctx M) :
    Sha256Inv (updateByte Ctx b) (M ++ [b]) := by
  obtain ⟨h1, h2, h3, h4, h5⟩ := hi
  have hlen : (M ++ [b]).length = M.length + 1 := by simp
  have hr : Ctx.DataLen < Ctx.Data.length := by rw [h3, h4]; omega
  have htake := take_set_succ Ctx.Data Ctx.DataLen b hr
  rw [h5] at htake
  have hdrop : (M ++ [b]).drop (64 * (M.length / 64)) = M.drop (64 * (M.length / 64)) ++ [b] :=
    List.drop_append_of_le_length (by omega)
  unfold updateByte
  by_cases h64 : Ctx.DataLen + 1 = 64
  · simp only [h64, if_true]
    have hdiv : (M.length + 1) / 64 = M.length / 64 + 1 := by omega
    have hmod : (M.length + 1) % 64 = 0 := by omega
    have hfull : Ctx.Data.set Ctx.DataLen b = M.drop (64 * (M.length / 64)) ++ [b] := by
      rw [← htake, h64]
      exact (List.take_of_length_le (by simp [h3])).symm
    have hblock : specBlock (M ++ [b]) (M.length / 64) = M.drop (64 * (M.length / 64)) ++ [b] :=
      specBlock_last M [b] _ (by omega) (by simp [List.length_drop]; omega)
    refine ⟨?_, ?_, by simp [h3], ?_, ?_⟩
    · simp only [hlen, hdiv]
      rw [specState_succ, specState_append M [b] _ (by omega), hblock, ← h1, hfull]
      apply Transform_eq_specCompress
      · rw [h1]; exact specState_length _ _
      · intro x hx
        rcases List.mem_append.1 hx with hx | hx
        · exact hM x (List.mem_of_mem_drop hx)
        · simp at hx; omega
    · simp only [hlen, hdiv, h2]; omega
    · simp only [hlen, hmod]
    · simp only [hlen, hdiv, List.take_zero]
      symm
      apply List.drop_eq_nil_of_le
      simp; omega
  · simp only [h64, if_false]
    have hdiv : (M.length + 1) / 64 = M.length / 64 := by omega
    have hmod : (M.length + 1) % 64 = M.length % 64 + 1 := by omega
    refine ⟨?_, ?_, by simp [h3], ?_, ?_⟩
    · simp only [hlen, hdiv, h1]
      exact (specState_append M [b] _ (by omega)).symm
    · simp only [hlen, hdiv, h2]
    · simp only [hlen, hmod, h4]
    · simp only [hlen, hdiv]
      rw [htake, hdrop]

theorem Sha256Inv_foldl (X : List Nat) : ∀ (Ctx : FSha256Ctx) (M : List Nat),
    (∀ x ∈ M, x < 256) → (∀ x ∈ X, x < 256) → Sha256Inv Ctx M →
    Sha256Inv (X.foldl updateByte Ctx) (M ++ X) := by
  induction X with
  | nil => intro Ctx M _ _ hi; simpa using hi
  | cons b X ih =>
    intro Ctx M hM hX hi
    have hb : b < 256 := hX b (List.mem_cons_self _ _)
    have := ih (updateByte Ctx b) (M ++ [b])
      (by
        intro x hx
        rcases List.mem_append.1 hx with hx | hx
        · exact hM x hx
        · simp at hx; omega)
      (fun x hx => hX x (List.mem_cons_of_mem _ hx))
      (Sha256Inv_updateByte Ctx M b hM hb hi)
    simpa using this

theorem sha256ReadLoop_eq (BufferNum : Nat) (hpos : 0 < BufferNum)
    (hmax : BufferNum < 4294967296) : ∀ (fuel : Nat) (rest : List Nat) (Ctx : FSha256Ctx),
    rest.length ≤ fuel → sha256ReadLoop BufferNum fuel rest Ctx = rest.foldl updateByte Ctx := by
  intro fuel
  induction fuel with
  | zero =>
    intro rest Ctx h
    have : rest = [] := List.length_eq_zero.1 (by omega)
    subst this
    rfl
  | succ fuel ih =>
    intro rest Ctx h
    unfold sha256ReadLoop
    by_cases he : rest.isEmpty = true
    · simp only [he, if_true]
      have : rest = [] := List.isEmpty_iff.1 he
      subst this
      rfl
    · simp only [he]
      have hne : rest ≠ [] := fun h0 => he (List.isEmpty_iff.2 h0)
      have hlpos : 0 < rest.length := List.length_pos.2 hne
      have hmin : 0 < min rest.length BufferNum := by omega
      have hmod : min rest.length BufferNum % 4294967296 = min rest.length BufferNum := by
        apply Nat.mod_eq_of_lt; omega
      rw [ih _ _ (by rw [List.length_drop]; omega)]
      unfold Update
      rw [hmod, List.take_take, Nat.min_self, ← List.foldl_append, List.take_append_drop]
      rfl

theorem zeroFill_eq : ∀ (n i : Nat) (D : List Nat), i + n ≤ D.length →
    zeroFill n i D = D.take i ++ List.replicate n 0 ++ D.drop (i + n) := by
  intro n
  induction n with
  | zero => intro i D _; simp [zeroFill]
  | succ n ih =>
    intro i D h
    unfold zeroFill
    rw [ih (i + 1) (D.set i 0) (by simp; omega), take_set_succ D i 0 (by omega),
      List.drop_set_of_lt _ _ (by omega), List.replicate_succ]
    have e : i + 1 + n = i + (n + 1) := by omega
    rw [e]
    simp

theorem storeBitLen_eq (D : List Nat) (l : Nat) (hD : D.length = 64) :
    storeBitLen D l = D.take 56 ++ be64 l := by
  have e := List.take_append_drop 56 D
  have hX : (D.take 56).length = 56 := by simp [hD]
  have hY : (D.drop 56).length = 8 := by simp [hD]
  generalize D.take 56 = X at e hX ⊢
  generalize D.drop 56 = Y at e hY
  subst e
  rcases Y with _ | ⟨a, _ | ⟨b, _ | ⟨c, _ | ⟨d, _ | ⟨e, _ | ⟨f, _ | ⟨g, _ | ⟨h, _ | ⟨i, t⟩⟩⟩⟩⟩⟩⟩⟩⟩ <;>
    simp at hY
  simp [storeBitLen, List.set_append_right, hX, be64, Nat.shiftRight_eq_div_pow]

theorem padShort_eq (D : List Nat) (r l : Nat) (hD : D.length = 64) (hr : r < 56) :
    storeBitLen (zeroFill (56 - (r + 1)) (r + 1) (D.set r 0x80)) l
      = D.take r ++ 0x80 :: (List.replicate (55 - r) 0 ++ be64 l) := by
  rw [zeroFill_eq _ _ _ (by simp [hD]; omega), take_set_succ D r _ (by omega)]
  have e1 : r + 1 + (56 - (r + 1)) = 56 := by omega
  have e2 : 56 - (r + 1) = 55 - r := by omega
  rw [e1, e2, storeBitLen_eq _ _ (by simp [hD]; omega)]
  rw [List.take_append_of_le_length (by simp [hD]; omega),
    List.take_of_length_le (by simp [hD]; omega)]
  simp

theorem padLong_first (D : List Nat) (r : Nat) (hD : D.length = 64) (hr : 56 ≤ r)
    (hr2 : r < 64) :
    zeroFill (64 - (r + 1)) (r + 1) (D.set r 0x80)
      = D.take r ++ 0x80 :: List.replicate (63 - r) 0 := by
  rw [zeroFill_eq _ _ _ (by simp [hD]; omega), take_set_succ D r _ (by omega)]
  have e1 : r + 1 + (64 - (r + 1)) = 64 := by omega
  have e2 : 64 - (r + 1) = 63 - r := by omega
  rw [e1, e2, List.drop_eq_nil_of_le (by simp [hD])]
  simp

theorem padLong_second (D : List Nat) (l : Nat) (hD : D.length = 64) :
    storeBitLen (List.replicate 56 0 ++ D.drop 56) l = List.replicate 56 0 ++ be64 l := by
  rw [storeBitLen_eq _ _ (by simp [hD]), List.take_left' (by simp)]

theorem be64_length (l : Nat) : (be64 l).length = 8 := rfl

theorem be64_lt (l : Nat) : ∀ x ∈ be64 l, x < 256 := by
  intro x hx
  simp only [be64, List.mem_cons, List.mem_singleton, List.not_mem_nil, or_false] at hx
  omega

theorem specPad_short (M : List Nat) (hr : M.length % 64 < 56) :
    specPad M = M ++ (0x80 :: (List.replicate (55 - M.length % 64) 0 ++ be64 (8 * M.length))) := by
  unfold specPad
  have e : (448 + 512 - (8 * M.length + 1) % 512) % 512 / 8 = 55 - M.length % 64 := by omega
  simp only [e]
  simp

theorem specPad_long (M : List Nat) (hr : 56 ≤ M.length % 64) :
    specPad M = (M ++ (0x80 :: List.replicate (63 - M.length % 64) 0))
      ++ (List.replicate 56 0 ++ be64 (8 * M.length)) := by
  unfold specPad
  have e : (448 + 512 - (8 * M.length + 1) % 512) % 512 / 8
      = (63 - M.length % 64) + 56 := by omega
  simp only [e, List.replicate_add]
  simp

theorem specState_short (M : List Nat) (hr : M.length % 64 < 56) :
    specState (specPad M) ((specPad M).length / 64)
      = specCompress (specState M (M.length / 64))
          (M.drop (64 * (M.length / 64))
            ++ 0x80 :: (List.replicate (55 - M.length % 64) 0 ++ be64 (8 * M.length))) := by
  rw [specPad_short M hr]
  have hl : (M ++ (0x80 :: (List.replicate (55 - M.length % 64) 0
      ++ be64 (8 * M.length)))).length / 64 = M.length / 64 + 1 := by
    simp [be64_length]; omega
  rw [hl, specState_succ, specState_append _ _ _ (by omega),
    specBlock_last _ _ _ (by omega) (by simp [be64_length]; omega)]

theorem specState_long (M : List Nat) (hr : 56 ≤ M.length % 64) :
    specState (specPad M) ((specPad M).length / 64)
      = specCompress
          (specCompress (specState M (M.length / 64))
            (M.drop (64 * (M.length / 64)) ++ 0x80 :: List.replicate (63 - M.length % 64) 0))
          (List.replicate 56 0 ++ be64 (8 * M.length)) := by
  rw [specPad_long M hr]
  have hl1 : (M ++ (0x80 :: List.replicate (63 - M.length % 64) 0)).length
      = 64 * (M.length / 64 + 1) := by
    simp; omega
  have hl : ((M ++ (0x80 :: List.replicate (63 - M.length % 64) 0))
      ++ (List.replicate 56 0 ++ be64 (8 * M.length))).length / 64 = M.length / 64 + 1 + 1 := by
    rw [List.length_append, hl1]; simp [be64_length]
  rw [hl, specState_succ, specState_append _ _ _ (by omega), specState_succ,
    specState_append _ _ _ (by omega), specBlock_last M _ _ (by omega) (by simp; omega)]
  have hb : specBlock ((M ++ (0x80 :: List.replicate (63 - M.length % 64) 0))
      ++ (List.replicate 56 0 ++ be64 (8 * M.length))) (M.length / 64 + 1)
      = List.replicate 56 0 ++ be64 (8 * M.length) := by
    rw [specBlock_last _ _ _ (by omega) (by
      rw [List.length_append, List.length_drop, hl1]; simp [be64_length])]
    rw [List.drop_eq_nil_of_le (by omega)]
    rfl
  rw [hb]

theorem shiftRight_and_255 (s k : Nat) : (s >>> k) &&& 255 = s / 2 ^ k % 256 := by
  rw [Nat.shiftRight_eq_div_pow]
  exact Nat.and_pow_two_sub_one_eq_mod _ 8

theorem output_eq (S : List Nat) (hS : S.length = 8) :
    (List.range 32).map (fun n => (S.getD (n / 4) 0 >>> (24 - n % 4 * 8)) &&& 0xff)
      = S.flatMap be32 := by
  rcases S with _ | ⟨a, _ | ⟨b, _ | ⟨c, _ | ⟨d, _ | ⟨e, _ | ⟨f, _ | ⟨g, _ | ⟨h, _ | ⟨i, t⟩⟩⟩⟩⟩⟩⟩⟩⟩ <;>
    simp at hS
  simp [List.range, List.range.loop, be32, shiftRight_and_255]

theorem Final_eq (Ctx : FSha256Ctx) (M : List Nat) (hM : ∀ x ∈ M, x < 256)
    (hlen : 8 * M.length < 18446744073709551616) (hi : Sha256Inv Ctx M) :
    Final Ctx = specSha256 M := by
  obtain ⟨h1, h2, h3, h4, h5⟩ := hi
  have hS : Ctx.State.length = 8 := by rw [h1]; exact specState_length _ _
  have hBL : (Ctx.BitLen + Ctx.DataLen * 8 % 4294967296) % 18446744073709551616
      = 8 * M.length := by
    rw [h2, h4]; omega
  have hdropM : ∀ x ∈ M.drop (64 * (M.length / 64)), x < 256 :=
    fun x hx => hM x (List.mem_of_mem_drop hx)
  unfold Final specSha256
  simp only [hBL]
  by_cases h56 : Ctx.DataLen < 56
  · simp only [h56, if_true]
    rw [padShort_eq _ _ _ h3 h56, h5, output_eq _ (Transform_length _ _),
      specState_short M (by omega), Transform_eq_specCompress _ hS, h1, h4]
    intro x hx
    rcases List.mem_append.1 hx with hx | hx
    · exact hdropM x hx
    · rcases List.mem_cons.1 hx with hx | hx
      · omega
      · rcases List.mem_append.1 hx with hx | hx
        · rw [List.eq_of_mem_replicate hx]; omega
        · exact be64_lt _ x hx
  · simp only [h56, if_false]
    have hr2 : Ctx.DataLen < 64 := by omega
    rw [padLong_first _ _ h3 (by omega) hr2, padLong_second _ _ (by simp; omega), h5,
      output_eq _ (Transform_length _ _), specState_long M (by omega),
      Transform_eq_specCompress _ hS, Transform_eq_specCompress _ (specCompress_length _ _),
      h1, h4]
    · intro x hx
      rcases List.mem_append.1 hx with hx | hx
      · rw [List.eq_of_mem_replicate hx]; omega
      · exact be64_lt _ x hx
    · intro x hx
      rcases List.mem_append.1 hx with hx | hx
      · exact hdropM x hx
      · rcases List.mem_cons.1 hx with hx | hx
        · omega
        · rw [List.eq_of_mem_replicate hx]; omega

theorem specSha256_length (M : List Nat) : (specSha256 M).length = 32 := by
  unfold specSha256
  have h := specState_length (specPad M) ((specPad M).length / 64)
  generalize specState (specPad M) ((specPad M).length / 64) = S at h
  rcases S with _ | ⟨a, _ | ⟨b, _ | ⟨c, _ | ⟨d, _ | ⟨e, _ | ⟨f, _ | ⟨g, _ | ⟨h, _ | ⟨i, t⟩⟩⟩⟩⟩⟩⟩⟩⟩ <;>
    simp at h
  rfl

theorem specSha256_lt (M : List Nat) : ∀ x ∈ specSha256 M, x < 256 := by
  intro x hx
  unfold specSha256 at hx
  rw [List.mem_flatMap] at hx
  obtain ⟨w, _, hw⟩ := hx
  simp only [be32, List.mem_cons, List.mem_singleton, List.not_mem_nil, or_false] at hw
  omega

theorem ToLowerHex_eq_specHex (B : List Nat) (n : Nat) (hn : B.length = n)
    (hB : ∀ x ∈ B, x < 256) : ToLowerHex B n = specHex B := by
  unfold ToLowerHex specHex
  rw [List.take_of_length_le (by omega)]
  clear hn
  induction B with
  | nil => rfl
  | cons b B ih =>
    have hb : b < 256 := hB b (List.mem_cons_self _ _)
    have e : b % 256 / 16 % 16 = b / 16 := by omega
    simp only [List.flatMap_cons, e, hexDigit]
    rw [ih (fun x hx => hB x (List.mem_cons_of_mem _ hx))]
    rfl

theorem Sha256HashFile_eq (fs : FString → Option (List Nat)) (Uninit : List Nat)
    (FileAbs : FString) (content : List Nat) (hfile : fs FileAbs = some content)
    (hbytes : ∀ b ∈ content, b < 256) (hlen : content.length < 2305843009213693952)
    (hU : Uninit.length = 64) :
    Sha256HashFile fs Uninit FileAbs = some (specHex (specSha256 content)) := by
  unfold Sha256HashFile
  simp only [hfile]
  rw [sha256ReadLoop_eq 1048576 (by omega) (by omega) _ _ _ (Nat.le_refl _)]
  have hi := Sha256Inv_foldl content (Init Uninit) [] (by simp) hbytes (Sha256Inv_Init Uninit hU)
  rw [List.nil_append] at hi
  rw [Final_eq _ content hbytes (by omega) hi,
    ToLowerHex_eq_specHex _ 32 (specSha256_length content) (specSha256_lt content)]

theorem specSha256_empty : specHex (specSha256 [])
    = "e3b0c44298fc1c149afbf4c8996fb92427ae41e4649b934ca495991b7852b855".toList := by
  decide!

theorem specSha256_abc : specHex (specSha256 [97, 98, 99])
    = "ba7816bf8f01cfea414140de5dae2223b00361a396177a9cb410ff61f20015ad".toList := by
  decide!

/-- Claim C16. For every file content of bytes, shorter than `2 ^ 61` bytes
(the messages on which FIPS 180-4 defines SHA-256), whatever the block buffer
holds at the start, `Sha256HashFile` returns the lowercase hexadecimal text
of the SHA-256 digest of FIPS 180-4; the empty file gives `e3b0c442...b855`
and the three bytes `abc` give `ba7816bf...15ad`. -/
theorem Sha256HashFile_spec (fs : FString → Option (List Nat)) (Uninit : List Nat)
    (FileAbs : FString) (content : List Nat) (hfile : fs FileAbs = some content)
    (hbytes : ∀ b ∈ content, b < 256) (hlen : content.length < 2305843009213693952)
    (hU : Uninit.length = 64) :
    Sha256HashFile fs Uninit FileAbs = some (specHex (specSha256 content))
    ∧ (content = [] → Sha256HashFile fs Uninit FileAbs
        = some "e3b0c44298fc1c149afbf4c8996fb92427ae41e4649b934ca495991b7852b855".toList)
    ∧ (content = [97, 98, 99] → Sha256HashFile fs Uninit FileAbs
        = some "ba7816bf8f01cfea414140de5dae2223b00361a396177a9cb410ff61f20015ad".toList) := by
  have h := Sha256HashFile_eq fs Uninit FileAbs content hfile hbytes hlen hU
  refine ⟨h, ?_, ?_⟩
  · intro hc
    rw [h, hc, specSha256_empty]
  · intro hc
    rw [h, hc, specSha256_abc]

/-- The digest of the file `abc`, with a block buffer of 64 zero bytes. -/
theorem Sha256HashFile_spec_witness :
    Sha256HashFile (fun _ => some [97, 98, 99]) (List.replicate 64 0) "abc.bin".toList
      = some "ba7816bf8f01cfea414140de5dae2223b00361a396177a9cb410ff61f20015ad".toList :=
  (Sha256HashFile_spec (fun _ => some [97, 98, 99]) (List.replicate 64 0) "abc.bin".toList
    [97, 98, 99] rfl (by decide) (by decide) rfl).2.2 rfl

theorem chopLeadingSlashes_spec (P : FString) :
    ∃ k, P = List.replicate k slash ++ chopLeadingSlashes P := by
  induction P with
  | nil => exact ⟨0, rfl⟩
  | cons c cs ih =>
    rw [chopLeadingSlashes]
    split_ifs with h
    · obtain ⟨k, hk⟩ := ih
      refine ⟨k + 1, ?_⟩
      rw [List.replicate_succ, List.cons_append, ← hk, h]
    · exact ⟨0, rfl⟩

theorem NormalizeBaseUrl_eq (InBaseUrl : FString) :
    NormalizeBaseUrl InBaseUrl = (chopLeadingSlashes (schemedUrl InBaseUrl).reverse).reverse := by
  simp only [NormalizeBaseUrl, schemedUrl]
  generalize StartsWith (TrimStartAndEnd InBaseUrl) "http://".toList = a
  generalize StartsWith (TrimStartAndEnd InBaseUrl) "https://".toList = b
  cases a <;> cases b <;> simp

theorem NormalizeBaseUrl_append (InBaseUrl : FString) :
    ∃ k, schemedUrl InBaseUrl = NormalizeBaseUrl InBaseUrl ++ List.replicate k slash := by
  obtain ⟨k, hk⟩ := chopLeadingSlashes_spec (schemedUrl InBaseUrl).reverse
  refine ⟨k, ?_⟩
  have := congrArg List.reverse hk
  rw [List.reverse_reverse, List.reverse_append, List.reverse_replicate] at this
  rw [NormalizeBaseUrl_eq]
  exact this

theorem NormalizeBaseUrl_getLast (InBaseUrl : FString) :
    (NormalizeBaseUrl InBaseUrl).getLast? ≠ some slash := by
  rw [NormalizeBaseUrl_eq, List.getLast?_reverse]
  exact head_chopLeadingSlashes _

theorem schemedUrl_StartsWith (InBaseUrl : FString) :
    StartsWith (schemedUrl InBaseUrl) "http://".toList = true
      ∨ StartsWith (schemedUrl InBaseUrl) "https://".toList = true := by
  unfold schemedUrl
  split_ifs with h
  · exact h
  · left
    unfold StartsWith ToLower
    rw [List.map_append, List.isPrefixOf_iff_prefix]
    exact ⟨_, rfl⟩

theorem getLast_map_toLower (R : FString) (h : (R.map Char.toLower).getLast? = some slash) :
    R.getLast? = some slash := by
  rw [List.getLast?_eq_head?_reverse, ← List.map_reverse] at h
  rw [List.getLast?_eq_head?_reverse]
  cases hr : R.reverse with
  | nil => rw [hr] at h; simp at h
  | cons c cs =>
    rw [hr] at h
    simp only [List.map_cons, List.head?_cons, Option.some.injEq] at h
    rw [List.head?_cons, toLower_eq_slash c h]

theorem StartsWith_length_lt (R P : FString) (hP : (ToLower P).getLast? = some slash)
    (hR : R.getLast? ≠ some slash) (h : StartsWith R P = true) : P.length < R.length := by
  unfold StartsWith at h
  rw [List.isPrefixOf_iff_prefix] at h
  have hle := h.length_le
  simp only [ToLower, List.length_map] at hle
  rcases Nat.lt_or_ge P.length R.length with hlt | hge
  · exact hlt
  · exfalso
    have heq : ToLower P = ToLower R :=
      h.eq_of_length (by simp only [ToLower, List.length_map]; omega)
    rw [heq] at hP
    exact hR (getLast_map_toLower R hP)

theorem StartsWith_of_append (R S P : FString) (hlen : P.length ≤ R.length)
    (h : StartsWith (R ++ S) P = true) : StartsWith R P = true := by
  unfold StartsWith at h ⊢
  rw [List.isPrefixOf_iff_prefix] at h ⊢
  simp only [ToLower, List.map_append] at h ⊢
  exact List.prefix_of_prefix_length_le h (List.prefix_append _ _)
    (by simp only [List.length_map]; exact hlen)

/-- Claim C21 (amended). For every base URL string: `NormalizeBaseUrl` returns
the trimmed input, with `http://` put in front unless it starts with
`http://` or `https://` (the test ignores case), without its trailing `/`; the
result never ends with `/`; and it starts with `http://` or `https://` exactly
when the URL has a character other than `/` after the scheme. -/
theorem NormalizeBaseUrl_spec (InBaseUrl : FString) :
    (∃ k, schemedUrl InBaseUrl = NormalizeBaseUrl InBaseUrl ++ List.replicate k slash)
    ∧ (NormalizeBaseUrl InBaseUrl).getLast? ≠ some slash
    ∧ EndsWith (NormalizeBaseUrl InBaseUrl) [slash] = false
    ∧ ((StartsWith (NormalizeBaseUrl InBaseUrl) "http://".toList = true
          ∨ StartsWith (NormalizeBaseUrl InBaseUrl) "https://".toList = true)
        ↔ ∃ c ∈ (schemedUrl InBaseUrl).drop 7, c ≠ slash) := by
  obtain ⟨k, hk⟩ := NormalizeBaseUrl_append InBaseUrl
  have hlast := NormalizeBaseUrl_getLast InBaseUrl
  refine ⟨⟨k, hk⟩, hlast, ?_, ?_⟩
  · cases he : EndsWith (NormalizeBaseUrl InBaseUrl) [slash] with
    | false => rfl
    | true => exact absurd ((EndsWith_slash _).1 he) hlast
  · generalize NormalizeBaseUrl InBaseUrl = R at hk hlast
    have h7 : ∀ P : FString, 7 ≤ P.length → (ToLower P).getLast? = some slash →
        StartsWith R P = true → ∃ c ∈ (schemedUrl InBaseUrl).drop 7, c ≠ slash := by
      intro P hP7 hPl h
      have hlt := StartsWith_length_lt R P hPl hlast h
      have hne : R ≠ [] := by intro h0; rw [h0] at hlt; simp at hlt
      refine ⟨R.getLast hne, ?_, ?_⟩
      · rw [hk, List.drop_append_of_le_length (by omega)]
        apply List.mem_append_left
        have hd : R.drop 7 ≠ [] := by
          intro h0
          have := congrArg List.length h0
          simp at this
          omega
        rw [← List.getLast_drop hd]
        exact List.getLast_mem _
      · intro h0
        apply hlast
        rw [List.getLast?_eq_getLast _ hne, h0]
    constructor
    · rintro (h | h)
      · exact h7 _ (by decide) (by decide) h
      · exact h7 _ (by decide) (by decide) h
    · rintro ⟨c, hc, hcs⟩
      have hlen : 8 ≤ R.length := by
        by_contra hlt
        rw [hk] at hc
        have : (R ++ List.replicate k slash).drop 7
            = (List.replicate k slash).drop (7 - R.length) := by
          rw [List.drop_append_eq_append_drop, List.drop_eq_nil_of_le (by omega)]
          rfl
        rw [this] at hc
        exact hcs (List.eq_of_mem_replicate (List.mem_of_mem_drop hc))
      rcases schemedUrl_StartsWith InBaseUrl with h | h
      · left
        rw [hk] at h
        exact StartsWith_of_append R _ _ (by simp; omega) h
      · right
        rw [hk] at h
        exact StartsWith_of_append R _ _ (by simp; omega) h

/-- The empty base URL is a counterexample to C21: the result is `http:`, which
starts neither with `http://` nor with `https://`; so is `https://`. -/
theorem NormalizeBaseUrl_empty :
    NormalizeBaseUrl [] = "http:".toList
    ∧ StartsWith (NormalizeBaseUrl []) "http://".toList = false
    ∧ StartsWith (NormalizeBaseUrl []) "https://".toList = false
    ∧ NormalizeBaseUrl "https://".toList = "https:".toList := by
  decide

/-- The parts of `NormalizeBaseUrl_spec` at `  Example.org:9090// `: the scheme
is put in front, the trailing `/` go, and the result starts with `http://`. -/
theorem NormalizeBaseUrl_spec_witness :
    NormalizeBaseUrl "  Example.org:9090// ".toList = "http://Example.org:9090".toList
    ∧ (StartsWith (NormalizeBaseUrl "  Example.org:9090// ".toList) "http://".toList = true
        ∨ StartsWith (NormalizeBaseUrl "  Example.org:9090// ".toList) "https://".toList = true) :=
  ⟨by decide,
   (NormalizeBaseUrl_spec "  Example.org:9090// ".toList).2.2.2.2
     ⟨Char.ofNat 69, by decide, by decide⟩⟩

theorem Update_eq_foldl (Ctx : FSha256Ctx) (X : List Nat) :
    Update Ctx X X.length = X.foldl updateByte Ctx := by
  unfold Update
  rw [List.take_length]

theorem updateByte_DataLen (Ctx : FSha256Ctx) (b : Nat) (h : Ctx.DataLen < 64) :
    (updateByte Ctx b).DataLen < 64 := by
  unfold updateByte
  simp only
  split_ifs with h64
  · simp
  · simp only; omega

theorem foldl_updateByte_DataLen (X : List Nat) : ∀ Ctx : FSha256Ctx, Ctx.DataLen < 64 →
    (X.foldl updateByte Ctx).DataLen < 64 := by
  induction X with
  | nil => intro Ctx h; exact h
  | cons b X ih => intro Ctx h; exact ih _ (updateByte_DataLen Ctx b h)

theorem foldl_Update (chunks : List (List Nat)) : ∀ Ctx : FSha256Ctx,
    chunks.foldl (fun C ch => Update C ch ch.length) Ctx
      = chunks.flatten.foldl updateByte Ctx := by
  induction chunks with
  | nil => intro Ctx; rfl
  | cons ch chunks ih =>
    intro Ctx
    rw [List.foldl_cons, ih, Update_eq_foldl, List.flatten_cons, List.foldl_append]

/-- Claim C29. For every context, every byte sequence and every way of
splitting it into consecutive chunks: feeding the chunks one after another to
`Update` leaves the same context (state words, buffer, bit length) as feeding
the whole sequence at once; when the buffered length is below 64 at the start
it is below 64 after every `Update`; and the read loop with any buffer size
from 1 byte up leaves the same context, hence the same digest, as the loop
with the buffer of 1 MiB. -/
theorem Update_chunks (Ctx : FSha256Ctx) (chunks : List (List Nat)) (BufferNum : Nat)
    (hL : Ctx.DataLen < 64) (hB : 0 < BufferNum) (hB2 : BufferNum < 4294967296) :
    chunks.foldl (fun C ch => Update C ch ch.length) Ctx
        = Update Ctx chunks.flatten chunks.flatten.length
    ∧ (∀ n, ((chunks.take n).foldl (fun C ch => Update C ch ch.length) Ctx).DataLen < 64)
    ∧ sha256ReadLoop BufferNum chunks.flatten.length chunks.flatten Ctx
        = Update Ctx chunks.flatten chunks.flatten.length
    ∧ Final (sha256ReadLoop BufferNum chunks.flatten.length chunks.flatten Ctx)
        = Final (sha256ReadLoop 1048576 chunks.flatten.length chunks.flatten Ctx) := by
  have h3 := sha256ReadLoop_eq BufferNum hB hB2 _ chunks.flatten Ctx (Nat.le_refl _)
  have h4 := sha256ReadLoop_eq 1048576 (by omega) (by omega) _ chunks.flatten Ctx (Nat.le_refl _)
  refine ⟨?_, ?_, ?_, ?_⟩
  · rw [foldl_Update, Update_eq_foldl]
  · intro n
    rw [foldl_Update]
    exact foldl_updateByte_DataLen _ Ctx hL
  · rw [h3, Update_eq_foldl]
  · rw [h3, h4]

/-- The bytes 0 to 69 fed as chunks of 3, 64 and 3 bytes, and read with a
buffer of 7 bytes, from the initial context with a zeroed buffer: after the
first chunk 3 bytes are buffered, after the second 3, after the third 6. -/
theorem Update_chunks_witness :
    ([List.range 3, List.range' 3 64, List.range' 67 3].foldl
        (fun C ch => Update C ch ch.length) (Init (List.replicate 64 0))).DataLen = 6
    ∧ [List.range 3, List.range' 3 64, List.range' 67 3].foldl
        (fun C ch => Update C ch ch.length) (Init (List.replicate 64 0))
      = Update (Init (List.replicate 64 0))
          [List.range 3, List.range' 3 64, List.range' 67 3].flatten
          [List.range 3, List.range' 3 64, List.range' 67 3].flatten.length :=
  ⟨by decide!,
   (Update_chunks (Init (List.replicate 64 0))
     [List.range 3, List.range' 3 64, List.range' 67 3] 7 (by decide) (by decide)
     (by decide)).1⟩

/-! ## The class filters of a batch export -/

theorem mem_TSetAdd {N : Type} [DecidableEq N] (S : List N) (x y : N) :
    y ∈ TSetAdd S x ↔ y ∈ S ∨ y = x := by
  unfold TSetAdd
  split_ifs with h
  · constructor
    · exact Or.inl
    · rintro (h1 | h1)
      · exact h1
      · rw [h1]; exact h
  · simp

theorem mem_TSetIntersect {N : Type} [DecidableEq N] (A B : List N) (y : N) :
    y ∈ TSetIntersect A B ↔ y ∈ A ∧ y ∈ B := by
  simp [TSetIntersect]

theorem mem_TSetDifference {N : Type} [DecidableEq N] (A B : List N) (y : N) :
    y ∈ TSetDifference A B ↔ y ∈ A ∧ y ∉ B := by
  simp [TSetDifference]

theorem mem_AddClassesForToken {N : Type} [DecidableEq N] (FNameOf : FString → N)
    (Token : FString) (S : List N) (c : N) :
    c ∈ AddClassesForToken FNameOf Token S ↔ c ∈ S ∨ c ∈ AddClassesForToken FNameOf Token [] := by
  unfold AddClassesForToken
  simp only
  split_ifs <;> simp only [mem_TSetAdd, List.not_mem_nil, false_or, or_assoc]

theorem mem_foldl_tokens {N : Type} [DecidableEq N] (FNameOf : FString → N) (c : N)
    (Tokens : List FString) : ∀ S : List N,
    c ∈ Tokens.foldl
        (fun S T =>
          let T := TrimStartAndEnd T
          if T.isEmpty then S else AddClassesForToken FNameOf T S) S
      ↔ c ∈ S ∨ ∃ T ∈ Tokens, Named FNameOf c T := by
  induction Tokens with
  | nil => intro S; simp
  | cons T Tokens ih =>
    intro S
    rw [List.foldl_cons, ih]
    simp only [List.mem_cons, exists_eq_or_imp, Named]
    by_cases he : TrimStartAndEnd T = []
    · simp [he]
    · have he2 : (TrimStartAndEnd T).isEmpty = false := by
        cases h : TrimStartAndEnd T with
        | nil => exact absurd h he
        | cons a as => rfl
      simp only [he2, Bool.false_eq_true, if_false]
      rw [mem_AddClassesForToken]
      simp only [ne_eq, he, not_false_eq_true, true_and, or_assoc]

theorem TrimStartAndEnd_nil : TrimStartAndEnd [] = [] := rfl

theorem mem_tokenClasses {N : Type} [DecidableEq N] (FNameOf : FString → N) (c : N)
    (Raw : FString) :
    c ∈ tokenClasses FNameOf Raw
      ↔ ∃ piece ∈ splitAt (Char.ofNat 44) (commaText Raw), Named FNameOf c piece := by
  unfold tokenClasses
  rw [mem_foldl_tokens]
  simp only [List.not_mem_nil, false_or, ParseTokens, ParseIntoArray, List.mem_filter]
  constructor
  · rintro ⟨T, ⟨h1, _⟩, h2⟩
    exact ⟨T, h1, h2⟩
  · rintro ⟨T, h1, h2⟩
    refine ⟨T, ⟨h1, ?_⟩, h2⟩
    cases T with
    | nil => exact absurd TrimStartAndEnd_nil h2.1
    | cons a as => rfl

theorem splitAt_ne_nil (d : Char) (X : FString) : splitAt d X ≠ [] := by
  cases X with
  | nil => simp [splitAt]
  | cons c cs =>
    rw [splitAt]
    split_ifs
    · simp
    · split <;> simp

theorem splitAt_append_delim (d : Char) (Y : FString) : ∀ X : FString,
    splitAt d (X ++ d :: Y) = splitAt d X ++ splitAt d Y := by
  intro X
  induction X with
  | nil => simp [splitAt]
  | cons c X ih =>
    rw [List.cons_append, splitAt, splitAt]
    split_ifs with h
    · rw [ih, List.cons_append]
    · rw [ih]
      cases hX : splitAt d X with
      | nil => exact absurd hX (splitAt_ne_nil d X)
      | cons h t => rfl

theorem commaText_append (A B : FString) : commaText (A ++ B) = commaText A ++ commaText B := by
  simp [commaText, ReplaceInline]

theorem commaText_cons (a : Char) (B : FString) :
    commaText (a :: B) =
      (if a = Char.ofNat 59 ∨ a = Char.ofNat 124 ∨ a = Char.ofNat 32 ∨ a = Char.ofNat 44
        then Char.ofNat 44 else a) :: commaText B := by
  simp only [commaText, ReplaceInline, List.map_cons, List.map_map]
  congr 1
  by_cases h1 : a = Char.ofNat 59
  · subst h1; decide
  · by_cases h2 : a = Char.ofNat 124
    · subst h2; decide
    · by_cases h3 : a = Char.ofNat 32
      · subst h3; decide
      · by_cases h4 : a = Char.ofNat 44
        · subst h4; decide
        · simp [h1, h2, h3, h4]

theorem mem_tokenClasses_append_comma {N : Type} [DecidableEq N] (FNameOf : FString → N)
    (c : N) (A B : FString) :
    c ∈ tokenClasses FNameOf (A ++ ",".toList ++ B)
      ↔ c ∈ tokenClasses FNameOf A ∨ c ∈ tokenClasses FNameOf B := by
  simp only [mem_tokenClasses]
  have e : commaText (A ++ ",".toList ++ B)
      = commaText A ++ Char.ofNat 44 :: commaText B := by
    rw [List.append_assoc, commaText_append]
    congr 1
  rw [e, splitAt_append_delim]
  simp only [List.mem_append]
  constructor
  · rintro ⟨p, hp | hp, hn⟩
    · exact Or.inl ⟨p, hp, hn⟩
    · exact Or.inr ⟨p, hp, hn⟩
  · rintro (⟨p, hp, hn⟩ | ⟨p, hp, hn⟩)
    · exact ⟨p, Or.inl hp, hn⟩
    · exact ⟨p, Or.inr hp, hn⟩

theorem tokenClasses_nil {N : Type} [DecidableEq N] (FNameOf : FString → N) :
    tokenClasses FNameOf [] = [] := rfl

theorem isWhitespace_cases (w : Char) (h : w.isWhitespace = true) :
    w = Char.ofNat 32 ∨ (w ≠ Char.ofNat 59 ∧ w ≠ Char.ofNat 124 ∧ w ≠ Char.ofNat 32
      ∧ w ≠ Char.ofNat 44) := by
  simp only [Char.isWhitespace, Bool.or_eq_true, decide_eq_true_eq] at h
  rcases h with ((h | h) | h) | h <;> subst h <;> decide

theorem TrimStartAndEnd_cons_ws (w : Char) (h : w.isWhitespace = true) (S : FString) :
    TrimStartAndEnd (w :: S) = TrimStartAndEnd S := by
  simp [TrimStartAndEnd, List.dropWhile, h]

theorem dropWhile_snoc_ws (w : Char) (h : w.isWhitespace = true) (S : FString) :
    (S ++ [w]).dropWhile Char.isWhitespace
      = if S.dropWhile Char.isWhitespace = [] then []
        else S.dropWhile Char.isWhitespace ++ [w] := by
  induction S with
  | nil => simp [List.dropWhile, h]
  | cons a S ih =>
    by_cases ha : a.isWhitespace = true
    · simp only [List.cons_append, List.dropWhile, ha]
      exact ih
    · simp [List.dropWhile, ha]

theorem TrimStartAndEnd_snoc_ws (w : Char) (h : w.isWhitespace = true) (S : FString) :
    TrimStartAndEnd (S ++ [w]) = TrimStartAndEnd S := by
  unfold TrimStartAndEnd
  rw [dropWhile_snoc_ws w h]
  split_ifs with he
  · rw [he]
  · rw [List.reverse_append, List.reverse_singleton, List.singleton_append, List.dropWhile, h]

theorem Named_cons_ws {N : Type} [DecidableEq N] (FNameOf : FString → N) (c : N) (w : Char)
    (h : w.isWhitespace = true) (p : FString) :
    Named FNameOf c (w :: p) ↔ Named FNameOf c p := by
  unfold Named
  rw [TrimStartAndEnd_cons_ws w h]

theorem Named_snoc_ws {N : Type} [DecidableEq N] (FNameOf : FString → N) (c : N) (w : Char)
    (h : w.isWhitespace = true) (p : FString) :
    Named FNameOf c (p ++ [w]) ↔ Named FNameOf c p := by
  unfold Named
  rw [TrimStartAndEnd_snoc_ws w h]

theorem not_Named_nil {N : Type} [DecidableEq N] (FNameOf : FString → N) (c : N) :
    ¬ Named FNameOf c [] := fun h => h.1 rfl

theorem splitAt_cons_ne (d w : Char) (hw : w ≠ d) (Y : FString) :
    splitAt d (w :: Y) = (w :: (splitAt d Y).headD []) :: (splitAt d Y).tail := by
  rw [splitAt, if_neg hw]
  cases h : splitAt d Y with
  | nil => exact absurd h (splitAt_ne_nil d Y)
  | cons a t => rfl

theorem splitAt_snoc_ne (d w : Char) (hw : w ≠ d) : ∀ Y : FString,
    splitAt d (Y ++ [w]) = (splitAt d Y).dropLast ++ [(splitAt d Y).getLastD [] ++ [w]] := by
  intro Y
  induction Y with
  | nil => simp [splitAt, hw]
  | cons c Y ih =>
    rw [List.cons_append, splitAt, splitAt]
    split_ifs with hc
    · rw [ih]
      cases h : splitAt d Y with
      | nil => exact absurd h (splitAt_ne_nil d Y)
      | cons a t => simp [List.dropLast]
    · rw [ih]
      cases h : splitAt d Y with
      | nil => exact absurd h (splitAt_ne_nil d Y)
      | cons a t =>
        cases t with
        | nil => simp [List.dropLast]
        | cons b t => simp [List.dropLast]

theorem exists_mem_split_headD (S : List FString) (hS : S ≠ []) (P : FString → Prop) :
    (∃ p ∈ S, P p) ↔ P (S.headD []) ∨ ∃ p ∈ S.tail, P p := by
  cases S with
  | nil => exact absurd rfl hS
  | cons a t => simp

theorem exists_mem_split_getLastD (S : List FString) (hS : S ≠ []) (P : FString → Prop) :
    (∃ p ∈ S, P p) ↔ (∃ p ∈ S.dropLast, P p) ∨ P (S.getLastD []) := by
  have e : S = S.dropLast ++ [S.getLastD []] := by
    rw [List.getLastD_eq_getLast?, List.getLast?_eq_getLast _ hS]
    exact (List.dropLast_append_getLast hS).symm
  conv_lhs => rw [e]
  simp only [List.mem_append, List.mem_singleton]
  constructor
  · rintro ⟨p, hp | hp, h⟩
    · exact Or.inl ⟨p, hp, h⟩
    · exact Or.inr (hp ▸ h)
  · rintro (⟨p, hp, h⟩ | h)
    · exact ⟨p, Or.inl hp, h⟩
    · exact ⟨_, Or.inr rfl, h⟩

theorem mem_tokenClasses_cons_ws {N : Type} [DecidableEq N] (FNameOf : FString → N) (c : N)
    (w : Char) (h : w.isWhitespace = true) (Y : FString) :
    c ∈ tokenClasses FNameOf (w :: Y) ↔ c ∈ tokenClasses FNameOf Y := by
  simp only [mem_tokenClasses, commaText_cons]
  rcases isWhitespace_cases w h with h32 | ⟨h1, h2, h3, h4⟩
  · simp only [h32, or_true, true_or, if_true]
    rw [splitAt, if_pos rfl]
    simp only [List.mem_cons, exists_eq_or_imp, not_Named_nil, false_or]
  · simp only [h1, h2, h3, h4, or_self, if_false]
    rw [splitAt_cons_ne _ _ h4, exists_mem_split_headD _ (splitAt_ne_nil _ _)]
    simp only [List.mem_cons, exists_eq_or_imp, Named_cons_ws FNameOf c w h]

theorem mem_tokenClasses_snoc_ws {N : Type} [DecidableEq N] (FNameOf : FString → N) (c : N)
    (w : Char) (h : w.isWhitespace = true) (Y : FString) :
    c ∈ tokenClasses FNameOf (Y ++ [w]) ↔ c ∈ tokenClasses FNameOf Y := by
  simp only [mem_tokenClasses, commaText_append, commaText_cons]
  have hnil : commaText [] = [] := rfl
  rw [hnil]
  rcases isWhitespace_cases w h with h32 | ⟨h1, h2, h3, h4⟩
  · simp only [h32, or_true, true_or, if_true]
    rw [splitAt_append_delim]
    simp only [splitAt, List.mem_append, List.mem_singleton]
    constructor
    · rintro ⟨p, hp | hp, hn⟩
      · exact ⟨p, hp, hn⟩
      · rw [hp] at hn; exact absurd hn (not_Named_nil FNameOf c)
    · rintro ⟨p, hp, hn⟩
      exact ⟨p, Or.inl hp, hn⟩
  · simp only [h1, h2, h3, h4, or_self, if_false]
    rw [splitAt_snoc_ne _ _ h4, exists_mem_split_getLastD _ (splitAt_ne_nil _ _)]
    simp only [List.mem_append, List.mem_singleton]
    constructor
    · rintro ⟨p, hp | hp, hn⟩
      · exact Or.inl ⟨p, hp, hn⟩
      · rw [hp] at hn; exact Or.inr ((Named_snoc_ws FNameOf c w h _).1 hn)
    · rintro (⟨p, hp, hn⟩ | hn)
      · exact ⟨p, Or.inl hp, hn⟩
      · exact ⟨_, Or.inr rfl, (Named_snoc_ws FNameOf c w h _).2 hn⟩

theorem mem_tokenClasses_lead {N : Type} [DecidableEq N] (FNameOf : FString → N) (c : N)
    (Y : FString) : ∀ W : FString, (∀ w ∈ W, w.isWhitespace = true) →
    (c ∈ tokenClasses FNameOf (W ++ Y) ↔ c ∈ tokenClasses FNameOf Y) := by
  intro W
  induction W with
  | nil => intro _; rfl
  | cons w W ih =>
    intro h
    rw [List.cons_append, mem_tokenClasses_cons_ws FNameOf c w (h w (List.mem_cons_self _ _))]
    exact ih (fun x hx => h x (List.mem_cons_of_mem _ hx))

theorem mem_tokenClasses_trail {N : Type} [DecidableEq N] (FNameOf : FString → N) (c : N)
    (Y : FString) : ∀ W : FString, (∀ w ∈ W, w.isWhitespace = true) →
    (c ∈ tokenClasses FNameOf (Y ++ W.reverse) ↔ c ∈ tokenClasses FNameOf Y) := by
  intro W
  induction W with
  | nil => intro _; simp
  | cons w W ih =>
    intro h
    rw [List.reverse_cons, ← List.append_assoc,
      mem_tokenClasses_snoc_ws FNameOf c w (h w (List.mem_cons_self _ _))]
    exact ih (fun x hx => h x (List.mem_cons_of_mem _ hx))

theorem TrimStartAndEnd_decomp (X : FString) :
    X = X.takeWhile Char.isWhitespace ++ TrimStartAndEnd X
      ++ ((X.dropWhile Char.isWhitespace).reverse.takeWhile Char.isWhitespace).reverse := by
  unfold TrimStartAndEnd
  rw [List.append_assoc, ← List.reverse_append, List.takeWhile_append_dropWhile,
    List.reverse_reverse, List.takeWhile_append_dropWhile]

theorem mem_tokenClasses_Trim {N : Type} [DecidableEq N] (FNameOf : FString → N) (c : N)
    (X : FString) :
    c ∈ tokenClasses FNameOf (TrimStartAndEnd X) ↔ c ∈ tokenClasses FNameOf X := by
  conv_rhs => rw [TrimStartAndEnd_decomp X]
  rw [mem_tokenClasses_trail FNameOf c _ _ (fun w hw => by
      have := List.mem_takeWhile_imp hw
      exact this),
    mem_tokenClasses_lead FNameOf c _ _ (fun w hw => List.mem_takeWhile_imp hw)]

theorem sortPredicate_false_iff {N : Type} [DecidableEq N] (FNameOf : FString → N)
    (Less : FString → FString → Bool) (A B : FAssetData N) :
    sortPredicate FNameOf Less B A = false
      ↔ GetSortKey FNameOf A < GetSortKey FNameOf B
        ∨ (GetSortKey FNameOf A = GetSortKey FNameOf B
            ∧ Less B.ObjectPath A.ObjectPath = false) := by
  unfold sortPredicate
  simp only
  split_ifs with h
  · simp only [decide_eq_false_iff_not, not_lt]
    constructor
    · intro h1; left; omega
    · rintro (h1 | ⟨h1, _⟩)
      · omega
      · exact absurd h1.symm h
  · have h' : GetSortKey FNameOf B = GetSortKey FNameOf A := by
      by_contra h0; exact h h0
    constructor
    · intro h1; exact Or.inr ⟨h'.symm, h1⟩
    · rintro (h1 | ⟨_, h1⟩)
      · omega
      · exact h1

theorem sortAssets_sorted {N : Type} [DecidableEq N] (FNameOf : FString → N)
    (Less : FString → FString → Bool)
    (hasymm : ∀ a b, Less a b = true → Less b a = false)
    (htrans : ∀ a b c, Less b a = false → Less c b = false → Less c a = false)
    (L : List (FAssetData N)) :
    (sortAssets FNameOf Less L).Sorted (fun A B => sortPredicate FNameOf Less B A = false) := by
  unfold sortAssets
  haveI : IsTotal (FAssetData N) (fun A B => sortPredicate FNameOf Less B A = false) :=
    ⟨fun A B => by
      simp only [sortPredicate_false_iff]
      rcases lt_trichotomy (GetSortKey FNameOf A) (GetSortKey FNameOf B) with h | h | h
      · exact Or.inl (Or.inl h)
      · by_cases hx : Less B.ObjectPath A.ObjectPath = true
        · exact Or.inr (Or.inr ⟨h.symm, hasymm _ _ hx⟩)
        · exact Or.inl (Or.inr ⟨h, by simpa using hx⟩)
      · exact Or.inr (Or.inl h)⟩
  haveI : IsTrans (FAssetData N) (fun A B => sortPredicate FNameOf Less B A = false) :=
    ⟨fun A B C h1 h2 => by
      simp only [sortPredicate_false_iff] at h1 h2 ⊢
      rcases h1 with h1 | ⟨h1, h1'⟩ <;> rcases h2 with h2 | ⟨h2, h2'⟩
      · left; omega
      · left; omega
      · left; omega
      · right; exact ⟨by omega, htrans _ _ _ h1' h2'⟩⟩
  exact List.sorted_insertionSort _ _

theorem specStage_eq_key {N : Type} [DecidableEq N] (FNameOf : FString → N)
    (A : FAssetData N) :
    specStage FNameOf A.ClassName
      = if GetSortKey FNameOf A ≤ 2 then 0
        else if GetSortKey FNameOf A = 3 then 1
        else if GetSortKey FNameOf A = 4 then 2 else 3 := by
  unfold GetSortKey specStage
  generalize FNameOf "MaterialInstance".toList = n1
  generalize FNameOf "MaterialInstanceConstant".toList = n2
  generalize FNameOf "Material".toList = n3
  generalize FNameOf "AnimSequence".toList = n4
  generalize FNameOf "StaticMesh".toList = n5
  generalize FNameOf "SkeletalMesh".toList = n6
  generalize FNameOf "Blueprint".toList = n7
  generalize FNameOf "NiagaraSystem".toList = n8
  generalize A.ClassName = c
  by_cases h1 : c = n1
  · simp only [eq_true h1,
      or_true, true_or, or_false, false_or, if_true, if_false]
    simp
  by_cases h2 : c = n2
  · simp only [eq_false h1, eq_true h2,
      or_true, true_or, or_false, false_or, if_true, if_false]
    simp
  by_cases h3 : c = n3
  · simp only [eq_false h1, eq_false h2, eq_true h3,
      or_true, true_or, or_false, false_or, if_true, if_false]
    simp
  by_cases h4 : c = n4
  · simp only [eq_false h1, eq_false h2, eq_false h3, eq_true h4,
      or_true, true_or, or_false, false_or, if_true, if_false]
    simp
  by_cases h5 : c = n5
  · simp only [eq_false h1, eq_false h2, eq_false h3, eq_false h4, eq_true h5,
      or_true, true_or, or_false, false_or, if_true, if_false]
    simp
  by_cases h6 : c = n6
  · simp only [eq_false h1, eq_false h2, eq_false h3, eq_false h4, eq_false h5, eq_true h6,
      or_true, true_or, or_false, false_or, if_true, if_false]
    simp
  by_cases h7 : c = n7
  · simp only [eq_false h1, eq_false h2, eq_false h3, eq_false h4, eq_false h5, eq_false h6, eq_true h7,
      or_true, true_or, or_false, false_or, if_true, if_false]
    simp
  by_cases h8 : c = n8
  · simp only [eq_false h1, eq_false h2, eq_false h3, eq_false h4, eq_false h5, eq_false h6, eq_false h7, eq_true h8,
      or_true, true_or, or_false, false_or, if_true, if_false]
    simp
  · simp only [eq_false h1, eq_false h2, eq_false h3, eq_false h4, eq_false h5, eq_false h6, eq_false h7, eq_false h8,
      or_self, if_false]
    simp

theorem specStage_le_of_key {N : Type} [DecidableEq N] (FNameOf : FString → N)
    (A B : FAssetData N) (h : GetSortKey FNameOf A ≤ GetSortKey FNameOf B) :
    specStage FNameOf A.ClassName ≤ specStage FNameOf B.ClassName := by
  rw [specStage_eq_key, specStage_eq_key]
  split_ifs <;> omega

theorem isEmpty_eq_false_iff (S : FString) : S.isEmpty = false ↔ S ≠ [] := by
  cases S <;> simp

theorem mem_tokenClasses_mergedExclude {N : Type} [DecidableEq N] (FNameOf : FString → N)
    (c : N) (InTypeFilter InExcludeTypeFilter : FString) (Server : Option (FString × FString)) :
    c ∈ tokenClasses FNameOf
          (TrimStartAndEnd (mergeFilters InTypeFilter InExcludeTypeFilter Server).2)
      ↔ c ∈ tokenClasses FNameOf InExcludeTypeFilter
        ∨ c ∈ tokenClasses FNameOf (ServerExcludeRaw Server) := by
  rw [mem_tokenClasses_Trim]
  cases Server with
  | none => simp [mergeFilters, ServerExcludeRaw, tokenClasses_nil]
  | some p =>
    obtain ⟨SInc, SExc⟩ := p
    simp only [mergeFilters, ServerExcludeRaw, Option.isSome_some, Bool.true_and]
    cases hS : SExc with
    | nil => simp [tokenClasses_nil]
    | cons a as =>
      cases hE : InExcludeTypeFilter with
      | nil => simp [tokenClasses_nil]
      | cons b bs =>
        simp only [List.isEmpty_cons, Bool.not_false, if_true, Bool.false_eq_true, if_false]
        exact mem_tokenClasses_append_comma FNameOf c _ _

theorem mem_ExcludeClasses {N : Type} [DecidableEq N] (FNameOf : FString → N)
    (c : N) (InTypeFilter InExcludeTypeFilter : FString) (Server : Option (FString × FString)) :
    c ∈ ExcludeClasses FNameOf InTypeFilter InExcludeTypeFilter Server
      ↔ c ∈ specEffectiveExclude FNameOf InTypeFilter InExcludeTypeFilter Server := by
  unfold ExcludeClasses specEffectiveExclude
  simp only
  split_ifs with hf
  · simp only [mem_TSetDifference, mem_TSetIntersect, mem_tokenClasses_mergedExclude,
      List.mem_filter, List.mem_append, hf, Bool.true_and, Bool.not_eq_true',
      decide_eq_false_iff_not, decide_eq_true_eq]
  · simp only [mem_TSetIntersect, mem_tokenClasses_mergedExclude,
      List.mem_filter, List.mem_append, hf, Bool.false_and, Bool.not_false, and_true,
      decide_eq_true_eq]

theorem specEffectiveExclude_of_not_bHasExclude {N : Type} [DecidableEq N]
    (FNameOf : FString → N) (c : N) (InTypeFilter InExcludeTypeFilter : FString)
    (Server : Option (FString × FString))
    (h : bHasExclude InTypeFilter InExcludeTypeFilter Server = false) :
    c ∉ specEffectiveExclude FNameOf InTypeFilter InExcludeTypeFilter Server := by
  intro hc
  have h1 : TrimStartAndEnd (mergeFilters InTypeFilter InExcludeTypeFilter Server).2 = [] := by
    unfold bHasExclude at h
    simpa using h
  have h2 := (mem_tokenClasses_mergedExclude FNameOf c InTypeFilter InExcludeTypeFilter Server).2
  rw [h1, tokenClasses_nil] at h2
  unfold specEffectiveExclude at hc
  simp only [List.mem_filter, List.mem_append] at hc
  exact absurd (h2 hc.1.1) (List.not_mem_nil c)

theorem mem_sortAssets {N : Type} [DecidableEq N] (FNameOf : FString → N)
    (Less : FString → FString → Bool) (L : List (FAssetData N)) (AD : FAssetData N) :
    AD ∈ sortAssets FNameOf Less L ↔ AD ∈ L :=
  (List.perm_insertionSort _ L).mem_iff

theorem mem_FilterClasses {N : Type} [DecidableEq N] (FNameOf : FString → N)
    (c : N) (InTypeFilter InExcludeTypeFilter : FString) (Server : Option (FString × FString)) :
    c ∈ FilterClasses FNameOf InTypeFilter InExcludeTypeFilter Server
      ↔ c ∈ tokenClasses FNameOf (mergeFilters InTypeFilter InExcludeTypeFilter Server).1
        ∧ (TrimStartAndEnd InTypeFilter ≠ [] →
            tokenClasses FNameOf (ServerIncludeRaw Server) ≠ [] →
            c ∈ tokenClasses FNameOf (ServerIncludeRaw Server))
        ∧ c ∈ AllowedClasses FNameOf := by
  unfold FilterClasses
  simp only [mem_TSetIntersect]
  generalize mergeFilters InTypeFilter InExcludeTypeFilter Server = M
  generalize ServerIncludeRaw Server = SInc
  by_cases hcli : TrimStartAndEnd InTypeFilter = []
  · simp [hcli, mem_tokenClasses_Trim]
  · have hcli2 : (TrimStartAndEnd InTypeFilter).isEmpty = false :=
      (isEmpty_eq_false_iff _).2 hcli
    by_cases hs : tokenClasses FNameOf SInc = []
    · by_cases hS : SInc.isEmpty = true
      · simp [hcli2, hS, hs, mem_tokenClasses_Trim]
      · simp [hcli2, hS, hs, mem_tokenClasses_Trim]
    · have hne : SInc ≠ [] := by
        intro h0; rw [h0] at hs; exact hs (tokenClasses_nil FNameOf)
      have hne2 : SInc.isEmpty = false := (isEmpty_eq_false_iff _).2 hne
      have hlen : 0 < (tokenClasses FNameOf SInc).length := List.length_pos.2 hs
      simp only [hcli2, hne2, Bool.not_false, Bool.and_self, if_true, gt_iff_lt, hlen,
        mem_TSetIntersect, mem_tokenClasses_Trim, ne_eq, hcli, not_false_eq_true, hs,
        true_implies, and_assoc]

theorem exportOrder_eq_some {N : Type} [DecidableEq N] (FNameOf : FString → N)
    (Less : FString → FString → Bool) (InTypeFilter InExcludeTypeFilter : FString)
    (Server : Option (FString × FString)) (Assets Ord : List (FAssetData N))
    (h : exportOrder FNameOf Less InTypeFilter InExcludeTypeFilter Server Assets = some Ord) :
    Ord = sortAssets FNameOf Less
      (Filtered FNameOf InTypeFilter InExcludeTypeFilter Server Assets) := by
  unfold exportOrder at h
  simp only at h
  split_ifs at h
  exact (Option.some.inj h).symm

/-- Claim C26. For every batch export that selects assets, with `operator<` on
strings a strict weak order: the assets are exported in an order that is a
rearrangement of the selected assets, in which materials, material instances
and animation sequences come before static and skeletal meshes, meshes before
blueprints, blueprints before Niagara effects, and of two assets of the same
class the one exported later does not have the smaller object path (it has
the greater one when the order of paths is total). -/
theorem exportOrder_sorted {N : Type} [DecidableEq N] (FNameOf : FString → N)
    (Less : FString → FString → Bool)
    (hasymm : ∀ a b, Less a b = true → Less b a = false)
    (htrans : ∀ a b c, Less b a = false → Less c b = false → Less c a = false)
    (InTypeFilter InExcludeTypeFilter : FString) (Server : Option (FString × FString))
    (Assets Ord : List (FAssetData N))
    (h : exportOrder FNameOf Less InTypeFilter InExcludeTypeFilter Server Assets = some Ord) :
    Ord.Perm (Filtered FNameOf InTypeFilter InExcludeTypeFilter Server Assets)
    ∧ Ord.Pairwise (fun A B => specStage FNameOf A.ClassName ≤ specStage FNameOf B.ClassName)
    ∧ Ord.Pairwise (fun A B => A.ClassName = B.ClassName →
        Less B.ObjectPath A.ObjectPath = false)
    ∧ ((∀ a b, a ≠ b → Less a b = true ∨ Less b a = true) →
        Ord.Pairwise (fun A B => A.ClassName = B.ClassName → A.ObjectPath ≠ B.ObjectPath →
          Less A.ObjectPath B.ObjectPath = true)) := by
  have e := exportOrder_eq_some FNameOf Less _ _ _ _ _ h
  have hs := sortAssets_sorted FNameOf Less hasymm htrans
    (Filtered FNameOf InTypeFilter InExcludeTypeFilter Server Assets)
  rw [← e] at hs
  have hs2 : Ord.Pairwise (fun A B => GetSortKey FNameOf A < GetSortKey FNameOf B
      ∨ (GetSortKey FNameOf A = GetSortKey FNameOf B
          ∧ Less B.ObjectPath A.ObjectPath = false)) :=
    List.Pairwise.imp (fun {A B} hab => (sortPredicate_false_iff FNameOf Less A B).1 hab) hs
  have hkey : ∀ A B : FAssetData N, A.ClassName = B.ClassName →
      GetSortKey FNameOf A = GetSortKey FNameOf B := by
    intro A B hc
    unfold GetSortKey
    rw [hc]
  have h3 : Ord.Pairwise (fun A B => A.ClassName = B.ClassName →
      Less B.ObjectPath A.ObjectPath = false) := by
    refine List.Pairwise.imp ?_ hs2
    intro A B hab hc
    rcases hab with hlt | ⟨_, hl⟩
    · have := hkey A B hc; omega
    · exact hl
  refine ⟨?_, ?_, h3, ?_⟩
  · rw [e]
    exact List.perm_insertionSort _ _
  · refine List.Pairwise.imp ?_ hs2
    intro A B hab
    apply specStage_le_of_key
    rcases hab with hlt | ⟨heq, _⟩ <;> omega
  · intro htot
    refine List.Pairwise.imp ?_ h3
    intro A B hab hc hne
    rcases htot _ _ hne with h1 | h1
    · exact h1
    · rw [hab hc] at h1; exact absurd h1 (by simp)

/-- The export order of C26 at the example assets without filters: the
material, the two static meshes by path, the blueprint, the Niagara system;
the texture is not exportable. -/
theorem exportOrder_sorted_witness :
    exportOrder exampleFNameOf exampleLess [] [] none exampleAssets
      = some [{ ClassName := "Material".toList, ObjectPath := "/Game/P/Moss.Moss".toList },
              { ClassName := "StaticMesh".toList, ObjectPath := "/Game/P/Arch.Arch".toList },
              { ClassName := "StaticMesh".toList, ObjectPath := "/Game/P/Rock.Rock".toList },
              { ClassName := "Blueprint".toList, ObjectPath := "/Game/P/Door.Door".toList },
              { ClassName := "NiagaraSystem".toList, ObjectPath := "/Game/P/Fire.Fire".toList }]
    ∧ ∀ Ord, exportOrder exampleFNameOf exampleLess [] [] none exampleAssets = some Ord →
        Ord.Pairwise (fun A B =>
          specStage exampleFNameOf A.ClassName ≤ specStage exampleFNameOf B.ClassName) := by
  refine ⟨by decide!, ?_⟩
  intro Ord h
  have hasymm : ∀ a b, exampleLess a b = true → exampleLess b a = false := by
    intro a b hab
    simp only [exampleLess, decide_eq_true_eq, decide_eq_false_iff_not] at hab ⊢
    exact lt_asymm hab
  have htrans : ∀ a b c, exampleLess b a = false → exampleLess c b = false →
      exampleLess c a = false := by
    intro a b c h1 h2
    simp only [exampleLess, decide_eq_false_iff_not, not_lt] at h1 h2 ⊢
    exact le_trans h1 h2
  exact (exportOrder_sorted exampleFNameOf exampleLess hasymm htrans [] [] none exampleAssets
    Ord h).2.1

/-- Claim C27 (amended). The include set of `ExportPathBuilds`: with a CLI
include filter and a server include filter that names at least one class, it
is the intersection of the classes named by the CLI filter, the classes named
by the server filter and the exportable classes; with a CLI include filter
and a server filter that names no class, or no server filter, it is the CLI
filter restricted to the exportable classes; with a server include filter
only, it is that filter restricted to the exportable classes; and
`ExportPathBuilds` returns 0 when there is an include filter and the include
set is empty. -/
theorem FilterClasses_spec {N : Type} [DecidableEq N] (FNameOf : FString → N)
    (InTypeFilter InExcludeTypeFilter : FString) :
    (∀ SInc SExc : FString, TrimStartAndEnd InTypeFilter ≠ [] →
      tokenClasses FNameOf SInc ≠ [] →
      bHasFilter InTypeFilter InExcludeTypeFilter (some (SInc, SExc)) = true
      ∧ ∀ c, c ∈ FilterClasses FNameOf InTypeFilter InExcludeTypeFilter (some (SInc, SExc))
          ↔ c ∈ tokenClasses FNameOf InTypeFilter ∧ c ∈ tokenClasses FNameOf SInc
            ∧ c ∈ AllowedClasses FNameOf)
    ∧ (∀ SInc SExc : FString, TrimStartAndEnd InTypeFilter ≠ [] →
      tokenClasses FNameOf SInc = [] →
      bHasFilter InTypeFilter InExcludeTypeFilter (some (SInc, SExc)) = true
      ∧ ∀ c, c ∈ FilterClasses FNameOf InTypeFilter InExcludeTypeFilter (some (SInc, SExc))
          ↔ c ∈ tokenClasses FNameOf InTypeFilter ∧ c ∈ AllowedClasses FNameOf)
    ∧ (TrimStartAndEnd InTypeFilter ≠ [] →
      bHasFilter InTypeFilter InExcludeTypeFilter none = true
      ∧ ∀ c, c ∈ FilterClasses FNameOf InTypeFilter InExcludeTypeFilter none
          ↔ c ∈ tokenClasses FNameOf InTypeFilter ∧ c ∈ AllowedClasses FNameOf)
    ∧ (∀ SInc SExc : FString, TrimStartAndEnd InTypeFilter = [] →
      TrimStartAndEnd SInc ≠ [] →
      bHasFilter InTypeFilter InExcludeTypeFilter (some (SInc, SExc)) = true
      ∧ ∀ c, c ∈ FilterClasses FNameOf InTypeFilter InExcludeTypeFilter (some (SInc, SExc))
          ↔ c ∈ tokenClasses FNameOf SInc ∧ c ∈ AllowedClasses FNameOf)
    ∧ (∀ (Server : Option (FString × FString)) (Less : FString → FString → Bool)
        (FindAssets : FString → List (FAssetData N)) (ExportAssetBuild : FAssetData N → Bool)
        (InGamePath : FString),
      bHasFilter InTypeFilter InExcludeTypeFilter Server = true →
      FilterClasses FNameOf InTypeFilter InExcludeTypeFilter Server = [] →
      ExportPathBuilds FNameOf Less FindAssets ExportAssetBuild Server InGamePath InTypeFilter
        InExcludeTypeFilter = 0) := by
  refine ⟨?_, ?_, ?_, ?_, ?_⟩
  · intro SInc SExc hcli hs
    have hcli2 : (TrimStartAndEnd InTypeFilter).isEmpty = false :=
      (isEmpty_eq_false_iff _).2 hcli
    have hm : (mergeFilters InTypeFilter InExcludeTypeFilter (some (SInc, SExc))).1
        = InTypeFilter := by
      simp [mergeFilters, hcli2]
    refine ⟨by simp [bHasFilter, hm, hcli], ?_⟩
    intro c
    rw [mem_FilterClasses, hm]
    simp only [ServerIncludeRaw, ne_eq, hcli, not_false_eq_true, hs, true_implies]
  · intro SInc SExc hcli hs
    have hcli2 : (TrimStartAndEnd InTypeFilter).isEmpty = false :=
      (isEmpty_eq_false_iff _).2 hcli
    have hm : (mergeFilters InTypeFilter InExcludeTypeFilter (some (SInc, SExc))).1
        = InTypeFilter := by
      simp [mergeFilters, hcli2]
    refine ⟨by simp [bHasFilter, hm, hcli], ?_⟩
    intro c
    rw [mem_FilterClasses, hm]
    simp only [ServerIncludeRaw, ne_eq, hcli, not_false_eq_true, hs, not_true_eq_false,
      false_implies, true_implies, true_and]
  · intro hcli
    have hm : (mergeFilters InTypeFilter InExcludeTypeFilter none).1 = InTypeFilter := by
      simp [mergeFilters]
    refine ⟨by simp [bHasFilter, hm, hcli], ?_⟩
    intro c
    rw [mem_FilterClasses, hm]
    simp only [ServerIncludeRaw, tokenClasses_nil, ne_eq, not_true_eq_false, false_implies,
      implies_true, true_and]
  · intro SInc SExc hcli hs
    have hne : SInc ≠ [] := by
      intro h0; rw [h0] at hs; exact hs rfl
    have hne2 : SInc.isEmpty = false := (isEmpty_eq_false_iff _).2 hne
    have hm : (mergeFilters InTypeFilter InExcludeTypeFilter (some (SInc, SExc))).1 = SInc := by
      simp [mergeFilters, ServerIncludeRaw, hcli, hne2]
    refine ⟨by simp [bHasFilter, hm, hs], ?_⟩
    intro c
    rw [mem_FilterClasses, hm]
    simp only [ne_eq, hcli, not_true_eq_false, false_implies, true_and]
  · intro Server Less FindAssets ExportAssetBuild InGamePath hf he
    unfold ExportPathBuilds
    simp only
    split_ifs with hp
    · rfl
    · have : exportOrder FNameOf Less InTypeFilter InExcludeTypeFilter Server
          (FindAssets (TrimStartAndEnd InGamePath)) = none := by
        unfold exportOrder
        simp only [hf, he, List.length_nil, beq_self_eq_true, Bool.and_self, if_true]
        split_ifs <;> rfl
      rw [this]

/-- The parts of C27 at an example: the CLI filter `mesh bp` and the server
filter `bp,anim` give the include set `Blueprint`. -/
theorem FilterClasses_spec_witness :
    FilterClasses exampleFNameOf "mesh bp".toList [] (some ("bp,anim".toList, []))
      = ["Blueprint".toList]
    ∧ ∀ c, c ∈ FilterClasses exampleFNameOf "mesh bp".toList [] (some ("bp,anim".toList, []))
        ↔ c ∈ tokenClasses exampleFNameOf "mesh bp".toList
          ∧ c ∈ tokenClasses exampleFNameOf "bp,anim".toList
          ∧ c ∈ AllowedClasses exampleFNameOf :=
  ⟨by decide,
   ((FilterClasses_spec exampleFNameOf "mesh bp".toList []).1 "bp,anim".toList []
     (by decide) (by decide)).2⟩

/-- A counterexample to C27: with the CLI include filter `mesh` and the server
include filter `,` (not empty, but it names no class) the include set is not
the empty intersection: it holds the two mesh classes, and the two static
meshes of the example are exported. -/
theorem FilterClasses_server_names_nothing :
    TrimStartAndEnd "mesh".toList ≠ []
    ∧ ",".toList ≠ []
    ∧ tokenClasses exampleFNameOf ",".toList = []
    ∧ FilterClasses exampleFNameOf "mesh".toList [] (some (",".toList, []))
        = ["StaticMesh".toList, "SkeletalMesh".toList]
    ∧ ExportPathBuilds exampleFNameOf exampleLess (fun _ => exampleAssets) (fun _ => true)
        (some (",".toList, [])) "/Game/P".toList "mesh".toList [] = 2 := by
  decide!

theorem mem_Filtered {N : Type} [DecidableEq N] (FNameOf : FString → N)
    (InTypeFilter InExcludeTypeFilter : FString) (Server : Option (FString × FString))
    (Assets : List (FAssetData N)) (AD : FAssetData N) :
    AD ∈ Filtered FNameOf InTypeFilter InExcludeTypeFilter Server Assets
      ↔ AD ∈ Assets ∧ AD.ClassName ∈ AllowedClasses FNameOf
        ∧ (bHasFilter InTypeFilter InExcludeTypeFilter Server = true →
            AD.ClassName ∈ FilterClasses FNameOf InTypeFilter InExcludeTypeFilter Server)
        ∧ AD.ClassName
            ∉ specEffectiveExclude FNameOf InTypeFilter InExcludeTypeFilter Server := by
  unfold Filtered
  rw [List.mem_filter]
  have hx := specEffectiveExclude_of_not_bHasExclude FNameOf AD.ClassName InTypeFilter
    InExcludeTypeFilter Server
  have hm := mem_ExcludeClasses FNameOf AD.ClassName InTypeFilter InExcludeTypeFilter Server
  cases hf : bHasFilter InTypeFilter InExcludeTypeFilter Server <;>
    cases he : bHasExclude InTypeFilter InExcludeTypeFilter Server <;>
    simp only [he, true_implies] at hx <;>
    simp [hm, hx, and_assoc]

/-- Claim C30. For every batch export: an asset that the registry found is
selected exactly when its class is exportable, is in the include set when an
include filter is present, and is not in the effective exclude set, the
classes named by the CLI or the server exclude filter, restricted to the
exportable classes, minus the include set when an include filter is present;
the assets exported are the selected ones; and an asset whose class is in the
include set is selected, whatever the exclude filters name. -/
theorem Filtered_spec {N : Type} [DecidableEq N] (FNameOf : FString → N)
    (Less : FString → FString → Bool) (InTypeFilter InExcludeTypeFilter : FString)
    (Server : Option (FString × FString)) (Assets : List (FAssetData N))
    (AD : FAssetData N) :
    (AD ∈ Filtered FNameOf InTypeFilter InExcludeTypeFilter Server Assets
      ↔ AD ∈ Assets ∧ AD.ClassName ∈ AllowedClasses FNameOf
        ∧ (bHasFilter InTypeFilter InExcludeTypeFilter Server = true →
            AD.ClassName ∈ FilterClasses FNameOf InTypeFilter InExcludeTypeFilter Server)
        ∧ AD.ClassName
            ∉ specEffectiveExclude FNameOf InTypeFilter InExcludeTypeFilter Server)
    ∧ ((∃ Ord, exportOrder FNameOf Less InTypeFilter InExcludeTypeFilter Server Assets
            = some Ord ∧ AD ∈ Ord)
      ↔ AD ∈ Filtered FNameOf InTypeFilter InExcludeTypeFilter Server Assets)
    ∧ (bHasFilter InTypeFilter InExcludeTypeFilter Server = true → AD ∈ Assets →
        AD.ClassName ∈ FilterClasses FNameOf InTypeFilter InExcludeTypeFilter Server →
        AD ∈ Filtered FNameOf InTypeFilter InExcludeTypeFilter Server Assets) := by
  have h1 := mem_Filtered FNameOf InTypeFilter InExcludeTypeFilter Server Assets AD
  refine ⟨h1, ?_, ?_⟩
  · constructor
    · rintro ⟨Ord, ho, hm⟩
      rw [exportOrder_eq_some FNameOf Less _ _ _ _ _ ho] at hm
      exact (mem_sortAssets FNameOf Less _ AD).1 hm
    · intro hm
      refine ⟨sortAssets FNameOf Less
        (Filtered FNameOf InTypeFilter InExcludeTypeFilter Server Assets), ?_,
        (mem_sortAssets FNameOf Less _ AD).2 hm⟩
      have hA : Assets.length ≠ 0 := by
        intro h0
        have := h1.1 hm
        rw [List.length_eq_zero.1 h0] at this
        exact absurd this.1 (List.not_mem_nil _)
      have hF : (Filtered FNameOf InTypeFilter InExcludeTypeFilter Server Assets).length ≠ 0 := by
        intro h0
        rw [List.length_eq_zero.1 h0] at hm
        exact absurd hm (List.not_mem_nil _)
      have hI : (bHasFilter InTypeFilter InExcludeTypeFilter Server
          && (FilterClasses FNameOf InTypeFilter InExcludeTypeFilter Server).length == 0)
          = false := by
        cases hf : bHasFilter InTypeFilter InExcludeTypeFilter Server with
        | false => rfl
        | true =>
          have := (h1.1 hm).2.2.1 hf
          have hpos := List.length_pos_of_mem this
          simp only [Bool.true_and, beq_eq_false_iff_ne, ne_eq]
          omega
      unfold exportOrder
      simp only [hA, hI, hF, if_false, Bool.false_eq_true]
  · intro hf hA hc
    rw [h1]
    refine ⟨hA, ?_, fun _ => hc, ?_⟩
    · exact ((mem_FilterClasses FNameOf _ _ _ _).1 hc).2.2
    · intro hx
      unfold specEffectiveExclude at hx
      simp only [List.mem_filter, hf, Bool.true_and, Bool.not_eq_true',
        decide_eq_false_iff_not] at hx
      exact hx.2 hc

/-- The selection of C30 at the example assets, with the include filter
`mesh bp` and the exclude filters `bp;foo` (CLI) and `mat` (server): the
blueprint is named by both filters and is exported. -/
theorem Filtered_spec_witness :
    exportOrder exampleFNameOf exampleLess "mesh bp".toList "bp;foo".toList
        (some ([], "mat".toList)) exampleAssets
      = some [{ ClassName := "StaticMesh".toList, ObjectPath := "/Game/P/Arch.Arch".toList },
              { ClassName := "StaticMesh".toList, ObjectPath := "/Game/P/Rock.Rock".toList },
              { ClassName := "Blueprint".toList, ObjectPath := "/Game/P/Door.Door".toList }]
    ∧ ({ ClassName := "Blueprint".toList, ObjectPath := "/Game/P/Door.Door".toList }
        : FAssetData FString)
      ∈ Filtered exampleFNameOf "mesh bp".toList "bp;foo".toList (some ([], "mat".toList))
          exampleAssets :=
  ⟨by decide!,
   (Filtered_spec exampleFNameOf exampleLess "mesh bp".toList "bp;foo".toList
     (some ([], "mat".toList)) exampleAssets
     { ClassName := "Blueprint".toList, ObjectPath := "/Game/P/Door.Door".toList }).2.2
     (by decide) (by decide) (by decide)⟩

/-! ## Requests to the server -/

theorem checkWait_failure (Deserialize : FString → Option FJsonObject)
    (GetBoolField : FJsonObject → FString → Bool) (Arrival : Option FHttpCompletion)
    (h : Arrival = none
      ∨ ∃ c, Arrival = some c
          ∧ (c.bSucceeded = false ∨ c.Resp = none
              ∨ ∃ r, c.Resp = some r
                  ∧ (r.ResponseCode ≠ 200 ∨ Deserialize r.Content = none))) :
    (checkWait Deserialize GetBoolField Arrival).bOk = false
    ∧ (checkWait Deserialize GetBoolField Arrival).Out = false := by
  rcases h with h | ⟨c, h, hc⟩
  · subst h; exact ⟨rfl, rfl⟩
  · subst h
    obtain ⟨bS, Resp⟩ := c
    rcases hc with hc | hc | ⟨r, hr, hc⟩
    · simp only at hc
      subst hc
      cases Resp <;> simp [checkWait, checkOnComplete]
    · simp only at hc
      subst hc
      simp [checkWait, checkOnComplete]
    · simp only at hr
      subst hr
      rcases hc with hc | hc
      · simp [checkWait, checkOnComplete, hc]
      · cases bS <;> by_cases h200 : r.ResponseCode = 200 <;>
          simp [checkWait, checkOnComplete, hc, h200]

theorem checkWait_bOk (Deserialize : FString → Option FJsonObject)
    (GetBoolField : FJsonObject → FString → Bool) (Arrival : Option FHttpCompletion)
    (h : (checkWait Deserialize GetBoolField Arrival).bOk = true) :
    ∃ Resp Root, Arrival = some { bSucceeded := true, Resp := some Resp }
      ∧ Resp.ResponseCode = 200 ∧ Deserialize Resp.Content = some Root
      ∧ (checkWait Deserialize GetBoolField Arrival).Out = GetBoolField Root "exists".toList := by
  cases Arrival with
  | none => simp [checkWait] at h
  | some c =>
    obtain ⟨bS, Resp⟩ := c
    cases Resp with
    | none => simp [checkWait, checkOnComplete] at h
    | some r =>
      cases bS with
      | false => simp [checkWait, checkOnComplete] at h
      | true =>
        by_cases h200 : r.ResponseCode = 200
        · cases hd : Deserialize r.Content with
          | none => simp [checkWait, checkOnComplete, h200, hd] at h
          | some Root =>
            refine ⟨r, Root, rfl, h200, hd, ?_⟩
            simp [checkWait, checkOnComplete, h200, hd]
        · simp [checkWait, checkOnComplete, h200] at h

/-- Claim C23. For every outcome of the request of the existence check:
`ExportAssetBuild` returns early because of the server only when the request
completed during the wait with success, status 200 and a body that parses to
a JSON object whose field `exists` is true; when the wait times out, the
request does not succeed, the response is missing, the status is not 200 or
the body does not parse, `CheckServerHasHash` returns false with `OutExists`
false and the export goes on; and a response that parses makes it return true
with `OutExists` the field, so `exists = false` from the server (true, false)
is told apart from a failed check (false, false). -/
theorem CheckServerHasHash_outcomes (Deserialize : FString → Option FJsonObject)
    (GetBoolField : FJsonObject → FString → Bool) (CachedUseServerCheck : Bool)
    (ImportBaseUrl ExportCheckPathTemplate HashMain : FString)
    (Arrival : Option FHttpCompletion) :
    (serverHasHashStop Deserialize GetBoolField CachedUseServerCheck ImportBaseUrl
        ExportCheckPathTemplate HashMain Arrival = true →
      ∃ Resp Root, Arrival = some { bSucceeded := true, Resp := some Resp }
        ∧ Resp.ResponseCode = 200 ∧ Deserialize Resp.Content = some Root
        ∧ GetBoolField Root "exists".toList = true)
    ∧ ((Arrival = none
        ∨ ∃ c, Arrival = some c
            ∧ (c.bSucceeded = false ∨ c.Resp = none
                ∨ ∃ r, c.Resp = some r
                    ∧ (r.ResponseCode ≠ 200 ∨ Deserialize r.Content = none))) →
      (∀ BaseUrl PathTemplate Hash : FString,
        CheckServerHasHash Deserialize GetBoolField BaseUrl PathTemplate Hash Arrival
          = (false, false))
      ∧ serverHasHashStop Deserialize GetBoolField CachedUseServerCheck ImportBaseUrl
          ExportCheckPathTemplate HashMain Arrival = false)
    ∧ (∀ (Resp : FHttpResponse) (Root : FJsonObject) (BaseUrl PathTemplate Hash : FString),
        BaseUrl ≠ [] → PathTemplate ≠ [] → Hash ≠ [] →
        Arrival = some { bSucceeded := true, Resp := some Resp } →
        Resp.ResponseCode = 200 → Deserialize Resp.Content = some Root →
        CheckServerHasHash Deserialize GetBoolField BaseUrl PathTemplate Hash Arrival
          = (true, GetBoolField Root "exists".toList)) := by
  have hfail : ∀ BaseUrl PathTemplate Hash : FString,
      (CheckServerHasHash Deserialize GetBoolField BaseUrl PathTemplate Hash Arrival).1 = true →
      (CheckServerHasHash Deserialize GetBoolField BaseUrl PathTemplate Hash Arrival).2 = true →
      ∃ Resp Root, Arrival = some { bSucceeded := true, Resp := some Resp }
        ∧ Resp.ResponseCode = 200 ∧ Deserialize Resp.Content = some Root
        ∧ GetBoolField Root "exists".toList = true := by
    intro B P H h1 h2
    by_cases he : (B.isEmpty || P.isEmpty || H.isEmpty) = true
    · simp [CheckServerHasHash, he] at h1
    · simp only [CheckServerHasHash, he, Bool.false_eq_true, if_false] at h1 h2
      obtain ⟨Resp, Root, ha, hc, hd, ho⟩ := checkWait_bOk Deserialize GetBoolField Arrival h1
      exact ⟨Resp, Root, ha, hc, hd, by rw [← ho]; exact h2⟩
  have hcheck : ∀ BaseUrl PathTemplate Hash : FString,
      (Arrival = none
        ∨ ∃ c, Arrival = some c
            ∧ (c.bSucceeded = false ∨ c.Resp = none
                ∨ ∃ r, c.Resp = some r
                    ∧ (r.ResponseCode ≠ 200 ∨ Deserialize r.Content = none))) →
      CheckServerHasHash Deserialize GetBoolField BaseUrl PathTemplate Hash Arrival
        = (false, false) := by
    intro B P H h
    unfold CheckServerHasHash
    split_ifs with he
    · rfl
    · obtain ⟨h1, h2⟩ := checkWait_failure Deserialize GetBoolField Arrival h
      simp only [h1, h2]
  refine ⟨?_, ?_, ?_⟩
  · intro h
    unfold serverHasHashStop at h
    split_ifs at h with h1 h2
    · simp only [Bool.and_eq_true] at h
      exact hfail _ _ _ h.1 h.2
    · simp only [Bool.and_eq_true] at h
      exact hfail _ _ _ h.1 h.2
  · intro h
    refine ⟨fun B P H => hcheck B P H h, ?_⟩
    unfold serverHasHashStop
    simp only [hcheck _ _ _ h]
    split_ifs <;> rfl
  · intro Resp Root B P H hB hP hH ha hc hd
    have e : (B.isEmpty || P.isEmpty || H.isEmpty) = false := by
      cases B <;> cases P <;> cases H <;> simp_all
    unfold CheckServerHasHash
    simp only [e, Bool.false_eq_true, if_false]
    subst ha
    simp [checkWait, checkOnComplete, hc, hd]

/-- The outcomes of C23 at an example: a response with status 500 makes
`CheckServerHasHash` return false and the export goes on. -/
theorem CheckServerHasHash_outcomes_witness :
    CheckServerHasHash (fun _ => some existsTrueObject)
        (fun Obj Key => (Obj.TryGetBoolField Key).getD false)
        "srv".toList "/x".toList "abc".toList
        (some { bSucceeded := true, Resp := some { ResponseCode := 500, Content := [] } })
      = (false, false)
    ∧ serverHasHashStop (fun _ => some existsTrueObject)
        (fun Obj Key => (Obj.TryGetBoolField Key).getD false) true
        "srv".toList "/x".toList "abc".toList
        (some { bSucceeded := true, Resp := some { ResponseCode := 500, Content := [] } })
      = false
    ∧ serverHasHashStop (fun _ => some existsTrueObject)
        (fun Obj Key => (Obj.TryGetBoolField Key).getD false) true
        "srv".toList "/x".toList "abc".toList
        (some { bSucceeded := true, Resp := some { ResponseCode := 200, Content := [] } })
      = true :=
  ⟨((CheckServerHasHash_outcomes (fun _ => some existsTrueObject)
      (fun Obj Key => (Obj.TryGetBoolField Key).getD false) true
      "srv".toList "/x".toList "abc".toList
      (some { bSucceeded := true, Resp := some { ResponseCode := 500, Content := [] } })).2.1
      (Or.inr ⟨_, rfl, Or.inr (Or.inr ⟨_, rfl, Or.inl (by decide)⟩)⟩)).1 _ _ _,
   by decide, by decide⟩

/-- Claim C28, what the code does. In `GetServerSettingsCached`,
`ResolveProjectIdFromServer` and `UploadZipToServer` a wait that times out
sets the abandoned flag and cancels the request, and a completion callback
that arrives later changes nothing. In `CheckServerHasHash` a wait that times
out sets no flag and cancels nothing, and a completion callback that arrives
later with status 200 and a body that parses writes `OutExists` and `bOk`,
variables of the caller and of the call that has returned. -/
theorem lateCompletion_after_timeout (IsOk : Int → Bool)
    (Deserialize : FString → Option FJsonObject) (ProjectIdOf : FJsonObject → Option Int)
    (GetBoolField : FJsonObject → FString → Bool) (late : FHttpCompletion) :
    ((settingsWait IsOk none).bAbandoned = true ∧ (settingsWait IsOk none).bCancelled = true
      ∧ settingsOnComplete IsOk late (settingsWait IsOk none) = settingsWait IsOk none)
    ∧ ((resolveWait Deserialize ProjectIdOf none).bAbandoned = true
      ∧ (resolveWait Deserialize ProjectIdOf none).bCancelled = true
      ∧ resolveOnComplete Deserialize ProjectIdOf late (resolveWait Deserialize ProjectIdOf none)
          = resolveWait Deserialize ProjectIdOf none)
    ∧ ((uploadWait none).bAbandoned = true ∧ (uploadWait none).bCancelled = true
      ∧ uploadOnComplete late (uploadWait none) = uploadWait none)
    ∧ ((checkWait Deserialize GetBoolField none).bAbandoned = false
      ∧ (checkWait Deserialize GetBoolField none).bCancelled = false
      ∧ (checkWait Deserialize GetBoolField none).Out = false
      ∧ ∀ (Resp : FHttpResponse) (Root : FJsonObject),
          late = { bSucceeded := true, Resp := some Resp } → Resp.ResponseCode = 200 →
          Deserialize Resp.Content = some Root →
          (checkOnComplete Deserialize GetBoolField late
              (checkWait Deserialize GetBoolField none)).Out = GetBoolField Root "exists".toList
          ∧ (checkOnComplete Deserialize GetBoolField late
              (checkWait Deserialize GetBoolField none)).bOk = true) := by
  refine ⟨⟨rfl, rfl, rfl⟩, ⟨rfl, rfl, rfl⟩, ⟨rfl, rfl, rfl⟩, rfl, rfl, rfl, ?_⟩
  intro Resp Root hl hc hd
  subst hl
  simp [checkWait, checkOnComplete, hc, hd]

/-- The late callback of C28 at an example: after `CheckServerHasHash` has
timed out and returned false with `OutExists` false, a completion with status
200 and `exists` true sets `OutExists` to true. -/
theorem lateCompletion_after_timeout_witness :
    CheckServerHasHash (fun _ => some existsTrueObject)
        (fun Obj Key => (Obj.TryGetBoolField Key).getD false)
        "srv".toList "/x".toList "abc".toList none = (false, false)
    ∧ (checkOnComplete (fun _ => some existsTrueObject)
        (fun Obj Key => (Obj.TryGetBoolField Key).getD false)
        { bSucceeded := true, Resp := some { ResponseCode := 200, Content := [] } }
        (checkWait (fun _ => some existsTrueObject)
          (fun Obj Key => (Obj.TryGetBoolField Key).getD false) none)).Out = true :=
  ⟨by decide,
   ((lateCompletion_after_timeout (fun n => decide (n = 200)) (fun _ => some existsTrueObject)
      (fun _ => none) (fun Obj Key => (Obj.TryGetBoolField Key).getD false)
      { bSucceeded := true, Resp := some { ResponseCode := 200, Content := [] } }).2.2.2.2.2.2
      { ResponseCode := 200, Content := [] } existsTrueObject rfl rfl rfl).1.trans (by decide)⟩

/-! ## Preview frames and the entries of an exported archive -/

theorem digitChar_value (k : Nat) (hk : k < 10) : (Nat.digitChar k).toNat - 48 = k := by
  interval_cases k <;> rfl

theorem toDigitsCore_value : ∀ (fuel n : Nat) (ds : List Char), n < fuel →
    ∃ xs, Nat.toDigitsCore 10 fuel n ds = xs ++ ds ∧ decimalValue xs = n := by
  intro fuel
  induction fuel with
  | zero => intro n ds h; omega
  | succ fuel ih =>
    intro n ds h
    rw [Nat.toDigitsCore]
    by_cases h0 : n / 10 = 0
    · refine ⟨[Nat.digitChar (n % 10)], ?_, ?_⟩
      · simp [h0]
      · have := digitChar_value (n % 10) (Nat.mod_lt _ (by decide))
        simp only [decimalValue, List.foldl_cons, List.foldl_nil, this]
        omega
    · obtain ⟨xs, h1, h2⟩ := ih (n / 10) (Nat.digitChar (n % 10) :: ds) (by omega)
      refine ⟨xs ++ [Nat.digitChar (n % 10)], ?_, ?_⟩
      · simp [h0, h1]
      · have := digitChar_value (n % 10) (Nat.mod_lt _ (by decide))
        simp only [decimalValue] at h2
        simp only [decimalValue, List.foldl_append, List.foldl_cons, List.foldl_nil, this, h2]
        omega

theorem decimalValue_toDigits (n : Nat) : decimalValue (Nat.toDigits 10 n) = n := by
  obtain ⟨xs, h1, h2⟩ := toDigitsCore_value (n + 1) n [] (by omega)
  rw [Nat.toDigits, h1, List.append_nil, h2]

theorem PrintfD_natCast (n : Nat) : PrintfD (n : Int) = Nat.toDigits 10 n := by
  simp [PrintfD]

theorem frameName_injective (a b : Nat) (h : frameName a = frameName b) : a = b := by
  simp only [frameName, PrintfD_natCast] at h
  have h2 := List.append_cancel_right h
  have := congrArg decimalValue h2
  rwa [decimalValue_toDigits, decimalValue_toDigits] at this

theorem frameName_getLast (n : Nat) : (frameName n).getLast? = some 'p' := by
  simp [frameName, List.getLast?_append]

theorem frameName_ne_meta (n : Nat) : frameName n ≠ "meta.json".toList := by
  intro h
  have := frameName_getLast n
  rw [h] at this
  revert this
  decide

theorem frameName_zero : frameName 0 = "0.webp".toList := by decide

theorem frameName_not_directory (n : Nat) : EndsWith (frameName n) [slash] = false := by
  rw [Bool.eq_false_iff, Ne, EndsWith_slash, frameName_getLast]
  decide

theorem framesByCount_foldl_names (d : Nat) : ∀ (l : List (Nat × Option (List Nat)))
    (acc : List FZipEntry),
    acc.map (fun e => e.NameInZip) = (List.range acc.length).map frameName →
    (l.foldl
      (fun OutFrames p =>
        match p.2 with
        | some WebP =>
          if p.1 ≥ d then
            OutFrames ++ [{ NameInZip := frameName OutFrames.length, Data := WebP }]
          else OutFrames
        | none => OutFrames) acc).map (fun e => e.NameInZip)
      = (List.range (l.foldl
      (fun OutFrames p =>
        match p.2 with
        | some WebP =>
          if p.1 ≥ d then
            OutFrames ++ [{ NameInZip := frameName OutFrames.length, Data := WebP }]
          else OutFrames
        | none => OutFrames) acc).length).map frameName := by
  intro l
  induction l with
  | nil => intro acc h; exact h
  | cons p l ih =>
    intro acc h
    rw [List.foldl_cons]
    apply ih
    rcases p with ⟨i, _ | w⟩
    · exact h
    · dsimp only
      split_ifs
      · simp [List.range_succ, h]
      · exact h

theorem framesByCount_names (d : Nat) (shots : List (Option (List Nat))) :
    (framesByCount d shots).map (fun e => e.NameInZip)
      = (List.range (framesByCount d shots).length).map frameName :=
  framesByCount_foldl_names d shots.enum [] rfl

theorem framesByIndex_foldl_names : ∀ (l : List (Nat × Option (List Nat)))
    (acc : List FZipEntry),
    (l.foldl
      (fun OutFrames p =>
        match p.2 with
        | some WebP => OutFrames ++ [{ NameInZip := frameName p.1, Data := WebP }]
        | none => OutFrames) acc).map (fun e => e.NameInZip)
      = acc.map (fun e => e.NameInZip)
        ++ ((l.filter (fun p => p.2.isSome)).map (fun p => p.1)).map frameName := by
  intro l
  induction l with
  | nil => intro acc; simp
  | cons p l ih =>
    intro acc
    rw [List.foldl_cons, ih]
    rcases p with ⟨i, _ | w⟩
    · simp
    · simp

theorem framesByIndex_names (shots : List (Option (List Nat))) :
    (framesByIndex shots).map (fun e => e.NameInZip)
      = (capturedIndices shots).map frameName := by
  have h := framesByIndex_foldl_names shots.enum []
  rw [List.map_nil, List.nil_append] at h
  exact h

theorem capturedIndices_nodup (shots : List (Option (List Nat))) :
    (capturedIndices shots).Nodup := by
  have h : ((shots.enum.filter (fun p => p.2.isSome)).map (fun p => p.1)).Sublist
      (shots.enum.map (fun p => p.1)) := List.Sublist.map _ (List.filter_sublist _)
  have h2 : shots.enum.map (fun p => p.1) = List.range shots.length := List.enum_map_fst shots
  rw [h2] at h
  exact List.Nodup.sublist h (List.nodup_range _)

theorem frameName_range_nodup (n : Nat) : ((List.range n).map frameName).Nodup :=
  List.Nodup.map (fun a b h => frameName_injective a b h) (List.nodup_range n)

theorem frameName_indices_nodup (shots : List (Option (List Nat))) :
    ((capturedIndices shots).map frameName).Nodup :=
  List.Nodup.map (fun a b h => frameName_injective a b h) (capturedIndices_nodup shots)

theorem addFrames_count_inv (job : FCaptureJob) (hjob : ∀ shots, job ≠ .AnimSequence true shots)
    (Frames : List FZipEntry) (b : Bool)
    (h : Frames.map (fun e => e.NameInZip) = (List.range Frames.length).map frameName) :
    CaptureInv job (addFrames (decide (Frames.length > 0)) Frames b) := by
  unfold CaptureInv addFrames
  by_cases h0 : Frames.length > 0
  · have hne : Frames ≠ [] := by
      intro e; rw [e] at h0; exact absurd h0 (by decide)
    simp only [h0, decide_True, if_true, true_iff]
    exact ⟨trivial, trivial, hne, Or.inr ⟨hjob, h⟩⟩
  · simp only [h0, decide_False]
    refine ⟨rfl, rfl, by simp, Or.inr ⟨hjob, rfl⟩⟩

theorem addFrames_false_inv (job : FCaptureJob) (hjob : ∀ shots, job ≠ .AnimSequence true shots)
    (Frames : List FZipEntry) (b : Bool) :
    CaptureInv job (addFrames false Frames b) := by
  unfold CaptureInv addFrames
  refine ⟨rfl, rfl, by simp, Or.inr ⟨hjob, rfl⟩⟩

theorem addSingle_inv (job : FCaptureJob) (hjob : ∀ shots, job ≠ .AnimSequence true shots)
    (single : Option (List Nat)) : CaptureInv job (addSingle single) := by
  unfold CaptureInv addSingle
  cases single with
  | none => exact ⟨rfl, rfl, by simp, Or.inr ⟨hjob, rfl⟩⟩
  | some w =>
    refine ⟨rfl, rfl, by simp, Or.inr ⟨hjob, ?_⟩⟩
    simp only [List.map_cons, List.map_nil, List.length_singleton]
    decide

theorem capturePreviews_inv (job : FCaptureJob) : CaptureInv job (capturePreviews job) := by
  cases job with
  | StaticMesh setup d shots =>
    have hjob : ∀ s, FCaptureJob.StaticMesh setup d shots ≠ .AnimSequence true s := by
      intro s h; cases h
    cases setup
    · exact addFrames_false_inv _ hjob _ _
    · exact addFrames_count_inv _ hjob _ _ (framesByCount_names d shots)
  | SkeletalMesh setup d shots =>
    have hjob : ∀ s, FCaptureJob.SkeletalMesh setup d shots ≠ .AnimSequence true s := by
      intro s h; cases h
    cases setup
    · exact addFrames_false_inv _ hjob _ _
    · exact addFrames_count_inv _ hjob _ _ (framesByCount_names d shots)
  | MaterialShared setup pass1 pass2 =>
    have hjob : ∀ s, FCaptureJob.MaterialShared setup pass1 pass2 ≠ .AnimSequence true s := by
      intro s h; cases h
    cases setup
    · exact addFrames_false_inv _ hjob _ _
    · simp only [capturePreviews, CaptureMaterialOnSharedSphereMultiFrame, Bool.not_true,
        Bool.false_eq_true, if_false]
      by_cases h1 : (framesByCount 0 pass1).length > 0
      · by_cases h2 : (lowQuality pass1 && decide ((framesByCount 0 pass2).length > 0)) = true
        · simp only [h1, h2, decide_True, Bool.not_true, Bool.false_eq_true, if_false, if_true]
          have h3 : (framesByCount 0 pass2).length > 0 := by
            simp only [Bool.and_eq_true, decide_eq_true_eq] at h2
            exact h2.2
          have := addFrames_count_inv _ hjob (framesByCount 0 pass2) (lowQuality pass2)
            (framesByCount_names 0 pass2)
          simpa only [h3, decide_True] using this
        · simp only [h1, h2, decide_True, Bool.not_true, Bool.false_eq_true, if_false]
          have := addFrames_count_inv _ hjob (framesByCount 0 pass1) (lowQuality pass1)
            (framesByCount_names 0 pass1)
          simpa only [h1, decide_True] using this
      · simp only [h1, decide_False, Bool.not_false, if_true]
        exact addFrames_false_inv _ hjob _ _
  | MaterialOwnScene setup shots =>
    have hjob : ∀ s, FCaptureJob.MaterialOwnScene setup shots ≠ .AnimSequence true s := by
      intro s h; cases h
    cases setup
    · exact addFrames_false_inv _ hjob _ _
    · exact addFrames_count_inv _ hjob _ _ (framesByCount_names 0 shots)
  | Blueprint setup d shots single =>
    have hjob : ∀ s, FCaptureJob.Blueprint setup d shots single ≠ .AnimSequence true s := by
      intro s h; cases h
    cases setup
    · exact addSingle_inv _ hjob _
    · simp only [capturePreviews, CaptureBlueprintMultiFrame, Bool.not_true,
        Bool.false_eq_true, if_false]
      by_cases h1 : (framesByCount d shots).length > 0
      · simp only [h1, decide_True, if_true]
        have := addFrames_count_inv _ hjob (framesByCount d shots) false
          (framesByCount_names d shots)
        simpa only [h1, decide_True] using this
      · simp only [h1, decide_False, Bool.false_eq_true, if_false]
        exact addSingle_inv _ hjob _
  | Niagara single =>
    exact addSingle_inv _ (by intro s h; cases h) _
  | AnimSequence setup shots =>
    cases setup
    · exact addFrames_false_inv _ (by intro s h; cases h) _ _
    · simp only [capturePreviews, CaptureAnimSequence, Bool.not_true, Bool.false_eq_true,
        if_false]
      unfold CaptureInv addFrames
      by_cases h0 : (framesByIndex shots).length > 0
      · have hne : framesByIndex shots ≠ [] := by
          intro e; rw [e] at h0; exact absurd h0 (by decide)
        simp only [h0, decide_True, if_true, true_iff]
        exact ⟨trivial, trivial, hne, Or.inl ⟨shots, rfl, framesByIndex_names shots⟩⟩
      · have he : framesByIndex shots = [] := by
          cases h : framesByIndex shots with
          | nil => rfl
          | cons a l => rw [h] at h0; simp at h0
        have hc : capturedIndices shots = [] := by
          have := framesByIndex_names shots
          rw [he] at this
          simpa using this.symm
        simp only [h0, decide_False]
        exact ⟨rfl, rfl, by simp, Or.inl ⟨shots, rfl, by simp [hc]⟩⟩
  | Unsupported =>
    refine ⟨rfl, rfl, by simp [capturePreviews], Or.inr ⟨(by intro s h; cases h), rfl⟩⟩

theorem capture_failed_iff (job : FCaptureJob) :
    ((capturePreviews job).bCaptured = false ∨ (capturePreviews job).PreviewFiles = []) ↔
      (capturePreviews job).ZipEntries = [] := by
  obtain ⟨h1, _, h3, _⟩ := capturePreviews_inv job
  constructor
  · rintro (h | h)
    · by_contra hne
      rw [h3.mpr hne] at h
      exact absurd h (by decide)
    · rw [h1] at h
      exact List.map_eq_nil_iff.mp h
  · intro h
    right
    rw [h1, h]
    rfl

theorem exportPreviews_captured (EncodeBlack : Nat → Option (List Nat)) (job : FCaptureJob)
    (h : (capturePreviews job).ZipEntries ≠ []) :
    exportPreviews EncodeBlack job = capturePreviews job := by
  obtain ⟨h1, _, h3, _⟩ := capturePreviews_inv job
  have hp : (capturePreviews job).PreviewFiles.length ≠ 0 := by
    rw [h1, List.length_map]
    intro e
    exact h (List.length_eq_zero.mp e)
  simp [exportPreviews, h3.mpr h, hp]

theorem MakeBlackWebP_1024 (EncodeBlack : Nat → Option (List Nat)) :
    MakeBlackWebP EncodeBlack 1024 = EncodeBlack 1024 := by
  simp [MakeBlackWebP]

theorem exportPreviews_failed (EncodeBlack : Nat → Option (List Nat)) (job : FCaptureJob)
    (h : (capturePreviews job).ZipEntries = []) :
    exportPreviews EncodeBlack job
      = AddBlackPreview EncodeBlack
          { bCaptured := false, PreviewFiles := [], ZipEntries := [], bNoPic := true,
            bLowQuality := (capturePreviews job).bLowQuality } 1024 := by
  obtain ⟨h1, _, h3, _⟩ := capturePreviews_inv job
  have hc : (capturePreviews job).bCaptured = false := by
    cases hb : (capturePreviews job).bCaptured with
    | false => rfl
    | true => exact absurd h (h3.mp hb)
  have hp : (capturePreviews job).PreviewFiles = [] := by rw [h1, h]; rfl
  simp only [exportPreviews, hc, Bool.not_false, Bool.true_or, if_true]
  congr 1
  cases hr : capturePreviews job with
  | mk a b c d e =>
    rw [hr] at h hc hp
    simp only at h hc hp
    simp [h, hc, hp]

theorem exportPreviews_failed_some (EncodeBlack : Nat → Option (List Nat)) (job : FCaptureJob)
    (W : List Nat) (hEnc : EncodeBlack 1024 = some W)
    (h : (capturePreviews job).ZipEntries = []) :
    exportPreviews EncodeBlack job
      = { bCaptured := false, PreviewFiles := ["0.webp".toList],
          ZipEntries := [{ NameInZip := "0.webp".toList, Data := W }], bNoPic := true,
          bLowQuality := (capturePreviews job).bLowQuality } := by
  rw [exportPreviews_failed EncodeBlack job h, AddBlackPreview, MakeBlackWebP_1024, hEnc]
  rfl

theorem exportPreviews_failed_none (EncodeBlack : Nat → Option (List Nat)) (job : FCaptureJob)
    (hEnc : EncodeBlack 1024 = none)
    (h : (capturePreviews job).ZipEntries = []) :
    exportPreviews EncodeBlack job
      = { bCaptured := false, PreviewFiles := [], ZipEntries := [], bNoPic := true,
          bLowQuality := (capturePreviews job).bLowQuality } := by
  rw [exportPreviews_failed EncodeBlack job h, AddBlackPreview, MakeBlackWebP_1024, hEnc]

/-- The names of the preview entries of an export: those of the frame counts,
or for an animation sequence with a captured pass those of the captured
passes. -/
theorem exportPreviews_names (EncodeBlack : Nat → Option (List Nat)) (job : FCaptureJob) :
    (exportPreviews EncodeBlack job).PreviewFiles
        = (exportPreviews EncodeBlack job).ZipEntries.map (fun e => e.NameInZip) ∧
    ((∃ shots, job = .AnimSequence true shots ∧ capturedIndices shots ≠ [] ∧
        (exportPreviews EncodeBlack job).ZipEntries.map (fun e => e.NameInZip)
          = (capturedIndices shots).map frameName) ∨
      (((∀ shots, job ≠ .AnimSequence true shots) ∨
          ∃ shots, job = .AnimSequence true shots ∧ capturedIndices shots = []) ∧
        (exportPreviews EncodeBlack job).ZipEntries.map (fun e => e.NameInZip)
          = (List.range (exportPreviews EncodeBlack job).ZipEntries.length).map frameName)) := by
  obtain ⟨h1, _, _, h4⟩ := capturePreviews_inv job
  by_cases h : (capturePreviews job).ZipEntries = []
  · have hjob : (∀ shots, job ≠ .AnimSequence true shots) ∨
        ∃ shots, job = .AnimSequence true shots ∧ capturedIndices shots = [] := by
      rcases h4 with ⟨shots, hj, hn⟩ | ⟨hj, _⟩
      · right
        refine ⟨shots, hj, ?_⟩
        rw [h] at hn
        simpa using hn.symm
      · exact Or.inl hj
    cases hEnc : EncodeBlack 1024 with
    | none =>
      rw [exportPreviews_failed_none EncodeBlack job hEnc h]
      exact ⟨rfl, Or.inr ⟨hjob, rfl⟩⟩
    | some W =>
      rw [exportPreviews_failed_some EncodeBlack job W hEnc h]
      refine ⟨rfl, Or.inr ⟨hjob, ?_⟩⟩
      simp only [List.map_cons, List.map_nil, List.length_singleton]
      decide
  · rw [exportPreviews_captured EncodeBlack job h]
    refine ⟨h1, ?_⟩
    rcases h4 with ⟨shots, hj, hn⟩ | ⟨hj, hn⟩
    · left
      refine ⟨shots, hj, ?_, hn⟩
      intro e
      rw [e] at hn
      exact h (List.map_eq_nil_iff.mp hn)
    · exact Or.inr ⟨Or.inl hj, hn⟩

/-- Claim C24 (amended). When the black placeholder can be encoded
(`EncodeBlack 1024 = some W`), an export whose capture fails or yields no
frames passes to `WriteZipStore` exactly `meta.json` and the placeholder
`0.webp`, lists `0.webp` as its only preview file and sets `no_pic` to 1; an
export whose capture yields frames keeps them and sets `no_pic` to 0; and in
every case the entries are `meta.json` followed by at least one preview entry,
each named as a frame and listed in `preview_files`. -/
theorem exportZipEntries_placeholder (MemCrc32 : List Nat → Nat)
    (EncodeBlack : Nat → Option (List Nat)) (MetaBytes : FExportPreview → List Nat)
    (job : FCaptureJob) (W : List Nat) (hEnc : EncodeBlack 1024 = some W) :
    (((capturePreviews job).bCaptured = false ∨ (capturePreviews job).PreviewFiles = []) →
      exportZipEntries EncodeBlack MetaBytes job
          = [{ NameInZip := "meta.json".toList,
               Data := MetaBytes (exportPreviews EncodeBlack job) },
             { NameInZip := "0.webp".toList, Data := W }] ∧
        (exportPreviews EncodeBlack job).PreviewFiles = ["0.webp".toList] ∧
        noPicField (exportPreviews EncodeBlack job) = 1) ∧
    (¬ ((capturePreviews job).bCaptured = false ∨ (capturePreviews job).PreviewFiles = []) →
      (exportPreviews EncodeBlack job).ZipEntries = (capturePreviews job).ZipEntries ∧
        noPicField (exportPreviews EncodeBlack job) = 0) ∧
    (∃ e es,
      exportZipEntries EncodeBlack MetaBytes job
          = { NameInZip := "meta.json".toList,
              Data := MetaBytes (exportPreviews EncodeBlack job) } :: e :: es ∧
        (exportPreviews EncodeBlack job).PreviewFiles
          = (e :: es).map (fun x => x.NameInZip) ∧
        ∀ x ∈ e :: es, ∃ n, x.NameInZip = frameName n) ∧
    exportArchive MemCrc32 EncodeBlack MetaBytes job
      = WriteZipStore MemCrc32
          ({ NameInZip := "meta.json".toList,
             Data := MetaBytes (exportPreviews EncodeBlack job) }
            :: (exportPreviews EncodeBlack job).ZipEntries) := by
  have hnames := exportPreviews_names EncodeBlack job
  have hframe : ∀ x ∈ (exportPreviews EncodeBlack job).ZipEntries,
      ∃ n, x.NameInZip = frameName n := by
    intro x hx
    have hx2 : x.NameInZip ∈ (exportPreviews EncodeBlack job).ZipEntries.map
        (fun e => e.NameInZip) := List.mem_map_of_mem _ hx
    rcases hnames.2 with ⟨shots, _, _, hn⟩ | ⟨_, hn⟩
    · rw [hn] at hx2
      obtain ⟨n, _, hn2⟩ := List.mem_map.mp hx2
      exact ⟨n, hn2.symm⟩
    · rw [hn] at hx2
      obtain ⟨n, _, hn2⟩ := List.mem_map.mp hx2
      exact ⟨n, hn2.symm⟩
  have hfail : (capturePreviews job).ZipEntries = [] →
      exportPreviews EncodeBlack job
        = { bCaptured := false, PreviewFiles := ["0.webp".toList],
            ZipEntries := [{ NameInZip := "0.webp".toList, Data := W }], bNoPic := true,
            bLowQuality := (capturePreviews job).bLowQuality } :=
    exportPreviews_failed_some EncodeBlack job W hEnc
  refine ⟨?_, ?_, ?_, rfl⟩
  · intro h
    have h2 := hfail ((capture_failed_iff job).mp h)
    refine ⟨?_, ?_, ?_⟩
    · rw [exportZipEntries]
      simp only [h2]
    · rw [h2]
    · rw [h2]; rfl
  · intro h
    have h2 : (capturePreviews job).ZipEntries ≠ [] := fun e =>
      h ((capture_failed_iff job).mpr e)
    rw [exportPreviews_captured EncodeBlack job h2]
    refine ⟨rfl, ?_⟩
    rw [noPicField, (capturePreviews_inv job).2.1]
    rfl
  · by_cases h : (capturePreviews job).ZipEntries = []
    · have h2 := hfail h
      refine ⟨{ NameInZip := "0.webp".toList, Data := W }, [], ?_, ?_, ?_⟩
      · rw [exportZipEntries]
        simp only [h2]
      · rw [h2]; rfl
      · intro x hx
        refine ⟨0, ?_⟩
        rw [List.mem_singleton] at hx
        rw [hx, frameName_zero]
    · have h2 := exportPreviews_captured EncodeBlack job h
      cases hz : (exportPreviews EncodeBlack job).ZipEntries with
      | nil => rw [h2] at hz; exact absurd hz h
      | cons e es =>
        refine ⟨e, es, ?_, ?_, ?_⟩
        · rw [exportZipEntries]
          simp only [hz]
        · rw [hnames.1, hz]
        · intro x hx
          exact hframe x (by rw [hz]; exact hx)

/-- Claim C24 as stated fails: when the encoder gives nothing for the
black square, an export whose capture fails passes only `meta.json` to
`WriteZipStore`, with `no_pic` set to 1 and no preview entry. -/
theorem exportZipEntries_no_placeholder :
    exportZipEntries (fun _ => none) (fun _ => []) .Unsupported
        = [{ NameInZip := "meta.json".toList, Data := [] }] ∧
      (exportPreviews (fun _ => none) .Unsupported).PreviewFiles = [] ∧
      noPicField (exportPreviews (fun _ => none) .Unsupported) = 1 := by
  decide

theorem exportZipEntries_placeholder_witness :
    (fun _ => some [82, 73, 70, 70] : Nat → Option (List Nat)) 1024 = some [82, 73, 70, 70] ∧
    exportZipEntries (fun _ => some [82, 73, 70, 70]) (fun _ => [123, 125])
        (.StaticMesh true 2 [some [1], none, none])
      = [{ NameInZip := "meta.json".toList, Data := [123, 125] },
         { NameInZip := "0.webp".toList, Data := [82, 73, 70, 70] }] :=
  ⟨rfl,
   ((exportZipEntries_placeholder (fun _ => 0) (fun _ => some [82, 73, 70, 70])
      (fun _ => [123, 125]) (.StaticMesh true 2 [some [1], none, none]) [82, 73, 70, 70]
      rfl).1 (Or.inl (by decide))).1⟩

/-- Claim C25, what the code does. For every export, the entries passed to
`WriteZipStore` start with `meta.json`, their names are pairwise distinct and
none ends in `/` (no directory entry). For every asset other than an
animation sequence, and for an animation sequence without a captured pass,
the names after `meta.json` are `0.webp`, `1.webp`, ... up to the number of
preview entries. For an animation sequence with a captured pass the names are
those of the indices of the captured passes, so a failed pass leaves a gap:
with the first of two passes failing the entries are `meta.json`, `1.webp`. -/
theorem exportZipEntries_names (EncodeBlack : Nat → Option (List Nat))
    (MetaBytes : FExportPreview → List Nat) (job : FCaptureJob) :
    exportZipEntries EncodeBlack MetaBytes job
        = { NameInZip := "meta.json".toList,
            Data := MetaBytes (exportPreviews EncodeBlack job) }
          :: (exportPreviews EncodeBlack job).ZipEntries ∧
    ((exportZipEntries EncodeBlack MetaBytes job).map (fun e => e.NameInZip)).Nodup ∧
    (∀ e ∈ exportZipEntries EncodeBlack MetaBytes job, EndsWith e.NameInZip [slash] = false) ∧
    (((∀ shots, job ≠ .AnimSequence true shots) ∨
        ∃ shots, job = .AnimSequence true shots ∧ capturedIndices shots = []) →
      (exportZipEntries EncodeBlack MetaBytes job).map (fun e => e.NameInZip)
        = "meta.json".toList
          :: (List.range (exportPreviews EncodeBlack job).ZipEntries.length).map frameName) ∧
    (∀ shots, job = .AnimSequence true shots → capturedIndices shots ≠ [] →
      (exportZipEntries EncodeBlack MetaBytes job).map (fun e => e.NameInZip)
        = "meta.json".toList :: (capturedIndices shots).map frameName) ∧
    (exportZipEntries (fun _ => none) (fun _ => []) (.AnimSequence true [none, some []])).map
        (fun e => e.NameInZip)
      = ["meta.json".toList, "1.webp".toList] := by
  have hnames := (exportPreviews_names EncodeBlack job).2
  have hrest : ((exportPreviews EncodeBlack job).ZipEntries.map (fun e => e.NameInZip)).Nodup ∧
      ∀ nm ∈ (exportPreviews EncodeBlack job).ZipEntries.map (fun e => e.NameInZip),
        ∃ n, nm = frameName n := by
    rcases hnames with ⟨shots, _, _, hn⟩ | ⟨_, hn⟩
    · rw [hn]
      refine ⟨frameName_indices_nodup shots, ?_⟩
      intro nm h
      obtain ⟨n, _, h2⟩ := List.mem_map.mp h
      exact ⟨n, h2.symm⟩
    · rw [hn]
      refine ⟨frameName_range_nodup _, ?_⟩
      intro nm h
      obtain ⟨n, _, h2⟩ := List.mem_map.mp h
      exact ⟨n, h2.symm⟩
  refine ⟨rfl, ?_, ?_, ?_, ?_, by decide⟩
  · rw [exportZipEntries]
    simp only [List.map_cons, List.nodup_cons]
    refine ⟨?_, hrest.1⟩
    intro h
    obtain ⟨n, hn⟩ := hrest.2 _ h
    exact frameName_ne_meta n hn.symm
  · intro e he
    rw [exportZipEntries] at he
    simp only [List.mem_cons] at he
    rcases he with he | he
    · rw [he]
      show EndsWith "meta.json".toList [slash] = false
      decide
    · obtain ⟨n, hn⟩ := hrest.2 _ (List.mem_map_of_mem (fun e => e.NameInZip) he)
      rw [hn]
      exact frameName_not_directory n
  · intro hjob
    rw [exportZipEntries]
    simp only [List.map_cons, List.cons.injEq, true_and]
    rcases hnames with ⟨shots, hj, hne, _⟩ | ⟨_, hn⟩
    · rcases hjob with hjob | ⟨s2, hj2, he2⟩
      · exact absurd hj (hjob shots)
      · rw [hj] at hj2
        cases hj2
        exact absurd he2 hne
    · exact hn
  · intro shots hj hne
    rw [exportZipEntries]
    simp only [List.map_cons, List.cons.injEq, true_and]
    rcases hnames with ⟨s2, hj2, _, hn⟩ | ⟨hjob, _⟩
    · rw [hj] at hj2
      cases hj2
      exact hn
    · rcases hjob with hjob | ⟨s2, hj2, he2⟩
      · exact absurd hj (hjob shots)
      · rw [hj] at hj2
        cases hj2
        exact absurd he2 hne

/-! ## The loop of `ExtractZipStore` on an archive of `WriteZipStore` -/

theorem decodeLoop_Result (h : Host) (Mode : EAssetSnapshotImportMode) :
    ∀ (fuel : Nat) (s : ExtractState) (acc : List (FString × List Nat)),
      (decodeLoop h Mode fuel s acc).map (fun d => d.Result) = extractLoop h Mode fuel s := by
  intro fuel
  induction fuel with
  | zero => intro s acc; rfl
  | succ fuel ih =>
    intro s acc
    rw [decodeLoop, extractLoop]
    split_ifs with h1
    · rfl
    · cases hre : readEntry h.uninit s.Ar with
      | fail e => rfl
      | centralDirectory => rfl
      | entry Name Data Ar2 =>
        simp only
        split_ifs
        · exact ih _ _
        · rfl
        · exact ih _ _
        · exact ih _ _
        · rfl
        · exact ih _ _
        · exact ih _ _

theorem decodeZipStore_Result (h : Host) (Mode : EAssetSnapshotImportMode) (Zip : List Nat)
    (Files : Disk) :
    (decodeZipStore h Mode Zip Files).map (fun d => d.Result)
      = ExtractZipStore h Mode Zip Files :=
  decodeLoop_Result h Mode _ _ _

theorem decodeLoop_local (h : Host) (Mode : EAssetSnapshotImportMode) (crc : List Nat → Nat)
    (tail : List Nat) (htail : tail.isEmpty = false)
    (hdir : readEntry h.uninit { rest := tail, err := false } = .centralDirectory)
    (es : List FZipEntry) :
    ∀ (fuel : Nat) (s : ExtractState) (acc : List (FString × List Nat)),
      es.length < fuel →
      s.Ar = { rest := es.flatMap (localBytes crc) ++ tail, err := false } →
      (∀ E ∈ es, E.NameInZip ≠ [] ∧ E.NameInZip.getLast? ≠ some slash
        ∧ (FTCHARToUTF8 E.NameInZip).length ≤ 65535 ∧ E.Data.length < 4294967296) →
      (∀ E ∈ es, IsSafeZipRelPath E.NameInZip = true) →
      (∀ E ∈ es, IsImportableAssetFile (NormalizeImportRelPath E.NameInZip) = true →
        h.SaveOk (h.DestPath (NormalizeImportRelPath E.NameInZip)) = true) →
      ∃ r, decodeLoop h Mode fuel s acc
          = some { Entries := acc ++ es.map (fun E => (E.NameInZip, E.Data)),
                   bCentralDirectory := true, Result := r }
        ∧ r.OutError = none := by
  induction es with
  | nil =>
    intro fuel s acc hf hs _ _ _
    obtain ⟨f, rfl⟩ : ∃ f, fuel = f + 1 := ⟨fuel - 1, by simp at hf; omega⟩
    rw [List.flatMap_nil, List.nil_append] at hs
    refine ⟨finish s, ?_, rfl⟩
    rw [decodeLoop, hs]
    simp only [htail, hdir, List.map_nil, List.append_nil, Bool.false_eq_true, if_false]
  | cons E es ih =>
    intro fuel s acc hf hs hes hsafe hsave
    obtain ⟨f, rfl⟩ : ∃ f, fuel = f + 1 := ⟨fuel - 1, by simp at hf; omega⟩
    obtain ⟨hne, hslash, hname, hdata⟩ := hes E (List.mem_cons_self _ _)
    have hE : (E.NameInZip.isEmpty || EndsWith E.NameInZip [slash]) = false := by
      rw [Bool.or_eq_false_iff]
      constructor
      · cases hn : E.NameInZip with
        | nil => exact absurd hn hne
        | cons c cs => rfl
      · cases hw : EndsWith E.NameInZip [slash] with
        | false => rfl
        | true => exact absurd ((EndsWith_slash _).mp hw) hslash
    have hS := hsafe E (List.mem_cons_self _ _)
    have hW := hsave E (List.mem_cons_self _ _)
    have hf2 : es.length < f := by simp at hf; omega
    have hes2 : ∀ X ∈ es, X.NameInZip ≠ [] ∧ X.NameInZip.getLast? ≠ some slash
        ∧ (FTCHARToUTF8 X.NameInZip).length ≤ 65535 ∧ X.Data.length < 4294967296 :=
      fun X hX => hes X (List.mem_cons_of_mem _ hX)
    have hsafe2 : ∀ X ∈ es, IsSafeZipRelPath X.NameInZip = true :=
      fun X hX => hsafe X (List.mem_cons_of_mem _ hX)
    have hsave2 : ∀ X ∈ es, IsImportableAssetFile (NormalizeImportRelPath X.NameInZip) = true →
        h.SaveOk (h.DestPath (NormalizeImportRelPath X.NameInZip)) = true :=
      fun X hX => hsave X (List.mem_cons_of_mem _ hX)
    rw [List.flatMap_cons, List.append_assoc] at hs
    rw [decodeLoop, hs, localBytes_ne_nil, readEntry_localBytes h.uninit crc E _ hname hdata]
    simp only [hE, hS, Bool.false_eq_true, if_false, Bool.not_true, List.map_cons]
    have hacc : acc ++ (E.NameInZip, E.Data) :: es.map (fun E => (E.NameInZip, E.Data))
        = (acc ++ [(E.NameInZip, E.Data)]) ++ es.map (fun E => (E.NameInZip, E.Data)) := by
      simp
    rw [hacc]
    cases hI : IsImportableAssetFile (NormalizeImportRelPath E.NameInZip) with
    | false =>
      simp only [Bool.not_false, if_true]
      exact ih f _ _ hf2 rfl hes2 hsafe2 hsave2
    | true =>
      simp only [Bool.not_true, Bool.false_eq_true, if_false, hW hI]
      split_ifs
      · exact ih f _ _ hf2 rfl hes2 hsafe2 hsave2
      · exact ih f _ _ hf2 rfl hes2 hsafe2 hsave2
      · exact ih f _ _ hf2 rfl hes2 hsafe2 hsave2

/-- C1 (as amended): for entries whose names are not empty, do not end in `/`,
pass `IsSafeZipRelPath` and take at most 65535 UTF-8 bytes, and whose payloads
are shorter than 2^32 bytes, on a host that can save every file the import
writes, the loop of `ExtractZipStore`, run on the bytes that `WriteZipStore`
writes for them (in either import mode, on any disk), decodes exactly the
(name, payload) pairs of the entries, in order, and stops without error at
the central directory; that run is the run of `ExtractZipStore`. -/
theorem decodeZipStore_WriteZipStore (h : Host) (Mode : EAssetSnapshotImportMode)
    (crc : List Nat → Nat) (es : List FZipEntry) (Files : Disk)
    (hes : ∀ E ∈ es, E.NameInZip ≠ [] ∧ E.NameInZip.getLast? ≠ some slash
      ∧ (FTCHARToUTF8 E.NameInZip).length ≤ 65535 ∧ E.Data.length < 4294967296)
    (hsafe : ∀ E ∈ es, IsSafeZipRelPath E.NameInZip = true)
    (hsave : ∀ E ∈ es, IsImportableAssetFile (NormalizeImportRelPath E.NameInZip) = true →
      h.SaveOk (h.DestPath (NormalizeImportRelPath E.NameInZip)) = true) :
    ∃ r, decodeZipStore h Mode (WriteZipStore crc es) Files
        = some { Entries := es.map (fun E => (E.NameInZip, E.Data)),
                 bCentralDirectory := true, Result := r }
      ∧ r.OutError = none
      ∧ ExtractZipStore h Mode (WriteZipStore crc es) Files = some r := by
  have hlen : es.length < (WriteZipStore crc es).length + 1 := by
    rw [WriteZipStore_eq]
    have := length_le_flatMap_localBytes crc es
    simp only [List.length_append]
    omega
  obtain ⟨r, hr, herr⟩ := decodeLoop_local h Mode crc
    ((centralEntries crc 0 es).flatMap centralBytes
      ++ endBytes es.length ((centralEntries crc 0 es).flatMap centralBytes).length
          (es.flatMap (localBytes crc)).length)
    (by
      cases hc : centralEntries crc 0 es with
      | nil => rfl
      | cons C cs => simp [centralBytes, writeCentral, WriteLE32])
    (readEntry_directory h.uninit _ _ _ _) es ((WriteZipStore crc es).length + 1)
    { Ar := { rest := WriteZipStore crc es, err := false }, Files := Files, ImportedFiles := 0,
      SkippedFiles := 0, ImportedUAssetFiles := [] } [] hlen
    (by rw [WriteZipStore_eq, List.append_assoc]) hes hsafe hsave
  rw [List.nil_append] at hr
  refine ⟨r, hr, herr, ?_⟩
  rw [← decodeZipStore_Result, decodeZipStore, hr]
  rfl

/-- C1 as stated fails: the entries `C:a` and `b` have names that are not
empty, do not end in `/` and are short, and short payloads, yet the loop of
`ExtractZipStore` returns `Unsafe zip path` at `C:a`, so it never decodes `b`
and never reaches the central directory; and for the entry `a.uasset` on a
host that cannot save the file the loop returns `Failed to write file`. -/
theorem decodeZipStore_unsafe_name :
    (∀ E ∈ [(⟨"C:a".toList, [1]⟩ : FZipEntry), ⟨"b".toList, [2]⟩],
        E.NameInZip ≠ [] ∧ E.NameInZip.getLast? ≠ some slash
          ∧ (FTCHARToUTF8 E.NameInZip).length ≤ 65535 ∧ E.Data.length < 4294967296)
    ∧ decodeZipStore exampleHost .OverrideExisting
        (WriteZipStore (fun _ => 0) [⟨"C:a".toList, [1]⟩, ⟨"b".toList, [2]⟩]) []
      = some { Entries := [("C:a".toList, [1])], bCentralDirectory := false,
               Result := { OutError := some (.unsafePath "C:a".toList), Files := [],
                           ImportedFiles := 0, SkippedFiles := 0, Scanned := [] } }
    ∧ ExtractZipStore exampleHost .OverrideExisting
        (WriteZipStore (fun _ => 0) [⟨"C:a".toList, [1]⟩, ⟨"b".toList, [2]⟩]) []
      = some { OutError := some (.unsafePath "C:a".toList), Files := [],
               ImportedFiles := 0, SkippedFiles := 0, Scanned := [] }
    ∧ ExtractZipStore { exampleHost with SaveOk := fun _ => false } .OverrideExisting
        (WriteZipStore (fun _ => 0) [⟨"a.uasset".toList, [1]⟩]) []
      = some { OutError := some (.writeFile "D/a.uasset".toList), Files := [],
               ImportedFiles := 0, SkippedFiles := 0, Scanned := [] } := by
  refine ⟨by decide, by decide!, by decide!, by decide!⟩

/-- Witness for C1: the archive of the entries `meta.json` (payload 7, 8) and
`X/Content/a.uasset` (payload 1), imported on the example host. -/
theorem decodeZipStore_WriteZipStore_witness :
    (∀ E ∈ [(⟨"meta.json".toList, [7, 8]⟩ : FZipEntry), ⟨"X/Content/a.uasset".toList, [1]⟩],
        E.NameInZip ≠ [] ∧ E.NameInZip.getLast? ≠ some slash
          ∧ (FTCHARToUTF8 E.NameInZip).length ≤ 65535 ∧ E.Data.length < 4294967296)
    ∧ ∃ r, decodeZipStore exampleHost .OverrideExisting
          (WriteZipStore (fun _ => 0)
            [⟨"meta.json".toList, [7, 8]⟩, ⟨"X/Content/a.uasset".toList, [1]⟩]) []
        = some { Entries := [("meta.json".toList, [7, 8]), ("X/Content/a.uasset".toList, [1])],
                 bCentralDirectory := true, Result := r }
      ∧ r.OutError = none
      ∧ ExtractZipStore exampleHost .OverrideExisting
          (WriteZipStore (fun _ => 0)
            [⟨"meta.json".toList, [7, 8]⟩, ⟨"X/Content/a.uasset".toList, [1]⟩]) []
        = some r :=
  ⟨by decide,
    decodeZipStore_WriteZipStore exampleHost .OverrideExisting (fun _ => 0)
      [⟨"meta.json".toList, [7, 8]⟩, ⟨"X/Content/a.uasset".toList, [1]⟩] []
      (by decide) (by decide) (fun _ _ _ => rfl)⟩

/-! ## The manifest in the order of the engine -/

theorem AddIfExistsAllowlisted_keys (h : ExportHost) (AbsPath : FString) (st : ManifestState)
    (hi : st.SeenRel = st.OutRel ∧ st.OutRel.Pairwise (fun a b => h.SameKey a b = false)) :
    (AddIfExistsAllowlisted h AbsPath st).SeenRel = (AddIfExistsAllowlisted h AbsPath st).OutRel
    ∧ (AddIfExistsAllowlisted h AbsPath st).OutRel.Pairwise
        (fun a b => h.SameKey a b = false) := by
  unfold AddIfExistsAllowlisted
  by_cases hex : h.FileExists AbsPath = true
  swap
  · simp [hex]; exact hi
  simp only [hex, Bool.not_true, Bool.false_eq_true, if_false]
  split_ifs with hall hseen
  · exact hi
  · exact hi
  · obtain ⟨h1, h2⟩ := hi
    refine ⟨by simp [h1], ?_⟩
    simp only
    rw [List.pairwise_append]
    refine ⟨h2, List.pairwise_singleton _ _, ?_⟩
    intro a ha b hb
    rw [List.mem_singleton] at hb
    rw [hb]
    cases hk : h.SameKey a (NormalizeRelPath (h.MakePathRelativeTo AbsPath h.ContentDir)) with
    | false => rfl
    | true =>
      exfalso
      apply hseen
      rw [List.any_eq_true]
      exact ⟨a, h1 ▸ ha, hk⟩

theorem gatherFiles_keys (h : ExportHost) (Deps : List FString) :
    (gatherFiles h Deps).OutRel.Pairwise (fun a b => h.SameKey a b = false) := by
  have hstep : ∀ (Pkg : FString) (st : ManifestState),
      (st.SeenRel = st.OutRel ∧ st.OutRel.Pairwise (fun a b => h.SameKey a b = false)) →
      ((GatherFilesOnDiskForPackage h Pkg st).SeenRel
          = (GatherFilesOnDiskForPackage h Pkg st).OutRel
        ∧ (GatherFilesOnDiskForPackage h Pkg st).OutRel.Pairwise
            (fun a b => h.SameKey a b = false)) := by
    intro Pkg st hi
    unfold GatherFilesOnDiskForPackage
    exact AddIfExistsAllowlisted_keys h _ _ (AddIfExistsAllowlisted_keys h _ _
      (AddIfExistsAllowlisted_keys h _ _ (AddIfExistsAllowlisted_keys h _ _ hi)))
  have hfold : ∀ (ds : List FString) (st : ManifestState),
      (st.SeenRel = st.OutRel ∧ st.OutRel.Pairwise (fun a b => h.SameKey a b = false)) →
      ((ds.foldl (fun st Pkg => GatherFilesOnDiskForPackage h Pkg st) st).SeenRel
          = (ds.foldl (fun st Pkg => GatherFilesOnDiskForPackage h Pkg st) st).OutRel
        ∧ (ds.foldl (fun st Pkg => GatherFilesOnDiskForPackage h Pkg st) st).OutRel.Pairwise
            (fun a b => h.SameKey a b = false)) := by
    intro ds
    induction ds with
    | nil => intro st hi; exact hi
    | cons d ds ih => intro st hi; exact ih _ (hstep d st hi)
  exact (hfold Deps _ ⟨rfl, List.Pairwise.nil⟩).2

/-- Claim C11 (amended). The manifest that `ExportAssetBuild` builds, for any
dependency packages and any host on which `operator<` and the key equality of
the string set are those of the engine (`FStringLess`, `EqualsIgnoreCase`):
the two sequences have the same length; the relative paths are pairwise
distinct and strictly ascending in the order of `operator<`, that is
character by character with the ASCII letters taken in lower case; when no
relative path has an upper-case ASCII letter they are strictly ascending
character by character; every relative path has no backslash, no leading `/`
and a lower-cased extension of the allow-list; the pairs (relative path,
absolute path) at equal positions are a rearrangement of the pairs that were
gathered together, and each relative path is the normalized path of its
absolute path below the content folder. -/
theorem buildManifest_invariants (h : ExportHost)
    (hK : ∀ a b, h.SameKey a b = EqualsIgnoreCase a b)
    (hLess : ∀ a b, h.Less a b = FStringLess a b)
    (DepPackages : List FString) :
    (buildManifest h DepPackages).1.length = (buildManifest h DepPackages).2.length ∧
    (buildManifest h DepPackages).1.Nodup ∧
    (buildManifest h DepPackages).1.Sorted (fun a b => ToLower a < ToLower b) ∧
    ((∀ r ∈ (buildManifest h DepPackages).1, ToLower r = r) →
      (buildManifest h DepPackages).1.Sorted (fun a b => a < b)) ∧
    (∀ r ∈ (buildManifest h DepPackages).1,
      backslash ∉ r ∧ r.head? ≠ some slash ∧
      ToLower (GetExtensionWithDot r) ∈ allowlistedExtensions) ∧
    ((buildManifest h DepPackages).1.zip (buildManifest h DepPackages).2).Perm
      (gatheredPairs h DepPackages) ∧
    (∀ (i : Nat) (r : FString), (buildManifest h DepPackages).1[i]? = some r →
      ∃ a, (buildManifest h DepPackages).2[i]? = some a ∧
        (r, a) ∈ gatheredPairs h DepPackages ∧
        r = NormalizeRelPath (h.MakePathRelativeTo a h.ContentDir) ∧
        h.FileExists a = true) := by
  have hK1 : ∀ a, h.SameKey a a = true := by
    intro a
    rw [hK]
    simp [EqualsIgnoreCase]
  have hasymm : ∀ a b, h.Less a b = true → h.Less b a = false := by
    intro a b hab
    rw [hLess] at hab ⊢
    simp only [FStringLess, decide_eq_true_eq, decide_eq_false_iff_not] at hab ⊢
    exact lt_asymm hab
  have htrans : ∀ a b c, h.Less b a = false → h.Less c b = false → h.Less c a = false := by
    intro a b c h1 h2
    rw [hLess] at h1 h2 ⊢
    simp only [FStringLess, decide_eq_false_iff_not, not_lt] at h1 h2 ⊢
    exact le_trans h1 h2
  obtain ⟨_, hlen, hnd, hpairs⟩ := gatherFiles_inv h hK1 DepPackages
  have hkeys := gatherFiles_keys h DepPackages
  have hperm := sortIndices_perm h (gatherFiles h DepPackages).OutRel
  have hsorted := sortIndices_sorted h hasymm htrans (gatherFiles h DepPackages).OutRel
  have hrel : (buildManifest h DepPackages).1.Perm (gatherFiles h DepPackages).OutRel := by
    have := hperm.map (fun I => (gatherFiles h DepPackages).OutRel.getD I [])
    rwa [map_range_getD] at this
  have hzip : ((buildManifest h DepPackages).1.zip (buildManifest h DepPackages).2).Perm
      (gatheredPairs h DepPackages) := by
    have := hperm.map (fun I => ((gatherFiles h DepPackages).OutRel.getD I [],
      (gatherFiles h DepPackages).OutAbs.getD I []))
    rw [map_range_zip_getD _ _ _ _ hlen] at this
    unfold buildManifest gatheredPairs
    simp only
    rw [List.zip_map']
    exact this
  have hasc : (buildManifest h DepPackages).1.Sorted (fun a b => h.Less b a = false) := by
    unfold buildManifest
    simp only [List.Sorted]
    rw [List.pairwise_map]
    exact hsorted
  have hnd2 : (buildManifest h DepPackages).1.Nodup := hrel.nodup_iff.2 hnd
  have hlen2 : (buildManifest h DepPackages).1.length = (buildManifest h DepPackages).2.length := by
    simp [buildManifest]
  have hkeys2 : (buildManifest h DepPackages).1.Pairwise (fun a b => h.SameKey a b = false) := by
    refine (List.Perm.pairwise_iff ?_ hrel).2 hkeys
    intro a b hab
    rw [hK] at hab ⊢
    simp only [EqualsIgnoreCase, decide_eq_false_iff_not] at hab ⊢
    exact fun e => hab e.symm
  have hstrict : (buildManifest h DepPackages).1.Sorted (fun a b => ToLower a < ToLower b) := by
    have hboth : List.Pairwise (fun a b => h.Less b a = false ∧ h.SameKey a b = false)
        (buildManifest h DepPackages).1 := List.Pairwise.and hasc hkeys2
    refine List.Pairwise.imp ?_ hboth
    intro a b hab
    obtain ⟨h1, h2⟩ := hab
    rw [hLess] at h1
    rw [hK] at h2
    simp only [FStringLess, decide_eq_false_iff_not, not_lt] at h1
    simp only [EqualsIgnoreCase, decide_eq_false_iff_not] at h2
    exact lt_of_le_of_ne h1 h2
  refine ⟨hlen2, hnd2, hstrict, ?_, ?_, hzip, ?_⟩
  · intro hlow
    have hmem : List.Pairwise (fun a b => ToLower a = a ∧ ToLower b = b)
        (buildManifest h DepPackages).1 :=
      List.pairwise_of_forall_mem_list (fun a ha b hb => ⟨hlow a ha, hlow b hb⟩)
    refine List.Pairwise.imp ?_ (List.Pairwise.and hstrict hmem)
    intro a b hab
    obtain ⟨h1, h2, h3⟩ := hab
    rw [h2, h3] at h1
    exact h1
  · intro r hr
    have hr2 : r ∈ (gatherFiles h DepPackages).OutRel := hrel.mem_iff.1 hr
    obtain ⟨i, hi, hri⟩ := List.getElem_of_mem hr2
    have hi2 : i < (gatherFiles h DepPackages).OutAbs.length := hlen ▸ hi
    have hp : (r, (gatherFiles h DepPackages).OutAbs[i]) ∈
        (gatherFiles h DepPackages).OutRel.zip (gatherFiles h DepPackages).OutAbs := by
      rw [List.mem_iff_getElem]
      exact ⟨i, by simp [hi, hi2], by simp [hri]⟩
    obtain ⟨e1, _, e3⟩ := hpairs _ hp
    simp only at e1 e3
    refine ⟨?_, ?_, e3⟩
    · rw [e1]; exact backslash_not_mem_NormalizeRelPath _
    · rw [e1]; exact head_chopLeadingSlashes _
  · intro i r hir
    have hi : i < (buildManifest h DepPackages).1.length := by
      by_contra hge
      rw [List.getElem?_eq_none (by omega)] at hir
      exact absurd hir (by simp)
    have hi2 : i < (buildManifest h DepPackages).2.length := hlen2 ▸ hi
    refine ⟨(buildManifest h DepPackages).2[i], List.getElem?_eq_getElem hi2, ?_⟩
    have hr : (buildManifest h DepPackages).1[i] = r := by
      rw [List.getElem?_eq_getElem hi] at hir
      exact Option.some.inj hir
    have hmem : (r, (buildManifest h DepPackages).2[i]) ∈
        (buildManifest h DepPackages).1.zip (buildManifest h DepPackages).2 := by
      rw [List.mem_iff_getElem]
      exact ⟨i, by simp [hi, hi2], by simp [hr]⟩
    have hg := hzip.mem_iff.1 hmem
    obtain ⟨e1, e2, _⟩ := hpairs _ hg
    exact ⟨hg, e1, e2⟩

/-- Claim C11 as stated fails: on the example host, where strings are compared
as the engine compares them, the packages `/Game/Z` and `/Game/a` give the
manifest `a.uasset`, `Z.uasset`, which is not in ascending byte-wise order:
the byte `Z` (90) is less than the byte `a` (97). -/
theorem buildManifest_not_bytewise :
    buildManifest exampleExportHost ["/Game/Z".toList, "/Game/a".toList]
      = (["a.uasset".toList, "Z.uasset".toList], ["/C/a.uasset".toList, "/C/Z.uasset".toList])
    ∧ FTCHARToUTF8 "Z.uasset".toList < FTCHARToUTF8 "a.uasset".toList
    ∧ ¬ (buildManifest exampleExportHost ["/Game/Z".toList, "/Game/a".toList]).1.Sorted
        (fun a b => FTCHARToUTF8 a < FTCHARToUTF8 b) := by
  refine ⟨by decide!, by decide!, by decide!⟩

/-- The invariants of the manifest at an example: the packages `/Game/b`,
`/Game/a`, `/Game/b` on the example host give `a.uasset`, `b.uasset`,
`b.uexp` and their files, in ascending order. -/
theorem buildManifest_invariants_witness :
    (∀ a b, exampleExportHost.SameKey a b = EqualsIgnoreCase a b) ∧
    (∀ a b, exampleExportHost.Less a b = FStringLess a b) ∧
    buildManifest exampleExportHost ["/Game/b".toList, "/Game/a".toList, "/Game/b".toList]
      = (["a.uasset".toList, "b.uasset".toList, "b.uexp".toList],
         ["/C/a.uasset".toList, "/C/b.uasset".toList, "/C/b.uexp".toList]) ∧
    (gatherFiles exampleExportHost
        ["/Game/b".toList, "/Game/a".toList, "/Game/b".toList]).OutRel
      = ["b.uasset".toList, "b.uexp".toList, "a.uasset".toList] ∧
    (buildManifest exampleExportHost
        ["/Game/b".toList, "/Game/a".toList, "/Game/b".toList]).1.Sorted
      (fun a b => a < b) := by
  have hm : buildManifest exampleExportHost
      ["/Game/b".toList, "/Game/a".toList, "/Game/b".toList]
      = (["a.uasset".toList, "b.uasset".toList, "b.uexp".toList],
         ["/C/a.uasset".toList, "/C/b.uasset".toList, "/C/b.uexp".toList]) := by decide!
  refine ⟨fun _ _ => rfl, fun _ _ => rfl, hm, by decide!, ?_⟩
  refine (buildManifest_invariants exampleExportHost (fun _ _ => rfl) (fun _ _ => rfl)
    ["/Game/b".toList, "/Game/a".toList, "/Game/b".toList]).2.2.2.1 ?_
  rw [hm]
  decide

/-! ## The `double` difference of two clock values -/

theorem roundHalfEven_le (t : Rat) (n : Int) (h : t ≤ n) : roundHalfEven t ≤ n := by
  have hf : Int.floor t ≤ n := by
    have := Int.floor_le t
    exact_mod_cast (Int.floor_le t).trans h |> fun x => Int.cast_le.mp x
  unfold roundHalfEven
  rcases lt_or_eq_of_le hf with h1 | h1
  · split_ifs <;> omega
  · have : t - Int.floor t < 1 / 2 := by
      have h2 : (Int.floor t : Rat) = n := by exact_mod_cast h1
      have h3 := Int.floor_le t
      rw [h2] at h3 ⊢
      have : t = n := le_antisymm h h3
      rw [this]; norm_num
    rw [if_pos this]
    exact hf

theorem le_roundHalfEven (t : Rat) (n : Int) (h : (n : Rat) ≤ t) : n ≤ roundHalfEven t := by
  have hf : n ≤ Int.floor t := Int.le_floor.mpr h
  unfold roundHalfEven
  split_ifs <;> omega

theorem roundHalfEven_lt_even (t : Rat) (n : Int) (hn : n % 2 = 0) :
    roundHalfEven t < n ↔ t < n - 1 / 2 := by
  constructor
  · intro h
    by_contra hc
    rw [not_lt] at hc
    by_cases h1 : (n : Rat) ≤ t
    · exact absurd (le_roundHalfEven t n h1) (not_le.mpr h)
    · rw [not_le] at h1
      have hfl : Int.floor t = n - 1 := by
        rw [Int.floor_eq_iff]
        push_cast
        constructor
        · linarith
        · linarith
      have hfr : (Int.floor t : Rat) = n - 1 := by rw [hfl]; push_cast; rfl
      unfold roundHalfEven at h
      rw [hfr, hfl] at h
      split_ifs at h with a b c
      · linarith
      · omega
      · omega
      · omega
  · intro h
    have hfl : Int.floor t ≤ n - 1 := by
      have h1 : Int.floor t < n := by
        rw [Int.floor_lt]
        linarith
      omega
    rcases lt_or_eq_of_le hfl with h1 | h1
    · unfold roundHalfEven
      split_ifs <;> omega
    · have hfr : (Int.floor t : Rat) = n - 1 := by rw [h1]; push_cast; rfl
      have : t - Int.floor t < 1 / 2 := by rw [hfr]; linarith
      unfold roundHalfEven
      rw [if_pos this]
      omega

theorem roundDouble_lt_ten (q : Rat) : roundDouble q < 10 ↔ q < 10 - 1 / 2 ^ 50 := by
  unfold roundDouble
  by_cases h0 : q = 0
  · rw [if_pos h0, h0]
    norm_num
  rw [if_neg h0]
  have hu : (0 : Rat) < 2 ^ (Int.log 2 |q| - 52) := zpow_pos (by norm_num) _
  rcases lt_or_gt_of_ne h0 with hneg | hpos
  · have h1 : q / 2 ^ (Int.log 2 |q| - 52) ≤ ((0 : Int) : Rat) := by
      rw [Int.cast_zero]
      exact le_of_lt (div_neg_of_neg_of_pos hneg hu)
    have h2 := roundHalfEven_le _ 0 h1
    have h3 : ((roundHalfEven (q / 2 ^ (Int.log 2 |q| - 52)) : Int) : Rat) ≤ 0 := by
      exact_mod_cast h2
    have h4 : (roundHalfEven (q / 2 ^ (Int.log 2 |q| - 52)) : Rat) * 2 ^ (Int.log 2 |q| - 52)
        ≤ 0 := mul_nonpos_of_nonpos_of_nonneg h3 (le_of_lt hu)
    constructor
    · intro _; linarith [show (0 : Rat) < 10 - 1 / 2 ^ 50 by norm_num]
    · intro _; linarith
  · rw [abs_of_pos hpos] at hu ⊢
    have hlow : (2 : Rat) ^ (Int.log 2 q) ≤ q := by
      have := Int.zpow_log_le_self (b := 2) (by norm_num) hpos
      exact_mod_cast this
    have hhigh : q < (2 : Rat) ^ (Int.log 2 q + 1) := by
      have := Int.lt_zpow_succ_log_self (b := 2) (by norm_num) q
      exact_mod_cast this
    have hsplit : (2 : Rat) ^ (Int.log 2 q) = 2 ^ 52 * 2 ^ (Int.log 2 q - 52) := by
      rw [← zpow_natCast, ← zpow_add₀ (by norm_num : (2 : Rat) ≠ 0)]
      congr 1
      omega
    have hsplit2 : (2 : Rat) ^ (Int.log 2 q + 1) = 2 ^ 53 * 2 ^ (Int.log 2 q - 52) := by
      rw [← zpow_natCast, ← zpow_add₀ (by norm_num : (2 : Rat) ≠ 0)]
      congr 1
      omega
    have ht1 : (((2 ^ 52 : Nat) : Int) : Rat) ≤ q / 2 ^ (Int.log 2 q - 52) := by
      rw [le_div_iff₀ hu]
      push_cast
      have e52 : (2 : Rat) ^ 52 = 4503599627370496 := by norm_num
      rw [← e52, ← hsplit]
      exact hlow
    have ht2 : q / 2 ^ (Int.log 2 q - 52) ≤ (((2 ^ 53 : Nat) : Int) : Rat) := by
      rw [div_le_iff₀ hu]
      push_cast
      have e53 : (2 : Rat) ^ 53 = 9007199254740992 := by norm_num
      rw [← e53, ← hsplit2]
      exact le_of_lt hhigh
    have hr1 := le_roundHalfEven _ _ ht1
    have hr2 := roundHalfEven_le _ _ ht2
    have hr1q : ((2 : Rat) ^ 52) ≤ (roundHalfEven (q / 2 ^ (Int.log 2 q - 52)) : Rat) := by
      exact_mod_cast hr1
    have hr2q : (roundHalfEven (q / 2 ^ (Int.log 2 q - 52)) : Rat) ≤ ((2 : Rat) ^ 53) := by
      exact_mod_cast hr2
    have hres1 : (2 : Rat) ^ (Int.log 2 q)
        ≤ (roundHalfEven (q / 2 ^ (Int.log 2 q - 52)) : Rat) * 2 ^ (Int.log 2 q - 52) := by
      rw [hsplit]
      exact mul_le_mul_of_nonneg_right hr1q (le_of_lt hu)
    have hres2 : (roundHalfEven (q / 2 ^ (Int.log 2 q - 52)) : Rat) * 2 ^ (Int.log 2 q - 52)
        ≤ (2 : Rat) ^ (Int.log 2 q + 1) := by
      rw [hsplit2]
      exact mul_le_mul_of_nonneg_right hr2q (le_of_lt hu)
    have hten : (10 : Rat) - 1 / 2 ^ 50 < 10 := by norm_num
    have h8 : (8 : Rat) < 10 - 1 / 2 ^ 50 := by norm_num
    rcases lt_trichotomy (Int.log 2 q) 3 with hl | hl | hl
    · -- below 8
      have he : Int.log 2 q + 1 ≤ 3 := by omega
      have hp : (2 : Rat) ^ (Int.log 2 q + 1) ≤ 2 ^ (3 : Int) :=
        zpow_le_zpow_right₀ (by norm_num) he
      have hp3 : (2 : Rat) ^ (3 : Int) = 8 := by norm_num
      rw [hp3] at hp
      constructor
      · intro _; linarith
      · intro _; linarith
    · -- between 8 and 16
      rw [hl] at hlow hhigh ⊢
      have hp3 : (2 : Rat) ^ (3 : Int) = 8 := by norm_num
      have hp4 : (2 : Rat) ^ ((3 : Int) + 1) = 16 := by norm_num
      have hpu : (2 : Rat) ^ ((3 : Int) - 52) = 1 / 2 ^ 49 := by
        rw [show ((3 : Int) - 52) = -49 by norm_num, zpow_neg, one_div]
        norm_cast
      rw [hpu]
      have hkey := roundHalfEven_lt_even (q / (1 / 2 ^ 49)) (10 * 2 ^ 49) (by norm_num)
      have e1 : (roundHalfEven (q / (1 / 2 ^ 49)) : Rat) * (1 / 2 ^ 49) < 10
          ↔ roundHalfEven (q / (1 / 2 ^ 49)) < 10 * 2 ^ 49 := by
        rw [mul_one_div, div_lt_iff₀ (by norm_num : (0 : Rat) < 2 ^ 49)]
        constructor
        · intro h; exact_mod_cast h
        · intro h; exact_mod_cast h
      rw [e1, hkey]
      have eq : q / (1 / 2 ^ 49) = q * 2 ^ 49 := by field_simp
      rw [eq]
      push_cast
      constructor
      · intro h
        have : q * 2 ^ 49 < (10 - 1 / 2 ^ 50) * 2 ^ 49 := by
          have e : ((10 : Rat) - 1 / 2 ^ 50) * 2 ^ 49 = 5629499534213120 - 1 / 2 := by norm_num
          rw [e]; exact h
        exact lt_of_mul_lt_mul_right this (by norm_num)
      · intro h
        have : q * 2 ^ 49 < (10 - 1 / 2 ^ 50) * 2 ^ 49 :=
          mul_lt_mul_of_pos_right h (by norm_num)
        have e : ((10 : Rat) - 1 / 2 ^ 50) * 2 ^ 49 = 5629499534213120 - 1 / 2 := by norm_num
        rw [e] at this; exact this
    · -- 16 and above
      have he : (4 : Int) ≤ Int.log 2 q := by omega
      have hp : (2 : Rat) ^ (4 : Int) ≤ 2 ^ (Int.log 2 q) :=
        zpow_le_zpow_right₀ (by norm_num) he
      have hp4 : (2 : Rat) ^ (4 : Int) = 16 := by norm_num
      rw [hp4] at hp
      constructor
      · intro h; linarith
      · intro h; linarith

theorem doubleSub_lt_ten (a b : Rat) : doubleSub a b < 10 ↔ a - b < 10 - 1 / 2 ^ 50 :=
  roundDouble_lt_ten (a - b)

/-! ## The cache of the server settings -/

theorem GetServerSettingsCachedTrace_fst (IsOk : Int → Bool)
    (Deserialize : FString → Option FJsonObject)
    (st : FServerSettingsCache × List (FString × Rat × Option FString)) (c : SettingsCall) :
    (GetServerSettingsCachedTrace IsOk Deserialize st c).1
      = GetServerSettingsCached (fun _ => settingsFetch IsOk Deserialize c.Arrival)
          st.1 c.BaseUrl c.NowSec := by
  unfold GetServerSettingsCachedTrace GetServerSettingsCached
  split_ifs with h1 h2
  · rfl
  · rfl
  · simp only
    cases settingsFetch IsOk Deserialize c.Arrival <;> rfl

theorem settingsFetch_eq_none_iff (IsOk : Int → Bool)
    (Deserialize : FString → Option FJsonObject) (Arrival : Option FHttpCompletion) :
    settingsFetch IsOk Deserialize Arrival = none
      ↔ Arrival = none
        ∨ ∃ c, Arrival = some c
            ∧ (c.bSucceeded = false ∨ c.Resp = none
                ∨ ∃ r, c.Resp = some r
                    ∧ (IsOk r.ResponseCode = false ∨ Deserialize r.Content = none)) := by
  cases Arrival with
  | none => simp [settingsFetch, settingsWait]
  | some c =>
    obtain ⟨bS, Resp⟩ := c
    cases Resp with
    | none => simp [settingsFetch, settingsWait, settingsOnComplete]
    | some r =>
      cases bS <;> cases hok : IsOk r.ResponseCode <;>
        simp [settingsFetch, settingsWait, settingsOnComplete, hok]

theorem settingsFetch_eq_some (IsOk : Int → Bool)
    (Deserialize : FString → Option FJsonObject) (r : FHttpResponse) (Obj : FJsonObject)
    (hok : IsOk r.ResponseCode = true) (hd : Deserialize r.Content = some Obj) :
    settingsFetch IsOk Deserialize (some { bSucceeded := true, Resp := some r }) = some Obj := by
  simp [settingsFetch, settingsWait, settingsOnComplete, hok, hd]

theorem GetServerSettingsCachedTrace_miss (IsOk : Int → Bool)
    (Deserialize : FString → Option FJsonObject)
    (st : FServerSettingsCache × List (FString × Rat × Option FString)) (c : SettingsCall)
    (h : ¬ (st.1.bFetched = true ∧ EqualsIgnoreCase st.1.BaseUrl c.BaseUrl = true
      ∧ doubleSub c.NowSec st.1.LastFetchTimeSec < 10)) :
    (GetServerSettingsCachedTrace IsOk Deserialize st c).2
        = st.2 ++ [(c.BaseUrl, c.NowSec,
            if c.BaseUrl = [] then none
            else some (NormalizeBaseUrl c.BaseUrl ++ "/settings".toList))]
    ∧ (GetServerSettingsCachedTrace IsOk Deserialize st c).1
        = (match (if c.BaseUrl = [] then none
                  else settingsFetch IsOk Deserialize c.Arrival) with
          | none =>
            { BaseUrl := c.BaseUrl, bFetched := true, bAvailable := false,
              LastFetchTimeSec := c.NowSec }
          | some Obj =>
            applySettings Obj
              { BaseUrl := c.BaseUrl, bFetched := true, bAvailable := false,
                LastFetchTimeSec := c.NowSec } c.NowSec) := by
  unfold GetServerSettingsCachedTrace
  rw [if_neg h]
  by_cases he : c.BaseUrl = []
  · simp [he]
  · have he2 : c.BaseUrl.isEmpty = false := by
      cases hb : c.BaseUrl with
      | nil => exact absurd hb he
      | cons a as => rfl
    simp only [he2, he, if_false, Bool.false_eq_true]
    cases settingsFetch IsOk Deserialize c.Arrival <;> exact ⟨rfl, rfl⟩

theorem SettingsInv_step (IsOk : Int → Bool) (Deserialize : FString → Option FJsonObject)
    (st : FServerSettingsCache × List (FString × Rat × Option FString)) (c : SettingsCall)
    (hi : SettingsInv st) :
    SettingsInv (GetServerSettingsCachedTrace IsOk Deserialize st c)
    ∧ (GetServerSettingsCachedTrace IsOk Deserialize st c).2 ≠ [] := by
  by_cases h : st.1.bFetched = true ∧ EqualsIgnoreCase st.1.BaseUrl c.BaseUrl = true
      ∧ doubleSub c.NowSec st.1.LastFetchTimeSec < 10
  · have e : GetServerSettingsCachedTrace IsOk Deserialize st c = st := by
      unfold GetServerSettingsCachedTrace
      rw [if_pos h]
    rw [e]
    refine ⟨hi, ?_⟩
    intro h0
    have := hi.1 h0
    rw [this] at h
    exact absurd h.1 (by decide)
  · obtain ⟨h2, h1⟩ := GetServerSettingsCachedTrace_miss IsOk Deserialize st c h
    refine ⟨⟨?_, ?_⟩, ?_⟩
    · intro h0; rw [h2] at h0; simp at h0
    · intro u t r hl
      rw [h2, List.getLast?_append, List.getLast?_singleton] at hl
      simp only [Option.or] at hl
      have hu : c.BaseUrl = u := by
        have := congrArg Prod.fst (Option.some.inj hl); exact this
      have ht : c.NowSec = t := by
        have := congrArg (fun p => p.2.1) (Option.some.inj hl); exact this
      rw [h1, ← hu, ← ht]
      cases (if c.BaseUrl = [] then none else settingsFetch IsOk Deserialize c.Arrival) with
      | none => exact ⟨rfl, rfl, rfl⟩
      | some Obj => exact ⟨rfl, rfl, rfl⟩
    · rw [h2]; simp

theorem SettingsInv_run (IsOk : Int → Bool) (Deserialize : FString → Option FJsonObject)
    (calls : List SettingsCall) :
    SettingsInv (runSettingsCalls IsOk Deserialize calls)
    ∧ (calls ≠ [] → (runSettingsCalls IsOk Deserialize calls).2 ≠ []) := by
  unfold runSettingsCalls
  induction calls using List.reverseRecOn with
  | nil => exact ⟨⟨fun _ => rfl, fun u t r h => by simp at h⟩, fun h => absurd rfl h⟩
  | append_singleton calls c ih =>
    rw [List.foldl_append, List.foldl_cons, List.foldl_nil]
    have := SettingsInv_step IsOk Deserialize _ c ih.1
    exact ⟨this.1, fun _ => this.2⟩

/-- Claim C22 (amended). For every sequence of calls of
`GetServerSettingsCached` from the start of the program and every further
call: after at least one call the cache holds the base URL and the time of
the last fetch; the age test of the code, the `double` difference of the two
clock values compared with 10.0, holds exactly when the clock has advanced by
less than `10 - 2 ^ (-50)` seconds; a call for the base URL of the last fetch
(as `==` on strings compares) made less than `10 - 2 ^ (-50)` seconds after
it changes neither the cache nor the trace of fetches, so it makes no request
and returns the cached settings; any other call, in particular every call
made 10 seconds or more after the last fetch, adds a fetch to the trace, with
a request to `<normalized base URL>/settings` unless the base URL is empty,
and replaces the cache by the built-in values marked unavailable when no
request is made or the fetch gives no JSON object, by the parsed settings
marked available otherwise; and the fetch gives no JSON object exactly when
the wait times out, the request does not succeed, the response is missing or
not OK, or the body cannot be parsed. -/
theorem runSettingsCalls_step (IsOk : Int → Bool)
    (Deserialize : FString → Option FJsonObject) (calls : List SettingsCall)
    (c : SettingsCall) :
    (calls ≠ [] → (runSettingsCalls IsOk Deserialize calls).2 ≠ [])
    ∧ (∀ u t r, (runSettingsCalls IsOk Deserialize calls).2.getLast? = some (u, t, r) →
        (runSettingsCalls IsOk Deserialize calls).1.bFetched = true
        ∧ (runSettingsCalls IsOk Deserialize calls).1.BaseUrl = u
        ∧ (runSettingsCalls IsOk Deserialize calls).1.LastFetchTimeSec = t)
    ∧ (∀ t : Rat, doubleSub c.NowSec t < 10 ↔ c.NowSec - t < 10 - 1 / 2 ^ 50)
    ∧ (∀ u t r, (runSettingsCalls IsOk Deserialize calls).2.getLast? = some (u, t, r) →
        EqualsIgnoreCase u c.BaseUrl = true → c.NowSec - t < 10 - 1 / 2 ^ 50 →
        runSettingsCalls IsOk Deserialize (calls ++ [c])
          = runSettingsCalls IsOk Deserialize calls)
    ∧ ((calls = [] ∨ ∃ u t r,
          (runSettingsCalls IsOk Deserialize calls).2.getLast? = some (u, t, r)
          ∧ (EqualsIgnoreCase u c.BaseUrl = false ∨ 10 - 1 / 2 ^ 50 ≤ c.NowSec - t)) →
        (runSettingsCalls IsOk Deserialize (calls ++ [c])).2
          = (runSettingsCalls IsOk Deserialize calls).2
              ++ [(c.BaseUrl, c.NowSec,
                    if c.BaseUrl = [] then none
                    else some (NormalizeBaseUrl c.BaseUrl ++ "/settings".toList))]
        ∧ (runSettingsCalls IsOk Deserialize (calls ++ [c])).1
          = (match (if c.BaseUrl = [] then none
                    else settingsFetch IsOk Deserialize c.Arrival) with
            | none =>
              { BaseUrl := c.BaseUrl, bFetched := true, bAvailable := false,
                LastFetchTimeSec := c.NowSec }
            | some Obj =>
              applySettings Obj
                { BaseUrl := c.BaseUrl, bFetched := true, bAvailable := false,
                  LastFetchTimeSec := c.NowSec } c.NowSec))
    ∧ (∀ (Obj : FJsonObject) (G : FServerSettingsCache),
        (applySettings Obj G c.NowSec).bAvailable = true)
    ∧ (settingsFetch IsOk Deserialize c.Arrival = none
        ↔ c.Arrival = none
          ∨ ∃ d, c.Arrival = some d
              ∧ (d.bSucceeded = false ∨ d.Resp = none
                  ∨ ∃ r, d.Resp = some r
                      ∧ (IsOk r.ResponseCode = false ∨ Deserialize r.Content = none))) := by
  obtain ⟨hinv, hne⟩ := SettingsInv_run IsOk Deserialize calls
  have hstep : runSettingsCalls IsOk Deserialize (calls ++ [c])
      = GetServerSettingsCachedTrace IsOk Deserialize
          (runSettingsCalls IsOk Deserialize calls) c := by
    unfold runSettingsCalls
    rw [List.foldl_append, List.foldl_cons, List.foldl_nil]
  refine ⟨hne, hinv.2, fun t => doubleSub_lt_ten c.NowSec t, ?_, ?_, fun _ _ => rfl,
    settingsFetch_eq_none_iff IsOk Deserialize _⟩
  · intro u t r hl he ht
    obtain ⟨h1, h2, h3⟩ := hinv.2 u t r hl
    rw [hstep]
    unfold GetServerSettingsCachedTrace
    rw [if_pos ⟨h1, by rw [h2]; exact he, by rw [h3]; exact (doubleSub_lt_ten _ _).2 ht⟩]
  · intro h
    rw [hstep]
    apply GetServerSettingsCachedTrace_miss
    rintro ⟨g1, g2, g3⟩
    rcases h with h0 | ⟨u, t, r, hl, hcase⟩
    · subst h0
      have : (runSettingsCalls IsOk Deserialize []).1.bFetched = false := rfl
      rw [this] at g1
      exact absurd g1 (by decide)
    · obtain ⟨h1, h2, h3⟩ := hinv.2 u t r hl
      rw [h2] at g2
      rw [h3] at g3
      rcases hcase with hc | hc
      · rw [hc] at g2; exact absurd g2 (by decide)
      · exact absurd ((doubleSub_lt_ten _ _).1 g3) (not_lt.2 hc)

/-- Claim C22 as stated fails: the clock values 0.1 and 10.1, as the `double`
values nearest to them, are less than 10 seconds apart, but their `double`
difference is exactly 10.0: a call for `srv` at the second, after a fetch for
`srv` at the first, makes a new request. -/
theorem runSettingsCalls_rounded_age :
    roundDouble (1 / 10) = 3602879701896397 / 36028797018963968
    ∧ roundDouble (101 / 10) = 5685794529555251 / 562949953421312
    ∧ (5685794529555251 / 562949953421312 - 3602879701896397 / 36028797018963968 : Rat) < 10
    ∧ doubleSub (5685794529555251 / 562949953421312) (3602879701896397 / 36028797018963968)
        = 10
    ∧ (runSettingsCalls (fun n => decide (n = 200)) (fun _ => some emptySettingsObject)
        [{ BaseUrl := "srv".toList, NowSec := 3602879701896397 / 36028797018963968,
           Arrival := none },
         { BaseUrl := "srv".toList, NowSec := 5685794529555251 / 562949953421312,
           Arrival := none }]).2
      = [("srv".toList, 3602879701896397 / 36028797018963968,
            some "http://srv/settings".toList),
         ("srv".toList, 5685794529555251 / 562949953421312,
            some "http://srv/settings".toList)] := by
  refine ⟨by decide!, by decide!, by norm_num, by decide!, by decide!⟩

/-- The calls of C22 at an example: a first call for `srv` at time 0 whose
request times out makes one fetch and leaves the cache unavailable; a call
for `SRV` three seconds later is served from the cache. -/
theorem runSettingsCalls_step_witness :
    (runSettingsCalls (fun n => decide (n = 200)) (fun _ => some emptySettingsObject)
        [{ BaseUrl := "srv".toList, NowSec := 0, Arrival := none }]).2
      = [("srv".toList, 0, some "http://srv/settings".toList)]
    ∧ (runSettingsCalls (fun n => decide (n = 200)) (fun _ => some emptySettingsObject)
        [{ BaseUrl := "srv".toList, NowSec := 0, Arrival := none }]).1.bAvailable = false
    ∧ runSettingsCalls (fun n => decide (n = 200)) (fun _ => some emptySettingsObject)
        ([{ BaseUrl := "srv".toList, NowSec := 0, Arrival := none }]
          ++ [{ BaseUrl := "SRV".toList, NowSec := 3,
                Arrival := some { bSucceeded := true,
                                  Resp := some { ResponseCode := 200, Content := [] } } }])
      = runSettingsCalls (fun n => decide (n = 200)) (fun _ => some emptySettingsObject)
          [{ BaseUrl := "srv".toList, NowSec := 0, Arrival := none }] := by
  have h1 : (runSettingsCalls (fun n => decide (n = 200)) (fun _ => some emptySettingsObject)
        [{ BaseUrl := "srv".toList, NowSec := 0, Arrival := none }]).2
      = [("srv".toList, 0, some "http://srv/settings".toList)] := by decide
  refine ⟨h1, by decide, ?_⟩
  exact (runSettingsCalls_step (fun n => decide (n = 200)) (fun _ => some emptySettingsObject)
    [{ BaseUrl := "srv".toList, NowSec := 0, Arrival := none }]
    { BaseUrl := "SRV".toList, NowSec := 3,
      Arrival := some { bSucceeded := true,
                        Resp := some { ResponseCode := 200, Content := [] } } }).2.2.2.1
    "srv".toList 0 (some "http://srv/settings".toList) (by rw [h1]; rfl) (by decide)
    (by norm_num)

end AssetSnapshot
